import Mathlib

/-!
Search engine: index, index file, query evaluation and ranking.

A shallow embedding of the retrieval core of the search engine
(`libcs50/counters.c`, `libcs50/set.c`, `common/index.c`, `common/word.c`,
`querier/querier.c`) together with theorems about it.

Conventions of the embedding

* A C `int` is a Lean `Int`. The sums that the querier forms
  (`union_itemfunc`, `counters_additemfunc`) and the numbers that `fscanf`
  stores are reduced to the range of a 32-bit `int` by `int_wrap`; the
  increments by one of a tally or a docID are the mathematical ones.
* A C string is the list of its characters before the terminating NUL. The
  one fixed buffer that input is read into, `word[MaxWordLength]` of
  `fileToIndex`, is watched by `fscanf_s_fits`.
* A linked list is the Lean list of its nodes, head first.
* A pointer that may be `NULL` is an `Option`; allocation is assumed to succeed.
* A function that updates an object through a pointer returns the updated object.
* `libcs50/hashtable.c` is not among the sources: the table is an array of
  `set_t` slots and its hash function is a parameter `hash`, so every theorem
  holds for every hash function.
-/

namespace SearchEngine

/-! ## counters.c -/

/-- A `counters_t`: the list of its `cnode`s, head first, each node a
`(key, tally)` pair. -/
abbrev counters := List (Int × Int)

/-- The function `counters_new`: a counter set with `head = NULL`. -/
def counters_new : counters := []

/-- The function `counters_add`. The loop visits every node and increments
each node whose key matches; a new node is pushed at the head when no node
matched. The value returned is the new node's tally (1) when a node was
created, and 0 on every other path. -/
def counters_add (ctrs : counters) (key : Int) : counters × Int :=
  if key ≥ 0 then
    let exist := ctrs.any (fun node => node.1 == key)
    let ctrs1 := ctrs.map (fun node => if node.1 = key then (node.1, node.2 + 1) else node)
    if !exist then ((key, 1) :: ctrs1, 1) else (ctrs1, 0)
  else (ctrs, 0)

/-- The function `counters_get`: the tally of the first node with the key, 0
when there is none. -/
def counters_get : counters → Int → Int
  | [], _ => 0
  | node :: rest, key => if node.1 = key then node.2 else counters_get rest key

/-- The search loop of `counters_set`: overwrite the tally of the first node
with the key; `none` when no node has the key. -/
def counters_set_loop : counters → Int → Int → Option counters
  | [], _, _ => none
  | node :: rest, key, count =>
    if node.1 = key then some ((node.1, count) :: rest)
    else (counters_set_loop rest key count).map (fun r => node :: r)

/-- The function `counters_set`: guarded by `key > 0 && count > 0`; inside the
guard the first node with the key is overwritten, or a new node is pushed at
the head. Outside the guard nothing changes and `false` is returned. -/
def counters_set (ctrs : counters) (key count : Int) : counters × Bool :=
  if key > 0 ∧ count > 0 then
    match counters_set_loop ctrs key count with
    | some ctrs1 => (ctrs1, true)
    | none => ((key, count) :: ctrs, true)
  else (ctrs, false)

/-- The function `counters_iterate`: call `itemfunc` on every node from the
head on, threading the object `arg` points to. -/
def counters_iterate {α : Type} (ctrs : counters) (arg : α)
    (itemfunc : α → Int → Int → α) : α :=
  ctrs.foldl (fun a node => itemfunc a node.1 node.2) arg

/-- The keys of a counter set, in list order. -/
def counters_keys (ctrs : counters) : List Int := ctrs.map Prod.fst

/-- The data model's PostingSet: a mapping (no docID in two nodes) from
docIDs `≥ 1` to counts `≥ 1`. -/
def PostingSet (ctrs : counters) : Prop :=
  (counters_keys ctrs).Nodup ∧ ∀ node ∈ ctrs, 1 ≤ node.1 ∧ 1 ≤ node.2

instance (ctrs : counters) : Decidable (PostingSet ctrs) := by
  unfold PostingSet; infer_instance

/-! ## The range of `int` -/

/-- The constant `INT_MAX` of a 32-bit `int`. -/
def INT_MAX : Int := 2147483647

/-- The value an `int` holds when the mathematical result is `x`: `x` itself
when it lies in the range of `int`, and otherwise `x` reduced modulo `2^32`
into `[-2^31, 2^31)`, which is what the two's-complement machine stores (in C
the overflow of a signed addition is undefined). -/
def int_wrap (x : Int) : Int := (x + 2147483648) % 4294967296 - 2147483648

/-! ## querier.c: set algebra -/

/-- The struct `duo`: the two counter sets handed to `intersect_itemfunc`. -/
structure duo where
  first : counters
  second : counters

/-- The function `intersect_itemfunc`. -/
def intersect_itemfunc (args : duo) (key count : Int) : duo :=
  let countInNew := counters_get args.second key
  if countInNew > 0 then
    { args with first :=
        (counters_set args.first key (if countInNew < count then countInNew else count)).1 }
  else
    { args with first := (counters_set args.first key 0).1 }

/-- The function `intersect`: `*result` after the call. -/
def intersect (result : Option counters) (newCounter : Option counters) : Option counters :=
  match result, newCounter with
  | some r, some n =>
    some (counters_iterate r { first := counters_new, second := n } intersect_itemfunc).first
  | _, _ => result

/-- The function `union_itemfunc` (the working version). The sum
`count1 + count2` is formed in `int`. -/
def union_itemfunc (result : counters) (key count1 : Int) : counters :=
  let count2 := counters_get result key
  (counters_set result key (int_wrap (count1 + count2))).1

/-- The function `myUnion` (the working version): `*result` after the call. -/
def myUnion (result : Option counters) (temp : Option counters) : Option counters :=
  match result with
  | none => temp
  | some r =>
    match temp with
    | some t => some (counters_iterate t r union_itemfunc)
    | none => some r

/-- The function `counters_copy`: `destination` after the call. -/
def counters_copy (source : counters) (destination : counters) : counters :=
  counters_iterate source destination (fun d key count => (counters_set d key count).1)

/-- The function `counters_additemfunc`: `*total += count`, in `int`. -/
def counters_additemfunc (total : Int) (_key : Int) (count : Int) : Int :=
  int_wrap (total + count)

/-- The function `counters_empty`: the sum of all tallies, accumulated in the
`int` variable `sum`. -/
def counters_empty (source : counters) : Int :=
  counters_iterate source 0 counters_additemfunc

/-! ## Strings and `ctype.h`

The program never calls `setlocale`, so the classification functions are the
ones of the "C" locale. -/

/-- A C string: its characters before the terminating NUL. -/
abbrev cstring := List Char

/-- The function `isalpha` of the "C" locale: `A`–`Z` and `a`–`z`. -/
def isalpha (c : Char) : Bool :=
  (65 ≤ c.toNat && c.toNat ≤ 90) || (97 ≤ c.toNat && c.toNat ≤ 122)

/-- The function `isspace` of the "C" locale: space, `\t`, `\n`, `\v`, `\f`, `\r`. -/
def isspace (c : Char) : Bool :=
  c.toNat = 32 || (9 ≤ c.toNat && c.toNat ≤ 13)

/-- The function `isdigit`: `0`–`9`. -/
def isdigit (c : Char) : Bool :=
  48 ≤ c.toNat && c.toNat ≤ 57

/-- The function `tolower` of the "C" locale: `A`–`Z` are moved to `a`–`z`,
every other character is returned unchanged. -/
def tolower (c : Char) : Char :=
  if 65 ≤ c.toNat ∧ c.toNat ≤ 90 then Char.ofNat (c.toNat + 32) else c

/-! ## word.c -/

/-- The function `normalize`: every character of the word replaced by its
`tolower`. -/
def normalize (word : cstring) : cstring := word.map tolower

/-! ## querier.c: lexical gate and tokenizer -/

/-- The constant `MAX_WORDS`. -/
def MAX_WORDS : Nat := 20

/-- The function `isValidQuery`: `false` at the first character that is
neither a letter nor white space, `true` when the end of the string is
reached. -/
def isValidQuery : cstring → Bool
  | [] => true
  | c :: rest => if !isalpha c && !isspace c then false else isValidQuery rest

/-- The test `strcmp(w, "and") == 0 || strcmp(w, "or") == 0`. -/
def isOperator (w : cstring) : Bool :=
  w = ['a', 'n', 'd'] || w = ['o', 'r']

/-- The variables of `tokenize`. `words` holds `words[0 .. numWords)`, each
entry being the string its pointer designates: the lower-cased characters from
the start of the word up to the cursor (or up to the NUL written at its end).
`numWords` is the length of `words` and `lastWord` is its last entry. -/
structure TokenState where
  words : List cstring
  isValid : Bool
  inWord : Bool
deriving DecidableEq

/-- The variable `*numWords` of `tokenize`. -/
def TokenState.numWords (st : TokenState) : Nat := st.words.length

/-- The buffer after the cursor has passed one more letter of the current
word: the string of the last entry of `words` is one character longer. -/
def extendLast : List cstring → Char → List cstring
  | [], _ => []
  | [w], c => [w ++ [c]]
  | w :: rest, c => w :: extendLast rest c

/-- The operator check made when a word has just been terminated: the word is
an operator and so is the word before it, or it is an operator and the only
word so far. -/
def operatorMisplaced (words : List cstring) : Bool :=
  let numWords := words.length
  (decide (numWords > 1) && isOperator (words.getD (numWords - 1) [])
      && isOperator (words.getD (numWords - 2) []))
    || (decide (numWords = 1) && isOperator (words.getD (numWords - 1) []))

/-- One turn of the `for` loop of `tokenize` at character `ch`. The second
component is `true` when the turn ends in `break`. -/
def tokenize_step (st : TokenState) (ch : Char) : TokenState × Bool :=
  let c := tolower ch
  if isalpha c then
    if !st.inWord then
      if st.numWords < MAX_WORDS then
        ({ st with inWord := true, words := st.words ++ [[c]] }, false)
      else
        ({ st with inWord := true }, true)
    else
      ({ st with words := extendLast st.words c }, false)
  else
    if st.inWord then
      if operatorMisplaced st.words then
        ({ st with inWord := false, isValid := false }, false)
      else
        ({ st with inWord := false }, false)
    else
      (st, false)

/-- The `for` loop of `tokenize`: it ends at the end of the string or at
`break`. -/
def tokenize_loop : cstring → TokenState → TokenState
  | [], st => st
  | ch :: rest, st =>
    let r := tokenize_step st ch
    if r.2 then r.1 else tokenize_loop rest r.1

/-- The function `tokenize`: the loop followed by the check of the last
word. The result carries `words`, `*numWords` and `*isValid`. -/
def tokenize (query : cstring) : TokenState :=
  let st := tokenize_loop query { words := [], isValid := true, inWord := false }
  if st.numWords > 0 && isOperator (st.words.getD (st.numWords - 1) []) then
    { st with isValid := false }
  else st

/-! ### Structural validity of a token sequence -/

/-- The token sequence begins with an operator. -/
def beginsWithOperator : List cstring → Bool
  | [] => false
  | w :: _ => isOperator w

/-- The token sequence ends with an operator. -/
def endsWithOperator : List cstring → Bool
  | [] => false
  | [w] => isOperator w
  | _ :: rest => endsWithOperator rest

/-- The token sequence contains two adjacent operators. -/
def hasAdjacentOperators : List cstring → Bool
  | a :: b :: rest => (isOperator a && isOperator b) || hasAdjacentOperators (b :: rest)
  | _ => false

/-- The words of `tokenize` that have been terminated: all of `words`, apart
from the word the cursor is in. -/
def completedWords (st : TokenState) : List cstring :=
  if st.inWord then st.words.dropLast else st.words

/-- The maximal runs of alphabetic characters of a line, left to right. -/
def alphaRuns (line : cstring) : List cstring :=
  (line.splitOnP (fun c => !isalpha c)).filter (fun w => !w.isEmpty)

/-- The loop invariant of `tokenize` for validity: `isValid` is false exactly
when the terminated words begin with an operator or contain two adjacent
operators. -/
def TokenInv (st : TokenState) : Prop :=
  (st.inWord = true → st.words ≠ []) ∧
  (st.isValid = false ↔
    (beginsWithOperator (completedWords st) || hasAdjacentOperators (completedWords st)) = true)

/-- The state of `tokenize` at loop exit, as far as validity goes. -/
def TokenPost (st : TokenState) : Prop :=
  (st.isValid = false ∨ endsWithOperator st.words = true) ↔
    (beginsWithOperator st.words = true ∨ endsWithOperator st.words = true
      ∨ hasAdjacentOperators st.words = true)

/-! ## set.c -/

/-- A `set_t`: the list of its `setnode`s, head first, each node a
`(key, item)` pair. -/
abbrev set_t (α : Type) := List (cstring × α)

/-- The function `set_new`. -/
def set_new {α : Type} : set_t α := []

/-- The function `set_find`: the item of the first node whose key compares
equal, `NULL` when there is none. -/
def set_find {α : Type} : set_t α → cstring → Option α
  | [], _ => none
  | node :: rest, key => if node.1 = key then some node.2 else set_find rest key

/-- The function `set_insert` (for a non-`NULL` item): `false` and no change
when a node has the key, otherwise a new node at the head and `true`. -/
def set_insert {α : Type} (set : set_t α) (key : cstring) (item : α) : set_t α × Bool :=
  if set.any (fun node => node.1 == key) then (set, false)
  else ((key, item) :: set, true)

/-- The function `set_iterate`. -/
def set_iterate {α β : Type} (set : set_t α) (arg : β) (itemfunc : β → cstring → α → β) : β :=
  set.foldl (fun a node => itemfunc a node.1 node.2) arg

/-- The set after an update made through the item pointer that `set_find`
returned for `key`: the item of the first node with the key is now `item`. -/
def set_store {α : Type} : set_t α → cstring → α → set_t α
  | [], _, _ => []
  | node :: rest, key, item =>
    if node.1 = key then (node.1, item) :: rest else node :: set_store rest key item

/-! ## hashtable

`libcs50/hashtable.c` and its hash function are not among the sources. The
hash function is a parameter `hash` of everything that uses the table. -/

/-- Modelled from the spec: `libcs50/hashtable.c` is missing; the Index is "a
mapping from Term to PostingSet, keys unique", traversed by "arbitrary linked
traversal" in unspecified order. The table is an array of `set_t` slots, a key
living in the slot its hash selects. -/
structure hashtable_t (α : Type) where
  table : List (set_t α)

/-- Modelled from the spec: `hashtable_new` of the missing `hashtable.c`, a
table of `num_slots` empty sets. -/
def hashtable_new {α : Type} (num_slots : Nat) : hashtable_t α :=
  { table := List.replicate num_slots set_new }

/-- Modelled from the spec: `hashtable_insert` of the missing `hashtable.c`,
`set_insert` into the slot of the key ("keys unique"). -/
def hashtable_insert {α : Type} (hash : cstring → Nat) (ht : hashtable_t α) (key : cstring)
    (item : α) : hashtable_t α × Bool :=
  let slot := hash key % ht.table.length
  let r := set_insert (ht.table.getD slot set_new) key item
  ({ table := ht.table.set slot r.1 }, r.2)

/-- Modelled from the spec: `hashtable_find` of the missing `hashtable.c`,
`set_find` in the slot of the key. -/
def hashtable_find {α : Type} (hash : cstring → Nat) (ht : hashtable_t α) (key : cstring) :
    Option α :=
  set_find (ht.table.getD (hash key % ht.table.length) set_new) key

/-- Modelled from the spec: `hashtable_iterate` of the missing `hashtable.c`,
`set_iterate` over every slot in turn. -/
def hashtable_iterate {α β : Type} (ht : hashtable_t α) (arg : β)
    (itemfunc : β → cstring → α → β) : β :=
  ht.table.foldl (fun a set => set_iterate set a itemfunc) arg

/-- The table after an update made through the item pointer that
`hashtable_find` returned for `key`. -/
def hashtable_store {α : Type} (hash : cstring → Nat) (ht : hashtable_t α) (key : cstring)
    (item : α) : hashtable_t α :=
  let slot := hash key % ht.table.length
  { table := ht.table.set slot (set_store (ht.table.getD slot set_new) key item) }

/-! ## index.c -/

/-- The struct `index`. -/
structure index_t where
  ht : hashtable_t counters

/-- The constant `num_slots`. -/
def num_slots : Nat := 200

/-- The constant `MaxWordLength`. -/
def MaxWordLength : Nat := 100

/-- The function `index_new`. -/
def index_new : index_t := { ht := hashtable_new num_slots }

/-- The function `index_find`. -/
def index_find (hash : cstring → Nat) (index : index_t) (word : cstring) : Option counters :=
  hashtable_find hash index.ht word

/-- The function `index_add`: the index after the call and the value returned.
For a word already in the index the result is `true` only when `counters_add`
returned a positive value. -/
def index_add (hash : cstring → Nat) (index : index_t) (word : cstring) (docID : Int) :
    index_t × Bool :=
  if docID ≥ 0 then
    match hashtable_find hash index.ht word with
    | some wordInfo =>
      let r := counters_add wordInfo docID
      ({ ht := hashtable_store hash index.ht word r.1 }, decide (r.2 > 0))
    | none =>
      let r := counters_add counters_new docID
      if r.2 > 0 then
        let ins := hashtable_insert hash index.ht word r.1
        if ins.2 then ({ ht := ins.1 }, true) else (index, false)
      else (index, false)
  else (index, false)

/-- The function `index_iterate`. -/
def index_iterate {β : Type} (index : index_t) (arg : β)
    (itemfunc : β → cstring → counters → β) : β :=
  hashtable_iterate index.ht arg itemfunc

/-! ### Formatted output and input (`stdio.h`)

A file is the list of its characters; `fprintf` appends to it and `fscanf`
consumes a front part of it. The conversions follow the C standard. -/

/-- The conversion `%d` of `fprintf`: a minus sign for a negative value, then
the decimal digits. -/
def fprintf_d (n : Int) : List Char :=
  if n < 0 then '-' :: Nat.toDigits 10 n.natAbs else Nat.toDigits 10 n.toNat

/-- The digits of a `%d` input item: the longest run of decimal digits at the
front of the stream, with the value read so far. -/
def scan_digits : List Char → Nat → Nat × List Char
  | [], acc => (acc, [])
  | c :: rest, acc =>
    if isdigit c then scan_digits rest (acc * 10 + (c.toNat - 48)) else (acc, c :: rest)

/-- The conversion `%d` of `fscanf` into an `int` object: white space is
skipped, then an optional sign and at least one digit are read. The result is
the value stored (`none` on a matching or input failure) and the rest of the
stream; a sign that no digit follows has been consumed. The value stored is
the number read, reduced to the range of `int` by `int_wrap` when an `int`
cannot hold it (so `2147483648` is stored as `-2147483648`); the C standard
leaves the value open in that case, and the reduction is what the usual
libraries store for a number below `2^63`. -/
def fscanf_d (stream : List Char) : Option Int × List Char :=
  match stream.dropWhile isspace with
  | [] => (none, [])
  | c :: rest =>
    if c = '-' ∨ c = '+' then
      match rest with
      | [] => (none, [])
      | d :: rest1 =>
        if isdigit d then
          let r := scan_digits (d :: rest1) 0
          (some (int_wrap (if c = '-' then -(r.1 : Int) else (r.1 : Int))), r.2)
        else (none, d :: rest1)
    else if isdigit c then
      let r := scan_digits (c :: rest) 0
      (some (int_wrap (r.1 : Int)), r.2)
    else (none, c :: rest)

/-- The call `fscanf(old, "%d %d", &docID, &count)`: `some` when it returns 2. -/
def fscanf_d_d (stream : List Char) : Option (Int × Int) × List Char :=
  match fscanf_d stream with
  | (none, rest) => (none, rest)
  | (some docID, rest) =>
    match fscanf_d rest with
    | (none, rest1) => (none, rest1)
    | (some count, rest1) => (some (docID, count), rest1)

/-- The call `fscanf(old, "%s", word)`: white space is skipped and the run of
characters up to the next white space is stored, followed by a NUL; `none`
when the end of the file comes first. The conversion has no field width: the
run is stored whatever its length, and `fscanf_s_fits` tells whether it fits
the destination. -/
def fscanf_s (stream : List Char) : Option cstring × List Char :=
  match stream.dropWhile isspace with
  | [] => (none, [])
  | c :: rest =>
    (some ((c :: rest).takeWhile (fun x => !isspace x)),
      (c :: rest).dropWhile (fun x => !isspace x))

/-- Whether the call `fscanf(old, "%s", word)` stays inside its destination
`char word[MaxWordLength]`: the run it stores has fewer than `MaxWordLength`
characters, which leaves room for the NUL. When this is `false` the call
writes past the end of the array and the behaviour of the program is
undefined. -/
def fscanf_s_fits (stream : List Char) : Bool :=
  match (fscanf_s stream).1 with
  | some word => decide (word.length < MaxWordLength)
  | none => true

/-- The function `counterToFile`. -/
def counterToFile (fp : List Char) (key count : Int) : List Char :=
  fp ++ ' ' :: fprintf_d key ++ ' ' :: fprintf_d count

/-- The function `entryToFile`. -/
def entryToFile (fp : List Char) (key : cstring) (item : counters) : List Char :=
  counters_iterate item (fp ++ key) counterToFile ++ ['\n']

/-- The function `indexToFile`, for a file that could be opened: the text
written to it. -/
def indexToFile (index : index_t) : List Char :=
  index_iterate index [] entryToFile

/-- The body of the inner loop of `fileToIndex`. -/
def fileToIndex_entry (hash : cstring → Nat) (index : index_t) (word : cstring)
    (docID count : Int) : index_t :=
  match index_find hash index word with
  | none =>
    let wordInfo := (counters_set counters_new docID count).1
    { ht := (hashtable_insert hash index.ht word wordInfo).1 }
  | some wordInfo =>
    { ht := hashtable_store hash index.ht word (counters_set wordInfo docID count).1 }

/-- The inner loop of `fileToIndex`: pairs are read and stored while
`fscanf` returns 2. Every turn consumes characters, so `fuel` above the
length of the stream is never used up. -/
def fileToIndex_pairs (hash : cstring → Nat) :
    Nat → index_t → cstring → List Char → index_t × List Char
  | 0, index, _, old => (index, old)
  | fuel + 1, index, word, old =>
    match fscanf_d_d old with
    | (some (docID, count), rest) =>
      fileToIndex_pairs hash fuel (fileToIndex_entry hash index word docID count) word rest
    | (none, rest) => (index, rest)

/-- The outer loop of `fileToIndex`: words are read while `fscanf` returns 1. -/
def fileToIndex_words (hash : cstring → Nat) : Nat → index_t → List Char → index_t
  | 0, index, _ => index
  | fuel + 1, index, old =>
    match fscanf_s old with
    | (some word, rest) =>
      let r := fileToIndex_pairs hash (rest.length + 1) index word rest
      fileToIndex_words hash fuel r.1 r.2
    | (none, _) => index

/-- The function `fileToIndex`; the file is `none` when it cannot be opened.
The index given is the one the loops build; it is what the program computes
when every word read fits `word[MaxWordLength]` (`fileToIndex_fits`). -/
def fileToIndex (hash : cstring → Nat) (index : index_t) (oldf : Option (List Char)) :
    Option index_t :=
  match oldf with
  | none => none
  | some old => some (fileToIndex_words hash (old.length + 1) index old)

/-! ## querier.c: score, rank and the query loop -/

/-- The variables of `score`. -/
structure ScoreState where
  orSequence : Option counters
  andSequence : Option counters
  shortCircuit : Bool

/-- One turn of the `for` loop of `score`, at `words[i] = word`. -/
def score_step (hash : cstring → Nat) (index : index_t) (st : ScoreState) (word : cstring) :
    ScoreState :=
  if word = ['o', 'r'] then
    { orSequence := myUnion st.orSequence st.andSequence, andSequence := none,
      shortCircuit := false }
  else if st.shortCircuit then st
  else if word = ['a', 'n', 'd'] then st
  else
    match index_find hash index word with
    | none => { st with shortCircuit := true, andSequence := none }
    | some wordCounterOG =>
      let wordCounter := counters_copy wordCounterOG counters_new
      match st.andSequence with
      | none => { st with andSequence := myUnion (some counters_new) (some wordCounter) }
      | some a => { st with andSequence := intersect (some a) (some wordCounter) }

/-- The function `score`: `*orSequence` after the call, given its value
before the call (`NULL` in `processQuery`). -/
def score (hash : cstring → Nat) (index : index_t) (words : List cstring)
    (orSequence : Option counters) : Option counters :=
  let or0 := match orSequence with
    | none => some counters_new
    | some o => some o
  let st := words.foldl (score_step hash index)
    { orSequence := or0, andSequence := none, shortCircuit := false }
  match myUnion st.orSequence st.andSequence with
  | none => none
  | some o => if counters_empty o = 0 then none else some o

/-- The function `findMaxScore`; `maxData` is the pair `(maxData[0], maxData[1])`. -/
def findMaxScore (maxData : Int × Int) (key count : Int) : Int × Int :=
  if count > maxData.1 then (count, key) else maxData

/-- How a run of `rank` stands. -/
inductive RankStatus where
  | returned
  | exited
  | looping
deriving DecidableEq

/-- What `rank` has done: the result lines printed (score, docID, URL), the
score set as it stands, and whether the loop was left through `break`
(`returned`), through `exit(1)` (`exited`), or is still turning after the
number of turns looked at (`looping`). -/
structure RankRun where
  lines : List (Int × Int × cstring)
  result : counters
  status : RankStatus
deriving DecidableEq

/-- The function `rank`, observed for at most `turns` turns of its
`while (true)` loop. The page directory is the map from a docID to the first
line (the URL) of its file, `none` when the file cannot be opened. -/
def rank (pageDir : Int → Option cstring) : Nat → counters → RankRun
  | 0, result => { lines := [], result := result, status := RankStatus.looping }
  | turns + 1, result =>
    let maxData := counters_iterate result ((0 : Int), (-1 : Int)) findMaxScore
    if maxData.2 = -1 then
      { lines := [], result := result, status := RankStatus.returned }
    else
      match pageDir maxData.2 with
      | none => { lines := [], result := result, status := RankStatus.exited }
      | some url =>
        let r := rank pageDir turns (counters_set result maxData.2 0).1
        { r with lines := (maxData.1, maxData.2, url) :: r.lines }

/-- The diagnostics `processQuery` writes to `stderr`. -/
inductive Diagnostic where
  | lettersAndSpaces
  | invalidQuery
  | noMatch
deriving DecidableEq

/-- What one turn of the loop of `processQuery` did with a line: the result of
`tokenize` when it was called, `result` after `score` when it was called, the
echoed `Query:` line when it was printed, the run of `rank` when it was
called, and the diagnostic when one was written. -/
structure QueryRun where
  tokens : Option TokenState
  scored : Option (Option counters)
  echo : Option (List cstring)
  ranking : Option RankRun
  diagnostic : Option Diagnostic
deriving DecidableEq

/-- One turn of the `while` loop of `processQuery`, on the line `query`. -/
def processQuery_line (hash : cstring → Nat) (index : index_t) (pageDir : Int → Option cstring)
    (turns : Nat) (query : cstring) : QueryRun :=
  if !isValidQuery query then
    { tokens := none, scored := none, echo := none, ranking := none,
      diagnostic := some Diagnostic.lettersAndSpaces }
  else
    let t := tokenize query
    if !t.isValid || t.numWords = 0 then
      { tokens := some t, scored := none, echo := none, ranking := none,
        diagnostic := some Diagnostic.invalidQuery }
    else
      match score hash index t.words none with
      | some r =>
        { tokens := some t, scored := some (some r), echo := some t.words,
          ranking := some (rank pageDir turns r), diagnostic := none }
      | none =>
        { tokens := some t, scored := some none, echo := none, ranking := none,
          diagnostic := some Diagnostic.noMatch }

/-! ### The sum-of-products reading of a query -/

/-- The count of docID `d` for `term` in the index: 0 when the term is absent
(and 0 when the term has no count for `d`). -/
def termCount (hash : cstring → Nat) (index : index_t) (term : cstring) (d : Int) : Int :=
  match index_find hash index term with
  | none => 0
  | some c => counters_get c d

/-- The AND-clauses of a token sequence: the sequence split at each `or`,
with the `and` tokens dropped. -/
def andClauses (words : List cstring) : List (List cstring) :=
  (words.splitOn ['o', 'r']).map (fun clause => clause.filter (fun w => w != ['a', 'n', 'd']))

/-- The score of an AND-clause for docID `d`: the minimum over its terms of
the term's count for `d` (0 for a clause without terms). -/
def clauseScore (hash : cstring → Nat) (index : index_t) (d : Int) : List cstring → Int
  | [] => 0
  | t :: ts => ts.foldl (fun m t1 => min m (termCount hash index t1 d)) (termCount hash index t d)

/-- The sum over the AND-clauses of the clause scores. -/
def sumOfProducts (hash : cstring → Nat) (index : index_t) (words : List cstring) (d : Int) :
    Int :=
  ((andClauses words).map (clauseScore hash index d)).sum

/-- The score of docID `d` in a result of `score`: 0 when the result is `NULL`. -/
def resultCount (result : Option counters) (d : Int) : Int :=
  match result with
  | none => 0
  | some c => counters_get c d

/-- Every counter set of the index is a PostingSet of the data model. -/
def IndexWF (hash : cstring → Nat) (index : index_t) : Prop :=
  ∀ w c, index_find hash index w = some c → PostingSet c

/-- The state of `score` stands for the AND-clause `clause` read so far. -/
def ScoreRel (hash : cstring → Nat) (index : index_t) (st : ScoreState)
    (clause : List cstring) : Prop :=
  (∃ o, st.orSequence = some o ∧ PostingSet o) ∧
  (clause = [] → st.andSequence = none ∧ st.shortCircuit = false) ∧
  (clause ≠ [] →
    (st.shortCircuit = true ∧ st.andSequence = none ∧
      ∀ d, clauseScore hash index d clause = 0) ∨
    (st.shortCircuit = false ∧ ∃ a, st.andSequence = some a ∧ PostingSet a ∧
      ∀ d, counters_get a d = clauseScore hash index d clause))

/-! ### Invariants of the index and the shape of the index file -/

/-- A Term of the data model: a non-empty string of alphabetic characters. -/
def isTerm (w : cstring) : Bool := !w.isEmpty && w.all isalpha

/-- The invariant of the hash table: there is at least one slot, every node
lives in the slot its key hashes to and satisfies `P`, and no key occurs twice
in a slot. -/
def TableInv {α : Type} (hash : cstring → Nat) (P : cstring → α → Prop)
    (table : List (set_t α)) : Prop :=
  0 < table.length ∧
  ∀ i, (∀ n ∈ table.getD i set_new, hash n.1 % table.length = i ∧ P n.1 n.2) ∧
    ((table.getD i set_new).map Prod.fst).Nodup

/-- The invariant of an index whose keys are Terms and whose counter sets are
non-empty PostingSets. -/
def IndexInv (hash : cstring → Nat) (index : index_t) : Prop :=
  TableInv hash (fun w c => isTerm w = true ∧ PostingSet c ∧ c ≠ []) index.ht.table

/-- The entries of the index in the order `index_iterate` visits them. -/
def index_entries (index : index_t) : List (cstring × counters) := index.ht.table.flatten

/-- The text `counters_iterate(counters, fp, counterToFile)` writes. -/
def pairsText (c : counters) : List Char :=
  (c.map (fun n => ' ' :: fprintf_d n.1 ++ ' ' :: fprintf_d n.2)).flatten

/-- The line `entryToFile` writes for an entry. -/
def entryLine (e : cstring × counters) : List Char := e.1 ++ pairsText e.2 ++ ['\n']

/-- What the inner loop of `fileToIndex` does with the pairs of one line. -/
def loadEntry (hash : cstring → Nat) (index : index_t) (e : cstring × counters) : index_t :=
  e.2.foldl (fun i n => fileToIndex_entry hash i e.1 n.1 n.2) index

/-- Two results of `index_find` hold the same docID->count pairs, ignoring
order: both are absent, or both are present and one list of pairs is a
permutation of the other. -/
def samePairs : Option counters → Option counters → Prop
  | none, none => True
  | some a, some b => a.Perm b
  | _, _ => False

/-- The index built by a sequence of `index_add(word, docID)` calls on a new index. -/
def indexOfCalls (hash : cstring → Nat) (calls : List (cstring × Int)) : index_t :=
  calls.foldl (fun i p => (index_add hash i p.1 p.2).1) index_new

/-- The stream does not go on with a digit. -/
def NoDigitAhead (rest : List Char) : Prop :=
  rest = [] ∨ ∃ c t, rest = c :: t ∧ isdigit c = false

/-- The stream is at its end or goes on with a letter. -/
def LetterAhead (rest : List Char) : Prop :=
  rest = [] ∨ ∃ c t, rest = c :: t ∧ isalpha c = true

/-- The stream goes on with a white-space character. -/
def SpaceAhead (rest : List Char) : Prop :=
  ∃ c t, rest = c :: t ∧ isspace c = true

/-- An entry the index file can carry: a Term with non-negative docIDs and
counts in the range of `int`. -/
def EntryOK (e : cstring × counters) : Prop :=
  isTerm e.1 = true ∧ ∀ n ∈ e.2, (0 ≤ n.1 ∧ n.1 ≤ INT_MAX) ∧ (0 ≤ n.2 ∧ n.2 ≤ INT_MAX)

/-! ### Example data -/

/-- The query line `cat AND`. -/
def line_cat_AND : cstring := ['c', 'a', 't', ' ', 'A', 'N', 'D']

/-- The query line `AND cat`. -/
def line_AND_cat : cstring := ['A', 'N', 'D', ' ', 'c', 'a', 't']

/-- The query line `cat and and dog`. -/
def line_cat_and_and_dog : cstring :=
  ['c', 'a', 't', ' ', 'a', 'n', 'd', ' ', 'a', 'n', 'd', ' ', 'd', 'o', 'g']

/-- The query line `cat dog`. -/
def line_cat_dog : cstring := ['c', 'a', 't', ' ', 'd', 'o', 'g']

/-- The query line `cat-dog`. -/
def line_cat_dash_dog : cstring := ['c', 'a', 't', '-', 'd', 'o', 'g']

/-- The words `a b c ... t`: twenty one-letter words, each followed by a space. -/
def twentyWords : cstring :=
  ['a', ' ', 'b', ' ', 'c', ' ', 'd', ' ', 'e', ' ', 'f', ' ', 'g', ' ', 'h', ' ', 'i', ' ',
   'j', ' ', 'k', ' ', 'l', ' ', 'm', ' ', 'n', ' ', 'o', ' ', 'p', ' ', 'q', ' ', 'r', ' ',
   's', ' ', 't', ' ']

/-- A line of twenty-one words: `a b c ... t and`. -/
def line_twenty_then_and : cstring := twentyWords ++ ['a', 'n', 'd']

/-- A line of twenty-one words: `a b c ... t u`. -/
def line_twentyone : cstring := twentyWords ++ ['u']

/-- The term `cat`. -/
def term_cat : cstring := ['c', 'a', 't']

/-- The term `dog`. -/
def term_dog : cstring := ['d', 'o', 'g']

/-- The operator `and`. -/
def op_and : cstring := ['a', 'n', 'd']

/-- The operator `or`. -/
def op_or : cstring := ['o', 'r']

/-- The score set `{1:2, 2:4, 3:1}`. -/
def scores_124 : counters := [(1, 2), (2, 4), (3, 1)]

/-- The calls that build the example index `cat -> {1:2, 2:1}`,
`dog -> {2:3, 3:1}`. -/
def exampleCalls : List (cstring × Int) :=
  [(term_cat, 1), (term_cat, 1), (term_cat, 2),
   (term_dog, 2), (term_dog, 2), (term_dog, 2), (term_dog, 3)]

/-- A hash function for the examples: the length of the key. -/
def exampleHash : cstring → Nat := fun w => w.length

/-- The example index `cat -> {1:2, 2:1}`, `dog -> {2:3, 3:1}`. -/
def exampleIndex : index_t := indexOfCalls exampleHash exampleCalls

/-! ## Counter sets that the functions of counters.c can build -/

/-- A counter set reachable from `counters_new` through calls of
`counters_add` and `counters_set`, with any arguments. -/
inductive CountersReachable : counters → Prop where
  | new : CountersReachable counters_new
  | add (c : counters) (key : Int) :
      CountersReachable c → CountersReachable (counters_add c key).1
  | set (c : counters) (key count : Int) :
      CountersReachable c → CountersReachable (counters_set c key count).1

/-- The invariant of a reachable counter set: no key in two nodes, and every
tally at least 1. -/
def CountersInv (c : counters) : Prop :=
  (counters_keys c).Nodup ∧ ∀ n ∈ c, 1 ≤ n.2

/-! ## indexer.c

`libcs50/webpage.c` and `libcs50/file.c` are not among the sources. A page is
taken as the sequence of words that successive calls of `webpage_getNextWord`
return for it, and a page directory as the map that `pagedir_load` computes
from it. -/

/-- A `webpage_t`, as far as `indexPage` looks at it: the words that
`webpage_getNextWord(page, &pos)` returns, in order, before it returns `NULL`. -/
structure webpage_t where
  words : List cstring
deriving DecidableEq

/-- The function `pagedir_load`: the directory is the map from a docID to the
page built from its file, `none` (the `NULL` result) when the file cannot be
opened or read. -/
def pagedir_load (dir : Int → Option webpage_t) (docID : Int) : Option webpage_t :=
  dir docID

/-- The variables of `indexPage`: the index, and the words for which
`Failed to add word to index` was written to `stderr`. -/
structure PageRun where
  index : index_t
  failed : List cstring

/-- One turn of the `while` loop of `indexPage`, for the word that
`webpage_getNextWord` returned. -/
def indexPage_word (hash : cstring → Nat) (docID : Int) (st : PageRun) (word : cstring) :
    PageRun :=
  if word.length ≥ 3 then
    let r := index_add hash st.index (normalize word) docID
    if !r.2 then { index := r.1, failed := st.failed ++ [normalize word] }
    else { index := r.1, failed := st.failed }
  else st

/-- The function `indexPage`: the index after the call, the words reported on
`stderr`, and the value returned (always `true`). -/
def indexPage (hash : cstring → Nat) (index : index_t) (page : webpage_t) (docID : Int) :
    PageRun × Bool :=
  (page.words.foldl (indexPage_word hash docID) { index := index, failed := [] }, true)

/-- How a call of `indexBuild` ends: it returns the index, it returns `NULL`,
or its loop is still turning after the number of turns looked at. -/
inductive BuildResult where
  | built (index : index_t)
  | failed
  | looping

/-- The `while` loop of `indexBuild`, observed for at most `turns` turns. -/
def indexBuild_loop (hash : cstring → Nat) (dir : Int → Option webpage_t) :
    Nat → Int → index_t → BuildResult
  | 0, _, _ => BuildResult.looping
  | turns + 1, docID, index =>
    match pagedir_load dir docID with
    | none => BuildResult.built index
    | some page =>
      let r := indexPage hash index page docID
      if !r.2 then BuildResult.failed
      else indexBuild_loop hash dir turns (docID + 1) r.1.index

/-- The function `indexBuild`, observed for at most `turns` turns of its loop. -/
def indexBuild (hash : cstring → Nat) (dir : Int → Option webpage_t) (turns : Nat) :
    BuildResult :=
  indexBuild_loop hash dir turns 1 index_new

/-- The `index_add` calls that indexing a page with `docID` makes: one for
every word of at least 3 characters, with the word folded to lower case. -/
def pageCalls (page : webpage_t) (docID : Int) : List (cstring × Int) :=
  (page.words.filter (fun w => decide (w.length ≥ 3))).map (fun w => (normalize w, docID))

/-- The `index_add` calls that indexing the pages `first, first+1, ...` makes. -/
def pagesCalls : List webpage_t → Int → List (cstring × Int)
  | [], _ => []
  | page :: rest, first => pageCalls page first ++ pagesCalls rest (first + 1)

/-- The number of words `w` of document `d` (among the documents `1..n` given
as the list of their pages) with at least 3 characters whose lower-case
folding is `t`; 0 when `d` is not one of `1..n`. -/
def occurrences (pages : List webpage_t) (t : cstring) (d : Int) : Nat :=
  if 1 ≤ d ∧ d ≤ pages.length then
    match pages[(d - 1).toNat]? with
    | some page =>
      (page.words.filter (fun w => decide (w.length ≥ 3) && decide (normalize w = t))).length
    | none => 0
  else 0

/-- The directory holds exactly the documents `1..n` before its first gap:
docID `i` loads the `i`-th page of `pages`, and docID `n+1` does not load. -/
def FirstDocuments (dir : Int → Option webpage_t) (pages : List webpage_t) : Prop :=
  (∀ i : Nat, i < pages.length → dir ((i : Int) + 1) = pages[i]?) ∧
  dir ((pages.length : Int) + 1) = none

/-- The term `zzz`. -/
def term_zzz : cstring := ['z', 'z', 'z']

/-- An example page with the words `Cat`, `at`, `cat`, `DOG`. -/
def examplePage1 : webpage_t :=
  { words := [['C', 'a', 't'], ['a', 't'], ['c', 'a', 't'], ['D', 'O', 'G']] }

/-- An example page with the words `dog`, `to`. -/
def examplePage2 : webpage_t := { words := [['d', 'o', 'g'], ['t', 'o']] }

/-- An example directory: documents 1 and 2, none at 3, and a document 4
after the gap. -/
def exampleDir : Int → Option webpage_t := fun d =>
  if d = 1 then some examplePage1
  else if d = 2 then some examplePage2
  else if d = 4 then some examplePage1
  else none

/-- The end of `score`: the final union followed by the emptiness check. -/
def score_finish (st : ScoreState) : Option counters :=
  match myUnion st.orSequence st.andSequence with
  | none => none
  | some o => if counters_empty o = 0 then none else some o

/-- The index after `indexPage` has been called on the pages of the list with
the docIDs `docID`, `docID + 1`, and so on. -/
def indexPages (hash : cstring → Nat) : List webpage_t → Int → index_t → index_t
  | [], _, index => index
  | page :: rest, docID, index =>
    indexPages hash rest (docID + 1) (indexPage hash index page docID).1.index

/-! ## Counter sets that the querier and the indexer can build -/

/-- The `(docID, count)` pairs for which the body of the inner loop of
`fileToIndex` runs on the stream, in the order read, and the stream that is
left when `fscanf` no longer returns 2. -/
def fileToIndex_pairs_read : Nat → List Char → List (Int × Int) × List Char
  | 0, old => ([], old)
  | fuel + 1, old =>
    match fscanf_d_d old with
    | (some (docID, count), rest) =>
      let r := fileToIndex_pairs_read fuel rest
      ((docID, count) :: r.1, r.2)
    | (none, rest) => ([], rest)

/-- The `(word, docID, count)` triples for which the body of the inner loop
of `fileToIndex` runs, in the order read. -/
def fileToIndex_read : Nat → List Char → List (cstring × Int × Int)
  | 0, _ => []
  | fuel + 1, old =>
    match fscanf_s old with
    | (some word, rest) =>
      let r := fileToIndex_pairs_read (rest.length + 1) rest
      r.1.map (fun p => (word, p.1, p.2)) ++ fileToIndex_read fuel r.2
    | (none, _) => []

/-- The triples `fileToIndex` reads from a file, in the order read. -/
def triplesRead (old : List Char) : List (cstring × Int × Int) :=
  fileToIndex_read (old.length + 1) old

/-- The index after the body of the inner loop of `fileToIndex` has run for
each triple in turn. -/
def storeTriples (hash : cstring → Nat) (index : index_t)
    (triples : List (cstring × Int × Int)) : index_t :=
  triples.foldl (fun i tr => fileToIndex_entry hash i tr.1 tr.2.1 tr.2.2) index

/-- The text of the index file whose lines are the given entries: each line
the term, then ` docID count` for every pair, then a newline. -/
def fileText (E : List (cstring × counters)) : List Char := (E.map entryLine).flatten

/-- The pairs of the line(s) of term `t`, in file order. -/
def pairsOf (E : List (cstring × counters)) (t : cstring) : counters :=
  ((E.filter (fun e => decide (e.1 = t))).map Prod.snd).flatten

/-- The count of the last pair with docID `d` in a sequence of pairs, 0 when
there is none. -/
def lastCount (pairs : counters) (d : Int) : Int :=
  pairs.foldl (fun v n => if n.1 = d then n.2 else v) 0

/-- Two index files have the same lines up to the order of the lines and the
order of the pairs within each line. -/
def sameLines (A B : List (cstring × counters)) : Prop :=
  ∃ B1, A.Perm B1 ∧ List.Forall₂ (fun a b => a.1 = b.1 ∧ a.2.Perm b.2) B1 B

/-- An index reachable from `index_new` through `index_add` and the body of
the loop of `fileToIndex`, with any arguments. -/
inductive IndexReachable (hash : cstring → Nat) : index_t → Prop where
  | ofNew : IndexReachable hash index_new
  | ofAdd (index : index_t) (word : cstring) (docID : Int) :
      IndexReachable hash index → IndexReachable hash (index_add hash index word docID).1
  | ofEntry (index : index_t) (word : cstring) (docID count : Int) :
      IndexReachable hash index →
      IndexReachable hash (fileToIndex_entry hash index word docID count)

/-- The file `cat 1 7 2 0`, newline, `emu 0 3`, newline. -/
def text_merge : List Char :=
  ['c', 'a', 't', ' ', '1', ' ', '7', ' ', '2', ' ', '0', '\n',
   'e', 'm', 'u', ' ', '0', ' ', '3', '\n']

/-- The term `emu`. -/
def term_emu : cstring := ['e', 'm', 'u']

/-- The file `cat 1 5 1 7`, newline. -/
def text_cat_1_5_1_7 : List Char :=
  ['c', 'a', 't', ' ', '1', ' ', '5', ' ', '1', ' ', '7', '\n']

/-- The lines `dog 3 1 2 3` and `cat 1 2 2 1` of an index file. -/
def exampleLines : List (cstring × counters) :=
  [(term_dog, [(3, 1), (2, 3)]), (term_cat, [(1, 2), (2, 1)])]

/-! ## `score` with the counter sets in memory

The functions above pass counter sets by value. To tell what `score` does to
the counter sets of the index, the `counters_t` objects are here the cells of
a heap, the index maps a word to the address of its counter set, and the
variables of `score` hold addresses. A function returns `none` where the C
program would use an object that has been deleted, or would iterate over a
set that the item function updates. -/

/-- The heap of `counters_t` objects: the object at address `p` is cell `p`
of the list; a cell is `none` once its object has been deleted. -/
abbrev heap := List (Option counters)

/-- The object at an address; `none` for an address that was never allocated
or whose object has been deleted. -/
def heap_read (h : heap) (p : Nat) : Option counters := h.getD p none

/-- The function `counters_new` on the heap: a new empty object at a fresh
address, which is returned. -/
def counters_new_mem (h : heap) : heap × Nat := (h ++ [some counters_new], h.length)

/-- The function `counters_copy` on the heap: `counters_iterate(source,
destination, counters_set)`. -/
def counters_copy_mem (h : heap) (source destination : Nat) : Option heap :=
  if source = destination then none
  else
    match heap_read h source, heap_read h destination with
    | some s, some d => some (h.set destination (some (counters_copy s d)))
    | _, _ => none

/-- The function `intersect` on the heap: the heap and `*result` after the
call. The intersection is built in a new object `final`, the object `*result`
pointed to is deleted, and `*result` becomes `final`. -/
def intersect_mem (h : heap) (result newCounter : Option Nat) : Option (heap × Option Nat) :=
  match result, newCounter with
  | some r, some n =>
    match heap_read h r, heap_read h n with
    | some rc, some nc =>
      let final := counters_new_mem h
      let h1 := final.1.set final.2
        (some (counters_iterate rc { first := counters_new, second := nc }
          intersect_itemfunc).first)
      some (h1.set r none, some final.2)
    | _, _ => none
  | _, _ => some (h, result)

/-- The function `myUnion` (the working version) on the heap: the heap and
`*result` after the call. With both pointers non-`NULL` the object of `temp`
is merged into the object of `*result` and then deleted. -/
def myUnion_mem (h : heap) (result temp : Option Nat) : Option (heap × Option Nat) :=
  match result with
  | none => some (h, temp)
  | some r =>
    match temp with
    | some t =>
      if r = t then none
      else
        match heap_read h r, heap_read h t with
        | some rc, some tc =>
          some ((h.set r (some (counters_iterate tc rc union_itemfunc))).set t none, some r)
        | _, _ => none
    | none => some (h, some r)

/-- The struct `index` with the items of its table as addresses of
`counters_t` objects. -/
structure index_mem where
  ht : hashtable_t Nat

/-- The function `index_find`, returning the address stored for the word. -/
def index_find_mem (hash : cstring → Nat) (index : index_mem) (word : cstring) : Option Nat :=
  hashtable_find hash index.ht word

/-- The variables of `score` and the heap. -/
structure ScoreMem where
  mem : heap
  orSequence : Option Nat
  andSequence : Option Nat
  shortCircuit : Bool

/-- One turn of the `for` loop of `score` on the heap, at `words[i] = word`. -/
def score_step_mem (hash : cstring → Nat) (index : index_mem) (st : ScoreMem)
    (word : cstring) : Option ScoreMem :=
  if word = ['o', 'r'] then
    match myUnion_mem st.mem st.orSequence st.andSequence with
    | some r =>
      some { mem := r.1, orSequence := r.2, andSequence := none, shortCircuit := false }
    | none => none
  else if st.shortCircuit then some st
  else if word = ['a', 'n', 'd'] then some st
  else
    match index_find_mem hash index word with
    | none =>
      some { mem := st.mem, orSequence := st.orSequence, andSequence := none,
             shortCircuit := true }
    | some wordCounterOG =>
      let wordCounter := counters_new_mem st.mem
      match counters_copy_mem wordCounter.1 wordCounterOG wordCounter.2 with
      | none => none
      | some h2 =>
        match st.andSequence with
        | none =>
          let a := counters_new_mem h2
          match myUnion_mem a.1 (some a.2) (some wordCounter.2) with
          | some r =>
            some { mem := r.1, orSequence := st.orSequence, andSequence := r.2,
                   shortCircuit := st.shortCircuit }
          | none => none
        | some a =>
          match intersect_mem h2 (some a) (some wordCounter.2) with
          | some r =>
            some { mem := r.1, orSequence := st.orSequence, andSequence := r.2,
                   shortCircuit := st.shortCircuit }
          | none => none

/-- The `for` loop of `score` on the heap. -/
def score_loop_mem (hash : cstring → Nat) (index : index_mem) :
    List cstring → ScoreMem → Option ScoreMem
  | [], st => some st
  | word :: rest, st =>
    match score_step_mem hash index st word with
    | some st1 => score_loop_mem hash index rest st1
    | none => none

/-- The function `score` on the heap: the heap and `*orSequence` after the
call, given `*orSequence` before the call (`NULL` in `processQuery`). -/
def score_mem (hash : cstring → Nat) (index : index_mem) (words : List cstring) (h : heap)
    (orSequence : Option Nat) : Option (heap × Option Nat) :=
  let start : heap × Nat := match orSequence with
    | none => counters_new_mem h
    | some o => (h, o)
  match score_loop_mem hash index words
      { mem := start.1, orSequence := some start.2, andSequence := none,
        shortCircuit := false } with
  | none => none
  | some st =>
    match myUnion_mem st.mem st.orSequence st.andSequence with
    | none => none
    | some r =>
      match r.2 with
      | none => some (r.1, none)
      | some o =>
        match heap_read r.1 o with
        | none => none
        | some oc => if counters_empty oc = 0 then some (r.1, none) else some (r.1, some o)

/-- The index that passes counter sets by value, read off the heap: every
address in the table replaced by the object it points to. -/
def index_at (h : heap) (index : index_mem) : index_t :=
  { ht := { table :=
      (index.ht.table.map
        (fun s => s.map (fun n => (n.1, (heap_read h n.2).getD counters_new)))) } }

/-- Every address in the table of the index points to a live object of the heap. -/
def IndexInHeap (h : heap) (index : index_mem) : Prop :=
  ∀ s ∈ index.ht.table, ∀ n ∈ s, (heap_read h n.2).isSome = true

instance (h : heap) (index : index_mem) : Decidable (IndexInHeap h index) := by
  unfold IndexInHeap; infer_instance

/-- The counter set a result pointer of `score` points to, `none` for `NULL`. -/
def resultAt (h : heap) (result : Option Nat) : Option counters :=
  match result with
  | none => none
  | some p => heap_read h p

/-- An example heap: `{1:2, 2:1}` at address 0 and `{2:3, 3:1}` at address 1. -/
def exampleHeap : heap := [some [(2, 1), (1, 2)], some [(3, 1), (2, 3)]]

/-- An example index in memory: `cat` at address 0 and `dog` at address 1. -/
def exampleIndexMem : index_mem :=
  { ht := (hashtable_insert exampleHash
      (hashtable_insert exampleHash (hashtable_new num_slots) term_cat 0).1 term_dog 1).1 }

/-- The variables of `score` on the heap stand for the variables `fs` of
`score` by value: the objects that were live in the heap `h0` at the start of
the call are as they were, and `orSequence` and `andSequence` point to live
objects allocated since, different from each other, that hold the values of
`fs`. -/
def ScoreSim (h0 : heap) (st : ScoreMem) (fs : ScoreState) : Prop :=
  (∀ p c, heap_read h0 p = some c → heap_read st.mem p = some c) ∧
  h0.length ≤ st.mem.length ∧
  (∃ o oc, st.orSequence = some o ∧ h0.length ≤ o ∧ heap_read st.mem o = some oc ∧
    fs.orSequence = some oc) ∧
  (match st.andSequence with
   | none => fs.andSequence = none
   | some a => ∃ ac, h0.length ≤ a ∧ heap_read st.mem a = some ac ∧
      fs.andSequence = some ac ∧ st.orSequence ≠ some a) ∧
  st.shortCircuit = fs.shortCircuit

/-! ## Further example data -/

/-- The word `Hello`. -/
def word_Hello : cstring := ['H', 'e', 'l', 'l', 'o']

/-- The word `hello`. -/
def word_hello : cstring := ['h', 'e', 'l', 'l', 'o']

/-- A line of white space: a space, a tab and the newline `fgets` keeps. -/
def line_blank : cstring := [' ', '\t', '\n']

/-- The set built from `set_new` by `set_insert` of the given keys and items,
in order. -/
def setOfInserts {α : Type} (inserts : List (cstring × α)) : set_t α :=
  inserts.foldl (fun s p => (set_insert s p.1 p.2).1) set_new

/-- The score set `{1:3, 2:5, 3:5, 4:1}`, in list order. -/
def scores_tie : counters := [(1, 3), (2, 5), (3, 5), (4, 1)]

/-- The query line made of the given words, separated by single spaces. -/
def joinWords : List cstring → cstring
  | [] => []
  | [w] => w
  | w :: rest => w ++ ' ' :: joinWords rest

/-- The query line `zzz`. -/
def line_zzz : cstring := ['z', 'z', 'z']

/-- Every count of the index is in the range of `int` (it is stored in an
`int` field of a `countersnode_t`). -/
def IndexInt (hash : cstring → Nat) (index : index_t) : Prop :=
  ∀ w c, index_find hash index w = some c → ∀ n ∈ c, n.2 ≤ INT_MAX

/-! ## The buffer of `fileToIndex` and data at the limits of `int` -/

/-- Whether the outer loop of `fileToIndex` stays inside `word[MaxWordLength]`
on the stream: `fscanf_s_fits` holds at every call of
`fscanf(old, "%s", word)`. The loop is followed as in `fileToIndex_words`,
with the stream that the inner loop leaves; every turn consumes characters, so
`fuel` above the length of the stream is never used up. -/
def fileToIndex_fits_loop : Nat → List Char → Bool
  | 0, _ => true
  | fuel + 1, old =>
    match fscanf_s old with
    | (some _, rest) =>
      fscanf_s_fits old &&
        fileToIndex_fits_loop fuel (fileToIndex_pairs_read (rest.length + 1) rest).2
    | (none, _) => true

/-- Whether `fileToIndex` stays inside `char word[MaxWordLength]` on the file:
every word that `fscanf` stores has fewer than `MaxWordLength` characters.
When this is `false`, a call of `fscanf` writes past the end of the array, the
behaviour of the program is undefined, and the index `fileToIndex` gives in
this development is not what the program need compute. -/
def fileToIndex_fits (old : List Char) : Bool :=
  fileToIndex_fits_loop (old.length + 1) old

/-- A term of 100 letters `a`. -/
def term_long : cstring := List.replicate 100 'a'

/-- The index file of one line: the term `cat` with the count `2^30` in each
of the documents 1, 2, 3 and 4. -/
def text_big : List Char :=
  ['c', 'a', 't',
   ' ', '1', ' ', '1', '0', '7', '3', '7', '4', '1', '8', '2', '4',
   ' ', '2', ' ', '1', '0', '7', '3', '7', '4', '1', '8', '2', '4',
   ' ', '3', ' ', '1', '0', '7', '3', '7', '4', '1', '8', '2', '4',
   ' ', '4', ' ', '1', '0', '7', '3', '7', '4', '1', '8', '2', '4', '\n']

/-- The counter set `{1:2^30, 2:2^30, 3:2^30, 4:2^30}`. -/
def counts_big : counters :=
  [(1, 1073741824), (2, 1073741824), (3, 1073741824), (4, 1073741824)]

/-- The index file `cat 1 2147483648`, newline: the count is `INT_MAX + 1`. -/
def text_cat_1_big : List Char :=
  ['c', 'a', 't', ' ', '1', ' ', '2', '1', '4', '7', '4', '8', '3', '6', '4', '8', '\n']

/-! ## Lemmas on counters -/

theorem counters_get_of_not_mem (c : counters) (k : Int) (h : k ∉ counters_keys c) :
    counters_get c k = 0 := by
  induction c with
  | nil => rfl
  | cons n rest ih =>
    simp only [counters_keys, List.map_cons, List.mem_cons, not_or] at h
    have h1 : ¬ n.1 = k := fun e => h.1 e.symm
    simp only [counters_get, h1, if_false]
    exact ih h.2

theorem counters_get_pos_of_mem (c : counters) (k : Int) (hpos : ∀ n ∈ c, 1 ≤ n.2)
    (h : k ∈ counters_keys c) : 1 ≤ counters_get c k := by
  induction c with
  | nil => simp [counters_keys] at h
  | cons n rest ih =>
    simp only [counters_get]
    by_cases e : n.1 = k
    · simp only [e, if_true]; exact hpos n (List.mem_cons_self _ _)
    · simp only [e, if_false]
      simp only [counters_keys, List.map_cons, List.mem_cons] at h
      rcases h with h | h
      · exact absurd h.symm e
      · exact ih (fun m hm => hpos m (List.mem_cons_of_mem _ hm)) h

theorem counters_get_pos_iff (c : counters) (k : Int) (hpos : ∀ n ∈ c, 1 ≤ n.2) :
    0 < counters_get c k ↔ k ∈ counters_keys c := by
  constructor
  · intro h
    by_contra hk
    rw [counters_get_of_not_mem c k hk] at h
    exact lt_irrefl _ h
  · intro h
    have := counters_get_pos_of_mem c k hpos h
    omega

theorem counters_set_loop_eq_none (c : counters) (k v : Int) :
    counters_set_loop c k v = none ↔ k ∉ counters_keys c := by
  induction c with
  | nil => simp [counters_set_loop, counters_keys]
  | cons n rest ih =>
    by_cases e : n.1 = k
    · simp [counters_set_loop, counters_keys, e]
    · have e2 : ¬ k = n.1 := fun h => e h.symm
      simp only [counters_set_loop, e, if_false, Option.map_eq_none', ih, counters_keys,
        List.map_cons, List.mem_cons, not_or, e2, not_false_eq_true, true_and]

theorem counters_set_loop_keys (c : counters) (k v : Int) (c1 : counters)
    (h : counters_set_loop c k v = some c1) : counters_keys c1 = counters_keys c := by
  induction c generalizing c1 with
  | nil => simp [counters_set_loop] at h
  | cons n rest ih =>
    by_cases e : n.1 = k
    · simp only [counters_set_loop, e, if_true, Option.some.injEq] at h
      subst h
      simp [counters_keys, e]
    · simp only [counters_set_loop, e, if_false, Option.map_eq_some'] at h
      obtain ⟨r, hr, rfl⟩ := h
      have := ih r hr
      simp only [counters_keys, List.map_cons] at this ⊢
      rw [this]

theorem counters_set_loop_get (c : counters) (k v : Int) (c1 : counters)
    (h : counters_set_loop c k v = some c1) (j : Int) :
    counters_get c1 j = if j = k then v else counters_get c j := by
  induction c generalizing c1 with
  | nil => simp [counters_set_loop] at h
  | cons n rest ih =>
    by_cases e : n.1 = k
    · simp only [counters_set_loop, e, if_true, Option.some.injEq] at h
      subst h
      by_cases ej : j = k
      · simp [counters_get, ej]
      · have ej2 : ¬ k = j := fun h => ej h.symm
        simp [counters_get, ej, ej2, e]
    · simp only [counters_set_loop, e, if_false, Option.map_eq_some'] at h
      obtain ⟨r, hr, rfl⟩ := h
      have := ih r hr
      simp only [counters_get, this]
      by_cases ej : j = k
      · subst ej; simp [e]
      · simp [ej]

theorem counters_set_loop_mem (c : counters) (k v : Int) (c1 : counters)
    (h : counters_set_loop c k v = some c1) (m : Int × Int) (hm : m ∈ c1) :
    m ∈ c ∨ m = (k, v) := by
  induction c generalizing c1 with
  | nil => simp [counters_set_loop] at h
  | cons n rest ih =>
    by_cases e : n.1 = k
    · simp only [counters_set_loop, e, if_true, Option.some.injEq] at h
      subst h
      simp only [List.mem_cons] at hm ⊢
      rcases hm with hm | hm
      · right; simpa [e] using hm
      · left; right; exact hm
    · simp only [counters_set_loop, e, if_false, Option.map_eq_some'] at h
      obtain ⟨r, hr, rfl⟩ := h
      simp only [List.mem_cons] at hm ⊢
      rcases hm with hm | hm
      · left; left; exact hm
      · rcases ih r hr hm with h1 | h1
        · left; right; exact h1
        · right; exact h1

/-- Outside its guard `counters_set` changes nothing. -/
theorem counters_set_of_not_guard (c : counters) (k v : Int) (h : ¬ (k > 0 ∧ v > 0)) :
    counters_set c k v = (c, false) := by
  simp only [counters_set, h, if_false]

theorem counters_set_of_not_mem (c : counters) (k v : Int) (hk : k > 0) (hv : v > 0)
    (h : k ∉ counters_keys c) : counters_set c k v = ((k, v) :: c, true) := by
  have := (counters_set_loop_eq_none c k v).2 h
  simp only [counters_set, hk, hv, and_self, if_true, this]

theorem counters_set_get (c : counters) (k v j : Int) :
    counters_get (counters_set c k v).1 j
      = if j = k ∧ k > 0 ∧ v > 0 then v else counters_get c j := by
  by_cases g : k > 0 ∧ v > 0
  · simp only [counters_set, g, if_true, and_self, and_true]
    cases hl : counters_set_loop c k v with
    | none =>
      simp only [counters_get]
      by_cases ej : j = k
      · simp [ej]
      · have ej2 : ¬ k = j := fun h => ej h.symm
        simp [ej, ej2]
    | some c1 => simpa using counters_set_loop_get c k v c1 hl j
  · rw [counters_set_of_not_guard c k v g]
    have : ¬ (j = k ∧ k > 0 ∧ v > 0) := fun h => g h.2
    simp only [this, if_false]

theorem counters_set_keys (c : counters) (k v : Int) (j : Int) :
    j ∈ counters_keys (counters_set c k v).1
      ↔ j ∈ counters_keys c ∨ (j = k ∧ k > 0 ∧ v > 0) := by
  by_cases g : k > 0 ∧ v > 0
  · simp only [counters_set, g, if_true, and_self, and_true]
    cases hl : counters_set_loop c k v with
    | none => simp [counters_keys]; tauto
    | some c1 =>
      simp only [counters_set_loop_keys c k v c1 hl]
      constructor
      · intro h; exact Or.inl h
      · rintro (h | h)
        · exact h
        · subst h
          by_contra hn
          have := (counters_set_loop_eq_none c j v).2 hn
          rw [hl] at this
          exact Option.noConfusion this
  · rw [counters_set_of_not_guard c k v g]
    constructor
    · intro h; exact Or.inl h
    · rintro (h | h)
      · exact h
      · exact absurd h.2 g

theorem counters_set_postingSet (c : counters) (k v : Int) (h : PostingSet c) :
    PostingSet (counters_set c k v).1 := by
  by_cases g : k > 0 ∧ v > 0
  · simp only [counters_set, g, if_true, and_self]
    cases hl : counters_set_loop c k v with
    | none =>
      have hk := (counters_set_loop_eq_none c k v).1 hl
      refine ⟨?_, ?_⟩
      · simp only [counters_keys, List.map_cons, List.nodup_cons]
        exact ⟨hk, h.1⟩
      · intro n hn
        simp only [List.mem_cons] at hn
        rcases hn with hn | hn
        · subst hn; exact ⟨by simpa using g.1, by simpa using g.2⟩
        · exact h.2 n hn
    | some c1 =>
      refine ⟨?_, ?_⟩
      · show (counters_keys c1).Nodup
        rw [counters_set_loop_keys c k v c1 hl]; exact h.1
      · intro n hn
        rcases counters_set_loop_mem c k v c1 hl n hn with h1 | h1
        · exact h.2 n h1
        · subst h1; exact ⟨by simpa using g.1, by simpa using g.2⟩
  · rw [counters_set_of_not_guard c k v g]; exact h

theorem postingSet_nil : PostingSet ([] : counters) := by
  simp [PostingSet, counters_keys]

theorem postingSet_tail (n : Int × Int) (c : counters) (h : PostingSet (n :: c)) :
    PostingSet c := by
  refine ⟨?_, fun m hm => h.2 m (List.mem_cons_of_mem _ hm)⟩
  have := h.1
  simp only [counters_keys, List.map_cons, List.nodup_cons] at this
  exact this.2

theorem postingSet_head_not_mem (n : Int × Int) (c : counters) (h : PostingSet (n :: c)) :
    n.1 ∉ counters_keys c := by
  have := h.1
  simp only [counters_keys, List.map_cons, List.nodup_cons] at this
  exact this.1

/-! ## Lemmas on intersect and myUnion -/

theorem counters_get_nonneg (c : counters) (k : Int) (hpos : ∀ n ∈ c, 1 ≤ n.2) :
    0 ≤ counters_get c k := by
  by_cases h : k ∈ counters_keys c
  · have := counters_get_pos_of_mem c k hpos h; omega
  · rw [counters_get_of_not_mem c k h]

theorem counters_get_cons_self (n : Int × Int) (c : counters) :
    counters_get (n :: c) n.1 = n.2 := by
  simp [counters_get]

theorem counters_get_cons_ne (n : Int × Int) (c : counters) (j : Int) (h : j ≠ n.1) :
    counters_get (n :: c) j = counters_get c j := by
  have : ¬ n.1 = j := fun e => h e.symm
  simp [counters_get, this]

theorem counters_iterate_cons {α : Type} (n : Int × Int) (c : counters) (a : α)
    (f : α → Int → Int → α) :
    counters_iterate (n :: c) a f = counters_iterate c (f a n.1 n.2) f := rfl

theorem counters_iterate_nil {α : Type} (a : α) (f : α → Int → Int → α) :
    counters_iterate [] a f = a := rfl

theorem intersect_itemfunc_second (a : duo) (k v : Int) :
    (intersect_itemfunc a k v).second = a.second := by
  simp only [intersect_itemfunc]
  split <;> rfl

theorem intersect_itemfunc_first_get (a : duo) (k v j : Int) (hk : 1 ≤ k) (hv : 1 ≤ v) :
    counters_get (intersect_itemfunc a k v).first j
      = if j = k ∧ 0 < counters_get a.second k then min (counters_get a.second k) v
        else counters_get a.first j := by
  unfold intersect_itemfunc
  by_cases hB : counters_get a.second k > 0
  · simp only [hB, if_true, counters_set_get]
    by_cases ej : j = k
    · have hm : (if counters_get a.second k < v then counters_get a.second k else v) > 0 := by
        split <;> omega
      have hk0 : k > 0 := by omega
      have hB2 : 0 < counters_get a.second k := hB
      simp only [ej, hm, hk0, hB2, and_self, if_true]
      split <;> omega
    · simp [ej]
  · have hB2 : ¬ 0 < counters_get a.second k := hB
    simp only [hB, hB2, if_false, counters_set_get, and_false, gt_iff_lt, lt_self_iff_false]

theorem intersect_itemfunc_first_keys (a : duo) (k v j : Int) (hk : 1 ≤ k) (hv : 1 ≤ v) :
    j ∈ counters_keys (intersect_itemfunc a k v).first
      ↔ j ∈ counters_keys a.first ∨ (j = k ∧ 0 < counters_get a.second k) := by
  unfold intersect_itemfunc
  by_cases hB : counters_get a.second k > 0
  · have hm : (if counters_get a.second k < v then counters_get a.second k else v) > 0 := by
      split <;> omega
    have hk0 : k > 0 := by omega
    have hB2 : 0 < counters_get a.second k := hB
    simp only [hB, if_true, counters_set_keys, hm, hk0, hB2, and_self, and_true]
  · have hB2 : ¬ 0 < counters_get a.second k := hB
    simp only [hB, hB2, if_false, counters_set_keys, and_false, gt_iff_lt, lt_self_iff_false]

theorem intersect_itemfunc_first_postingSet (a : duo) (k v : Int) (h : PostingSet a.first) :
    PostingSet (intersect_itemfunc a k v).first := by
  simp only [intersect_itemfunc]
  split
  · exact counters_set_postingSet _ _ _ h
  · exact counters_set_postingSet _ _ _ h

theorem intersect_iterate_second (r : counters) (a : duo) :
    (counters_iterate r a intersect_itemfunc).second = a.second := by
  induction r generalizing a with
  | nil => rfl
  | cons n rest ih =>
    rw [counters_iterate_cons, ih, intersect_itemfunc_second]

theorem intersect_iterate_postingSet (r : counters) (a : duo) (h : PostingSet a.first) :
    PostingSet (counters_iterate r a intersect_itemfunc).first := by
  induction r generalizing a with
  | nil => exact h
  | cons n rest ih =>
    rw [counters_iterate_cons]
    exact ih _ (intersect_itemfunc_first_postingSet a n.1 n.2 h)

theorem intersect_iterate_keys (r : counters) (a : duo)
    (hr : ∀ n ∈ r, 1 ≤ n.1 ∧ 1 ≤ n.2) (j : Int) :
    j ∈ counters_keys (counters_iterate r a intersect_itemfunc).first
      ↔ j ∈ counters_keys a.first ∨ (j ∈ counters_keys r ∧ 0 < counters_get a.second j) := by
  induction r generalizing a with
  | nil => simp [counters_iterate_nil, counters_keys]
  | cons n rest ih =>
    have hn := hr n (List.mem_cons_self _ _)
    rw [counters_iterate_cons, ih _ (fun m hm => hr m (List.mem_cons_of_mem _ hm)),
      intersect_itemfunc_first_keys a n.1 n.2 j hn.1 hn.2, intersect_itemfunc_second]
    simp only [counters_keys, List.map_cons, List.mem_cons]
    constructor
    · rintro ((h | ⟨h1, h2⟩) | ⟨h1, h2⟩)
      · exact Or.inl h
      · subst h1; exact Or.inr ⟨Or.inl rfl, h2⟩
      · exact Or.inr ⟨Or.inr h1, h2⟩
    · rintro (h | ⟨h1 | h1, h2⟩)
      · exact Or.inl (Or.inl h)
      · subst h1; exact Or.inl (Or.inr ⟨rfl, h2⟩)
      · exact Or.inr ⟨h1, h2⟩

theorem intersect_iterate_get (r : counters) (a : duo) (hr : PostingSet r) (j : Int) :
    counters_get (counters_iterate r a intersect_itemfunc).first j
      = if j ∈ counters_keys r ∧ 0 < counters_get a.second j
        then min (counters_get a.second j) (counters_get r j)
        else counters_get a.first j := by
  induction r generalizing a with
  | nil => simp [counters_iterate_nil, counters_keys]
  | cons n rest ih =>
    have hn := hr.2 n (List.mem_cons_self _ _)
    have hnot := postingSet_head_not_mem n rest hr
    rw [counters_iterate_cons, ih _ (postingSet_tail n rest hr),
      intersect_itemfunc_first_get a n.1 n.2 j hn.1 hn.2, intersect_itemfunc_second]
    by_cases ej : j = n.1
    · subst ej
      have h1 : n.1 ∈ counters_keys (n :: rest) := by simp [counters_keys]
      simp only [hnot, false_and, if_false, true_and, h1, counters_get_cons_self]
    · have h1 : j ∈ counters_keys (n :: rest) ↔ j ∈ counters_keys rest := by
        simp [counters_keys, ej]
      simp only [ej, false_and, if_false, h1, counters_get_cons_ne n rest j ej]

theorem intersect_iterate_get_min (A B : counters) (hA : PostingSet A) (hB : PostingSet B)
    (k : Int) :
    counters_get (counters_iterate A { first := counters_new, second := B }
        intersect_itemfunc).first k
      = min (counters_get A k) (counters_get B k) := by
  rw [intersect_iterate_get A _ hA k]
  have hB0 := counters_get_nonneg B k (fun n hn => (hB.2 n hn).2)
  have hA0 := counters_get_nonneg A k (fun n hn => (hA.2 n hn).2)
  by_cases hk : k ∈ counters_keys A ∧ 0 < counters_get B k
  · simp only [hk, and_self, if_true]
    exact min_comm _ _
  · simp only [hk, if_false, counters_new, counters_get]
    by_cases hkA : k ∈ counters_keys A
    · have : counters_get B k = 0 := by
        have hn : ¬ 0 < counters_get B k := fun h => hk ⟨hkA, h⟩
        omega
      rw [this]; omega
    · rw [counters_get_of_not_mem A k hkA]; omega

/-! ### myUnion -/

theorem int_wrap_of_range (x : Int) (h0 : -2147483648 ≤ x) (h1 : x ≤ INT_MAX) :
    int_wrap x = x := by
  unfold int_wrap
  unfold INT_MAX at h1
  omega

theorem int_wrap_range (x : Int) : -2147483648 ≤ int_wrap x ∧ int_wrap x ≤ INT_MAX := by
  unfold int_wrap INT_MAX
  omega

theorem union_itemfunc_get (r : counters) (k v j : Int) (hk : 1 ≤ k) (hv : 1 ≤ v)
    (hr : ∀ n ∈ r, 1 ≤ n.2) (hb : v + counters_get r k ≤ INT_MAX) :
    counters_get (union_itemfunc r k v) j
      = if j = k then v + counters_get r k else counters_get r j := by
  unfold union_itemfunc
  have h0 := counters_get_nonneg r k hr
  have h1 : k > 0 := by omega
  have h2 : v + counters_get r k > 0 := by omega
  simp only [counters_set_get, int_wrap_of_range _ (show -2147483648 ≤ v + counters_get r k by omega) hb,
    h1, h2, and_self, and_true]

theorem union_itemfunc_get_ne (r : counters) (k v j : Int) (hj : j ≠ k) :
    counters_get (union_itemfunc r k v) j = counters_get r j := by
  unfold union_itemfunc
  simp only [counters_set_get, hj, false_and, if_false]

theorem union_itemfunc_keys (r : counters) (k v j : Int) (hk : 1 ≤ k) (hv : 1 ≤ v)
    (hv2 : v ≤ INT_MAX) :
    j ∈ counters_keys (union_itemfunc r k v) ↔ j ∈ counters_keys r ∨ j = k := by
  unfold union_itemfunc
  simp only [counters_set_keys]
  by_cases hm : k ∈ counters_keys r
  · constructor
    · rintro (h | ⟨h, _⟩)
      · exact Or.inl h
      · exact Or.inr h
    · rintro (h | h)
      · exact Or.inl h
      · left; rw [h]; exact hm
  · rw [counters_get_of_not_mem r k hm, add_zero, int_wrap_of_range v (by omega) hv2]
    have h1 : k > 0 := by omega
    have h2 : v > 0 := by omega
    simp only [h1, h2, and_self, and_true]

theorem union_itemfunc_postingSet (r : counters) (k v : Int) (h : PostingSet r) :
    PostingSet (union_itemfunc r k v) :=
  counters_set_postingSet _ _ _ h

theorem union_iterate_postingSet (t r : counters) (h : PostingSet r) :
    PostingSet (counters_iterate t r union_itemfunc) := by
  induction t generalizing r with
  | nil => exact h
  | cons n rest ih =>
    rw [counters_iterate_cons]
    exact ih _ (union_itemfunc_postingSet r n.1 n.2 h)

theorem union_iterate_keys (t r : counters)
    (ht : ∀ n ∈ t, 1 ≤ n.1 ∧ 1 ≤ n.2 ∧ n.2 ≤ INT_MAX) (j : Int) :
    j ∈ counters_keys (counters_iterate t r union_itemfunc)
      ↔ j ∈ counters_keys r ∨ j ∈ counters_keys t := by
  induction t generalizing r with
  | nil => simp [counters_iterate_nil, counters_keys]
  | cons n rest ih =>
    have hn := ht n (List.mem_cons_self _ _)
    rw [counters_iterate_cons, ih _ (fun m hm => ht m (List.mem_cons_of_mem _ hm)),
      union_itemfunc_keys r n.1 n.2 j hn.1 hn.2.1 hn.2.2]
    simp only [counters_keys, List.map_cons, List.mem_cons]
    tauto

theorem union_iterate_get (t r : counters) (ht : PostingSet t) (hr : PostingSet r) (j : Int)
    (hb : counters_get r j + counters_get t j ≤ INT_MAX) :
    counters_get (counters_iterate t r union_itemfunc) j
      = counters_get r j + counters_get t j := by
  induction t generalizing r with
  | nil => simp [counters_iterate_nil, counters_get]
  | cons n rest ih =>
    have hn := ht.2 n (List.mem_cons_self _ _)
    have hnot := postingSet_head_not_mem n rest ht
    rw [counters_iterate_cons]
    by_cases ej : j = n.1
    · subst ej
      rw [counters_get_cons_self] at hb
      have hg := union_itemfunc_get r n.1 n.2 n.1 hn.1 hn.2 (fun m hm => (hr.2 m hm).2)
        (by omega)
      rw [if_pos rfl] at hg
      rw [ih _ (postingSet_tail n rest ht) (union_itemfunc_postingSet r n.1 n.2 hr)
        (by rw [hg, counters_get_of_not_mem rest n.1 hnot]; omega), hg,
        counters_get_of_not_mem rest n.1 hnot, counters_get_cons_self]
      omega
    · rw [counters_get_cons_ne n rest j ej] at hb
      have hg := union_itemfunc_get_ne r n.1 n.2 j ej
      rw [ih _ (postingSet_tail n rest ht) (union_itemfunc_postingSet r n.1 n.2 hr)
        (by rw [hg]; exact hb), hg, counters_get_cons_ne n rest j ej]

/-! ## Lemmas on the character functions -/

theorem toNat_ofNat_upper_shift (n : Nat) (h1 : 65 ≤ n) (h2 : n ≤ 90) :
    (Char.ofNat (n + 32)).toNat = n + 32 := by
  interval_cases n <;> rfl

theorem tolower_toNat (c : Char) :
    (tolower c).toNat = if 65 ≤ c.toNat ∧ c.toNat ≤ 90 then c.toNat + 32 else c.toNat := by
  unfold tolower
  split
  · next h => exact toNat_ofNat_upper_shift c.toNat h.1 h.2
  · rfl

theorem isalpha_tolower (c : Char) : isalpha (tolower c) = isalpha c := by
  simp only [isalpha, tolower_toNat]
  by_cases h : 65 ≤ c.toNat ∧ c.toNat ≤ 90
  · simp only [h, and_self, if_true]
    have h1 := h.1
    have h2 := h.2
    simp [h1, h2]
  · simp only [h, if_false]

theorem char_eq_of_toNat_eq (a b : Char) (h : a.toNat = b.toNat) : a = b := by
  have := congrArg Char.ofNat h
  simpa using this

theorem tolower_tolower (c : Char) : tolower (tolower c) = tolower c := by
  apply char_eq_of_toNat_eq
  rw [tolower_toNat (tolower c), tolower_toNat c]
  by_cases h : 65 ≤ c.toNat ∧ c.toNat ≤ 90
  · have h2 : ¬ (65 ≤ c.toNat + 32 ∧ c.toNat + 32 ≤ 90) := by omega
    simp only [h, and_self, if_true, h2, if_false]
  · simp only [h, if_false]

theorem isspace_not_isalpha (c : Char) (h : isspace c = true) : isalpha c = false := by
  simp only [isspace, isalpha, Bool.or_eq_true, decide_eq_true_eq, Bool.and_eq_true,
    Bool.or_eq_false_iff, Bool.and_eq_false_iff, decide_eq_false_iff_not] at *
  omega

/-! ## Lemmas on tokenize -/

theorem endsWithOperator_append_singleton (cs : List cstring) (w : cstring) :
    endsWithOperator (cs ++ [w]) = isOperator w := by
  induction cs with
  | nil => rfl
  | cons a rest ih =>
    cases rest with
    | nil => simp [endsWithOperator]
    | cons b rest2 =>
      simp only [List.cons_append] at ih ⊢
      simp only [endsWithOperator]
      exact ih

theorem hasAdjacentOperators_append_singleton (cs : List cstring) (w : cstring) :
    hasAdjacentOperators (cs ++ [w])
      = (hasAdjacentOperators cs || (endsWithOperator cs && isOperator w)) := by
  induction cs with
  | nil => simp [hasAdjacentOperators, endsWithOperator]
  | cons a rest ih =>
    cases rest with
    | nil => simp [hasAdjacentOperators, endsWithOperator]
    | cons b rest2 =>
      simp only [List.cons_append] at ih ⊢
      simp only [hasAdjacentOperators, endsWithOperator, ih, Bool.or_assoc]

theorem beginsWithOperator_append_singleton (cs : List cstring) (w : cstring) :
    beginsWithOperator (cs ++ [w])
      = (beginsWithOperator cs || (cs.isEmpty && isOperator w)) := by
  cases cs with
  | nil => simp [beginsWithOperator]
  | cons a rest => simp [beginsWithOperator]

theorem endsWithOperator_eq_getD (ws : List cstring) :
    endsWithOperator ws
      = (decide (ws.length > 0) && isOperator (ws.getD (ws.length - 1) [])) := by
  rcases List.eq_nil_or_concat ws with h | ⟨cs, w, h⟩
  · subst h; rfl
  · subst h
    rw [List.concat_eq_append, endsWithOperator_append_singleton]
    simp [List.getD_eq_getElem?_getD]

theorem getD_append_at_length {α : Type} (l : List α) (a : α) (rest : List α) (d : α) :
    (l ++ a :: rest).getD l.length d = a := by
  induction l with
  | nil => rfl
  | cons b l ih => simpa using ih

theorem getD_append_at_length_succ {α : Type} (l : List α) (a b : α) (rest : List α) (d : α) :
    (l ++ a :: b :: rest).getD (l.length + 1) d = b := by
  induction l with
  | nil => rfl
  | cons c l ih => simpa using ih

theorem operatorMisplaced_append_singleton (cs : List cstring) (w : cstring) :
    operatorMisplaced (cs ++ [w])
      = ((endsWithOperator cs && isOperator w) || (cs.isEmpty && isOperator w)) := by
  unfold operatorMisplaced
  rcases List.eq_nil_or_concat cs with h | ⟨ds, v, h⟩
  · subst h
    simp [endsWithOperator]
  · subst h
    rw [List.concat_eq_append, endsWithOperator_append_singleton]
    have e : ds ++ [v] ++ [w] = ds ++ v :: w :: [] := by simp
    have l1 : (ds ++ v :: w :: []).length - 1 = ds.length + 1 := by simp
    have l2 : (ds ++ v :: w :: []).length - 2 = ds.length := by simp
    have l3 : (ds ++ v :: w :: []).length > 1 := by simp
    have l4 : ¬ (ds ++ v :: w :: []).length = 1 := by simp
    simp only [e, l1, l2, l3, l4, getD_append_at_length, getD_append_at_length_succ,
      decide_True, decide_False, Bool.true_and, Bool.false_and, Bool.or_false]
    simp [Bool.and_comm]

theorem extendLast_ne_nil (ws : List cstring) (c : Char) (h : ws ≠ []) :
    extendLast ws c ≠ [] := by
  cases ws with
  | nil => exact absurd rfl h
  | cons a rest =>
    cases rest with
    | nil => simp [extendLast]
    | cons b rest2 => simp [extendLast]

theorem dropLast_extendLast (ws : List cstring) (c : Char) :
    (extendLast ws c).dropLast = ws.dropLast := by
  induction ws with
  | nil => rfl
  | cons a rest ih =>
    cases rest with
    | nil => rfl
    | cons b rest2 =>
      simp only [extendLast, List.dropLast_cons₂]
      rw [List.dropLast_cons_of_ne_nil (extendLast_ne_nil _ _ (by simp)), ih]

theorem extendLast_append_singleton (ws : List cstring) (w : cstring) (c : Char) :
    extendLast (ws ++ [w]) c = ws ++ [w ++ [c]] := by
  induction ws with
  | nil => rfl
  | cons a rest ih =>
    cases rest with
    | nil => rfl
    | cons b rest2 =>
      simp only [List.cons_append] at ih ⊢
      simp only [extendLast, ih]

theorem tokenInv_post (st : TokenState) (h : TokenInv st) : TokenPost st := by
  obtain ⟨hne, hv⟩ := h
  unfold TokenPost
  by_cases hw : st.inWord = true
  · rcases List.eq_nil_or_concat st.words with e | ⟨cs, w, e⟩
    · exact absurd e (hne hw)
    · rw [List.concat_eq_append] at e
      simp only [completedWords, hw, if_true, e, List.dropLast_concat] at hv
      rw [e, beginsWithOperator_append_singleton, hasAdjacentOperators_append_singleton,
        endsWithOperator_append_singleton, hv]
      cases beginsWithOperator cs <;> cases hasAdjacentOperators cs <;>
        cases isOperator w <;> cases endsWithOperator cs <;> cases cs.isEmpty <;> simp
  · have hw2 : st.inWord = false := by simpa using hw
    simp only [completedWords, hw2, Bool.false_eq_true, if_false] at hv
    rw [hv]
    cases beginsWithOperator st.words <;> cases hasAdjacentOperators st.words <;>
      cases endsWithOperator st.words <;> simp

theorem tokenInv_step (st : TokenState) (ch : Char) (h : TokenInv st)
    (hb : (tokenize_step st ch).2 = false) : TokenInv (tokenize_step st ch).1 := by
  obtain ⟨hne, hv⟩ := h
  unfold tokenize_step at hb ⊢
  by_cases ha : isalpha (tolower ch) = true
  · by_cases hw : st.inWord = true
    · simp only [ha, hw, if_true, Bool.not_true, Bool.false_eq_true, if_false]
      refine ⟨fun _ => extendLast_ne_nil _ _ (hne hw), ?_⟩
      simp only [completedWords, hw, if_true, dropLast_extendLast] at hv ⊢
      exact hv
    · have hw2 : st.inWord = false := by simpa using hw
      by_cases hn : st.numWords < MAX_WORDS
      · simp only [ha, hw2, hn, if_true, Bool.not_false]
        refine ⟨fun _ => by simp, ?_⟩
        simp only [completedWords, hw2, Bool.false_eq_true, if_false, if_true,
          List.dropLast_concat] at hv ⊢
        exact hv
      · simp [ha, hw2, hn] at hb
  · have ha2 : isalpha (tolower ch) = false := by simpa using ha
    by_cases hw : st.inWord = true
    · rcases List.eq_nil_or_concat st.words with e | ⟨cs, w, e⟩
      · exact absurd e (hne hw)
      · rw [List.concat_eq_append] at e
        simp only [completedWords, hw, if_true, e, List.dropLast_concat] at hv
        simp only [ha2, hw, Bool.false_eq_true, if_false, if_true, e,
          operatorMisplaced_append_singleton]
        by_cases hm : (endsWithOperator cs && isOperator w || cs.isEmpty && isOperator w) = true
        · simp only [hm, if_true]
          refine ⟨fun h => by simp at h, ?_⟩
          simp only [completedWords, Bool.false_eq_true, if_false, e,
            beginsWithOperator_append_singleton, hasAdjacentOperators_append_singleton, true_iff]
          revert hm
          cases beginsWithOperator cs <;> cases hasAdjacentOperators cs <;>
            cases isOperator w <;> cases endsWithOperator cs <;> cases cs.isEmpty <;> simp
        · simp only [hm, if_false]
          refine ⟨fun h => by simp at h, ?_⟩
          simp only [completedWords, Bool.false_eq_true, if_false, e,
            beginsWithOperator_append_singleton, hasAdjacentOperators_append_singleton, hv]
          revert hm
          cases beginsWithOperator cs <;> cases hasAdjacentOperators cs <;>
            cases isOperator w <;> cases endsWithOperator cs <;> cases cs.isEmpty <;> simp
    · have hw2 : st.inWord = false := by simpa using hw
      simp only [ha2, hw2, Bool.false_eq_true, if_false]
      exact ⟨hne, hv⟩

theorem tokenPost_break (st : TokenState) (ch : Char) (h : TokenInv st)
    (hb : (tokenize_step st ch).2 = true) : TokenPost (tokenize_step st ch).1 := by
  have hp := tokenInv_post st h
  obtain ⟨hne, hv⟩ := h
  unfold tokenize_step at hb ⊢
  by_cases ha : isalpha (tolower ch) = true
  · by_cases hw : st.inWord = true
    · simp [ha, hw] at hb
    · have hw2 : st.inWord = false := by simpa using hw
      by_cases hn : st.numWords < MAX_WORDS
      · simp [ha, hw2, hn] at hb
      · simp only [ha, hw2, hn, if_true, if_false, Bool.not_false]
        exact hp
  · have ha2 : isalpha (tolower ch) = false := by simpa using ha
    by_cases hw : st.inWord = true
    · by_cases hm : operatorMisplaced st.words = true
      · simp [ha2, hw, hm] at hb
      · simp [ha2, hw, hm] at hb
    · have hw2 : st.inWord = false := by simpa using hw
      simp [ha2, hw2] at hb

theorem tokenize_loop_post (q : cstring) (st : TokenState) (h : TokenInv st) :
    TokenPost (tokenize_loop q st) := by
  induction q generalizing st with
  | nil => exact tokenInv_post st h
  | cons ch rest ih =>
    simp only [tokenize_loop]
    by_cases hb : (tokenize_step st ch).2 = true
    · simp only [hb, if_true]
      exact tokenPost_break st ch h hb
    · have hb2 : (tokenize_step st ch).2 = false := by simpa using hb
      simp only [hb2, Bool.false_eq_true, if_false]
      exact ih _ (tokenInv_step st ch h hb2)

theorem tokenize_words (q : cstring) :
    (tokenize q).words
      = (tokenize_loop q { words := [], isValid := true, inWord := false }).words := by
  unfold tokenize
  simp only []
  split <;> rfl

theorem tokenize_isValid_iff (q : cstring) :
    (tokenize q).isValid = false ↔
      (beginsWithOperator (tokenize q).words = true ∨ endsWithOperator (tokenize q).words = true
        ∨ hasAdjacentOperators (tokenize q).words = true) := by
  have hinit : TokenInv { words := [], isValid := true, inWord := false } := by
    refine ⟨fun h => by simp at h, ?_⟩
    simp [completedWords, beginsWithOperator, hasAdjacentOperators]
  have hp := tokenize_loop_post q _ hinit
  rw [tokenize_words]
  unfold TokenPost at hp
  rw [← hp]
  unfold tokenize
  simp only [TokenState.numWords]
  rw [endsWithOperator_eq_getD]
  generalize tokenize_loop q { words := [], isValid := true, inWord := false } = st
  by_cases hb : (decide (st.words.length > 0)
    && isOperator (st.words.getD (st.words.length - 1) [])) = true
  · rw [if_pos hb]; exact ⟨fun _ => Or.inr hb, fun _ => rfl⟩
  · rw [if_neg hb]; exact ⟨fun h => Or.inl h, fun h => h.elim id (fun h2 => absurd h2 hb)⟩

/-! ### The tokens are the first `MAX_WORDS` alphabetic runs -/

theorem tokenize_step_tolower (st : TokenState) (ch : Char) :
    tokenize_step st (tolower ch) = tokenize_step st ch := by
  unfold tokenize_step
  rw [tolower_tolower]

theorem tokenize_loop_normalize (q : cstring) (st : TokenState) :
    tokenize_loop (normalize q) st = tokenize_loop q st := by
  induction q generalizing st with
  | nil => rfl
  | cons ch rest ih =>
    simp only [normalize, List.map_cons, tokenize_loop, tokenize_step_tolower]
    split
    · rfl
    · exact ih _

theorem tokenize_normalize (q : cstring) : tokenize (normalize q) = tokenize q := by
  unfold tokenize
  rw [tokenize_loop_normalize]

theorem filter_nonempty_cons_of_ne_nil (w : cstring) (l : List cstring) (h : w ≠ []) :
    (w :: l).filter (fun w => !w.isEmpty) = w :: l.filter (fun w => !w.isEmpty) := by
  have : (!w.isEmpty) = true := by
    cases w with
    | nil => exact absurd rfl h
    | cons a t => rfl
  simp [List.filter_cons, this]

theorem tokenize_loop_words (q : cstring) (st : TokenState) (hlen : st.words.length ≤ MAX_WORDS) :
    (st.inWord = false →
      (tokenize_loop q st).words
        = (st.words ++ (List.splitOnP.go (fun c => !isalpha c) (normalize q) []).filter
            (fun w => !w.isEmpty)).take MAX_WORDS) ∧
    (∀ ws cur, st.inWord = true → st.words = ws ++ [cur] → cur ≠ [] →
      (tokenize_loop q st).words
        = (ws ++ (List.splitOnP.go (fun c => !isalpha c) (normalize q) cur.reverse).filter
            (fun w => !w.isEmpty)).take MAX_WORDS) := by
  induction q generalizing st with
  | nil =>
    constructor
    · intro _
      simp only [tokenize_loop, normalize, List.map_nil, List.splitOnP.go, List.reverse_nil]
      simp [List.take_of_length_le hlen]
    · intro ws cur _ hw hcur
      simp only [tokenize_loop, normalize, List.map_nil, List.splitOnP.go, List.reverse_reverse]
      rw [filter_nonempty_cons_of_ne_nil cur [] hcur]
      simp only [List.filter_nil]
      rw [← hw, List.take_of_length_le hlen]
  | cons ch rest ih =>
    by_cases ha : isalpha (tolower ch) = true
    · constructor
      · intro hin
        by_cases hn : st.numWords < MAX_WORDS
        · have hstep : tokenize_step st ch
              = ({ st with inWord := true, words := st.words ++ [[tolower ch]] }, false) := by
            simp [tokenize_step, ha, hin, hn]
          simp only [tokenize_loop, hstep, Bool.false_eq_true, if_false]
          have hlen2 : (st.words ++ [[tolower ch]]).length ≤ MAX_WORDS := by
            simp only [List.length_append, List.length_singleton]
            exact hn
          have := (ih { st with inWord := true, words := st.words ++ [[tolower ch]] } hlen2).2
            st.words [tolower ch] rfl rfl (by simp)
          rw [this]
          simp [normalize, List.splitOnP.go, ha]
        · have hstep : tokenize_step st ch = ({ st with inWord := true }, true) := by
            simp [tokenize_step, ha, hin, hn]
          simp only [tokenize_loop, hstep, if_true]
          have hl : st.words.length = MAX_WORDS := by
            simp only [TokenState.numWords] at hn
            omega
          rw [List.take_append_of_le_length (le_of_eq hl.symm), List.take_of_length_le hlen]
      · intro ws cur hin hw hcur
        have hstep : tokenize_step st ch
            = ({ st with words := extendLast st.words (tolower ch) }, false) := by
          simp [tokenize_step, ha, hin]
        simp only [tokenize_loop, hstep, Bool.false_eq_true, if_false]
        have hext : extendLast st.words (tolower ch) = ws ++ [cur ++ [tolower ch]] := by
          rw [hw, extendLast_append_singleton]
        have hlen2 : (extendLast st.words (tolower ch)).length ≤ MAX_WORDS := by
          rw [hext]; rw [hw] at hlen; simpa using hlen
        have := (ih { st with words := extendLast st.words (tolower ch) } hlen2).2
          ws (cur ++ [tolower ch]) hin hext (by simp)
        rw [this]
        simp [normalize, List.splitOnP.go, ha]
    · have ha2 : isalpha (tolower ch) = false := by simpa using ha
      constructor
      · intro hin
        have hstep : tokenize_step st ch = (st, false) := by
          simp [tokenize_step, ha2, hin]
        simp only [tokenize_loop, hstep, Bool.false_eq_true, if_false]
        rw [(ih st hlen).1 hin]
        simp [normalize, List.splitOnP.go, ha2]
      · intro ws cur hin hw hcur
        have hstep : (tokenize_step st ch).2 = false
            ∧ (tokenize_step st ch).1.words = st.words
            ∧ (tokenize_step st ch).1.inWord = false := by
          simp only [tokenize_step, ha2, hin, Bool.false_eq_true, if_false, if_true]
          split <;> simp
        obtain ⟨h1, h2, h3⟩ := hstep
        simp only [tokenize_loop, h1, Bool.false_eq_true, if_false]
        rw [((ih (tokenize_step st ch).1 (by rw [h2]; exact hlen)).1 h3), h2, hw]
        simp only [normalize, List.map_cons, List.splitOnP.go, ha2, Bool.not_false, if_true,
          List.reverse_reverse]
        rw [filter_nonempty_cons_of_ne_nil cur _ hcur]
        simp

theorem splitOnP_go_normalize (q acc : cstring) :
    List.splitOnP.go (fun c => !isalpha c) (normalize q) (normalize acc)
      = (List.splitOnP.go (fun c => !isalpha c) q acc).map normalize := by
  induction q generalizing acc with
  | nil => simp [normalize, List.splitOnP.go, List.map_reverse]
  | cons ch rest ih =>
    simp only [normalize, List.map_cons, List.splitOnP.go, isalpha_tolower]
    split
    · have := ih []
      simp only [normalize, List.map_nil] at this
      simp only [List.map_cons, List.map_reverse, this, normalize]
    · have := ih (ch :: acc)
      simp only [normalize, List.map_cons] at this
      exact this

theorem alphaRuns_normalize (q : cstring) :
    alphaRuns (normalize q) = (alphaRuns q).map normalize := by
  unfold alphaRuns List.splitOnP
  have := splitOnP_go_normalize q []
  simp only [normalize, List.map_nil] at this
  simp only [normalize] at *
  rw [this, List.filter_map]
  congr 1
  apply List.filter_congr
  intro w _
  cases w <;> rfl

theorem tokenize_words_eq (q : cstring) :
    (tokenize q).words = ((alphaRuns q).map normalize).take MAX_WORDS := by
  rw [tokenize_words, ← alphaRuns_normalize]
  have := (tokenize_loop_words q { words := [], isValid := true, inWord := false }
    (by simp)).1 rfl
  rw [this]
  simp [alphaRuns, List.splitOnP]

/-! ## Lemmas on set and hashtable -/

theorem set_any_eq_isSome {α : Type} (s : set_t α) (key : cstring) :
    s.any (fun node => node.1 == key) = (set_find s key).isSome := by
  induction s with
  | nil => rfl
  | cons n rest ih =>
    simp only [List.any_cons, set_find, ih]
    by_cases h : n.1 = key
    · simp [h]
    · simp [h]

theorem set_find_eq_none_iff {α : Type} (s : set_t α) (key : cstring) :
    set_find s key = none ↔ key ∉ s.map Prod.fst := by
  induction s with
  | nil => simp [set_find]
  | cons n rest ih =>
    simp only [set_find, List.map_cons, List.mem_cons, not_or]
    by_cases h : n.1 = key
    · simp only [h, if_true]
      constructor
      · intro h1; exact Option.noConfusion h1
      · intro h1; exact absurd trivial h1.1
    · have h2 : ¬ key = n.1 := fun e => h e.symm
      simp only [h, if_false, ih, h2, not_false_eq_true, true_and]

theorem set_find_insert {α : Type} (s : set_t α) (key : cstring) (item : α) (k : cstring) :
    set_find (set_insert s key item).1 k
      = if k = key then (match set_find s key with
          | some old => some old
          | none => some item)
        else set_find s k := by
  unfold set_insert
  rw [set_any_eq_isSome]
  cases hf : set_find s key with
  | none =>
    simp only [Option.isSome_none, Bool.false_eq_true, if_false, set_find]
    by_cases hk : k = key
    · simp [hk]
    · have hk2 : ¬ key = k := fun e => hk e.symm
      simp [hk, hk2]
  | some old =>
    simp only [Option.isSome_some, if_true]
    by_cases hk : k = key
    · simp [hk, hf]
    · simp [hk]

theorem set_insert_snd {α : Type} (s : set_t α) (key : cstring) (item : α) :
    (set_insert s key item).2 = (set_find s key).isNone := by
  unfold set_insert
  rw [set_any_eq_isSome]
  cases set_find s key <;> simp

theorem set_find_store {α : Type} (s : set_t α) (key : cstring) (item : α) (k : cstring) :
    set_find (set_store s key item) k
      = if k = key then (set_find s key).map (fun _ => item) else set_find s k := by
  induction s with
  | nil => simp [set_store, set_find]
  | cons n rest ih =>
    simp only [set_store]
    by_cases h : n.1 = key
    · simp only [h, if_true, set_find]
      by_cases hk : k = key
      · simp [hk]
      · have hk2 : ¬ key = k := fun e => hk e.symm
        simp [hk, hk2]
    · simp only [h, if_false, set_find, ih]
      by_cases hk : k = key
      · subst hk; simp [h]
      · simp only [hk, if_false]

theorem set_store_keys {α : Type} (s : set_t α) (key : cstring) (item : α) :
    (set_store s key item).map Prod.fst = s.map Prod.fst := by
  induction s with
  | nil => rfl
  | cons n rest ih =>
    simp only [set_store]
    split
    · simp
    · simp [ih]

theorem getD_set_self {α : Type} (l : List α) (i : Nat) (a d : α) (h : i < l.length) :
    (l.set i a).getD i d = a := by
  simp [List.getD_eq_getElem?_getD, List.getElem?_set, h]

theorem getD_set_ne {α : Type} (l : List α) (i j : Nat) (a d : α) (h : i ≠ j) :
    (l.set i a).getD j d = l.getD j d := by
  simp [List.getD_eq_getElem?_getD, List.getElem?_set, h]

theorem hashtable_find_insert {α : Type} (hash : cstring → Nat) (ht : hashtable_t α)
    (hlen : 0 < ht.table.length) (key : cstring) (item : α) (k : cstring) :
    hashtable_find hash (hashtable_insert hash ht key item).1 k
      = if k = key then (match hashtable_find hash ht key with
          | some old => some old
          | none => some item)
        else hashtable_find hash ht k := by
  unfold hashtable_find hashtable_insert
  simp only [List.length_set]
  by_cases hs : hash key % ht.table.length = hash k % ht.table.length
  · rw [← hs, getD_set_self _ _ _ _ (Nat.mod_lt _ hlen), set_find_insert]
  · rw [getD_set_ne _ _ _ _ _ hs]
    have hk : ¬ k = key := fun e => hs (by rw [e])
    simp only [hk, if_false]

theorem hashtable_insert_snd {α : Type} (hash : cstring → Nat) (ht : hashtable_t α)
    (key : cstring) (item : α) :
    (hashtable_insert hash ht key item).2 = (hashtable_find hash ht key).isNone := by
  unfold hashtable_find hashtable_insert
  simp only [set_insert_snd]

theorem hashtable_find_store {α : Type} (hash : cstring → Nat) (ht : hashtable_t α)
    (hlen : 0 < ht.table.length) (key : cstring) (item : α) (k : cstring) :
    hashtable_find hash (hashtable_store hash ht key item) k
      = if k = key then (hashtable_find hash ht key).map (fun _ => item)
        else hashtable_find hash ht k := by
  unfold hashtable_find hashtable_store
  simp only [List.length_set]
  by_cases hs : hash key % ht.table.length = hash k % ht.table.length
  · rw [← hs, getD_set_self _ _ _ _ (Nat.mod_lt _ hlen), set_find_store]
  · rw [getD_set_ne _ _ _ _ _ hs]
    have hk : ¬ k = key := fun e => hs (by rw [e])
    simp only [hk, if_false]

theorem hashtable_insert_length {α : Type} (hash : cstring → Nat) (ht : hashtable_t α)
    (key : cstring) (item : α) :
    (hashtable_insert hash ht key item).1.table.length = ht.table.length := by
  simp [hashtable_insert]

theorem hashtable_store_length {α : Type} (hash : cstring → Nat) (ht : hashtable_t α)
    (key : cstring) (item : α) :
    (hashtable_store hash ht key item).table.length = ht.table.length := by
  simp [hashtable_store]

theorem hashtable_find_new {α : Type} (hash : cstring → Nat) (n : Nat) (k : cstring) :
    hashtable_find hash (hashtable_new n : hashtable_t α) k = none := by
  unfold hashtable_find hashtable_new
  simp only [List.length_replicate]
  have : (List.replicate n (set_new : set_t α)).getD (hash k % n) set_new = set_new := by
    rw [List.getD_eq_getElem?_getD]
    by_cases h : hash k % n < n
    · simp [List.getElem?_replicate, h]
    · simp [List.getElem?_replicate, h]
  rw [this]
  rfl

/-! ### The index as a finite map -/

theorem index_new_length : 0 < index_new.ht.table.length := by
  show 0 < (List.replicate num_slots (set_new : set_t counters)).length
  rw [List.length_replicate]
  decide

theorem index_find_new (hash : cstring → Nat) (k : cstring) :
    index_find hash index_new k = none :=
  hashtable_find_new hash num_slots k

theorem counters_add_new (d : Int) (h : 0 ≤ d) :
    counters_add counters_new d = ([(d, 1)], 1) := by
  simp [counters_add, counters_new, h]

theorem index_add_length (hash : cstring → Nat) (index : index_t) (word : cstring) (d : Int) :
    (index_add hash index word d).1.ht.table.length = index.ht.table.length := by
  unfold index_add
  by_cases hd : d ≥ 0
  · simp only [hd, if_true]
    cases hashtable_find hash index.ht word with
    | some wordInfo => simp only [hashtable_store_length]
    | none =>
      simp only []
      split
      · split
        · simp only [hashtable_insert_length]
        · rfl
      · rfl
  · simp only [hd, if_false]

theorem index_find_add (hash : cstring → Nat) (index : index_t)
    (hlen : 0 < index.ht.table.length) (word : cstring) (d : Int) (k : cstring) :
    index_find hash (index_add hash index word d).1 k
      = if k = word ∧ 0 ≤ d then
          some (counters_add ((index_find hash index word).getD counters_new) d).1
        else index_find hash index k := by
  unfold index_add index_find
  by_cases hd : d ≥ 0
  · have hd2 : 0 ≤ d := hd
    simp only [hd, if_true, hd2, and_true]
    cases hf : hashtable_find hash index.ht word with
    | some wordInfo =>
      simp only [hashtable_find_store hash index.ht hlen, hf, Option.map_some', Option.getD_some]
    | none =>
      simp only [counters_add_new d hd2, Option.getD_none]
      have hins := hashtable_insert_snd hash index.ht word [(d, 1)]
      rw [hf] at hins
      simp only [Option.isNone_none] at hins
      simp only [gt_iff_lt, zero_lt_one, if_true, hins, hashtable_find_insert hash index.ht hlen, hf]
  · have hd2 : ¬ 0 ≤ d := hd
    simp only [hd, if_false, hd2, and_false]

theorem fileToIndex_entry_length (hash : cstring → Nat) (index : index_t) (word : cstring)
    (d c : Int) :
    (fileToIndex_entry hash index word d c).ht.table.length = index.ht.table.length := by
  unfold fileToIndex_entry
  split
  · simp [hashtable_insert_length]
  · simp [hashtable_store_length]

theorem index_find_fileToIndex_entry (hash : cstring → Nat) (index : index_t)
    (hlen : 0 < index.ht.table.length) (word : cstring) (d c : Int) (k : cstring) :
    index_find hash (fileToIndex_entry hash index word d c) k
      = if k = word then
          some (counters_set ((index_find hash index word).getD counters_new) d c).1
        else index_find hash index k := by
  unfold fileToIndex_entry
  cases hf : index_find hash index word with
  | none =>
    simp only [index_find] at hf ⊢
    simp only [hashtable_find_insert hash index.ht hlen, hf, Option.getD_none]
  | some wordInfo =>
    simp only [index_find] at hf ⊢
    simp only [hashtable_find_store hash index.ht hlen, hf, Option.map_some', Option.getD_some]

/-! ## Lemmas on score -/

theorem counters_copy_postingSet (src dst : counters) (h : PostingSet dst) :
    PostingSet (counters_copy src dst) := by
  unfold counters_copy
  induction src generalizing dst with
  | nil => exact h
  | cons n rest ih =>
    rw [counters_iterate_cons]
    exact ih _ (counters_set_postingSet dst n.1 n.2 h)

theorem counters_copy_get (src dst : counters) (hs : PostingSet src) (j : Int) :
    counters_get (counters_copy src dst) j
      = if j ∈ counters_keys src then counters_get src j else counters_get dst j := by
  unfold counters_copy
  induction src generalizing dst with
  | nil => simp [counters_iterate_nil, counters_keys]
  | cons n rest ih =>
    have hn := hs.2 n (List.mem_cons_self _ _)
    have hnot := postingSet_head_not_mem n rest hs
    rw [counters_iterate_cons, ih _ (postingSet_tail n rest hs), counters_set_get]
    have h1 : n.1 > 0 := by omega
    have h2 : n.2 > 0 := by omega
    by_cases ej : j = n.1
    · subst ej
      have hm : n.1 ∈ counters_keys (n :: rest) := by simp [counters_keys]
      simp only [hnot, if_false, h1, h2, and_self, if_true, hm, counters_get_cons_self]
    · have hm : j ∈ counters_keys (n :: rest) ↔ j ∈ counters_keys rest := by
        simp [counters_keys, ej]
      simp only [ej, false_and, if_false, hm, counters_get_cons_ne n rest j ej]

theorem counters_copy_new_get (src : counters) (hs : PostingSet src) (j : Int) :
    counters_get (counters_copy src counters_new) j = counters_get src j := by
  rw [counters_copy_get src _ hs j]
  split
  · rfl
  · next h => rw [counters_get_of_not_mem src j h]; rfl

theorem counters_sum_nonneg (c : counters) (h : ∀ n ∈ c, 0 ≤ n.2) :
    0 ≤ (c.map Prod.snd).sum := by
  apply List.sum_nonneg
  intro x hx
  obtain ⟨n, hn, rfl⟩ := List.mem_map.1 hx
  exact h n hn

theorem counters_empty_eq_sum (c : counters) (acc : Int) (h : ∀ n ∈ c, 0 ≤ n.2)
    (hacc : -2147483648 ≤ acc) (hb : acc + (c.map Prod.snd).sum ≤ INT_MAX) :
    counters_iterate c acc counters_additemfunc = acc + (c.map Prod.snd).sum := by
  induction c generalizing acc with
  | nil => simp [counters_iterate_nil]
  | cons n rest ih =>
    have hn := h n (List.mem_cons_self _ _)
    have hrest := counters_sum_nonneg rest (fun m hm => h m (List.mem_cons_of_mem _ hm))
    simp only [List.map_cons, List.sum_cons] at hb
    have hw : counters_additemfunc acc n.1 n.2 = acc + n.2 := by
      unfold counters_additemfunc
      exact int_wrap_of_range _ (by omega) (by omega)
    rw [counters_iterate_cons, hw, ih _ (fun m hm => h m (List.mem_cons_of_mem _ hm))
      (by omega) (by omega)]
    simp only [List.map_cons, List.sum_cons]
    omega

theorem sum_pos_of_postingSet (c : counters) (h : ∀ n ∈ c, 1 ≤ n.2) (hne : c ≠ []) :
    0 < (c.map Prod.snd).sum := by
  induction c with
  | nil => exact absurd rfl hne
  | cons n rest ih =>
    simp only [List.map_cons, List.sum_cons]
    have h1 := h n (List.mem_cons_self _ _)
    by_cases hr : rest = []
    · subst hr; simp; omega
    · have := ih (fun m hm => h m (List.mem_cons_of_mem _ hm)) hr
      omega

theorem counters_empty_eq_zero_iff (c : counters) (h : ∀ n ∈ c, 1 ≤ n.2)
    (hb : (c.map Prod.snd).sum ≤ INT_MAX) :
    counters_empty c = 0 ↔ c = [] := by
  unfold counters_empty
  rw [counters_empty_eq_sum c 0 (fun n hn => by have := h n hn; omega) (by omega) (by omega)]
  constructor
  · intro h0
    by_contra hne
    have := sum_pos_of_postingSet c h hne
    omega
  · intro hc
    subst hc
    simp

theorem counters_sum_eq_keys (c : counters) (hnd : (counters_keys c).Nodup) :
    (c.map Prod.snd).sum = ((counters_keys c).map (counters_get c)).sum := by
  induction c with
  | nil => rfl
  | cons n rest ih =>
    have hk : counters_keys (n :: rest) = n.1 :: counters_keys rest := rfl
    rw [hk] at hnd
    rw [hk, List.map_cons, List.map_cons, List.sum_cons, List.sum_cons,
      counters_get_cons_self, ih (List.nodup_cons.1 hnd).2]
    congr 2
    apply List.map_congr_left
    intro k hkm
    have hne : k ≠ n.1 := fun e => (List.nodup_cons.1 hnd).1 (e ▸ hkm)
    exact (counters_get_cons_ne n rest k hne).symm

theorem sum_map_le_of_subset (l1 l2 : List Int) (f : Int → Int) (hnd : l1.Nodup)
    (hsub : l1 ⊆ l2) (hf : ∀ x, 0 ≤ f x) : (l1.map f).sum ≤ (l2.map f).sum := by
  obtain ⟨l, hp, hs⟩ := List.subperm_of_subset hnd hsub
  rw [← (hp.map f).sum_eq]
  apply (hs.map f).sum_le_sum
  intro a ha
  obtain ⟨x, _, rfl⟩ := List.mem_map.1 ha
  exact hf x

theorem le_sum_map_of_mem (l : List Int) (f : Int → Int) (x : Int) (hx : x ∈ l)
    (hf : ∀ y, 0 ≤ f y) : f x ≤ (l.map f).sum := by
  have := sum_map_le_of_subset [x] l f (List.nodup_singleton x)
    (by intro y hy; rw [List.mem_singleton] at hy; rw [hy]; exact hx) hf
  simpa using this

theorem counters_get_le (c : counters) (k : Int) (b : Int) (hb : 0 ≤ b)
    (h : ∀ n ∈ c, n.2 ≤ b) : counters_get c k ≤ b := by
  induction c with
  | nil => exact hb
  | cons n rest ih =>
    by_cases e : k = n.1
    · rw [e, counters_get_cons_self]
      exact h n (List.mem_cons_self _ _)
    · rw [counters_get_cons_ne n rest k e]
      exact ih (fun m hm => h m (List.mem_cons_of_mem _ hm))

theorem clauseScore_append_singleton (hash : cstring → Nat) (index : index_t) (d : Int)
    (clause : List cstring) (t : cstring) :
    clauseScore hash index d (clause ++ [t])
      = if clause = [] then termCount hash index t d
        else min (clauseScore hash index d clause) (termCount hash index t d) := by
  cases clause with
  | nil => simp [clauseScore]
  | cons a rest => simp [clauseScore, List.foldl_append]

theorem termCount_nonneg (hash : cstring → Nat) (index : index_t) (hwf : IndexWF hash index)
    (t : cstring) (d : Int) : 0 ≤ termCount hash index t d := by
  unfold termCount
  cases hf : index_find hash index t with
  | none => simp
  | some c => exact counters_get_nonneg c d (fun n hn => ((hwf t c hf).2 n hn).2)

theorem foldl_min_termCount_nonneg (hash : cstring → Nat) (index : index_t)
    (hwf : IndexWF hash index) (d : Int) (ts : List cstring) (m : Int) (h0 : 0 ≤ m) :
    0 ≤ ts.foldl (fun m t1 => min m (termCount hash index t1 d)) m := by
  induction ts generalizing m with
  | nil => exact h0
  | cons u us ih =>
    rw [List.foldl_cons]
    exact ih _ (le_min h0 (termCount_nonneg hash index hwf u d))

theorem clauseScore_nonneg (hash : cstring → Nat) (index : index_t) (hwf : IndexWF hash index)
    (d : Int) (clause : List cstring) : 0 ≤ clauseScore hash index d clause := by
  cases clause with
  | nil => exact le_refl _
  | cons t ts =>
    exact foldl_min_termCount_nonneg hash index hwf d ts _ (termCount_nonneg hash index hwf t d)

theorem clauseScore_sum_nonneg (hash : cstring → Nat) (index : index_t)
    (hwf : IndexWF hash index) (d : Int) (cls : List (List cstring)) :
    0 ≤ (cls.map (fun cl => clauseScore hash index d
      (cl.filter (fun w => w != ['a', 'n', 'd'])))).sum := by
  apply List.sum_nonneg
  intro x hx
  obtain ⟨cl, _, rfl⟩ := List.mem_map.1 hx
  exact clauseScore_nonneg hash index hwf d _

theorem termCount_le (hash : cstring → Nat) (index : index_t) (hint : IndexInt hash index)
    (t : cstring) (d : Int) : termCount hash index t d ≤ INT_MAX := by
  unfold termCount
  cases hf : index_find hash index t with
  | none => exact (by decide : (0 : Int) ≤ INT_MAX)
  | some c => exact counters_get_le c d INT_MAX (by decide) (hint t c hf)

theorem myUnion_some_resultCount (o : counters) (a : Option counters) (ho : PostingSet o)
    (ha : ∀ x, a = some x → PostingSet x) :
    ∃ r, myUnion (some o) a = some r ∧ PostingSet r ∧
      ∀ d, counters_get o d + resultCount a d ≤ INT_MAX →
        counters_get r d = counters_get o d + resultCount a d := by
  cases a with
  | none => exact ⟨o, rfl, ho, fun d _ => by simp [resultCount]⟩
  | some x =>
    refine ⟨_, rfl, union_iterate_postingSet x o ho, ?_⟩
    intro d hb
    rw [union_iterate_get x o (ha x rfl) ho d hb]
    rfl

theorem scoreRel_andValue (hash : cstring → Nat) (index : index_t) (st : ScoreState)
    (clause : List cstring) (hrel : ScoreRel hash index st clause) :
    (∀ x, st.andSequence = some x → PostingSet x) ∧
    (∀ d, resultCount st.andSequence d = clauseScore hash index d clause) := by
  obtain ⟨_, h1, h2⟩ := hrel
  by_cases hc : clause = []
  · obtain ⟨ha, _⟩ := h1 hc
    rw [ha, hc]
    exact ⟨fun x hx => Option.noConfusion hx, fun d => rfl⟩
  · rcases h2 hc with ⟨_, ha, hz⟩ | ⟨_, a, ha, hP, hg⟩
    · rw [ha]
      exact ⟨fun x hx => Option.noConfusion hx, fun d => by rw [hz d]; rfl⟩
    · rw [ha]
      refine ⟨fun x hx => ?_, fun d => hg d⟩
      rw [Option.some.injEq] at hx
      rw [← hx]; exact hP

theorem score_step_and (hash : cstring → Nat) (index : index_t) (st : ScoreState) :
    score_step hash index st ['a', 'n', 'd'] = st := by
  unfold score_step
  have h : ¬ (['a', 'n', 'd'] : cstring) = ['o', 'r'] := by decide
  simp only [h, if_false, if_true]
  split <;> rfl

theorem score_step_short (hash : cstring → Nat) (index : index_t) (st : ScoreState)
    (w : cstring) (hw : w ≠ ['o', 'r']) (hsc : st.shortCircuit = true) :
    score_step hash index st w = st := by
  unfold score_step
  simp only [hw, if_false, hsc, if_true]

theorem score_step_absent (hash : cstring → Nat) (index : index_t) (st : ScoreState)
    (w : cstring) (hw : w ≠ ['o', 'r']) (hand : w ≠ ['a', 'n', 'd'])
    (hsc : st.shortCircuit = false) (hf : index_find hash index w = none) :
    score_step hash index st w = { st with shortCircuit := true, andSequence := none } := by
  unfold score_step
  simp only [hw, if_false, hsc, Bool.false_eq_true, hand, hf]

theorem score_step_first (hash : cstring → Nat) (index : index_t) (st : ScoreState)
    (w : cstring) (wc : counters) (hw : w ≠ ['o', 'r']) (hand : w ≠ ['a', 'n', 'd'])
    (hsc : st.shortCircuit = false) (hf : index_find hash index w = some wc)
    (ha : st.andSequence = none) :
    score_step hash index st w
      = { orSequence := st.orSequence,
          andSequence := some (counters_iterate (counters_copy wc counters_new) counters_new
            union_itemfunc),
          shortCircuit := st.shortCircuit } := by
  unfold score_step
  simp only [hw, if_false, hsc, Bool.false_eq_true, hand, hf, ha]
  rfl

theorem score_step_next (hash : cstring → Nat) (index : index_t) (st : ScoreState)
    (w : cstring) (wc a : counters) (hw : w ≠ ['o', 'r']) (hand : w ≠ ['a', 'n', 'd'])
    (hsc : st.shortCircuit = false) (hf : index_find hash index w = some wc)
    (ha : st.andSequence = some a) :
    score_step hash index st w
      = { orSequence := st.orSequence,
          andSequence := some (counters_iterate a
            { first := counters_new, second := counters_copy wc counters_new }
            intersect_itemfunc).first,
          shortCircuit := st.shortCircuit } := by
  unfold score_step
  simp only [hw, if_false, hsc, Bool.false_eq_true, hand, hf, ha]
  rfl

theorem scoreRel_step (hash : cstring → Nat) (index : index_t) (hwf : IndexWF hash index)
    (hint : IndexInt hash index) (st : ScoreState) (clause : List cstring) (w : cstring) (hw : w ≠ ['o', 'r'])
    (hrel : ScoreRel hash index st clause) :
    ScoreRel hash index (score_step hash index st w)
      (if w = ['a', 'n', 'd'] then clause else clause ++ [w]) ∧
    (score_step hash index st w).orSequence = st.orSequence := by
  by_cases hand : w = ['a', 'n', 'd']
  · subst hand
    rw [score_step_and]
    simp only [if_true, and_true]
    exact hrel
  · simp only [hand, if_false]
    obtain ⟨hor, h1, h2⟩ := hrel
    have hne : clause ++ [w] ≠ [] := by simp
    by_cases hsc : st.shortCircuit = true
    · rw [score_step_short hash index st w hw hsc]
      refine ⟨⟨hor, fun h => absurd h hne, fun _ => ?_⟩, rfl⟩
      have hc : clause ≠ [] := by
        intro hc
        have := (h1 hc).2
        rw [hsc] at this
        exact Bool.noConfusion this
      rcases h2 hc with ⟨_, ha, hz⟩ | ⟨hf, _⟩
      · left
        refine ⟨hsc, ha, fun d => ?_⟩
        rw [clauseScore_append_singleton, if_neg hc, hz d]
        exact min_eq_left (termCount_nonneg hash index hwf w d)
      · rw [hsc] at hf
        exact Bool.noConfusion hf
    · have hsc2 : st.shortCircuit = false := by simpa using hsc
      cases hf : index_find hash index w with
      | none =>
        rw [score_step_absent hash index st w hw hand hsc2 hf]
        refine ⟨⟨hor, fun h => absurd h hne, fun _ => ?_⟩, rfl⟩
        left
        refine ⟨rfl, rfl, fun d => ?_⟩
        have htc : termCount hash index w d = 0 := by simp [termCount, hf]
        rw [clauseScore_append_singleton, htc]
        by_cases hc : clause = []
        · simp [hc]
        · simp only [hc, if_false]
          rcases h2 hc with ⟨hf2, _⟩ | ⟨_, a, _, hP, hg⟩
          · rw [hsc2] at hf2
            exact Bool.noConfusion hf2
          · rw [← hg d]
            exact min_eq_right (counters_get_nonneg a d (fun n hn => (hP.2 n hn).2))
      | some wc =>
        have hPwc := hwf w wc hf
        have hPcopy := counters_copy_postingSet wc counters_new postingSet_nil
        have hgcopy := counters_copy_new_get wc hPwc
        have htc : ∀ d, termCount hash index w d = counters_get wc d := by
          intro d; simp [termCount, hf]
        cases ha : st.andSequence with
        | none =>
          rw [score_step_first hash index st w wc hw hand hsc2 hf ha]
          have hc : clause = [] := by
            by_contra hc
            rcases h2 hc with ⟨hf2, _⟩ | ⟨_, a, ha2, _⟩
            · rw [hsc2] at hf2
              exact Bool.noConfusion hf2
            · rw [ha] at ha2
              exact Option.noConfusion ha2
          refine ⟨⟨hor, fun h => absurd h hne, fun _ => ?_⟩, rfl⟩
          right
          refine ⟨hsc2, _, rfl, union_iterate_postingSet _ _ postingSet_nil, fun d => ?_⟩
          have hle : counters_get counters_new d
              + counters_get (counters_copy wc counters_new) d ≤ INT_MAX := by
            rw [hgcopy d]
            have := counters_get_le wc d INT_MAX (by decide) (hint w wc hf)
            simpa [counters_new, counters_get] using this
          rw [union_iterate_get (counters_copy wc counters_new) counters_new hPcopy
            postingSet_nil d hle, hgcopy d, hc]
          simp [clauseScore, htc d, counters_new, counters_get]
        | some a =>
          rw [score_step_next hash index st w wc a hw hand hsc2 hf ha]
          have hc : clause ≠ [] := by
            intro hc
            have := (h1 hc).1
            rw [ha] at this
            exact Option.noConfusion this
          refine ⟨⟨hor, fun h => absurd h hne, fun _ => ?_⟩, rfl⟩
          right
          rcases h2 hc with ⟨hf2, _⟩ | ⟨_, a2, ha2, hP, hg⟩
          · rw [hsc2] at hf2
            exact Bool.noConfusion hf2
          · rw [ha, Option.some.injEq] at ha2
            subst ha2
            refine ⟨hsc2, _, rfl, intersect_iterate_postingSet a
              { first := counters_new, second := counters_copy wc counters_new }
              postingSet_nil, fun d => ?_⟩
            rw [intersect_iterate_get_min a _ hP hPcopy d, hgcopy d,
              clauseScore_append_singleton, if_neg hc, hg d, htc d]

theorem score_foldl_spec (hash : cstring → Nat) (index : index_t) (hwf : IndexWF hash index)
    (hint : IndexInt hash index)
    (ws : List cstring) (st : ScoreState) (acc : List cstring)
    (hrel : ScoreRel hash index st (acc.reverse.filter (fun w => w != ['a', 'n', 'd']))) :
    ∃ r, myUnion (ws.foldl (score_step hash index) st).orSequence
          (ws.foldl (score_step hash index) st).andSequence = some r ∧ PostingSet r ∧
      ∀ d, resultCount st.orSequence d +
          ((List.splitOnP.go (fun w => w == ['o', 'r']) ws acc).map
            (fun cl => clauseScore hash index d
              (cl.filter (fun w => w != ['a', 'n', 'd'])))).sum ≤ INT_MAX →
        counters_get r d = resultCount st.orSequence d +
        ((List.splitOnP.go (fun w => w == ['o', 'r']) ws acc).map
          (fun cl => clauseScore hash index d (cl.filter (fun w => w != ['a', 'n', 'd'])))).sum := by
  induction ws generalizing st acc with
  | nil =>
    obtain ⟨hPa, hva⟩ := scoreRel_andValue hash index st _ hrel
    obtain ⟨⟨o, ho, hPo⟩, _, _⟩ := hrel
    simp only [List.foldl_nil, List.splitOnP.go, List.map_cons, List.map_nil, List.sum_cons,
      List.sum_nil, add_zero]
    rw [ho]
    obtain ⟨r, hr, hPr, hg⟩ := myUnion_some_resultCount o st.andSequence hPo hPa
    refine ⟨r, hr, hPr, fun d hb => ?_⟩
    have hb2 : counters_get o d + resultCount st.andSequence d ≤ INT_MAX := by
      rw [hva d]; exact hb
    rw [hg d hb2, hva d]
    rfl
  | cons w t ih =>
    simp only [List.foldl_cons, List.splitOnP.go]
    by_cases hw : w = ['o', 'r']
    · subst hw
      obtain ⟨hPa, hva⟩ := scoreRel_andValue hash index st _ hrel
      obtain ⟨⟨o, ho, hPo⟩, _, _⟩ := hrel
      obtain ⟨r, hr, hPr, hg⟩ := myUnion_some_resultCount o st.andSequence hPo hPa
      have hstep : score_step hash index st ['o', 'r']
          = { orSequence := some r, andSequence := none, shortCircuit := false } := by
        unfold score_step
        simp only [if_true, ho, hr]
      rw [hstep]
      have hrel2 : ScoreRel hash index
          { orSequence := some r, andSequence := none, shortCircuit := false }
          (([] : List cstring).reverse.filter (fun w => w != ['a', 'n', 'd'])) := by
        refine ⟨⟨r, rfl, hPr⟩, fun _ => ⟨rfl, rfl⟩, fun h => ?_⟩
        exact absurd rfl h
      obtain ⟨r2, hr2, hPr2, hg2⟩ := ih _ [] hrel2
      refine ⟨r2, hr2, hPr2, fun d hb => ?_⟩
      have htail := clauseScore_sum_nonneg hash index hwf d
        (List.splitOnP.go (fun w => w == ['o', 'r']) t [])
      rw [ho] at hb
      simp only [resultCount, beq_self_eq_true, if_true, List.map_cons, List.sum_cons] at hb
      have hb1 : counters_get o d + resultCount st.andSequence d ≤ INT_MAX := by
        rw [hva d]; linarith
      have hgd := hg d hb1
      rw [hva d] at hgd
      have hb2 : resultCount (some r) d +
          ((List.splitOnP.go (fun w => w == ['o', 'r']) t []).map
            (fun cl => clauseScore hash index d
              (cl.filter (fun w => w != ['a', 'n', 'd'])))).sum ≤ INT_MAX := by
        simp only [resultCount]
        rw [hgd]; linarith
      rw [hg2 d hb2, ho]
      simp only [resultCount, hgd, beq_self_eq_true, if_true, List.map_cons, List.sum_cons]
      ring
    · have hw2 : (w == ['o', 'r']) = false := by simpa using hw
      simp only [hw2, Bool.false_eq_true, if_false]
      obtain ⟨hrel2, hor⟩ := scoreRel_step hash index hwf hint st _ w hw hrel
      have hclause : (if w = ['a', 'n', 'd'] then
            acc.reverse.filter (fun w => w != ['a', 'n', 'd'])
          else acc.reverse.filter (fun w => w != ['a', 'n', 'd']) ++ [w])
          = (w :: acc).reverse.filter (fun w => w != ['a', 'n', 'd']) := by
        by_cases hand : w = ['a', 'n', 'd']
        · simp [hand, List.filter_append]
        · simp [hand, List.filter_append]
      rw [hclause] at hrel2
      obtain ⟨r2, hr2, hPr2, hg2⟩ := ih _ (w :: acc) hrel2
      refine ⟨r2, hr2, hPr2, fun d hb => ?_⟩
      rw [hor] at hg2
      exact hg2 d hb

theorem sumOfProducts_eq_go (hash : cstring → Nat) (index : index_t) (words : List cstring)
    (d : Int) :
    sumOfProducts hash index words d
      = ((List.splitOnP.go (fun w => w == ['o', 'r']) words []).map
          (fun cl => clauseScore hash index d (cl.filter (fun w => w != ['a', 'n', 'd'])))).sum := by
  simp only [sumOfProducts, andClauses, List.splitOn, List.splitOnP, List.map_map]
  rfl

theorem sumOfProducts_nonneg (hash : cstring → Nat) (index : index_t)
    (hwf : IndexWF hash index) (words : List cstring) (d : Int) :
    0 ≤ sumOfProducts hash index words d := by
  rw [sumOfProducts_eq_go]
  exact clauseScore_sum_nonneg hash index hwf d _

/-- The set that `score` tests for emptiness: its count for a docID is the sum
of products whenever that sum is in the range of `int`. -/
theorem score_union_spec (hash : cstring → Nat) (index : index_t) (hwf : IndexWF hash index)
    (hint : IndexInt hash index) (words : List cstring) :
    ∃ r, score hash index words none = (if counters_empty r = 0 then none else some r) ∧
      PostingSet r ∧
      ∀ d, sumOfProducts hash index words d ≤ INT_MAX →
        counters_get r d = sumOfProducts hash index words d := by
  have hrel : ScoreRel hash index
      { orSequence := some counters_new, andSequence := none, shortCircuit := false }
      (([] : List cstring).reverse.filter (fun w => w != ['a', 'n', 'd'])) := by
    refine ⟨⟨_, rfl, postingSet_nil⟩, fun _ => ⟨rfl, rfl⟩, fun h => ?_⟩
    exact absurd rfl h
  obtain ⟨r, hr, hPr, hg⟩ := score_foldl_spec hash index hwf hint words _ [] hrel
  refine ⟨r, ?_, hPr, fun d hb => ?_⟩
  · unfold score
    simp only [hr]
  · rw [sumOfProducts_eq_go] at hb ⊢
    have := hg d (by simpa [resultCount, counters_new, counters_get] using hb)
    simpa [resultCount, counters_new, counters_get] using this

/-- When the scores of all documents together are in the range of `int`, the
set that `score` tests has the sum of products as its count for every docID,
and `counters_empty` is 0 on it exactly when it has no entry. -/
theorem score_union_total (hash : cstring → Nat) (index : index_t) (hwf : IndexWF hash index)
    (hint : IndexInt hash index) (words : List cstring) (docs : List Int)
    (hdocs : ∀ d, d ∉ docs → sumOfProducts hash index words d = 0)
    (hsum : (docs.map (sumOfProducts hash index words)).sum ≤ INT_MAX) :
    ∃ r, score hash index words none = (if r = [] then none else some r) ∧
      PostingSet r ∧ ∀ d, counters_get r d = sumOfProducts hash index words d := by
  obtain ⟨r, hr, hPr, hg⟩ := score_union_spec hash index hwf hint words
  have hnn := sumOfProducts_nonneg hash index hwf words
  have hle : ∀ d, sumOfProducts hash index words d ≤ INT_MAX := by
    intro d
    by_cases hd : d ∈ docs
    · exact le_trans (le_sum_map_of_mem docs _ d hd hnn) hsum
    · rw [hdocs d hd]; decide
  have hgd : ∀ d, counters_get r d = sumOfProducts hash index words d := fun d => hg d (hle d)
  have hsub : counters_keys r ⊆ docs := by
    intro k hk
    by_contra hkd
    have h1 := counters_get_pos_of_mem r k (fun n hn => (hPr.2 n hn).2) hk
    rw [hgd k, hdocs k hkd] at h1
    exact absurd h1 (by decide)
  have hrsum : (r.map Prod.snd).sum ≤ INT_MAX := by
    rw [counters_sum_eq_keys r hPr.1]
    have hfun : (counters_keys r).map (counters_get r)
        = (counters_keys r).map (sumOfProducts hash index words) :=
      List.map_congr_left (fun k _ => hgd k)
    rw [hfun]
    exact le_trans (sum_map_le_of_subset _ _ _ hPr.1 hsub hnn) hsum
  refine ⟨r, ?_, hPr, hgd⟩
  rw [hr]
  by_cases he : r = []
  · rw [if_pos he, if_pos ((counters_empty_eq_zero_iff r (fun n hn => (hPr.2 n hn).2) hrsum).2 he)]
  · rw [if_neg he, if_neg (fun h0 => he
      ((counters_empty_eq_zero_iff r (fun n hn => (hPr.2 n hn).2) hrsum).1 h0))]

theorem score_spec (hash : cstring → Nat) (index : index_t) (hwf : IndexWF hash index)
    (hint : IndexInt hash index) (words : List cstring) (docs : List Int)
    (hdocs : ∀ d, d ∉ docs → sumOfProducts hash index words d = 0)
    (hsum : (docs.map (sumOfProducts hash index words)).sum ≤ INT_MAX) (d : Int) :
    resultCount (score hash index words none) d = sumOfProducts hash index words d := by
  obtain ⟨r, hr, _, hg⟩ := score_union_total hash index hwf hint words docs hdocs hsum
  rw [hr]
  by_cases he : r = []
  · rw [if_pos he, ← hg d, he]
    rfl
  · rw [if_neg he]
    exact hg d

/-! ## The index invariant -/

theorem set_find_eq_some_iff {α : Type} (s : set_t α) (k : cstring) (v : α)
    (hnd : (s.map Prod.fst).Nodup) : set_find s k = some v ↔ (k, v) ∈ s := by
  induction s with
  | nil => simp [set_find]
  | cons n rest ih =>
    simp only [List.map_cons, List.nodup_cons] at hnd
    simp only [set_find, List.mem_cons]
    by_cases h : n.1 = k
    · simp only [h, if_true, Option.some.injEq]
      constructor
      · intro hv; left; rw [← hv, ← h]
      · rintro (h1 | h1)
        · rw [← h1]
        · exfalso
          apply hnd.1
          rw [h]
          exact List.mem_map_of_mem Prod.fst h1
    · simp only [h, if_false, ih hnd.2]
      constructor
      · intro h1; exact Or.inr h1
      · rintro (h1 | h1)
        · exfalso; apply h; rw [← h1]
        · exact h1

theorem set_store_mem {α : Type} (s : set_t α) (key : cstring) (item : α) (n : cstring × α)
    (hn : n ∈ set_store s key item) : n ∈ s ∨ n = (key, item) := by
  induction s with
  | nil => simp [set_store] at hn
  | cons m rest ih =>
    simp only [set_store] at hn
    by_cases h : m.1 = key
    · simp only [h, if_true, List.mem_cons] at hn
      rcases hn with hn | hn
      · right; exact hn
      · left; exact List.mem_cons_of_mem _ hn
    · simp only [h, if_false, List.mem_cons] at hn
      rcases hn with hn | hn
      · left; rw [hn]; exact List.mem_cons_self _ _
      · rcases ih hn with h1 | h1
        · left; exact List.mem_cons_of_mem _ h1
        · right; exact h1

theorem tableInv_new {α : Type} (hash : cstring → Nat) (P : cstring → α → Prop) (n : Nat)
    (hn : 0 < n) : TableInv hash P (hashtable_new n : hashtable_t α).table := by
  have hg : ∀ i, (List.replicate n (set_new : set_t α)).getD i set_new = set_new := by
    intro i
    rw [List.getD_eq_getElem?_getD]
    by_cases h : i < n
    · simp [List.getElem?_replicate, h]
    · simp [List.getElem?_replicate, h]
  refine ⟨by simpa [hashtable_new] using hn, fun i => ?_⟩
  simp only [hashtable_new, hg]
  exact ⟨fun n h => absurd h (List.not_mem_nil _), List.nodup_nil⟩

theorem getD_set_eq {α : Type} (l : List α) (i j : Nat) (a d : α) :
    (l.set i a).getD j d = if i = j ∧ i < l.length then a else l.getD j d := by
  by_cases h : i = j
  · subst h
    by_cases hl : i < l.length
    · simp only [hl, and_self, if_true]
      exact getD_set_self l i a d hl
    · simp only [hl, and_false, if_false]
      rw [List.set_eq_of_length_le (by omega)]
  · simp only [h, false_and, if_false]
    exact getD_set_ne l i j a d h

theorem tableInv_insert {α : Type} (hash : cstring → Nat) (P : cstring → α → Prop)
    (ht : hashtable_t α) (key : cstring) (item : α) (hinv : TableInv hash P ht.table)
    (hP : P key item) : TableInv hash P (hashtable_insert hash ht key item).1.table := by
  obtain ⟨hlen, hslots⟩ := hinv
  refine ⟨by rw [hashtable_insert_length]; exact hlen, fun i => ?_⟩
  simp only [hashtable_insert, List.length_set]
  rw [getD_set_eq]
  by_cases hi : hash key % ht.table.length = i ∧ hash key % ht.table.length < ht.table.length
  · rw [if_pos hi]
    obtain ⟨hi1, _⟩ := hi
    unfold set_insert
    rw [set_any_eq_isSome]
    cases hf : set_find (ht.table.getD (hash key % ht.table.length) set_new) key with
    | none =>
      simp only [Option.isSome_none, Bool.false_eq_true, if_false]
      rw [hi1] at hf ⊢
      refine ⟨fun n hn => ?_, ?_⟩
      · simp only [List.mem_cons] at hn
        rcases hn with hn | hn
        · rw [hn]; exact ⟨hi1, hP⟩
        · exact (hslots i).1 n hn
      · simp only [List.map_cons, List.nodup_cons]
        exact ⟨(set_find_eq_none_iff _ _).1 hf, (hslots i).2⟩
    | some old =>
      simp only [Option.isSome_some, if_true]
      rw [hi1]
      exact hslots i
  · rw [if_neg hi]
    exact hslots i

theorem tableInv_store {α : Type} (hash : cstring → Nat) (P : cstring → α → Prop)
    (ht : hashtable_t α) (key : cstring) (item : α) (hinv : TableInv hash P ht.table)
    (hP : P key item) : TableInv hash P (hashtable_store hash ht key item).table := by
  obtain ⟨hlen, hslots⟩ := hinv
  refine ⟨by rw [hashtable_store_length]; exact hlen, fun i => ?_⟩
  simp only [hashtable_store, List.length_set]
  rw [getD_set_eq]
  by_cases hi : hash key % ht.table.length = i ∧ hash key % ht.table.length < ht.table.length
  · rw [if_pos hi]
    obtain ⟨hi1, _⟩ := hi
    rw [hi1]
    refine ⟨fun n hn => ?_, ?_⟩
    · rcases set_store_mem _ _ _ n hn with h1 | h1
      · exact (hslots i).1 n h1
      · rw [h1]; exact ⟨hi1, hP⟩
    · rw [set_store_keys]; exact (hslots i).2
  · rw [if_neg hi]
    exact hslots i

theorem tableInv_find_iff {α : Type} (hash : cstring → Nat) (P : cstring → α → Prop)
    (ht : hashtable_t α) (hinv : TableInv hash P ht.table) (k : cstring) (v : α) :
    hashtable_find hash ht k = some v ↔ (k, v) ∈ ht.table.flatten := by
  obtain ⟨hlen, hslots⟩ := hinv
  unfold hashtable_find
  rw [set_find_eq_some_iff _ _ _ (hslots _).2]
  constructor
  · intro h
    rw [List.mem_flatten]
    refine ⟨_, ?_, h⟩
    rw [List.getD_eq_getElem?_getD, List.getElem?_eq_getElem (Nat.mod_lt _ hlen)]
    exact List.getElem_mem _
  · intro h
    rw [List.mem_flatten] at h
    obtain ⟨slot, hslot, hmem⟩ := h
    obtain ⟨i, hi, rfl⟩ := List.getElem_of_mem hslot
    have hg : ht.table.getD i set_new = ht.table[i] := by
      rw [List.getD_eq_getElem?_getD, List.getElem?_eq_getElem hi]; rfl
    have := ((hslots i).1 (k, v) (by rw [hg]; exact hmem)).1
    simp only at this
    rw [this, hg]
    exact hmem

theorem tableInv_mem_P {α : Type} (hash : cstring → Nat) (P : cstring → α → Prop)
    (table : List (set_t α)) (hinv : TableInv hash P table) (n : cstring × α)
    (hn : n ∈ table.flatten) : P n.1 n.2 := by
  rw [List.mem_flatten] at hn
  obtain ⟨slot, hslot, hmem⟩ := hn
  obtain ⟨i, hi, rfl⟩ := List.getElem_of_mem hslot
  have hg : table.getD i set_new = table[i] := by
    rw [List.getD_eq_getElem?_getD, List.getElem?_eq_getElem hi]; rfl
  exact ((hinv.2 i).1 n (by rw [hg]; exact hmem)).2

theorem tableInv_keys_nodup {α : Type} (hash : cstring → Nat) (P : cstring → α → Prop)
    (table : List (set_t α)) (hinv : TableInv hash P table) :
    (table.flatten.map Prod.fst).Nodup := by
  obtain ⟨hlen, hslots⟩ := hinv
  have hg : ∀ i (hi : i < table.length), table.getD i set_new = table[i] := by
    intro i hi
    rw [List.getD_eq_getElem?_getD, List.getElem?_eq_getElem hi]; rfl
  rw [List.map_flatten, List.nodup_flatten]
  constructor
  · intro l hl
    rw [List.mem_map] at hl
    obtain ⟨slot, hslot, rfl⟩ := hl
    obtain ⟨i, hi, rfl⟩ := List.getElem_of_mem hslot
    rw [← hg i hi]
    exact (hslots i).2
  · rw [List.pairwise_map, List.pairwise_iff_getElem]
    intro i j hi hj hij
    intro k hk1 hk2
    rw [List.mem_map] at hk1 hk2
    obtain ⟨n1, hn1, rfl⟩ := hk1
    obtain ⟨n2, hn2, hk⟩ := hk2
    have h1 := ((hslots i).1 n1 (by rw [hg i hi]; exact hn1)).1
    have h2 := ((hslots j).1 n2 (by rw [hg j hj]; exact hn2)).1
    rw [hk] at h2
    omega

theorem counters_add_of_not_mem (c : counters) (d : Int) (hd : 0 ≤ d)
    (h : d ∉ counters_keys c) : counters_add c d = ((d, 1) :: c, 1) := by
  have hany : c.any (fun node => node.1 == d) = false := by
    rw [List.any_eq_false]
    intro n hn
    have : n.1 ≠ d := fun e => h (by rw [← e]; exact List.mem_map_of_mem Prod.fst hn)
    simpa using this
  have hmap : c.map (fun node => if node.1 = d then (node.1, node.2 + 1) else node) = c := by
    conv_rhs => rw [← List.map_id c]
    apply List.map_congr_left
    intro n hn
    have : n.1 ≠ d := fun e => h (by rw [← e]; exact List.mem_map_of_mem Prod.fst hn)
    simp [this]
  have hd2 : d ≥ 0 := hd
  simp only [counters_add, hd2, if_true, hany, hmap, Bool.not_false]

theorem counters_add_of_mem (c : counters) (d : Int) (hd : 0 ≤ d) (h : d ∈ counters_keys c) :
    counters_add c d
      = (c.map (fun node => if node.1 = d then (node.1, node.2 + 1) else node), 0) := by
  have hany : c.any (fun node => node.1 == d) = true := by
    rw [List.any_eq_true]
    simp only [counters_keys, List.mem_map] at h
    obtain ⟨n, hn, hnd⟩ := h
    exact ⟨n, hn, by simpa using hnd⟩
  have hd2 : d ≥ 0 := hd
  simp only [counters_add, hd2, if_true, hany, Bool.not_true, Bool.false_eq_true, if_false]

theorem counters_add_postingSet (c : counters) (d : Int) (hd : 1 ≤ d) (h : PostingSet c) :
    PostingSet (counters_add c d).1 ∧ (counters_add c d).1 ≠ [] := by
  by_cases hm : d ∈ counters_keys c
  · rw [counters_add_of_mem c d (by omega) hm]
    refine ⟨⟨?_, ?_⟩, ?_⟩
    · have : counters_keys (c.map (fun node => if node.1 = d then (node.1, node.2 + 1) else node))
          = counters_keys c := by
        simp only [counters_keys, List.map_map]
        apply List.map_congr_left
        intro n _
        simp only [Function.comp]
        split <;> rfl
      rw [this]; exact h.1
    · intro n hn
      simp only [List.mem_map] at hn
      obtain ⟨m, hm2, rfl⟩ := hn
      have := h.2 m hm2
      split
      · simp only; omega
      · exact this
    · intro he
      simp only [List.map_eq_nil_iff] at he
      rw [he] at hm
      simp [counters_keys] at hm
  · rw [counters_add_of_not_mem c d (by omega) hm]
    refine ⟨⟨?_, ?_⟩, by simp⟩
    · simp only [counters_keys, List.map_cons, List.nodup_cons]
      exact ⟨hm, h.1⟩
    · intro n hn
      simp only [List.mem_cons] at hn
      rcases hn with hn | hn
      · rw [hn]; simp only; omega
      · exact h.2 n hn

theorem indexInv_new (hash : cstring → Nat) : IndexInv hash index_new :=
  tableInv_new hash _ num_slots (by decide)

theorem indexInv_find (hash : cstring → Nat) (index : index_t) (hinv : IndexInv hash index)
    (w : cstring) (c : counters) (hf : index_find hash index w = some c) :
    isTerm w = true ∧ PostingSet c ∧ c ≠ [] :=
  tableInv_mem_P hash _ index.ht.table hinv (w, c)
    ((tableInv_find_iff hash _ index.ht hinv w c).1 hf)

theorem indexInv_wf (hash : cstring → Nat) (index : index_t) (hinv : IndexInv hash index) :
    IndexWF hash index :=
  fun w c hf => (indexInv_find hash index hinv w c hf).2.1

theorem indexInv_add (hash : cstring → Nat) (index : index_t) (hinv : IndexInv hash index)
    (word : cstring) (d : Int) (hw : isTerm word = true) (hd : 1 ≤ d) :
    IndexInv hash (index_add hash index word d).1 := by
  unfold index_add
  have hd2 : d ≥ 0 := by omega
  simp only [hd2, if_true]
  cases hf : hashtable_find hash index.ht word with
  | some wordInfo =>
    have hP := indexInv_find hash index hinv word wordInfo hf
    have := counters_add_postingSet wordInfo d hd hP.2.1
    exact tableInv_store hash _ index.ht word _ hinv ⟨hw, this.1, this.2⟩
  | none =>
    simp only [counters_add_new d (by omega)]
    have hins := hashtable_insert_snd hash index.ht word [(d, 1)]
    rw [hf] at hins
    simp only [Option.isNone_none] at hins
    simp only [gt_iff_lt, zero_lt_one, if_true, hins]
    refine tableInv_insert hash _ index.ht word _ hinv ⟨hw, ?_, by simp⟩
    refine ⟨by simp [counters_keys], ?_⟩
    intro n hn
    simp only [List.mem_singleton] at hn
    rw [hn]; simp only; omega

theorem indexInv_ofCalls (hash : cstring → Nat) (calls : List (cstring × Int))
    (hcalls : ∀ p ∈ calls, isTerm p.1 = true ∧ 1 ≤ p.2) :
    IndexInv hash (indexOfCalls hash calls) := by
  unfold indexOfCalls
  suffices h : ∀ (index : index_t), IndexInv hash index →
      IndexInv hash (calls.foldl (fun i p => (index_add hash i p.1 p.2).1) index) from
    h index_new (indexInv_new hash)
  induction calls with
  | nil => intro index h; exact h
  | cons p rest ih =>
    intro index h
    simp only [List.foldl_cons]
    have hp := hcalls p (List.mem_cons_self _ _)
    exact ih (fun q hq => hcalls q (List.mem_cons_of_mem _ hq)) _
      (indexInv_add hash index h p.1 p.2 hp.1 hp.2)

/-! ## The index file: what is written -/

theorem counterToFile_iterate (c : counters) (fp : List Char) :
    counters_iterate c fp counterToFile = fp ++ pairsText c := by
  induction c generalizing fp with
  | nil => simp [counters_iterate_nil, pairsText]
  | cons n rest ih =>
    rw [counters_iterate_cons, ih]
    simp [counterToFile, pairsText, List.append_assoc]

theorem entryToFile_eq (fp : List Char) (key : cstring) (item : counters) :
    entryToFile fp key item = fp ++ entryLine (key, item) := by
  simp [entryToFile, counterToFile_iterate, entryLine, List.append_assoc]

theorem set_iterate_entryToFile (s : set_t counters) (fp : List Char) :
    set_iterate s fp entryToFile = fp ++ (s.map entryLine).flatten := by
  unfold set_iterate
  induction s generalizing fp with
  | nil => simp
  | cons n rest ih =>
    rw [List.foldl_cons, ih, entryToFile_eq]
    simp only [List.map_cons, List.flatten_cons, List.append_assoc]

theorem indexToFile_eq (index : index_t) :
    indexToFile index = ((index_entries index).map entryLine).flatten := by
  unfold indexToFile index_iterate hashtable_iterate index_entries
  suffices h : ∀ (table : List (set_t counters)) (fp : List Char),
      table.foldl (fun a set => set_iterate set a entryToFile) fp
        = fp ++ (table.flatten.map entryLine).flatten from by
    simpa using h index.ht.table []
  intro table
  induction table with
  | nil => intro fp; simp
  | cons s rest ih =>
    intro fp
    rw [List.foldl_cons, ih, set_iterate_entryToFile]
    simp only [List.flatten_cons, List.map_append, List.flatten_append, List.append_assoc]

/-! ## The index file: what is read back -/

theorem digitChar_isdigit (d : Nat) (h : d < 10) :
    isdigit (Nat.digitChar d) = true ∧ (Nat.digitChar d).toNat - 48 = d := by
  interval_cases d <;> exact ⟨rfl, rfl⟩

theorem scan_digits_toDigitsCore (fuel n : Nat) (tail : List Char) (acc : Nat)
    (h : n < fuel) (hacc : acc = 0) :
    scan_digits (Nat.toDigitsCore 10 fuel n tail) acc = scan_digits tail n := by
  subst hacc
  induction fuel generalizing n tail with
  | zero => omega
  | succ f ih =>
    have hd := digitChar_isdigit (n % 10) (Nat.mod_lt _ (by decide))
    simp only [Nat.toDigitsCore]
    by_cases h0 : n / 10 = 0
    · simp only [h0, if_true, scan_digits, hd.1, hd.2]
      have : n % 10 = n := Nat.mod_eq_of_lt (by omega)
      rw [this]
      simp
    · simp only [h0, if_false]
      rw [ih (n / 10) _ (by omega)]
      simp only [scan_digits, hd.1, if_true, hd.2]
      have : n / 10 * 10 + n % 10 = n := by omega
      rw [this]

theorem toDigitsCore_head (fuel n : Nat) (tail : List Char) (h : n < fuel) :
    ∃ c t, Nat.toDigitsCore 10 fuel n tail = c :: t ∧ isdigit c = true := by
  induction fuel generalizing n tail with
  | zero => omega
  | succ f ih =>
    have hd := digitChar_isdigit (n % 10) (Nat.mod_lt _ (by decide))
    simp only [Nat.toDigitsCore]
    by_cases h0 : n / 10 = 0
    · simp only [h0, if_true]
      exact ⟨_, _, rfl, hd.1⟩
    · simp only [h0, if_false]
      exact ih (n / 10) _ (by omega)

theorem toDigitsCore_append (fuel n : Nat) (ds tail : List Char) :
    Nat.toDigitsCore 10 fuel n (ds ++ tail) = Nat.toDigitsCore 10 fuel n ds ++ tail := by
  induction fuel generalizing n ds with
  | zero => rfl
  | succ f ih =>
    simp only [Nat.toDigitsCore]
    split
    · rfl
    · rw [← List.cons_append, ih]

theorem scan_digits_noDigit (rest : List Char) (n : Nat) (h : NoDigitAhead rest) :
    scan_digits rest n = (n, rest) := by
  rcases h with h | ⟨c, t, h, hc⟩
  · subst h; rfl
  · subst h; simp [scan_digits, hc]

theorem isdigit_not_isspace (c : Char) (h : isdigit c = true) : isspace c = false := by
  simp only [isdigit, isspace, Bool.and_eq_true, decide_eq_true_eq, Bool.or_eq_false_iff,
    decide_eq_false_iff_not, Bool.and_eq_false_iff] at *
  omega

theorem isdigit_not_sign (c : Char) (h : isdigit c = true) : ¬ (c = '-' ∨ c = '+') := by
  rintro (e | e) <;> subst e <;> exact absurd h (by decide)

theorem fscanf_d_print (a : Int) (ha : 0 ≤ a) (ha2 : a ≤ INT_MAX) (rest : List Char)
    (hrest : NoDigitAhead rest) :
    fscanf_d (' ' :: (fprintf_d a ++ rest)) = (some a, rest) := by
  have hlt : ¬ a < 0 := by omega
  simp only [fprintf_d, hlt, if_false, Nat.toDigits]
  rw [← toDigitsCore_append, List.nil_append]
  obtain ⟨c, t, hct, hc⟩ := toDigitsCore_head (a.toNat + 1) a.toNat rest (by omega)
  have hscan := scan_digits_toDigitsCore (a.toNat + 1) a.toNat rest 0 (by omega) rfl
  rw [hct] at hscan ⊢
  have hsp : isspace ' ' = true := by decide
  unfold fscanf_d
  simp only [List.dropWhile, hsp, isdigit_not_isspace c hc, isdigit_not_sign c hc, if_false, hc,
    if_true, hscan, scan_digits_noDigit rest _ hrest]
  rw [Int.toNat_of_nonneg ha, int_wrap_of_range a (by omega) ha2]

theorem fscanf_d_d_print (a b : Int) (ha : 0 ≤ a ∧ a ≤ INT_MAX) (hb : 0 ≤ b ∧ b ≤ INT_MAX)
    (rest : List Char) (hrest : NoDigitAhead rest) :
    fscanf_d_d (' ' :: (fprintf_d a ++ ' ' :: (fprintf_d b ++ rest))) = (some (a, b), rest) := by
  unfold fscanf_d_d
  rw [fscanf_d_print a ha.1 ha.2 _ (Or.inr ⟨' ', _, rfl, by decide⟩)]
  simp only []
  rw [fscanf_d_print b hb.1 hb.2 rest hrest]

theorem isalpha_not_isspace (c : Char) (h : isalpha c = true) : isspace c = false := by
  cases hs : isspace c with
  | false => rfl
  | true => rw [isspace_not_isalpha c hs] at h; exact Bool.noConfusion h

theorem isalpha_not_isdigit (c : Char) (h : isalpha c = true) : isdigit c = false := by
  simp only [isdigit, isalpha, Bool.and_eq_true, decide_eq_true_eq, Bool.or_eq_true,
    Bool.and_eq_false_iff, decide_eq_false_iff_not] at *
  omega

theorem isalpha_not_sign (c : Char) (h : isalpha c = true) : ¬ (c = '-' ∨ c = '+') := by
  rintro (e | e) <;> subst e <;> exact absurd h (by decide)

theorem isTerm_cons (w : cstring) (h : isTerm w = true) :
    ∃ c t, w = c :: t ∧ isalpha c = true ∧ ∀ x ∈ t, isalpha x = true := by
  cases w with
  | nil => simp [isTerm] at h
  | cons c t =>
    simp only [isTerm, List.isEmpty_cons, Bool.not_false, Bool.true_and, List.all_cons,
      Bool.and_eq_true, List.all_eq_true] at h
    exact ⟨c, t, rfl, h.1, h.2⟩

theorem takeWhile_notspace_append (t rest : List Char) (ht : ∀ x ∈ t, isalpha x = true)
    (hrest : SpaceAhead rest) :
    (t ++ rest).takeWhile (fun x => !isspace x) = t ∧
    (t ++ rest).dropWhile (fun x => !isspace x) = rest := by
  induction t with
  | nil =>
    obtain ⟨c, r, hr, hc⟩ := hrest
    subst hr
    simp [List.takeWhile, List.dropWhile, hc]
  | cons a t ih =>
    have ha := isalpha_not_isspace a (ht a (List.mem_cons_self _ _))
    have := ih (fun x hx => ht x (List.mem_cons_of_mem _ hx))
    simp [List.takeWhile, List.dropWhile, ha, this.1, this.2]

theorem fscanf_s_term (w : cstring) (rest : List Char) (hw : isTerm w = true)
    (hrest : SpaceAhead rest) : fscanf_s (w ++ rest) = (some w, rest) := by
  obtain ⟨c, t, rfl, hc, ht⟩ := isTerm_cons w hw
  have hsp := isalpha_not_isspace c hc
  have h := takeWhile_notspace_append (c :: t) rest
    (fun x hx => by
      simp only [List.mem_cons] at hx
      rcases hx with hx | hx
      · rw [hx]; exact hc
      · exact ht x hx) hrest
  have hdrop : (c :: t ++ rest).dropWhile isspace = c :: (t ++ rest) := by
    rw [List.cons_append, List.dropWhile_cons_of_neg (by simp [hsp])]
  unfold fscanf_s
  rw [hdrop]
  simp only [List.cons_append] at h
  simp only [h.1, h.2]

theorem fscanf_d_d_newline (rest : List Char) (hrest : LetterAhead rest) :
    fscanf_d_d ('\n' :: rest) = (none, rest) := by
  have hnl : isspace '\n' = true := by decide
  unfold fscanf_d_d fscanf_d
  rcases hrest with h | ⟨c, t, h, hc⟩
  · subst h
    simp [List.dropWhile, hnl]
  · subst h
    simp only [List.dropWhile, hnl, isalpha_not_isspace c hc, isalpha_not_sign c hc, if_false,
      isalpha_not_isdigit c hc, Bool.false_eq_true]

theorem pairsText_cons (n : Int × Int) (c : counters) :
    pairsText (n :: c) = ' ' :: (fprintf_d n.1 ++ ' ' :: (fprintf_d n.2 ++ pairsText c)) := by
  simp [pairsText, List.append_assoc]

theorem pairsText_noDigit (c : counters) (rest : List Char) :
    NoDigitAhead (pairsText c ++ '\n' :: rest) := by
  cases c with
  | nil => exact Or.inr ⟨'\n', rest, rfl, by decide⟩
  | cons n c =>
    rw [pairsText_cons]
    exact Or.inr ⟨' ', _, rfl, by decide⟩

theorem pairsText_spaceAhead (c : counters) (rest : List Char) :
    SpaceAhead (pairsText c ++ '\n' :: rest) := by
  cases c with
  | nil => exact ⟨'\n', rest, rfl, by decide⟩
  | cons n c =>
    rw [pairsText_cons]
    exact ⟨' ', _, rfl, by decide⟩

theorem fileToIndex_pairs_line (hash : cstring → Nat) (c : counters) (fuel : Nat)
    (index : index_t) (w : cstring) (rest : List Char) (hfuel : c.length < fuel)
    (hc : ∀ n ∈ c, (0 ≤ n.1 ∧ n.1 ≤ INT_MAX) ∧ (0 ≤ n.2 ∧ n.2 ≤ INT_MAX))
    (hrest : LetterAhead rest) :
    fileToIndex_pairs hash fuel index w (pairsText c ++ '\n' :: rest)
      = (loadEntry hash index (w, c), rest) := by
  induction c generalizing fuel index with
  | nil =>
    cases fuel with
    | zero => simp at hfuel
    | succ f =>
      simp only [pairsText, List.map_nil, List.flatten_nil, List.nil_append, fileToIndex_pairs,
        fscanf_d_d_newline rest hrest, loadEntry, List.foldl_nil]
  | cons n c ih =>
    cases fuel with
    | zero => simp at hfuel
    | succ f =>
      have hn := hc n (List.mem_cons_self _ _)
      rw [pairsText_cons]
      simp only [List.cons_append, List.append_assoc, fileToIndex_pairs]
      rw [fscanf_d_d_print n.1 n.2 hn.1 hn.2 _ (pairsText_noDigit c rest)]
      simp only []
      rw [ih f _ (by simpa using hfuel) (fun m hm => hc m (List.mem_cons_of_mem _ hm))]
      rfl

theorem entryLines_letterAhead (E : List (cstring × counters)) (hE : ∀ e ∈ E, EntryOK e) :
    LetterAhead (E.map entryLine).flatten := by
  cases E with
  | nil => exact Or.inl rfl
  | cons e E =>
    obtain ⟨c, t, hw, hc, _⟩ := isTerm_cons e.1 (hE e (List.mem_cons_self _ _)).1
    right
    refine ⟨c, t ++ pairsText e.2 ++ ['\n'] ++ (E.map entryLine).flatten, ?_, hc⟩
    simp [entryLine, hw, List.append_assoc]

theorem pairsText_length (c : counters) : c.length ≤ (pairsText c).length := by
  induction c with
  | nil => simp
  | cons n c ih =>
    rw [pairsText_cons]
    simp only [List.length_cons, List.length_append]
    omega

theorem fileToIndex_words_lines (hash : cstring → Nat) (E : List (cstring × counters))
    (fuel : Nat) (index : index_t) (hfuel : E.length < fuel) (hE : ∀ e ∈ E, EntryOK e) :
    fileToIndex_words hash fuel index (E.map entryLine).flatten
      = E.foldl (loadEntry hash) index := by
  induction E generalizing fuel index with
  | nil =>
    cases fuel with
    | zero => simp at hfuel
    | succ f => simp [fileToIndex_words, fscanf_s]
  | cons e E ih =>
    cases fuel with
    | zero => simp at hfuel
    | succ f =>
      have he := hE e (List.mem_cons_self _ _)
      have hE2 : ∀ x ∈ E, EntryOK x := fun x hx => hE x (List.mem_cons_of_mem _ hx)
      have htext : ((e :: E).map entryLine).flatten
          = e.1 ++ (pairsText e.2 ++ '\n' :: (E.map entryLine).flatten) := by
        simp [entryLine, List.append_assoc]
      rw [htext]
      simp only [fileToIndex_words]
      rw [fscanf_s_term e.1 _ he.1 (pairsText_spaceAhead e.2 _)]
      simp only []
      rw [fileToIndex_pairs_line hash e.2 _ index e.1 _ ?_ he.2 (entryLines_letterAhead E hE2)]
      · simp only [List.foldl_cons]
        exact ih f _ (by simpa using hfuel) hE2
      · have := pairsText_length e.2
        simp only [List.length_append, List.length_cons]
        omega

/-! ## The index file: the index that is read back -/

theorem loadEntry_length (hash : cstring → Nat) (index : index_t) (w : cstring) (c : counters) :
    (loadEntry hash index (w, c)).ht.table.length = index.ht.table.length := by
  unfold loadEntry
  induction c generalizing index with
  | nil => rfl
  | cons n c ih =>
    simp only [List.foldl_cons]
    rw [ih, fileToIndex_entry_length]

theorem index_find_loadEntry (hash : cstring → Nat) (index : index_t)
    (hlen : 0 < index.ht.table.length) (w : cstring) (c : counters) (k : cstring) :
    index_find hash (loadEntry hash index (w, c)) k
      = if k = w ∧ c ≠ [] then
          some (counters_copy c ((index_find hash index w).getD counters_new))
        else index_find hash index k := by
  induction c generalizing index with
  | nil => simp [loadEntry]
  | cons n c ih =>
    have hstep : loadEntry hash index (w, n :: c)
        = loadEntry hash (fileToIndex_entry hash index w n.1 n.2) (w, c) := rfl
    have hlen2 : 0 < (fileToIndex_entry hash index w n.1 n.2).ht.table.length := by
      rw [fileToIndex_entry_length]; exact hlen
    rw [hstep, ih _ hlen2, index_find_fileToIndex_entry hash index hlen,
      index_find_fileToIndex_entry hash index hlen]
    by_cases hk : k = w
    · subst hk
      by_cases hc : c = []
      · subst hc
        simp [counters_copy, counters_iterate]
      · simp [hc, counters_copy, counters_iterate]
    · simp [hk]

theorem index_find_foldl_loadEntry (hash : cstring → Nat) (E : List (cstring × counters))
    (index : index_t) (hlen : 0 < index.ht.table.length)
    (hnd : (E.map Prod.fst).Nodup) (hne : ∀ e ∈ E, e.2 ≠ [])
    (hfresh : ∀ e ∈ E, index_find hash index e.1 = none) :
    (∀ e ∈ E, index_find hash (E.foldl (loadEntry hash) index) e.1
        = some (counters_copy e.2 counters_new)) ∧
    (∀ k, k ∉ E.map Prod.fst →
      index_find hash (E.foldl (loadEntry hash) index) k = index_find hash index k) := by
  induction E generalizing index with
  | nil =>
    exact ⟨fun e he => absurd he (List.not_mem_nil _), fun k _ => rfl⟩
  | cons e E ih =>
    simp only [List.map_cons, List.nodup_cons] at hnd
    have hlen2 : 0 < (loadEntry hash index e).ht.table.length := by
      rw [loadEntry_length]; exact hlen
    have hfresh2 : ∀ x ∈ E, index_find hash (loadEntry hash index e) x.1 = none := by
      intro x hx
      have hxe : x.1 ≠ e.1 := fun h => hnd.1 (by rw [← h]; exact List.mem_map_of_mem Prod.fst hx)
      rw [index_find_loadEntry hash index hlen e.1 e.2 x.1]
      simp only [hxe, false_and, if_false]
      exact hfresh x (List.mem_cons_of_mem _ hx)
    obtain ⟨ih1, ih2⟩ := ih (loadEntry hash index e) hlen2 hnd.2
      (fun x hx => hne x (List.mem_cons_of_mem _ hx)) hfresh2
    simp only [List.foldl_cons]
    constructor
    · intro x hx
      simp only [List.mem_cons] at hx
      rcases hx with hx | hx
      · subst hx
        rw [ih2 x.1 hnd.1, index_find_loadEntry hash index hlen x.1 x.2 x.1,
          hfresh x (List.mem_cons_self _ _)]
        simp [hne x (List.mem_cons_self _ _)]
      · exact ih1 x hx
    · intro k hk
      simp only [List.map_cons, List.mem_cons, not_or] at hk
      rw [ih2 k hk.2, index_find_loadEntry hash index hlen e.1 e.2 k]
      simp [hk.1]

theorem counters_copy_reverse (c dst : counters) (hc : PostingSet c)
    (hdis : ∀ k ∈ counters_keys c, k ∉ counters_keys dst) :
    counters_copy c dst = c.reverse ++ dst := by
  unfold counters_copy
  induction c generalizing dst with
  | nil => rfl
  | cons n c ih =>
    have hn := hc.2 n (List.mem_cons_self _ _)
    have hnot := postingSet_head_not_mem n c hc
    have hn1 : n.1 ∉ counters_keys dst := hdis n.1 (by simp [counters_keys])
    rw [counters_iterate_cons, counters_set_of_not_mem dst n.1 n.2 (by omega) (by omega) hn1]
    rw [ih _ (postingSet_tail n c hc)]
    · simp
    · intro k hk
      simp only [counters_keys, List.map_cons, List.mem_cons, not_or]
      refine ⟨fun e => hnot (by rw [← e]; exact hk), ?_⟩
      exact hdis k (by simp only [counters_keys, List.map_cons, List.mem_cons]; exact Or.inr hk)

/-! ## Every index read from a file holds PostingSets -/

theorem tableWF_find {hash : cstring → Nat} {index : index_t}
    (hinv : TableInv hash (fun _ c => PostingSet c) index.ht.table) : IndexWF hash index :=
  fun w c hf => tableInv_mem_P hash _ index.ht.table hinv (w, c)
    ((tableInv_find_iff hash _ index.ht hinv w c).1 hf)

theorem fileToIndex_entry_tableWF (hash : cstring → Nat) (index : index_t) (w : cstring)
    (d c : Int) (hinv : TableInv hash (fun _ c => PostingSet c) index.ht.table) :
    TableInv hash (fun _ c => PostingSet c) (fileToIndex_entry hash index w d c).ht.table := by
  unfold fileToIndex_entry
  cases hf : index_find hash index w with
  | none =>
    exact tableInv_insert hash _ index.ht w _ hinv
      (counters_set_postingSet counters_new d c postingSet_nil)
  | some wordInfo =>
    exact tableInv_store hash _ index.ht w _ hinv
      (counters_set_postingSet wordInfo d c (tableWF_find hinv w wordInfo hf))

theorem fileToIndex_pairs_tableWF (hash : cstring → Nat) (fuel : Nat) (index : index_t)
    (w : cstring) (old : List Char)
    (hinv : TableInv hash (fun _ c => PostingSet c) index.ht.table) :
    TableInv hash (fun _ c => PostingSet c)
      (fileToIndex_pairs hash fuel index w old).1.ht.table := by
  induction fuel generalizing index old with
  | zero => exact hinv
  | succ f ih =>
    simp only [fileToIndex_pairs]
    split
    · exact ih _ _ (fileToIndex_entry_tableWF hash index w _ _ hinv)
    · exact hinv

theorem fileToIndex_words_tableWF (hash : cstring → Nat) (fuel : Nat) (index : index_t)
    (old : List Char) (hinv : TableInv hash (fun _ c => PostingSet c) index.ht.table) :
    TableInv hash (fun _ c => PostingSet c) (fileToIndex_words hash fuel index old).ht.table := by
  induction fuel generalizing index old with
  | zero => exact hinv
  | succ f ih =>
    simp only [fileToIndex_words]
    split
    · exact ih _ _ (fileToIndex_pairs_tableWF hash _ index _ _ hinv)
    · exact hinv

/-- Every index `fileToIndex` reads into a new index, from any text, holds
only PostingSets: the hypothesis `IndexWF` is met by every index the querier
works on. -/
theorem fileToIndex_wf (hash : cstring → Nat) (old : List Char) (loaded : index_t)
    (h : fileToIndex hash index_new (some old) = some loaded) : IndexWF hash loaded := by
  simp only [fileToIndex, Option.some.injEq] at h
  rw [← h]
  exact tableWF_find (fileToIndex_words_tableWF hash _ index_new old
    (tableInv_new hash _ num_slots (by decide)))

/-! ## The loops of fileToIndex never use up their fuel -/

theorem scan_digits_length (s : List Char) (acc : Nat) :
    (scan_digits s acc).2.length ≤ s.length := by
  induction s generalizing acc with
  | nil => simp [scan_digits]
  | cons c t ih =>
    simp only [scan_digits]
    split
    · have := ih (acc * 10 + (c.toNat - 48))
      simp only [List.length_cons]
      omega
    · simp

theorem dropWhile_length_le (p : Char → Bool) (s : List Char) :
    (s.dropWhile p).length ≤ s.length := by
  induction s with
  | nil => simp
  | cons c t ih =>
    simp only [List.dropWhile]
    split
    · simp only [List.length_cons]; omega
    · simp

theorem fscanf_d_length_le (s : List Char) : (fscanf_d s).2.length ≤ s.length := by
  unfold fscanf_d
  have hd := dropWhile_length_le isspace s
  cases hs : s.dropWhile isspace with
  | nil => simp
  | cons c rest =>
    rw [hs] at hd
    simp only [List.length_cons] at hd
    simp only []
    split
    · cases rest with
      | nil => simp
      | cons d rest1 =>
        simp only []
        split
        · have := scan_digits_length (d :: rest1) 0
          simp only [List.length_cons] at this hd ⊢
          omega
        · simp only [List.length_cons] at hd ⊢
          omega
    · split
      · have := scan_digits_length (c :: rest) 0
        simp only [List.length_cons] at this ⊢
        omega
      · simp only [List.length_cons]
        omega

theorem fscanf_d_length_lt (s : List Char) (v : Int) (h : (fscanf_d s).1 = some v) :
    (fscanf_d s).2.length < s.length := by
  unfold fscanf_d at h ⊢
  have hd := dropWhile_length_le isspace s
  cases hs : s.dropWhile isspace with
  | nil => rw [hs] at h; simp at h
  | cons c rest =>
    rw [hs] at hd h
    simp only [List.length_cons] at hd
    simp only [] at h ⊢
    split at h
    · next hsign =>
      simp only [hsign, if_true]
      cases rest with
      | nil => simp at h
      | cons d rest1 =>
        simp only [] at h ⊢
        split at h
        · next hdig =>
          simp only [hdig, if_true]
          have := scan_digits_length rest1 (0 * 10 + (d.toNat - 48))
          simp only [scan_digits, hdig, if_true, List.length_cons] at this hd ⊢
          omega
        · simp at h
    · next hsign =>
      simp only [hsign, if_false]
      split at h
      · next hdig =>
        simp only [hdig, if_true]
        have := scan_digits_length rest (0 * 10 + (c.toNat - 48))
        simp only [scan_digits, hdig, if_true] at this ⊢
        omega
      · simp at h

theorem fscanf_d_d_length_lt (s : List Char) (p : Int × Int) (rest : List Char)
    (h : fscanf_d_d s = (some p, rest)) : rest.length < s.length := by
  unfold fscanf_d_d at h
  cases h1 : fscanf_d s with
  | mk v1 r1 =>
    rw [h1] at h
    cases v1 with
    | none => simp at h
    | some docID =>
      simp only [] at h
      cases h2 : fscanf_d r1 with
      | mk v2 r2 =>
        rw [h2] at h
        cases v2 with
        | none => simp at h
        | some count =>
          simp only [Prod.mk.injEq, Option.some.injEq] at h
          have a1 := fscanf_d_length_lt s docID (by rw [h1])
          have a2 := fscanf_d_length_le r1
          rw [h1] at a1
          rw [h2] at a2
          simp only at a1 a2
          rw [← h.2]
          omega

theorem fscanf_d_d_length_le (s : List Char) : (fscanf_d_d s).2.length ≤ s.length := by
  unfold fscanf_d_d
  have a1 := fscanf_d_length_le s
  cases h1 : fscanf_d s with
  | mk v1 r1 =>
    rw [h1] at a1
    cases v1 with
    | none => exact a1
    | some docID =>
      simp only []
      have a2 := fscanf_d_length_le r1
      cases h2 : fscanf_d r1 with
      | mk v2 r2 =>
        rw [h2] at a2
        simp only at a1 a2
        cases v2 with
        | none => simp only []; omega
        | some count => simp only []; omega

theorem fscanf_s_length_lt (s : List Char) (w : cstring) (rest : List Char)
    (h : fscanf_s s = (some w, rest)) : rest.length < s.length := by
  unfold fscanf_s at h
  have hd := dropWhile_length_le isspace s
  cases hs : s.dropWhile isspace with
  | nil => rw [hs] at h; simp at h
  | cons c t =>
    rw [hs] at h hd
    simp only [Prod.mk.injEq, Option.some.injEq] at h
    have hc : isspace c = false := by
      have := List.head_dropWhile_not isspace s (by rw [hs]; simp)
      simpa [hs] using this
    rw [← h.2, List.dropWhile_cons_of_pos (by simp [hc])]
    have := dropWhile_length_le (fun x => !isspace x) t
    simp only [List.length_cons] at hd
    omega

/-- The inner loop of `fileToIndex` stops by itself: with fuel above the
length of the stream, more fuel changes nothing. -/
theorem fileToIndex_pairs_fuel (hash : cstring → Nat) (fuel extra : Nat) (index : index_t)
    (w : cstring) (old : List Char) (h : old.length < fuel) :
    fileToIndex_pairs hash (fuel + extra) index w old
      = fileToIndex_pairs hash fuel index w old := by
  induction fuel generalizing index old with
  | zero => omega
  | succ f ih =>
    have e : f + 1 + extra = (f + extra) + 1 := by omega
    rw [e]
    simp only [fileToIndex_pairs]
    cases hs : fscanf_d_d old with
    | mk v rest =>
      cases v with
      | none => rfl
      | some p =>
        simp only []
        have := fscanf_d_d_length_lt old p rest hs
        exact ih _ _ (by omega)

theorem fileToIndex_pairs_length_le (hash : cstring → Nat) (fuel : Nat) (index : index_t)
    (w : cstring) (old : List Char) :
    (fileToIndex_pairs hash fuel index w old).2.length ≤ old.length := by
  induction fuel generalizing index old with
  | zero => simp [fileToIndex_pairs]
  | succ f ih =>
    simp only [fileToIndex_pairs]
    have hle := fscanf_d_d_length_le old
    cases hs : fscanf_d_d old with
    | mk v rest =>
      rw [hs] at hle
      cases v with
      | none => exact hle
      | some p =>
        simp only []
        have := ih (fileToIndex_entry hash index w p.1 p.2) rest
        simp only at hle
        omega

/-- The outer loop of `fileToIndex` stops by itself: with fuel above the
length of the file, more fuel changes nothing, so `fileToIndex` is the
function the loops compute when they run to the end of the file. -/
theorem fileToIndex_words_fuel (hash : cstring → Nat) (fuel extra : Nat) (index : index_t)
    (old : List Char) (h : old.length < fuel) :
    fileToIndex_words hash (fuel + extra) index old = fileToIndex_words hash fuel index old := by
  induction fuel generalizing index old with
  | zero => omega
  | succ f ih =>
    have e : f + 1 + extra = (f + extra) + 1 := by omega
    rw [e]
    simp only [fileToIndex_words]
    cases hs : fscanf_s old with
    | mk v rest =>
      cases v with
      | none => rfl
      | some word =>
        simp only []
        have h1 := fscanf_s_length_lt old word rest hs
        have h2 := fileToIndex_pairs_length_le hash (rest.length + 1) index word rest
        exact ih _ _ (by omega)

/-! ## More lemmas on counters_add, counters_set and counters_get -/

theorem counters_get_map_increment (c : counters) (d j : Int) :
    counters_get (c.map (fun node => if node.1 = d then (node.1, node.2 + 1) else node)) j
      = if j = d ∧ d ∈ counters_keys c then counters_get c d + 1 else counters_get c j := by
  induction c with
  | nil => simp [counters_get, counters_keys]
  | cons n rest ih =>
    simp only [List.map_cons, counters_keys, List.mem_cons] at ih ⊢
    by_cases hn : n.1 = d
    · simp only [hn, if_true, counters_get]
      by_cases hj : j = d
      · subst hj
        simp
      · have hj2 : ¬ d = j := fun e => hj e.symm
        simp only [hj2, if_false, hj, false_and]
        rw [ih]
        simp [hj]
    · have hn2 : ¬ d = n.1 := fun e => hn e.symm
      simp only [hn, if_false, counters_get, hn2, false_or]
      by_cases hj : n.1 = j
      · have hjd : ¬ j = d := fun e => hn (hj.trans e)
        simp [hj, hjd]
      · simp only [hj, if_false]
        by_cases hjd : j = d
        · subst hjd
          simp only [hn, if_false, true_and] at ih ⊢
          exact ih
        · simp only [hjd, false_and, if_false] at ih ⊢
          exact ih

/-- The effect of `counters_add` on the counts: for a key `d ≥ 0` the count
of `d` is one more than before, every other count is unchanged. -/
theorem counters_add_get (c : counters) (d j : Int) (hd : 0 ≤ d) :
    counters_get (counters_add c d).1 j
      = if j = d then counters_get c d + 1 else counters_get c j := by
  by_cases hm : d ∈ counters_keys c
  · rw [counters_add_of_mem c d hd hm]
    simp only [counters_get_map_increment, hm, and_true]
  · rw [counters_add_of_not_mem c d hd hm]
    by_cases hj : j = d
    · subst hj
      simp [counters_get, counters_get_of_not_mem c j hm]
    · have hj2 : ¬ d = j := fun e => hj e.symm
      simp [counters_get, hj, hj2]

theorem counters_add_of_neg (c : counters) (d : Int) (hd : d < 0) :
    counters_add c d = (c, 0) := by
  have : ¬ d ≥ 0 := by omega
  simp only [counters_add, this, if_false]

theorem counters_add_keys (c : counters) (d j : Int) (hd : 0 ≤ d) :
    j ∈ counters_keys (counters_add c d).1 ↔ j ∈ counters_keys c ∨ j = d := by
  by_cases hm : d ∈ counters_keys c
  · rw [counters_add_of_mem c d hd hm]
    have : counters_keys (c.map (fun node => if node.1 = d then (node.1, node.2 + 1) else node))
        = counters_keys c := by
      simp only [counters_keys, List.map_map]
      apply List.map_congr_left
      intro n _
      simp only [Function.comp]
      split <;> rfl
    rw [this]
    constructor
    · intro h; exact Or.inl h
    · rintro (h | h)
      · exact h
      · rw [h]; exact hm
  · rw [counters_add_of_not_mem c d hd hm]
    simp only [counters_keys, List.map_cons, List.mem_cons]
    tauto

theorem countersInv_nil : CountersInv ([] : counters) := by
  simp [CountersInv, counters_keys]

theorem countersInv_add (c : counters) (d : Int) (h : CountersInv c) :
    CountersInv (counters_add c d).1 := by
  by_cases hd : 0 ≤ d
  · by_cases hm : d ∈ counters_keys c
    · rw [counters_add_of_mem c d hd hm]
      refine ⟨?_, ?_⟩
      · have : counters_keys
            (c.map (fun node => if node.1 = d then (node.1, node.2 + 1) else node))
            = counters_keys c := by
          simp only [counters_keys, List.map_map]
          apply List.map_congr_left
          intro n _
          simp only [Function.comp]
          split <;> rfl
        rw [this]; exact h.1
      · intro n hn
        simp only [List.mem_map] at hn
        obtain ⟨m, hm2, rfl⟩ := hn
        have := h.2 m hm2
        split
        · simp only; omega
        · exact this
    · rw [counters_add_of_not_mem c d hd hm]
      refine ⟨?_, ?_⟩
      · simp only [counters_keys, List.map_cons, List.nodup_cons]
        exact ⟨hm, h.1⟩
      · intro n hn
        simp only [List.mem_cons] at hn
        rcases hn with hn | hn
        · rw [hn]
        · exact h.2 n hn
  · rw [counters_add_of_neg c d (by omega)]
    exact h

theorem countersInv_set (c : counters) (k v : Int) (h : CountersInv c) :
    CountersInv (counters_set c k v).1 := by
  by_cases g : k > 0 ∧ v > 0
  · simp only [counters_set, g, if_true, and_self]
    cases hl : counters_set_loop c k v with
    | none =>
      have hk := (counters_set_loop_eq_none c k v).1 hl
      refine ⟨?_, ?_⟩
      · simp only [counters_keys, List.map_cons, List.nodup_cons]
        exact ⟨hk, h.1⟩
      · intro n hn
        simp only [List.mem_cons] at hn
        rcases hn with hn | hn
        · subst hn; simp only; omega
        · exact h.2 n hn
    | some c1 =>
      refine ⟨?_, ?_⟩
      · show (counters_keys c1).Nodup
        rw [counters_set_loop_keys c k v c1 hl]; exact h.1
      · intro n hn
        rcases counters_set_loop_mem c k v c1 hl n hn with h1 | h1
        · exact h.2 n h1
        · subst h1; simp only; omega
  · rw [counters_set_of_not_guard c k v g]; exact h

theorem countersInv_of_reachable (c : counters) (h : CountersReachable c) : CountersInv c := by
  induction h with
  | new => exact countersInv_nil
  | add c key _ ih => exact countersInv_add c key ih
  | set c key count _ ih => exact countersInv_set c key count ih

/-- With no key in two nodes, `counters_get` returns the tally stored in the
node of the key. -/
theorem counters_get_of_mem_nodup (c : counters) (hnd : (counters_keys c).Nodup)
    (n : Int × Int) (hn : n ∈ c) : counters_get c n.1 = n.2 := by
  induction c with
  | nil => exact absurd hn (List.not_mem_nil _)
  | cons m rest ih =>
    simp only [counters_keys, List.map_cons, List.nodup_cons] at hnd
    simp only [List.mem_cons] at hn
    rcases hn with hn | hn
    · subst hn; simp [counters_get]
    · have hne : ¬ m.1 = n.1 := by
        intro e
        apply hnd.1
        rw [e]
        exact List.mem_map_of_mem Prod.fst hn
      simp only [counters_get, hne, if_false]
      exact ih hnd.2 hn

theorem counters_set_snd (c : counters) (k v : Int) :
    (counters_set c k v).2 = decide (k > 0 ∧ v > 0) := by
  by_cases g : k > 0 ∧ v > 0
  · simp only [counters_set, g, if_true, and_self, decide_True]
    split <;> rfl
  · rw [counters_set_of_not_guard c k v g]
    simp [g]

/-- The value `index_add` returns for a word that is in the index: whether
`counters_add` returned a positive value. -/
theorem index_add_snd_of_present (hash : cstring → Nat) (index : index_t) (word : cstring)
    (d : Int) (c : counters) (hd : 0 ≤ d) (hf : index_find hash index word = some c) :
    (index_add hash index word d).2 = decide ((counters_add c d).2 > 0) := by
  unfold index_add
  have hd2 : d ≥ 0 := hd
  simp only [index_find] at hf
  simp only [hd2, if_true, hf]

theorem termCount_index_add (hash : cstring → Nat) (index : index_t)
    (hlen : 0 < index.ht.table.length) (t : cstring) (d : Int) (hd : 0 ≤ d)
    (t1 : cstring) (d1 : Int) :
    termCount hash (index_add hash index t d).1 t1 d1
      = if t1 = t ∧ d1 = d then termCount hash index t d + 1
        else termCount hash index t1 d1 := by
  unfold termCount
  rw [index_find_add hash index hlen t d t1]
  by_cases ht : t1 = t
  · subst ht
    simp only [hd, and_self, if_true, true_and]
    rw [counters_add_get _ d d1 hd]
    cases hf : index_find hash index t1 with
    | none =>
      simp only [Option.getD_none, counters_new, counters_get]
    | some c =>
      simp only [Option.getD_some]
  · simp only [ht, false_and, if_false]


/-! ## A clause with a missing term -/

theorem score_step_keeps_or (hash : cstring → Nat) (index : index_t) (st : ScoreState)
    (w : cstring) (hw : w ≠ ['o', 'r']) :
    (score_step hash index st w).orSequence = st.orSequence ∧
    ((st.shortCircuit = true → st.andSequence = none) →
      ((score_step hash index st w).shortCircuit = true →
        (score_step hash index st w).andSequence = none)) := by
  by_cases hsc : st.shortCircuit = true
  · rw [score_step_short hash index st w hw hsc]
    exact ⟨rfl, fun h => h⟩
  · have hsc2 : st.shortCircuit = false := by simpa using hsc
    by_cases hand : w = ['a', 'n', 'd']
    · subst hand
      rw [score_step_and]
      exact ⟨rfl, fun h => h⟩
    · cases hf : index_find hash index w with
      | none =>
        rw [score_step_absent hash index st w hw hand hsc2 hf]
        exact ⟨rfl, fun _ _ => rfl⟩
      | some wc =>
        cases ha : st.andSequence with
        | none =>
          rw [score_step_first hash index st w wc hw hand hsc2 hf ha]
          refine ⟨rfl, fun _ h => ?_⟩
          rw [hsc2] at h
          exact Bool.noConfusion h
        | some a =>
          rw [score_step_next hash index st w wc a hw hand hsc2 hf ha]
          refine ⟨rfl, fun _ h => ?_⟩
          rw [hsc2] at h
          exact Bool.noConfusion h

theorem score_foldl_short (hash : cstring → Nat) (index : index_t) (clause : List cstring)
    (st : ScoreState) (hclause : ['o', 'r'] ∉ clause) (hsc : st.shortCircuit = true) :
    clause.foldl (score_step hash index) st = st := by
  induction clause with
  | nil => rfl
  | cons w rest ih =>
    simp only [List.mem_cons, not_or] at hclause
    have hw : w ≠ ['o', 'r'] := fun e => hclause.1 e.symm
    simp only [List.foldl_cons, score_step_short hash index st w hw hsc]
    exact ih hclause.2

/-- After a clause that holds a term missing from the index, `score` has
dropped the AND-sequence and is short-circuiting; the OR-sequence is what it
was before the clause. -/
theorem score_foldl_missing (hash : cstring → Nat) (index : index_t) (z : cstring)
    (hz : index_find hash index z = none) (hzand : z ≠ ['a', 'n', 'd'])
    (hzor : z ≠ ['o', 'r']) (clause : List cstring) (st : ScoreState)
    (hmem : z ∈ clause) (hclause : ['o', 'r'] ∉ clause)
    (hinv : st.shortCircuit = true → st.andSequence = none) :
    clause.foldl (score_step hash index) st
      = { orSequence := st.orSequence, andSequence := none, shortCircuit := true } := by
  induction clause generalizing st with
  | nil => exact absurd hmem (List.not_mem_nil _)
  | cons w rest ih =>
    simp only [List.mem_cons, not_or] at hclause
    have hw : w ≠ ['o', 'r'] := fun e => hclause.1 e.symm
    simp only [List.foldl_cons]
    by_cases hwz : w = z
    · subst hwz
      have hstep : score_step hash index st w
          = { orSequence := st.orSequence, andSequence := none, shortCircuit := true } := by
        by_cases hsc : st.shortCircuit = true
        · rw [score_step_short hash index st w hw hsc]
          have ha := hinv hsc
          cases st with
          | mk o a s =>
            simp only at hsc ha
            rw [hsc, ha]
        · have hsc2 : st.shortCircuit = false := by simpa using hsc
          rw [score_step_absent hash index st w hw hzand hsc2 hz]
      rw [hstep]
      exact score_foldl_short hash index rest _ hclause.2 rfl
    · have hrest : z ∈ rest := by
        simp only [List.mem_cons] at hmem
        rcases hmem with h | h
        · exact absurd h.symm hwz
        · exact h
      have hk := score_step_keeps_or hash index st w hw
      rw [ih (score_step hash index st w) hrest hclause.2 (hk.2 hinv), hk.1]

theorem myUnion_none_right (o : Option counters) : myUnion o none = o := by
  cases o <;> rfl

/-- A clause with a missing term, together with the `or` after it, leaves
the state of `score` at the start of a clause as it was. -/
theorem score_foldl_missing_or (hash : cstring → Nat) (index : index_t) (z : cstring)
    (hz : index_find hash index z = none) (hzand : z ≠ ['a', 'n', 'd'])
    (hzor : z ≠ ['o', 'r']) (clause : List cstring) (o : Option counters)
    (hmem : z ∈ clause) (hclause : ['o', 'r'] ∉ clause) :
    (clause ++ [['o', 'r']]).foldl (score_step hash index)
        { orSequence := o, andSequence := none, shortCircuit := false }
      = { orSequence := o, andSequence := none, shortCircuit := false } := by
  rw [List.foldl_append, score_foldl_missing hash index z hz hzand hzor clause
    { orSequence := o, andSequence := none, shortCircuit := false } hmem hclause
    (fun _ => rfl)]
  simp only [List.foldl_cons, List.foldl_nil, score_step, if_true, myUnion_none_right]

theorem score_step_or (hash : cstring → Nat) (index : index_t) (st : ScoreState) :
    score_step hash index st ['o', 'r']
      = { orSequence := myUnion st.orSequence st.andSequence, andSequence := none,
          shortCircuit := false } := by
  simp only [score_step, if_true]

theorem score_eq_finish (hash : cstring → Nat) (index : index_t) (words : List cstring) :
    score hash index words none
      = score_finish (words.foldl (score_step hash index)
          { orSequence := some counters_new, andSequence := none, shortCircuit := false }) :=
  rfl

/-! ## Lemmas on sequences of index_add calls -/

theorem foldl_index_add_length (hash : cstring → Nat) (calls : List (cstring × Int))
    (index : index_t) :
    (calls.foldl (fun i p => (index_add hash i p.1 p.2).1) index).ht.table.length
      = index.ht.table.length := by
  induction calls generalizing index with
  | nil => rfl
  | cons p rest ih =>
    simp only [List.foldl_cons]
    rw [ih, index_add_length]

theorem termCount_foldl_index_add (hash : cstring → Nat) (calls : List (cstring × Int))
    (index : index_t) (hlen : 0 < index.ht.table.length) (hcalls : ∀ p ∈ calls, 0 ≤ p.2)
    (t : cstring) (d : Int) :
    termCount hash (calls.foldl (fun i p => (index_add hash i p.1 p.2).1) index) t d
      = termCount hash index t d + (calls.count (t, d) : Int) := by
  induction calls generalizing index with
  | nil => simp
  | cons p rest ih =>
    have hp := hcalls p (List.mem_cons_self _ _)
    have hlen2 : 0 < (index_add hash index p.1 p.2).1.ht.table.length := by
      rw [index_add_length]; exact hlen
    simp only [List.foldl_cons]
    rw [ih _ hlen2 (fun q hq => hcalls q (List.mem_cons_of_mem _ hq)),
      termCount_index_add hash index hlen p.1 p.2 hp, List.count_cons]
    by_cases h : t = p.1 ∧ d = p.2
    · obtain ⟨h1, h2⟩ := h
      subst h1 h2
      simp
      omega
    · have hne : ¬ p = (t, d) := by
        intro e
        apply h
        rw [e]
        exact ⟨rfl, rfl⟩
      simp [h, hne]

theorem index_find_foldl_index_add_none (hash : cstring → Nat) (calls : List (cstring × Int))
    (index : index_t) (hlen : 0 < index.ht.table.length) (hcalls : ∀ p ∈ calls, 0 ≤ p.2)
    (t : cstring) :
    index_find hash (calls.foldl (fun i p => (index_add hash i p.1 p.2).1) index) t = none
      ↔ index_find hash index t = none ∧ t ∉ calls.map Prod.fst := by
  induction calls generalizing index with
  | nil => simp
  | cons p rest ih =>
    have hp := hcalls p (List.mem_cons_self _ _)
    have hlen2 : 0 < (index_add hash index p.1 p.2).1.ht.table.length := by
      rw [index_add_length]; exact hlen
    simp only [List.foldl_cons, List.map_cons, List.mem_cons, not_or]
    rw [ih _ hlen2 (fun q hq => hcalls q (List.mem_cons_of_mem _ hq)),
      index_find_add hash index hlen p.1 p.2 t]
    by_cases h : t = p.1
    · simp [h, hp]
    · simp [h]

/-! ## Lemmas on indexPage and indexBuild -/

theorem indexPage_word_index (hash : cstring → Nat) (docID : Int) (st : PageRun)
    (word : cstring) :
    (indexPage_word hash docID st word).index
      = if word.length ≥ 3 then (index_add hash st.index (normalize word) docID).1
        else st.index := by
  unfold indexPage_word
  split
  · simp only []
    split <;> rfl
  · rfl

theorem indexPage_foldl_index (hash : cstring → Nat) (docID : Int) (words : List cstring)
    (st : PageRun) :
    (words.foldl (indexPage_word hash docID) st).index
      = (pageCalls { words := words } docID).foldl
          (fun i p => (index_add hash i p.1 p.2).1) st.index := by
  induction words generalizing st with
  | nil => rfl
  | cons w rest ih =>
    simp only [List.foldl_cons]
    rw [ih, indexPage_word_index]
    by_cases h : w.length ≥ 3
    · simp [pageCalls, List.filter_cons, h]
    · simp [pageCalls, List.filter_cons, h]

theorem indexPage_index (hash : cstring → Nat) (index : index_t) (page : webpage_t)
    (docID : Int) :
    (indexPage hash index page docID).1.index
      = (pageCalls page docID).foldl (fun i p => (index_add hash i p.1 p.2).1) index := by
  unfold indexPage
  exact indexPage_foldl_index hash docID page.words _

theorem indexPage_snd (hash : cstring → Nat) (index : index_t) (page : webpage_t)
    (docID : Int) : (indexPage hash index page docID).2 = true := rfl

theorem indexPages_eq_calls (hash : cstring → Nat) (pages : List webpage_t) (first : Int)
    (index : index_t) :
    indexPages hash pages first index
      = (pagesCalls pages first).foldl (fun i p => (index_add hash i p.1 p.2).1) index := by
  induction pages generalizing first index with
  | nil => rfl
  | cons page rest ih =>
    simp only [indexPages, pagesCalls, List.foldl_append]
    rw [ih, indexPage_index]

theorem indexBuild_loop_pages (hash : cstring → Nat) (dir : Int → Option webpage_t)
    (pages : List webpage_t) (first : Int) (index : index_t) (turns : Nat)
    (hload : ∀ i : Nat, i < pages.length → dir (first + i) = pages[i]?)
    (hgap : dir (first + pages.length) = none) (hturns : pages.length < turns) :
    indexBuild_loop hash dir turns first index
      = BuildResult.built (indexPages hash pages first index) := by
  induction pages generalizing first index turns with
  | nil =>
    cases turns with
    | zero => simp at hturns
    | succ n =>
      simp only [List.length_nil, Nat.cast_zero, add_zero] at hgap
      simp only [indexBuild_loop, pagedir_load, hgap, indexPages]
  | cons page rest ih =>
    cases turns with
    | zero => simp at hturns
    | succ n =>
      have h0 : dir first = some page := by
        have := hload 0 (by simp)
        simpa using this
      simp only [indexBuild_loop, pagedir_load, h0, indexPage_snd, Bool.not_true,
        Bool.false_eq_true, if_false, indexPages]
      apply ih
      · intro i hi
        have := hload (i + 1) (by simpa using hi)
        simp only [List.getElem?_cons_succ, Nat.cast_add, Nat.cast_one] at this
        rw [← this]
        congr 1
        omega
      · rw [← hgap]
        congr 1
        simp only [List.length_cons, Nat.cast_add, Nat.cast_one]
        omega
      · simpa using hturns

theorem indexBuild_of_firstDocuments (hash : cstring → Nat) (dir : Int → Option webpage_t)
    (pages : List webpage_t) (hdocs : FirstDocuments dir pages) (turns : Nat)
    (hturns : pages.length < turns) :
    indexBuild hash dir turns = BuildResult.built (indexPages hash pages 1 index_new) := by
  unfold indexBuild
  apply indexBuild_loop_pages hash dir pages 1 index_new turns
  · intro i hi
    rw [← hdocs.1 i hi]
    congr 1
    omega
  · rw [← hdocs.2]
    congr 1
    omega
  · exact hturns

/-! ## Counting the calls -/

theorem pageCalls_count (page : webpage_t) (d0 : Int) (t : cstring) (d : Int) :
    (pageCalls page d0).count (t, d)
      = if d = d0 then
          (page.words.filter
            (fun w => decide (w.length ≥ 3) && decide (normalize w = t))).length
        else 0 := by
  unfold pageCalls
  cases page with
  | mk words =>
    simp only
    induction words with
    | nil => simp
    | cons w rest ih =>
      by_cases h : w.length ≥ 3
      · simp only [List.filter_cons, h, decide_True, if_true, List.map_cons, List.count_cons, ih,
          Bool.true_and]
        by_cases hd : d = d0
        · by_cases hn : normalize w = t
          · simp [hd, hn]
          · simp [hd, hn]
        · have hne : ¬ d0 = d := fun e => hd e.symm
          simp [hd, hne]
      · simp only [List.filter_cons, h, decide_False, if_false, ih, Bool.false_and,
          Bool.false_eq_true]

theorem pagesCalls_count (pages : List webpage_t) (first : Int) (t : cstring) (d : Int) :
    (pagesCalls pages first).count (t, d)
      = if first ≤ d ∧ d < first + pages.length then
          match pages[(d - first).toNat]? with
          | some page =>
            (page.words.filter
              (fun w => decide (w.length ≥ 3) && decide (normalize w = t))).length
          | none => 0
        else 0 := by
  induction pages generalizing first with
  | nil =>
    have : ¬ (first ≤ d ∧ d < first + ((([] : List webpage_t).length : Nat) : Int)) := by
      simp only [List.length_nil, Nat.cast_zero, add_zero]
      omega
    simp only [pagesCalls, List.count_nil, this, if_false]
  | cons page rest ih =>
    simp only [pagesCalls, List.count_append, pageCalls_count, ih, List.length_cons,
      Nat.cast_add, Nat.cast_one]
    by_cases hd : d = first
    · subst hd
      have h1 : ¬ (d + 1 ≤ d ∧ d < d + 1 + (rest.length : Int)) := by omega
      have h2 : d ≤ d ∧ d < d + ((rest.length : Int) + 1) := by omega
      simp [h1, h2]
    · simp only [hd, if_false, zero_add]
      by_cases hr : first + 1 ≤ d ∧ d < first + 1 + (rest.length : Int)
      · have h2 : first ≤ d ∧ d < first + ((rest.length : Int) + 1) := by omega
        simp only [hr, and_self, if_true, h2]
        have e : (d - first).toNat = (d - (first + 1)).toNat + 1 := by omega
        rw [e, List.getElem?_cons_succ]
      · have h2 : ¬ (first ≤ d ∧ d < first + ((rest.length : Int) + 1)) := by omega
        simp only [hr, if_false, h2]

theorem pagesCalls_count_one (pages : List webpage_t) (t : cstring) (d : Int) :
    (pagesCalls pages 1).count (t, d) = occurrences pages t d := by
  rw [pagesCalls_count]
  unfold occurrences
  by_cases h : 1 ≤ d ∧ d ≤ (pages.length : Int)
  · have h2 : 1 ≤ d ∧ d < 1 + (pages.length : Int) := by omega
    simp only [h, h2, and_self, if_true]
  · have h2 : ¬ (1 ≤ d ∧ d < 1 + (pages.length : Int)) := by omega
    simp only [h, h2, if_false]

theorem pagesCalls_docID (pages : List webpage_t) (first : Int) (hfirst : 0 ≤ first) :
    ∀ p ∈ pagesCalls pages first, 0 ≤ p.2 := by
  induction pages generalizing first with
  | nil => intro p hp; exact absurd hp (List.not_mem_nil _)
  | cons page rest ih =>
    intro p hp
    simp only [pagesCalls, List.mem_append] at hp
    rcases hp with hp | hp
    · simp only [pageCalls, List.mem_map] at hp
      obtain ⟨w, _, rfl⟩ := hp
      exact hfirst
    · exact ih (first + 1) (by omega) p hp

theorem pagesCalls_term_length (pages : List webpage_t) (first : Int) :
    ∀ p ∈ pagesCalls pages first, 3 ≤ p.1.length := by
  induction pages generalizing first with
  | nil => intro p hp; exact absurd hp (List.not_mem_nil _)
  | cons page rest ih =>
    intro p hp
    simp only [pagesCalls, List.mem_append] at hp
    rcases hp with hp | hp
    · simp only [pageCalls, List.mem_map, List.mem_filter, decide_eq_true_eq] at hp
      obtain ⟨w, ⟨_, hw⟩, rfl⟩ := hp
      simpa [normalize] using hw
    · exact ih (first + 1) p hp

/-! ## A pair that has been added stays in the index -/

theorem index_add_pair_present (hash : cstring → Nat) (index : index_t)
    (hlen : 0 < index.ht.table.length) (t : cstring) (d : Int) (hd : 0 ≤ d) :
    ∃ c, index_find hash (index_add hash index t d).1 t = some c ∧ d ∈ counters_keys c := by
  refine ⟨(counters_add ((index_find hash index t).getD counters_new) d).1, ?_, ?_⟩
  · rw [index_find_add hash index hlen t d t]
    simp only [hd, and_self, if_true]
  · rw [counters_add_keys _ d d hd]
    exact Or.inr rfl

theorem index_add_pair_kept (hash : cstring → Nat) (index : index_t)
    (hlen : 0 < index.ht.table.length) (w : cstring) (e : Int) (t : cstring) (d : Int)
    (h : ∃ c, index_find hash index t = some c ∧ d ∈ counters_keys c) :
    ∃ c, index_find hash (index_add hash index w e).1 t = some c ∧ d ∈ counters_keys c := by
  obtain ⟨c, hc, hd⟩ := h
  rw [index_find_add hash index hlen w e t]
  by_cases hk : t = w ∧ 0 ≤ e
  · obtain ⟨h1, h2⟩ := hk
    subst h1
    simp only [h2, and_self, if_true, hc, Option.getD_some]
    refine ⟨(counters_add c e).1, rfl, ?_⟩
    rw [counters_add_keys c e d h2]
    exact Or.inl hd
  · simp only [hk, if_false]
    exact ⟨c, hc, hd⟩

theorem foldl_index_add_pair_present (hash : cstring → Nat) (calls : List (cstring × Int))
    (index : index_t) (hlen : 0 < index.ht.table.length) (hcalls : ∀ p ∈ calls, 0 ≤ p.2)
    (t : cstring) (d : Int)
    (h : (t, d) ∈ calls ∨ ∃ c, index_find hash index t = some c ∧ d ∈ counters_keys c) :
    ∃ c, index_find hash (calls.foldl (fun i p => (index_add hash i p.1 p.2).1) index) t
        = some c ∧ d ∈ counters_keys c := by
  induction calls generalizing index with
  | nil =>
    rcases h with h | h
    · exact absurd h (List.not_mem_nil _)
    · exact h
  | cons p rest ih =>
    have hp := hcalls p (List.mem_cons_self _ _)
    have hlen2 : 0 < (index_add hash index p.1 p.2).1.ht.table.length := by
      rw [index_add_length]; exact hlen
    simp only [List.foldl_cons]
    apply ih _ hlen2 (fun q hq => hcalls q (List.mem_cons_of_mem _ hq))
    rcases h with h | h
    · simp only [List.mem_cons] at h
      rcases h with h | h
      · right
        rw [← h]
        exact index_add_pair_present hash index hlen t d (by rw [← h] at hp; exact hp)
      · left; exact h
    · right
      exact index_add_pair_kept hash index hlen p.1 p.2 t d h

theorem pageCalls_eq_pagesCalls (page : webpage_t) (docID : Int) :
    pageCalls page docID = pagesCalls [page] docID := by
  simp [pagesCalls]

theorem mem_pagesCalls_of_word (pages : List webpage_t) (first : Int) (i : Nat)
    (page : webpage_t) (w : cstring) (hpage : pages[i]? = some page) (hw : w ∈ page.words)
    (hlen : 3 ≤ w.length) : (normalize w, first + i) ∈ pagesCalls pages first := by
  induction pages generalizing first i with
  | nil => simp at hpage
  | cons p rest ih =>
    simp only [pagesCalls, List.mem_append]
    cases i with
    | zero =>
      left
      simp only [List.getElem?_cons_zero, Option.some.injEq] at hpage
      subst hpage
      simp only [pageCalls, List.mem_map, List.mem_filter, decide_eq_true_eq]
      exact ⟨w, ⟨hw, hlen⟩, by simp⟩
    | succ j =>
      right
      simp only [List.getElem?_cons_succ] at hpage
      have := ih (first + 1) j hpage
      have e : first + ((j + 1 : Nat) : Int) = first + 1 + (j : Int) := by
        simp only [Nat.cast_add, Nat.cast_one]; omega
      rw [e]
      exact this

/-! ## The invariant of the counter sets the program builds -/

theorem storeTriples_cons (hash : cstring → Nat) (index : index_t)
    (tr : cstring × Int × Int) (rest : List (cstring × Int × Int)) :
    storeTriples hash index (tr :: rest)
      = storeTriples hash (fileToIndex_entry hash index tr.1 tr.2.1 tr.2.2) rest := rfl

theorem storeTriples_append (hash : cstring → Nat) (index : index_t)
    (a b : List (cstring × Int × Int)) :
    storeTriples hash index (a ++ b) = storeTriples hash (storeTriples hash index a) b := by
  unfold storeTriples
  rw [List.foldl_append]

theorem storeTriples_length (hash : cstring → Nat) (index : index_t)
    (triples : List (cstring × Int × Int)) :
    (storeTriples hash index triples).ht.table.length = index.ht.table.length := by
  induction triples generalizing index with
  | nil => rfl
  | cons tr rest ih => rw [storeTriples_cons, ih, fileToIndex_entry_length]

theorem fileToIndex_pairs_eq_read (hash : cstring → Nat) (fuel : Nat) (index : index_t)
    (w : cstring) (old : List Char) :
    fileToIndex_pairs hash fuel index w old
      = (storeTriples hash index
          ((fileToIndex_pairs_read fuel old).1.map (fun p => (w, p.1, p.2))),
         (fileToIndex_pairs_read fuel old).2) := by
  induction fuel generalizing index old with
  | zero => rfl
  | succ f ih =>
    simp only [fileToIndex_pairs, fileToIndex_pairs_read]
    cases h : fscanf_d_d old with
    | mk v rest =>
      cases v with
      | none => rfl
      | some p =>
        obtain ⟨docID, count⟩ := p
        simp only [ih, List.map_cons, storeTriples_cons]

theorem fileToIndex_words_eq_read (hash : cstring → Nat) (fuel : Nat) (index : index_t)
    (old : List Char) :
    fileToIndex_words hash fuel index old
      = storeTriples hash index (fileToIndex_read fuel old) := by
  induction fuel generalizing index old with
  | zero => rfl
  | succ f ih =>
    simp only [fileToIndex_words, fileToIndex_read]
    cases h : fscanf_s old with
    | mk v rest =>
      cases v with
      | none => rfl
      | some word =>
        simp only [ih, fileToIndex_pairs_eq_read, storeTriples_append]

theorem fileToIndex_eq_storeTriples (hash : cstring → Nat) (index : index_t)
    (old : List Char) :
    fileToIndex hash index (some old) = some (storeTriples hash index (triplesRead old)) := by
  simp only [fileToIndex, triplesRead, fileToIndex_words_eq_read]

/-! ## The counts after a triple, and after a sequence of triples -/

theorem fileToIndex_entry_no_zero (hash : cstring → Nat) (index : index_t)
    (hlen : 0 < index.ht.table.length) (w : cstring) (d c : Int)
    (h : ∀ t s, index_find hash index t = some s → (0 : Int) ∉ counters_keys s) :
    ∀ t s, index_find hash (fileToIndex_entry hash index w d c) t = some s →
      (0 : Int) ∉ counters_keys s := by
  intro t s hf
  rw [index_find_fileToIndex_entry hash index hlen w d c t] at hf
  by_cases htw : t = w
  · simp only [htw, if_true, Option.some.injEq] at hf
    rw [← hf, counters_set_keys]
    rintro (h0 | h0)
    · cases hw : index_find hash index w with
      | none => rw [hw] at h0; simp [counters_new, counters_keys] at h0
      | some s0 =>
        rw [hw] at h0
        exact h w s0 hw h0
    · omega
  · simp only [htw, if_false] at hf
    exact h t s hf

theorem storeTriples_no_zero (hash : cstring → Nat) (triples : List (cstring × Int × Int))
    (index : index_t) (hlen : 0 < index.ht.table.length)
    (h : ∀ t s, index_find hash index t = some s → (0 : Int) ∉ counters_keys s) :
    ∀ t s, index_find hash (storeTriples hash index triples) t = some s →
      (0 : Int) ∉ counters_keys s := by
  induction triples generalizing index with
  | nil => exact h
  | cons tr rest ih =>
    rw [storeTriples_cons]
    exact ih _ (by rw [fileToIndex_entry_length]; exact hlen)
      (fileToIndex_entry_no_zero hash index hlen tr.1 tr.2.1 tr.2.2 h)

theorem fileToIndex_entry_zero (hash : cstring → Nat) (index : index_t)
    (hlen : 0 < index.ht.table.length) (w : cstring) (c : Int) (k : cstring) :
    (index_find hash (fileToIndex_entry hash index w 0 c) k).getD counters_new
      = (index_find hash index k).getD counters_new := by
  rw [index_find_fileToIndex_entry hash index hlen w 0 c k]
  by_cases hk : k = w
  · subst hk
    simp only [if_true, Option.getD_some]
    rw [counters_set_of_not_guard _ 0 c (by omega)]
  · simp only [hk, if_false]

theorem exampleIndex_length : 0 < exampleIndex.ht.table.length := by
  unfold exampleIndex indexOfCalls
  rw [foldl_index_add_length]
  exact index_new_length

theorem counters_copy_nil (dst : counters) : counters_copy [] dst = dst := rfl

theorem counters_copy_cons (n : Int × Int) (c dst : counters) :
    counters_copy (n :: c) dst = counters_copy c (counters_set dst n.1 n.2).1 := rfl

theorem counters_copy_append (a b dst : counters) :
    counters_copy (a ++ b) dst = counters_copy b (counters_copy a dst) := by
  unfold counters_copy counters_iterate
  rw [List.foldl_append]

theorem pairsOf_nil (t : cstring) : pairsOf [] t = [] := rfl

theorem pairsOf_cons (e : cstring × counters) (E : List (cstring × counters)) (t : cstring) :
    pairsOf (e :: E) t = if e.1 = t then e.2 ++ pairsOf E t else pairsOf E t := by
  unfold pairsOf
  by_cases h : e.1 = t
  · simp [List.filter_cons, h]
  · simp [List.filter_cons, h]

theorem pairsOf_ne_nil_iff (E : List (cstring × counters)) (t : cstring)
    (hne : ∀ e ∈ E, e.2 ≠ []) : pairsOf E t ≠ [] ↔ t ∈ E.map Prod.fst := by
  induction E with
  | nil => simp [pairsOf_nil]
  | cons e E ih =>
    have ih2 := ih (fun x hx => hne x (List.mem_cons_of_mem _ hx))
    have he := hne e (List.mem_cons_self _ _)
    rw [pairsOf_cons]
    by_cases h : e.1 = t
    · simp [h, he]
    · have h2 : ¬ t = e.1 := fun x => h x.symm
      simp only [h, if_false, List.map_cons, List.mem_cons, h2, false_or]
      exact ih2

theorem pairsOf_mem (E : List (cstring × counters)) (t : cstring) (n : Int × Int)
    (h : n ∈ pairsOf E t) : ∃ e ∈ E, e.1 = t ∧ n ∈ e.2 := by
  induction E with
  | nil => simp [pairsOf_nil] at h
  | cons e E ih =>
    rw [pairsOf_cons] at h
    by_cases he : e.1 = t
    · simp only [he, if_true, List.mem_append] at h
      rcases h with h | h
      · exact ⟨e, List.mem_cons_self _ _, he, h⟩
      · obtain ⟨x, hx, hx1, hx2⟩ := ih h
        exact ⟨x, List.mem_cons_of_mem _ hx, hx1, hx2⟩
    · simp only [he, if_false] at h
      obtain ⟨x, hx, hx1, hx2⟩ := ih h
      exact ⟨x, List.mem_cons_of_mem _ hx, hx1, hx2⟩

theorem index_find_foldl_loadEntry_pairsOf (hash : cstring → Nat)
    (E : List (cstring × counters)) (index : index_t) (hlen : 0 < index.ht.table.length)
    (t : cstring) :
    index_find hash (E.foldl (loadEntry hash) index) t
      = if pairsOf E t = [] then index_find hash index t
        else some (counters_copy (pairsOf E t) ((index_find hash index t).getD counters_new)) := by
  induction E generalizing index with
  | nil => simp [pairsOf_nil]
  | cons e E ih =>
    have hlen2 : 0 < (loadEntry hash index e).ht.table.length := by
      rw [loadEntry_length]; exact hlen
    rw [List.foldl_cons, ih _ hlen2, pairsOf_cons,
      index_find_loadEntry hash index hlen e.1 e.2 t]
    by_cases het : e.1 = t
    · subst het
      by_cases he2 : e.2 = []
      · simp [he2]
      · by_cases hp : pairsOf E e.1 = []
        · simp [he2, hp]
        · simp [he2, hp, counters_copy_append]
    · have het2 : ¬ t = e.1 := fun x => het x.symm
      simp [het, het2]

theorem counters_get_copy_lastCount (P dst : counters) (hP : ∀ n ∈ P, 1 ≤ n.1 ∧ 1 ≤ n.2)
    (d : Int) :
    counters_get (counters_copy P dst) d
      = P.foldl (fun v n => if n.1 = d then n.2 else v) (counters_get dst d) := by
  induction P generalizing dst with
  | nil => rfl
  | cons n P ih =>
    have hn := hP n (List.mem_cons_self _ _)
    rw [counters_copy_cons, ih _ (fun m hm => hP m (List.mem_cons_of_mem _ hm)),
      counters_set_get, List.foldl_cons]
    by_cases h : n.1 = d
    · have h2 : d = n.1 ∧ n.1 > 0 ∧ n.2 > 0 := ⟨h.symm, by omega, by omega⟩
      rw [if_pos h, if_pos h2]
    · have h2 : ¬ (d = n.1 ∧ n.1 > 0 ∧ n.2 > 0) := fun x => h x.1.symm
      rw [if_neg h, if_neg h2]

theorem counters_keys_copy (P dst : counters) (hP : ∀ n ∈ P, 1 ≤ n.1 ∧ 1 ≤ n.2) (d : Int) :
    d ∈ counters_keys (counters_copy P dst) ↔ d ∈ counters_keys dst ∨ d ∈ counters_keys P := by
  induction P generalizing dst with
  | nil => simp [counters_copy_nil, counters_keys]
  | cons n P ih =>
    have hn := hP n (List.mem_cons_self _ _)
    rw [counters_copy_cons, ih _ (fun m hm => hP m (List.mem_cons_of_mem _ hm)),
      counters_set_keys]
    have h1 : n.1 > 0 := by omega
    have h2 : n.2 > 0 := by omega
    simp only [h1, h2, and_self, and_true, counters_keys, List.map_cons, List.mem_cons]
    tauto

theorem fileText_length (E : List (cstring × counters)) : E.length ≤ (fileText E).length := by
  unfold fileText
  induction E with
  | nil => simp
  | cons e E ih =>
    simp only [List.map_cons, List.flatten_cons, List.length_append, List.length_cons,
      entryLine, List.length_nil]
    omega

theorem fileToIndex_fileText (hash : cstring → Nat) (E : List (cstring × counters))
    (index : index_t) (hE : ∀ e ∈ E, EntryOK e) :
    fileToIndex hash index (some (fileText E)) = some (E.foldl (loadEntry hash) index) := by
  have hfuel : E.length < (fileText E).length + 1 := by
    have := fileText_length E
    omega
  simp only [fileToIndex]
  rw [show fileText E = (E.map entryLine).flatten from rfl] at hfuel ⊢
  rw [fileToIndex_words_lines hash E _ index hfuel hE]

/-! ## The entries of an index that was read from a file -/

theorem tableInv_mono {α : Type} (hash : cstring → Nat) (P Q : cstring → α → Prop)
    (table : List (set_t α)) (hPQ : ∀ k v, P k v → Q k v) (h : TableInv hash P table) :
    TableInv hash Q table :=
  ⟨h.1, fun i => ⟨fun n hn => ⟨((h.2 i).1 n hn).1, hPQ _ _ ((h.2 i).1 n hn).2⟩, (h.2 i).2⟩⟩

theorem loadEntry_tableWF (hash : cstring → Nat) (index : index_t) (e : cstring × counters)
    (hinv : TableInv hash (fun _ c => PostingSet c) index.ht.table) :
    TableInv hash (fun _ c => PostingSet c) (loadEntry hash index e).ht.table := by
  unfold loadEntry
  generalize e.2 = c
  induction c generalizing index with
  | nil => exact hinv
  | cons n c ih =>
    rw [List.foldl_cons]
    exact ih _ (fileToIndex_entry_tableWF hash index e.1 n.1 n.2 hinv)

theorem foldl_loadEntry_tableWF (hash : cstring → Nat) (E : List (cstring × counters))
    (index : index_t) (hinv : TableInv hash (fun _ c => PostingSet c) index.ht.table) :
    TableInv hash (fun _ c => PostingSet c) (E.foldl (loadEntry hash) index).ht.table := by
  induction E generalizing index with
  | nil => exact hinv
  | cons e E ih =>
    rw [List.foldl_cons]
    exact ih _ (loadEntry_tableWF hash index e hinv)

theorem forall₂_reverse_lines (E : List (cstring × counters)) :
    List.Forall₂ (fun a b : cstring × counters => a.1 = b.1 ∧ a.2.Perm b.2)
      (E.map (fun e => (e.1, e.2.reverse))) E := by
  induction E with
  | nil => exact List.Forall₂.nil
  | cons e E ih => exact List.Forall₂.cons ⟨rfl, List.reverse_perm e.2⟩ ih

theorem nodup_of_keys_nodup {α : Type} (l : List (cstring × α))
    (h : (l.map Prod.fst).Nodup) : l.Nodup :=
  List.Nodup.of_map Prod.fst h

theorem pairsOf_eq_nil_of_not_mem (E : List (cstring × counters)) (t : cstring)
    (h : t ∉ E.map Prod.fst) : pairsOf E t = [] := by
  induction E with
  | nil => rfl
  | cons e E ih =>
    simp only [List.map_cons, List.mem_cons, not_or] at h
    rw [pairsOf_cons]
    have h1 : ¬ e.1 = t := fun x => h.1 x.symm
    simp only [h1, if_false]
    exact ih h.2

theorem pairsOf_of_nodup (E : List (cstring × counters)) (hnd : (E.map Prod.fst).Nodup)
    (e : cstring × counters) (he : e ∈ E) : pairsOf E e.1 = e.2 := by
  induction E with
  | nil => exact absurd he (List.not_mem_nil _)
  | cons x E ih =>
    simp only [List.map_cons, List.nodup_cons] at hnd
    rw [pairsOf_cons]
    simp only [List.mem_cons] at he
    rcases he with he | he
    · subst he
      simp only [if_true]
      rw [pairsOf_eq_nil_of_not_mem E e.1 hnd.1, List.append_nil]
    · have hx : ¬ x.1 = e.1 := by
        intro hxe
        apply hnd.1
        rw [hxe]
        exact List.mem_map_of_mem Prod.fst he
      simp only [hx, if_false]
      exact ih hnd.2 he

theorem index_entries_foldl_loadEntry_perm (hash : cstring → Nat)
    (E : List (cstring × counters)) (hnd : (E.map Prod.fst).Nodup)
    (hE : ∀ e ∈ E, PostingSet e.2) :
    (index_entries (E.foldl (loadEntry hash) index_new)).Perm
      ((E.filter (fun e => !e.2.isEmpty)).map (fun e => (e.1, e.2.reverse))) := by
  have hinv := foldl_loadEntry_tableWF hash E index_new
    (tableInv_new hash _ num_slots (by decide))
  have hfind : ∀ t, index_find hash (E.foldl (loadEntry hash) index_new) t
      = if pairsOf E t = [] then none
        else some (counters_copy (pairsOf E t) counters_new) := by
    intro t
    rw [index_find_foldl_loadEntry_pairsOf hash E index_new index_new_length t,
      index_find_new]
    rfl
  have hcopy : ∀ e ∈ E, counters_copy e.2 counters_new = e.2.reverse := by
    intro e he
    rw [counters_copy_reverse e.2 counters_new (hE e he)
      (fun k _ => by simp [counters_keys, counters_new])]
    simp [counters_new]
  have hent : index_entries (E.foldl (loadEntry hash) index_new)
      = (E.foldl (loadEntry hash) index_new).ht.table.flatten := rfl
  rw [hent, List.perm_ext_iff_of_nodup
    (nodup_of_keys_nodup _ (tableInv_keys_nodup hash _ _ hinv))]
  · intro a
    obtain ⟨t, c⟩ := a
    rw [← tableInv_find_iff hash _ _ hinv t c]
    have hf := hfind t
    unfold index_find at hf
    rw [hf]
    simp only [List.mem_map, List.mem_filter, Bool.not_eq_true', List.isEmpty_eq_false,
      Prod.mk.injEq]
    constructor
    · intro h
      by_cases hp : pairsOf E t = []
      · simp [hp] at h
      · simp only [hp, if_false, Option.some.injEq] at h
        obtain ⟨n, hn⟩ := List.exists_mem_of_ne_nil _ hp
        obtain ⟨e, he, het, hne⟩ := pairsOf_mem E t n hn
        have hpe := pairsOf_of_nodup E hnd e he
        rw [het] at hpe
        refine ⟨e, ⟨he, List.ne_nil_of_mem hne⟩, het, ?_⟩
        rw [← h, hpe, hcopy e he]
    · rintro ⟨e, ⟨he, hne⟩, het, hc⟩
      have hpe := pairsOf_of_nodup E hnd e he
      rw [het] at hpe
      rw [hpe]
      simp only [hne, if_false, Option.some.injEq]
      rw [hcopy e he, hc]
  · apply nodup_of_keys_nodup
    rw [List.map_map]
    have : (Prod.fst ∘ fun e : cstring × counters => (e.1, e.2.reverse)) = Prod.fst := rfl
    rw [this]
    exact List.Nodup.sublist (List.Sublist.map Prod.fst (List.filter_sublist E)) hnd

/-! ## The table invariant of every index the program builds -/

theorem tableInv_index_add (hash : cstring → Nat) (index : index_t) (word : cstring) (d : Int)
    (hinv : TableInv hash (fun _ (_ : counters) => True) index.ht.table) :
    TableInv hash (fun _ (_ : counters) => True) (index_add hash index word d).1.ht.table := by
  unfold index_add
  by_cases hd : d ≥ 0
  · simp only [hd, if_true]
    cases hf : hashtable_find hash index.ht word with
    | some wordInfo => exact tableInv_store hash _ index.ht word _ hinv trivial
    | none =>
      simp only []
      split
      · split
        · exact tableInv_insert hash _ index.ht word _ hinv trivial
        · exact hinv
      · exact hinv
  · simp only [hd, if_false]
    exact hinv

theorem tableInv_fileToIndex_entry (hash : cstring → Nat) (index : index_t) (word : cstring)
    (d c : Int) (hinv : TableInv hash (fun _ (_ : counters) => True) index.ht.table) :
    TableInv hash (fun _ (_ : counters) => True)
      (fileToIndex_entry hash index word d c).ht.table := by
  unfold fileToIndex_entry
  cases hf : index_find hash index word with
  | none => exact tableInv_insert hash _ index.ht word _ hinv trivial
  | some wordInfo => exact tableInv_store hash _ index.ht word _ hinv trivial

theorem tableInv_of_reachable (hash : cstring → Nat) (index : index_t)
    (h : IndexReachable hash index) :
    TableInv hash (fun _ (_ : counters) => True) index.ht.table := by
  induction h with
  | ofNew => exact tableInv_new hash _ num_slots (by decide)
  | ofAdd index word docID _ ih => exact tableInv_index_add hash index word docID ih
  | ofEntry index word docID count _ ih =>
    exact tableInv_fileToIndex_entry hash index word docID count ih

theorem indexReachable_foldl_add (hash : cstring → Nat) (calls : List (cstring × Int))
    (index : index_t) (h : IndexReachable hash index) :
    IndexReachable hash (calls.foldl (fun i p => (index_add hash i p.1 p.2).1) index) := by
  induction calls generalizing index with
  | nil => exact h
  | cons p rest ih =>
    rw [List.foldl_cons]
    exact ih _ (IndexReachable.ofAdd index p.1 p.2 h)

theorem exampleIndex_reachable : IndexReachable exampleHash exampleIndex :=
  indexReachable_foldl_add exampleHash exampleCalls index_new IndexReachable.ofNew

/-! ## The characters of a line of the index file -/

theorem toDigitsCore_chars (fuel n : Nat) (tail : List Char) :
    ∀ x ∈ Nat.toDigitsCore 10 fuel n tail, x ∈ tail ∨ isdigit x = true := by
  induction fuel generalizing n tail with
  | zero => intro x hx; exact Or.inl hx
  | succ f ih =>
    intro x hx
    have hd := digitChar_isdigit (n % 10) (Nat.mod_lt _ (by decide))
    simp only [Nat.toDigitsCore] at hx
    split at hx
    · simp only [List.mem_cons] at hx
      rcases hx with hx | hx
      · right; rw [hx]; exact hd.1
      · left; exact hx
    · rcases ih _ _ x hx with h | h
      · simp only [List.mem_cons] at h
        rcases h with h | h
        · right; rw [h]; exact hd.1
        · left; exact h
      · right; exact h

theorem fprintf_d_no_newline (n : Int) : '\n' ∉ fprintf_d n := by
  have hnl : isdigit '\n' = false := by decide
  have key : ∀ m : Nat, '\n' ∉ Nat.toDigits 10 m := by
    intro m hm
    rcases toDigitsCore_chars (m + 1) m [] '\n' hm with h | h
    · exact absurd h (List.not_mem_nil _)
    · rw [hnl] at h; exact Bool.noConfusion h
  unfold fprintf_d
  split
  · intro h
    simp only [List.mem_cons] at h
    rcases h with h | h
    · exact absurd h (by decide)
    · exact key _ h
  · exact key _

theorem pairsText_no_newline (c : counters) : '\n' ∉ pairsText c := by
  induction c with
  | nil => simp [pairsText]
  | cons n c ih =>
    rw [pairsText_cons]
    intro h
    simp only [List.mem_cons, List.mem_append] at h
    rcases h with h | h | h | h | h
    · exact absurd h (by decide)
    · exact fprintf_d_no_newline _ h
    · exact absurd h (by decide)
    · exact fprintf_d_no_newline _ h
    · exact ih h

theorem entryLine_count_newline (e : cstring × counters) (h : '\n' ∉ e.1) :
    (entryLine e).count '\n' = 1 := by
  unfold entryLine
  rw [List.count_append, List.count_append, List.count_eq_zero_of_not_mem h,
    List.count_eq_zero_of_not_mem (pairsText_no_newline e.2)]
  rfl

theorem fileText_count_newline (E : List (cstring × counters)) (h : ∀ e ∈ E, '\n' ∉ e.1) :
    (fileText E).count '\n' = E.length := by
  unfold fileText
  induction E with
  | nil => rfl
  | cons e E ih =>
    rw [List.map_cons, List.flatten_cons, List.count_append,
      entryLine_count_newline e (h e (List.mem_cons_self _ _)),
      ih (fun x hx => h x (List.mem_cons_of_mem _ hx)), List.length_cons]
    omega

/-! ## The result of `score` is absent exactly when it would be empty -/

theorem score_result_cases (hash : cstring → Nat) (index : index_t) (hwf : IndexWF hash index)
    (hint : IndexInt hash index) (words : List cstring) (docs : List Int)
    (hdocs : ∀ d, d ∉ docs → sumOfProducts hash index words d = 0)
    (hsum : (docs.map (sumOfProducts hash index words)).sum ≤ INT_MAX) :
    ∃ r, PostingSet r ∧ (∀ d, counters_get r d = sumOfProducts hash index words d) ∧
      score hash index words none = if r = [] then none else some r := by
  obtain ⟨r, hr, hPr, hg⟩ := score_union_total hash index hwf hint words docs hdocs hsum
  exact ⟨r, hPr, hg, hr⟩

theorem postingSet_eq_nil_iff (r : counters) (h : PostingSet r) :
    r = [] ↔ ∀ d, ¬ 0 < counters_get r d := by
  constructor
  · intro hr d
    subst hr
    simp [counters_get]
  · intro hall
    cases r with
    | nil => rfl
    | cons n rest =>
      exfalso
      apply hall n.1
      rw [counters_get_cons_self]
      have := (h.2 n (List.mem_cons_self _ _)).2
      omega

/-! ## Reading the heap -/

theorem heap_read_lt (h : heap) (p : Nat) (c : counters) (hr : heap_read h p = some c) :
    p < h.length := by
  by_contra hn
  unfold heap_read at hr
  rw [List.getD_eq_default _ _ (by omega)] at hr
  exact Option.noConfusion hr

theorem heap_read_append (h l : heap) (p : Nat) (hp : p < h.length) :
    heap_read (h ++ l) p = heap_read h p := by
  unfold heap_read
  rw [List.getD_eq_getElem?_getD, List.getD_eq_getElem?_getD, List.getElem?_append_left hp]

theorem heap_read_append_length (h : heap) (x : Option counters) :
    heap_read (h ++ [x]) h.length = x := by
  unfold heap_read
  rw [List.getD_eq_getElem?_getD, List.getElem?_append_right (le_refl _)]
  simp

theorem heap_read_set (h : heap) (i p : Nat) (a : Option counters) :
    heap_read (h.set i a) p = if i = p ∧ i < h.length then a else heap_read h p := by
  unfold heap_read
  exact getD_set_eq h i p a none

theorem heap_read_set_ne (h : heap) (i p : Nat) (a : Option counters) (hne : i ≠ p) :
    heap_read (h.set i a) p = heap_read h p := by
  rw [heap_read_set]
  simp only [hne, false_and, if_false]

theorem heap_read_set_self (h : heap) (i : Nat) (a : Option counters) (hi : i < h.length) :
    heap_read (h.set i a) i = a := by
  rw [heap_read_set]
  simp only [hi, and_self, if_true]

/-! ## The index read off the heap -/

theorem set_find_map {α β : Type} (s : set_t α) (f : α → β) (k : cstring) :
    set_find (s.map (fun n => (n.1, f n.2))) k = (set_find s k).map f := by
  induction s with
  | nil => rfl
  | cons n rest ih =>
    simp only [List.map_cons, set_find]
    split
    · rfl
    · exact ih

theorem set_find_mem {α : Type} (s : set_t α) (k : cstring) (v : α)
    (h : set_find s k = some v) : (k, v) ∈ s := by
  induction s with
  | nil => exact Option.noConfusion h
  | cons n rest ih =>
    simp only [set_find] at h
    split at h
    · next hk =>
      simp only [Option.some.injEq] at h
      rw [← hk, ← h]
      exact List.mem_cons_self _ _
    · exact List.mem_cons_of_mem _ (ih h)

theorem getD_map_set {α β : Type} (table : List (set_t α)) (g : set_t α → set_t β)
    (hg : g set_new = set_new) (i : Nat) :
    (table.map g).getD i set_new = g (table.getD i set_new) := by
  rw [List.getD_eq_getElem?_getD, List.getD_eq_getElem?_getD, List.getElem?_map]
  cases table[i]? with
  | none => simp [hg]
  | some s => rfl

theorem index_find_index_at (hash : cstring → Nat) (h : heap) (index : index_mem)
    (w : cstring) :
    index_find hash (index_at h index) w
      = (index_find_mem hash index w).map (fun p => (heap_read h p).getD counters_new) := by
  unfold index_find index_find_mem hashtable_find index_at
  simp only [List.length_map]
  rw [getD_map_set _ _ rfl]
  exact set_find_map _ (fun p => (heap_read h p).getD counters_new) w

theorem index_find_mem_live (hash : cstring → Nat) (h : heap) (index : index_mem)
    (hlive : IndexInHeap h index) (w : cstring) (p : Nat)
    (hf : index_find_mem hash index w = some p) : ∃ c, heap_read h p = some c := by
  unfold index_find_mem hashtable_find at hf
  have hmem := set_find_mem _ w p hf
  have hslot : index.ht.table.getD (hash w % index.ht.table.length) set_new
      ∈ index.ht.table := by
    rw [List.getD_eq_getElem?_getD]
    cases hs : index.ht.table[hash w % index.ht.table.length]? with
    | none =>
      rw [List.getD_eq_getElem?_getD, hs] at hmem
      exact absurd hmem (List.not_mem_nil _)
    | some s => exact List.getElem?_mem hs
  have := hlive _ hslot (w, p) hmem
  exact Option.isSome_iff_exists.1 this

theorem index_at_frame (h h1 : heap) (index : index_mem) (hlive : IndexInHeap h index)
    (hframe : ∀ p c, heap_read h p = some c → heap_read h1 p = some c) :
    index_at h1 index = index_at h index := by
  unfold index_at
  congr 2
  apply List.map_congr_left
  intro s hs
  apply List.map_congr_left
  intro n hn
  obtain ⟨c, hc⟩ := Option.isSome_iff_exists.1 (hlive s hs n hn)
  rw [hc, hframe _ _ hc]

theorem indexInHeap_frame (h h1 : heap) (index : index_mem) (hlive : IndexInHeap h index)
    (hframe : ∀ p c, heap_read h p = some c → heap_read h1 p = some c) :
    IndexInHeap h1 index := by
  intro s hs n hn
  obtain ⟨c, hc⟩ := Option.isSome_iff_exists.1 (hlive s hs n hn)
  rw [hframe _ _ hc]
  rfl

/-! ## `score` on the heap computes what `score` by value computes -/

theorem myUnion_mem_sim (h0 : heap) (st : ScoreMem) (fs : ScoreState)
    (hsim : ScoreSim h0 st fs) :
    ∃ h1 o U, myUnion_mem st.mem st.orSequence st.andSequence = some (h1, some o) ∧
      myUnion fs.orSequence fs.andSequence = some U ∧
      heap_read h1 o = some U ∧ h0.length ≤ o ∧
      (∀ p c, heap_read h0 p = some c → heap_read h1 p = some c) ∧
      h1.length = st.mem.length := by
  obtain ⟨hframe, _, ⟨o, oc, ho, hole, hor, hfo⟩, hand, _⟩ := hsim
  cases ha : st.andSequence with
  | none =>
    rw [ha] at hand
    simp only [] at hand
    refine ⟨st.mem, o, oc, ?_, ?_, hor, hole, hframe, rfl⟩
    · rw [ho]; rfl
    · rw [hfo, hand]; rfl
  | some a =>
    rw [ha] at hand
    obtain ⟨ac, _, har, hfa, hne⟩ := hand
    have hoa : o ≠ a := fun e => hne (by rw [ho, e])
    have holt := heap_read_lt _ _ _ hor
    refine ⟨(st.mem.set o (some (counters_iterate ac oc union_itemfunc))).set a none, o,
      counters_iterate ac oc union_itemfunc, ?_, ?_, ?_, hole, ?_, ?_⟩
    · rw [ho]
      simp only [myUnion_mem, hoa, if_false, hor, har]
    · rw [hfo, hfa]; rfl
    · rw [heap_read_set_ne _ _ _ _ (Ne.symm hoa), heap_read_set_self _ _ _ holt]
    · intro p c hp
      have hplt := heap_read_lt _ _ _ hp
      rw [heap_read_set_ne _ _ _ _ (by omega), heap_read_set_ne _ _ _ _ (by omega)]
      exact hframe p c hp
    · simp only [List.length_set]

theorem score_step_sim (hash : cstring → Nat) (index : index_mem) (h0 : heap)
    (hlive : IndexInHeap h0 index) (st : ScoreMem) (fs : ScoreState)
    (hsim : ScoreSim h0 st fs) (w : cstring) :
    ∃ st1, score_step_mem hash index st w = some st1 ∧
      ScoreSim h0 st1 (score_step hash (index_at h0 index) fs w) := by
  by_cases hw : w = ['o', 'r']
  · obtain ⟨h1, o, U, hm, hf, hr, hole, hframe, hl⟩ := myUnion_mem_sim h0 st fs hsim
    subst hw
    refine ⟨{ mem := h1, orSequence := some o, andSequence := none, shortCircuit := false },
      ?_, ?_⟩
    · simp only [score_step_mem, if_true, hm]
    · rw [score_step_or, hf]
      exact ⟨hframe, by rw [hl]; exact hsim.2.1, ⟨o, U, rfl, hole, hr, rfl⟩, rfl, rfl⟩
  · by_cases hsc : st.shortCircuit = true
    · have hfsc : fs.shortCircuit = true := by rw [← hsim.2.2.2.2]; exact hsc
      refine ⟨st, ?_, ?_⟩
      · simp only [score_step_mem, hw, if_false, hsc, if_true]
      · rw [score_step_short hash _ fs w hw hfsc]
        exact hsim
    · have hsc2 : st.shortCircuit = false := by
        cases h : st.shortCircuit with
        | true => exact absurd h hsc
        | false => rfl
      have hfsc : fs.shortCircuit = false := by rw [← hsim.2.2.2.2]; exact hsc2
      by_cases hand : w = ['a', 'n', 'd']
      · subst hand
        refine ⟨st, ?_, ?_⟩
        · simp only [score_step_mem, hw, if_false, hsc2, Bool.false_eq_true, if_true]
        · rw [score_step_and]
          exact hsim
      · obtain ⟨hframe, hlen, ⟨o, oc, ho, hole, hor, hfo⟩, handS, hscS⟩ := hsim
        have holt := heap_read_lt _ _ _ hor
        cases hfind : index_find_mem hash index w with
        | none =>
          have hfi : index_find hash (index_at h0 index) w = none := by
            rw [index_find_index_at, hfind]; rfl
          refine ⟨{ mem := st.mem, orSequence := st.orSequence, andSequence := none,
                    shortCircuit := true }, ?_, ?_⟩
          · simp only [score_step_mem, hw, if_false, hsc2, Bool.false_eq_true, hand, hfind]
          · rw [score_step_absent hash _ fs w hw hand hfsc hfi]
            exact ⟨hframe, hlen, ⟨o, oc, ho, hole, hor, hfo⟩, rfl, rfl⟩
        | some og =>
          obtain ⟨c, hc⟩ := index_find_mem_live hash h0 index hlive w og hfind
          have hfi : index_find hash (index_at h0 index) w = some c := by
            rw [index_find_index_at, hfind]
            simp only [Option.map_some', hc, Option.getD_some]
          have hoglt := heap_read_lt _ _ _ hc
          have hogne : og ≠ st.mem.length := by omega
          have hr1og : heap_read (st.mem ++ [some counters_new]) og = some c := by
            rw [heap_read_append _ _ _ (by omega)]
            exact hframe og c hc
          have hr1wc : heap_read (st.mem ++ [some counters_new]) st.mem.length
              = some counters_new := heap_read_append_length _ _
          have hcopy : counters_copy_mem (counters_new_mem st.mem).1 og (counters_new_mem st.mem).2
              = some ((st.mem ++ [some counters_new]).set st.mem.length
                  (some (counters_copy c counters_new))) := by
            simp only [counters_copy_mem, counters_new_mem, hogne, if_false, hr1og, hr1wc]
          have hl2 : ((st.mem ++ [some counters_new]).set st.mem.length
              (some (counters_copy c counters_new))).length = st.mem.length + 1 := by
            simp only [List.length_set, List.length_append, List.length_cons, List.length_nil]
          have hr2wc : heap_read ((st.mem ++ [some counters_new]).set st.mem.length
              (some (counters_copy c counters_new))) st.mem.length
              = some (counters_copy c counters_new) := by
            rw [heap_read_set_self]
            simp only [List.length_append, List.length_cons, List.length_nil]
            omega
          have hr2old : ∀ p, p < st.mem.length →
              heap_read ((st.mem ++ [some counters_new]).set st.mem.length
                (some (counters_copy c counters_new))) p = heap_read st.mem p := by
            intro p hp
            rw [heap_read_set_ne _ _ _ _ (by omega), heap_read_append _ _ _ hp]
          cases ha : st.andSequence with
          | none =>
            rw [ha] at handS
            simp only [] at handS
            refine ⟨{ mem := ((((st.mem ++ [some counters_new]).set st.mem.length
                        (some (counters_copy c counters_new))) ++ [some counters_new]).set
                        (st.mem.length + 1)
                        (some (counters_iterate (counters_copy c counters_new) counters_new
                          union_itemfunc))).set st.mem.length none,
                      orSequence := st.orSequence, andSequence := some (st.mem.length + 1),
                      shortCircuit := st.shortCircuit }, ?_, ?_⟩
            · have hne : st.mem.length + 1 ≠ st.mem.length := by omega
              have hra : heap_read (((st.mem ++ [some counters_new]).set st.mem.length
                  (some (counters_copy c counters_new))) ++ [some counters_new])
                  (st.mem.length + 1) = some counters_new := by
                rw [← hl2]
                exact heap_read_append_length _ _
              have hrw : heap_read (((st.mem ++ [some counters_new]).set st.mem.length
                  (some (counters_copy c counters_new))) ++ [some counters_new])
                  st.mem.length = some (counters_copy c counters_new) := by
                rw [heap_read_append _ _ _ (by rw [hl2]; omega)]
                exact hr2wc
              simp only [score_step_mem, hw, if_false, hsc2, Bool.false_eq_true, hand, hfind,
                hcopy, ha]
              simp only [counters_new_mem, hl2, myUnion_mem, hne, if_false, hra, hrw]
            · rw [score_step_first hash _ fs w c hw hand hfsc hfi handS]
              have hlen3 : ((((st.mem ++ [some counters_new]).set st.mem.length
                  (some (counters_copy c counters_new))) ++ [some counters_new]).set
                  (st.mem.length + 1)
                  (some (counters_iterate (counters_copy c counters_new) counters_new
                    union_itemfunc))).length = st.mem.length + 2 := by
                simp only [List.length_set, List.length_append, List.length_cons,
                  List.length_nil]
              have hold : ∀ p, p < st.mem.length →
                  heap_read (((((st.mem ++ [some counters_new]).set st.mem.length
                    (some (counters_copy c counters_new))) ++ [some counters_new]).set
                    (st.mem.length + 1)
                    (some (counters_iterate (counters_copy c counters_new) counters_new
                      union_itemfunc))).set st.mem.length none) p = heap_read st.mem p := by
                intro p hp
                rw [heap_read_set_ne _ _ _ _ (by omega), heap_read_set_ne _ _ _ _ (by omega),
                  heap_read_append _ _ _ (by rw [hl2]; omega)]
                exact hr2old p hp
              refine ⟨?_, ?_, ⟨o, oc, ho, hole, ?_, hfo⟩, ?_, hscS⟩
              · intro p c1 hp
                have := heap_read_lt _ _ _ hp
                rw [hold p (by omega)]
                exact hframe p c1 hp
              · simp only [List.length_set, List.length_append, List.length_cons,
                  List.length_nil]
                omega
              · simp only []
                rw [hold o holt]
                exact hor
              · simp only []
                refine ⟨_, by omega, ?_, rfl, ?_⟩
                · rw [heap_read_set_ne _ _ _ _ (by omega), heap_read_set_self]
                  simp only [List.length_set, List.length_append, List.length_cons,
                    List.length_nil]
                  omega
                · rw [ho]
                  intro e
                  simp only [Option.some.injEq] at e
                  omega
          | some a =>
            rw [ha] at handS
            obtain ⟨ac, hale, har, hfa, hne⟩ := handS
            have halt := heap_read_lt _ _ _ har
            have hoa : o ≠ a := fun e => hne (by rw [ho, e])
            refine ⟨{ mem := ((((st.mem ++ [some counters_new]).set st.mem.length
                        (some (counters_copy c counters_new))) ++ [some counters_new]).set
                        (st.mem.length + 1)
                        (some (counters_iterate ac
                          { first := counters_new, second := counters_copy c counters_new }
                          intersect_itemfunc).first)).set a none,
                      orSequence := st.orSequence, andSequence := some (st.mem.length + 1),
                      shortCircuit := st.shortCircuit }, ?_, ?_⟩
            · have hra : heap_read ((st.mem ++ [some counters_new]).set st.mem.length
                  (some (counters_copy c counters_new))) a = some ac := by
                rw [hr2old a halt]; exact har
              simp only [score_step_mem, hw, if_false, hsc2, Bool.false_eq_true, hand, hfind,
                hcopy, ha]
              simp only [intersect_mem, counters_new_mem, hl2, hra, hr2wc]
            · rw [score_step_next hash _ fs w c ac hw hand hfsc hfi hfa]
              have hold : ∀ p, p < st.mem.length → p ≠ a →
                  heap_read (((((st.mem ++ [some counters_new]).set st.mem.length
                    (some (counters_copy c counters_new))) ++ [some counters_new]).set
                    (st.mem.length + 1)
                    (some (counters_iterate ac
                      { first := counters_new, second := counters_copy c counters_new }
                      intersect_itemfunc).first)).set a none) p = heap_read st.mem p := by
                intro p hp hpa
                rw [heap_read_set_ne _ _ _ _ (Ne.symm hpa),
                  heap_read_set_ne _ _ _ _ (by omega),
                  heap_read_append _ _ _ (by rw [hl2]; omega)]
                exact hr2old p hp
              refine ⟨?_, ?_, ⟨o, oc, ho, hole, ?_, hfo⟩, ?_, hscS⟩
              · intro p c1 hp
                have := heap_read_lt _ _ _ hp
                rw [hold p (by omega) (by omega)]
                exact hframe p c1 hp
              · simp only [List.length_set, List.length_append, List.length_cons,
                  List.length_nil]
                omega
              · simp only []
                rw [hold o holt hoa]
                exact hor
              · simp only []
                refine ⟨_, by omega, ?_, rfl, ?_⟩
                · rw [heap_read_set_ne _ _ _ _ (by omega), heap_read_set_self]
                  simp only [List.length_set, List.length_append, List.length_cons,
                    List.length_nil]
                  omega
                · rw [ho]
                  intro e
                  simp only [Option.some.injEq] at e
                  omega

theorem score_loop_sim (hash : cstring → Nat) (index : index_mem) (h0 : heap)
    (hlive : IndexInHeap h0 index) (words : List cstring) (st : ScoreMem) (fs : ScoreState)
    (hsim : ScoreSim h0 st fs) :
    ∃ st1, score_loop_mem hash index words st = some st1 ∧
      ScoreSim h0 st1 (words.foldl (score_step hash (index_at h0 index)) fs) := by
  induction words generalizing st fs with
  | nil => exact ⟨st, rfl, hsim⟩
  | cons w rest ih =>
    obtain ⟨st1, hst1, hsim1⟩ := score_step_sim hash index h0 hlive st fs hsim w
    obtain ⟨st2, hst2, hsim2⟩ := ih st1 _ hsim1
    refine ⟨st2, ?_, hsim2⟩
    simp only [score_loop_mem, hst1, hst2]

theorem score_mem_refines (hash : cstring → Nat) (index : index_mem) (h : heap)
    (hlive : IndexInHeap h index) (words : List cstring) :
    ∃ h1 result, score_mem hash index words h none = some (h1, result) ∧
      (∀ p c, heap_read h p = some c → heap_read h1 p = some c) ∧
      resultAt h1 result = score hash (index_at h index) words none ∧
      (∀ p, result = some p → h.length ≤ p ∧ (heap_read h1 p).isSome = true) := by
  have hsim0 : ScoreSim h
      { mem := (counters_new_mem h).1, orSequence := some (counters_new_mem h).2,
        andSequence := none, shortCircuit := false }
      { orSequence := some counters_new, andSequence := none, shortCircuit := false } := by
    refine ⟨?_, ?_, ⟨h.length, counters_new, rfl, le_refl _, ?_, rfl⟩, rfl, rfl⟩
    · intro p c hp
      have := heap_read_lt _ _ _ hp
      simp only [counters_new_mem]
      rw [heap_read_append _ _ _ this]
      exact hp
    · simp only [counters_new_mem, List.length_append, List.length_cons, List.length_nil]
      omega
    · exact heap_read_append_length _ _
  obtain ⟨st1, hst1, hsim1⟩ := score_loop_sim hash index h hlive words _ _ hsim0
  obtain ⟨h1, o, U, hm, hf, hr, hole, hframe, _⟩ := myUnion_mem_sim h st1 _ hsim1
  have hscore : score hash (index_at h index) words none
      = if counters_empty U = 0 then none else some U := by
    rw [score_eq_finish]
    simp only [score_finish, hf]
  by_cases he : counters_empty U = 0
  · refine ⟨h1, none, ?_, hframe, ?_, ?_⟩
    · simp only [score_mem, hst1, hm, hr, he, if_true]
    · rw [hscore, if_pos he]; rfl
    · intro p hp
      exact Option.noConfusion hp
  · refine ⟨h1, some o, ?_, hframe, ?_, ?_⟩
    · simp only [score_mem, hst1, hm, hr, he, if_false]
    · rw [hscore, if_neg he]
      exact hr
    · intro p hp
      simp only [Option.some.injEq] at hp
      rw [← hp, hr]
      exact ⟨hole, rfl⟩

/-! ## normalize -/

theorem normalize_length (w : cstring) : (normalize w).length = w.length := by
  unfold normalize
  exact List.length_map _ _

theorem normalize_getElem? (w : cstring) (i : Nat) :
    (normalize w)[i]? = (w[i]?).map tolower := by
  unfold normalize
  exact List.getElem?_map _ _ _

theorem normalize_idem (w : cstring) : normalize (normalize w) = normalize w := by
  unfold normalize
  rw [List.map_map]
  apply List.map_congr_left
  intro c _
  exact tolower_tolower c

theorem tolower_of_not_upper (c : Char) (h : ¬ (65 ≤ c.toNat ∧ c.toNat ≤ 90)) :
    tolower c = c := by
  unfold tolower
  rw [if_neg h]

/-! ## set.c -/

theorem set_insert_of_mem {α : Type} (s : set_t α) (key : cstring) (item : α)
    (h : key ∈ s.map Prod.fst) : set_insert s key item = (s, false) := by
  have hf : set_find s key ≠ none := fun e => (set_find_eq_none_iff s key).1 e h
  have hany : s.any (fun node => node.1 == key) = true := by
    rw [set_any_eq_isSome]
    cases hs : set_find s key with
    | none => exact absurd hs hf
    | some v => rfl
  unfold set_insert
  rw [if_pos hany]

theorem set_insert_of_not_mem {α : Type} (s : set_t α) (key : cstring) (item : α)
    (h : key ∉ s.map Prod.fst) : set_insert s key item = ((key, item) :: s, true) := by
  have hf : set_find s key = none := (set_find_eq_none_iff s key).2 h
  have hany : ¬ (s.any (fun node => node.1 == key) = true) := by
    rw [set_any_eq_isSome, hf]
    exact Bool.noConfusion
  unfold set_insert
  rw [if_neg hany]

theorem set_insert_keys {α : Type} (s : set_t α) (key : cstring) (item : α) (k : cstring) :
    k ∈ (set_insert s key item).1.map Prod.fst ↔ k ∈ s.map Prod.fst ∨ k = key := by
  by_cases h : key ∈ s.map Prod.fst
  · rw [set_insert_of_mem s key item h]
    constructor
    · exact Or.inl
    · rintro (hk | hk)
      · exact hk
      · rw [hk]; exact h
  · rw [set_insert_of_not_mem s key item h]
    simp only [List.map_cons, List.mem_cons]
    constructor
    · rintro (hk | hk)
      · exact Or.inr hk
      · exact Or.inl hk
    · rintro (hk | hk)
      · exact Or.inr hk
      · exact Or.inl hk

theorem setOfInserts_keys {α : Type} (inserts : List (cstring × α)) (s : set_t α)
    (k : cstring) :
    k ∈ (inserts.foldl (fun s p => (set_insert s p.1 p.2).1) s).map Prod.fst
      ↔ k ∈ s.map Prod.fst ∨ k ∈ inserts.map Prod.fst := by
  induction inserts generalizing s with
  | nil =>
    simp only [List.foldl_nil, List.map_nil, List.not_mem_nil, or_false]
  | cons p rest ih =>
    rw [List.foldl_cons, ih, set_insert_keys]
    simp only [List.map_cons, List.mem_cons]
    constructor
    · rintro ((hk | hk) | hk)
      · exact Or.inl hk
      · exact Or.inr (Or.inl hk)
      · exact Or.inr (Or.inr hk)
    · rintro (hk | hk | hk)
      · exact Or.inl (Or.inl hk)
      · exact Or.inl (Or.inr hk)
      · exact Or.inr hk

/-! ## The tokenizer on a line of white space -/

theorem tokenize_loop_blank (query : cstring) (st : TokenState) (hin : st.inWord = false)
    (h : ∀ c ∈ query, isspace c = true) : tokenize_loop query st = st := by
  induction query with
  | nil => rfl
  | cons c rest ih =>
    have hc : isalpha (tolower c) = false := by
      rw [isalpha_tolower]
      exact isspace_not_isalpha c (h c (List.mem_cons_self _ _))
    have hstep : tokenize_step st c = (st, false) := by
      unfold tokenize_step
      simp only [hc, Bool.false_eq_true, if_false, hin]
    simp only [tokenize_loop, hstep, Bool.false_eq_true, if_false]
    exact ih (fun x hx => h x (List.mem_cons_of_mem _ hx))

theorem tokenize_blank (query : cstring) (h : ∀ c ∈ query, isspace c = true) :
    tokenize query = { words := [], isValid := true, inWord := false } := by
  unfold tokenize
  rw [tokenize_loop_blank query _ rfl h]
  rfl

theorem isValidQuery_blank (query : cstring) (h : ∀ c ∈ query, isspace c = true) :
    isValidQuery query = true := by
  induction query with
  | nil => rfl
  | cons c rest ih =>
    have hc := h c (List.mem_cons_self _ _)
    simp only [isValidQuery, hc, Bool.not_true, Bool.and_false, Bool.false_eq_true, if_false]
    exact ih (fun x hx => h x (List.mem_cons_of_mem _ hx))

/-! ## PostingSets with the same counts -/

theorem postingSet_mem_of_get_eq (a b : counters) (ha : PostingSet a) (hb : PostingSet b)
    (h : ∀ k, counters_get a k = counters_get b k) (n : Int × Int) (hn : n ∈ a) : n ∈ b := by
  have hga := counters_get_of_mem_nodup a ha.1 n hn
  have hn2 := (ha.2 n hn).2
  have hpos : 0 < counters_get b n.1 := by rw [← h, hga]; omega
  have hk := (counters_get_pos_iff b n.1 (fun m hm => (hb.2 m hm).2)).1 hpos
  simp only [counters_keys, List.mem_map] at hk
  obtain ⟨m, hm, hm1⟩ := hk
  have hgb := counters_get_of_mem_nodup b hb.1 m hm
  have hm2 : m.2 = n.2 := by rw [← hgb, hm1, ← h, hga]
  have : m = n := Prod.ext hm1 hm2
  rw [← this]
  exact hm

theorem postingSet_perm_of_get_eq (a b : counters) (ha : PostingSet a) (hb : PostingSet b)
    (h : ∀ k, counters_get a k = counters_get b k) : a.Perm b := by
  rw [List.perm_ext_iff_of_nodup (List.Nodup.of_map Prod.fst ha.1)
    (List.Nodup.of_map Prod.fst hb.1)]
  intro n
  exact ⟨postingSet_mem_of_get_eq a b ha hb h n,
    postingSet_mem_of_get_eq b a hb ha (fun k => (h k).symm) n⟩

/-! ## The maximum that findMaxScore selects -/

theorem findMaxScore_first_max (l : counters) (acc : Int × Int) :
    (counters_iterate l acc findMaxScore = acc ∧ ∀ n ∈ l, n.2 ≤ acc.1) ∨
    (∃ pre post, l = pre ++ ((counters_iterate l acc findMaxScore).2,
          (counters_iterate l acc findMaxScore).1) :: post ∧
        (∀ n ∈ pre, n.2 < (counters_iterate l acc findMaxScore).1) ∧
        (∀ n ∈ post, n.2 ≤ (counters_iterate l acc findMaxScore).1) ∧
        acc.1 < (counters_iterate l acc findMaxScore).1) := by
  induction l generalizing acc with
  | nil => exact Or.inl ⟨rfl, fun n hn => absurd hn (List.not_mem_nil _)⟩
  | cons n l ih =>
    rw [counters_iterate_cons]
    by_cases hgt : n.2 > acc.1
    · have hstep : findMaxScore acc n.1 n.2 = (n.2, n.1) := by
        unfold findMaxScore
        rw [if_pos hgt]
      rw [hstep]
      rcases ih (n.2, n.1) with ⟨heq, hall⟩ | ⟨pre, post, hl, hpre, hpost, hlt⟩
      · right
        rw [heq]
        exact ⟨[], l, rfl, fun x hx => absurd hx (List.not_mem_nil _), hall, hgt⟩
      · right
        refine ⟨n :: pre, post, ?_, ?_, hpost, ?_⟩
        · rw [List.cons_append, ← hl]
        · intro x hx
          simp only [List.mem_cons] at hx
          rcases hx with hx | hx
          · rw [hx]; exact hlt
          · exact hpre x hx
        · simp only [] at hlt
          omega
    · have hstep : findMaxScore acc n.1 n.2 = acc := by
        unfold findMaxScore
        rw [if_neg hgt]
      rw [hstep]
      rcases ih acc with ⟨heq, hall⟩ | ⟨pre, post, hl, hpre, hpost, hlt⟩
      · left
        refine ⟨heq, fun x hx => ?_⟩
        simp only [List.mem_cons] at hx
        rcases hx with hx | hx
        · rw [hx]; omega
        · exact hall x hx
      · right
        refine ⟨n :: pre, post, ?_, ?_, hpost, hlt⟩
        · rw [List.cons_append, ← hl]
        · intro x hx
          simp only [List.mem_cons] at hx
          rcases hx with hx | hx
          · rw [hx]; omega
          · exact hpre x hx

/-! ## The range of `int` and the buffer of `fileToIndex` -/

theorem counters_set_le (c : counters) (k v b : Int) (h : ∀ n ∈ c, n.2 ≤ b) (hv : v ≤ b) :
    ∀ n ∈ (counters_set c k v).1, n.2 ≤ b := by
  by_cases g : k > 0 ∧ v > 0
  · simp only [counters_set, g, if_true, and_self]
    cases hl : counters_set_loop c k v with
    | none =>
      intro n hn
      simp only [List.mem_cons] at hn
      rcases hn with hn | hn
      · subst hn; exact hv
      · exact h n hn
    | some c1 =>
      intro n hn
      rcases counters_set_loop_mem c k v c1 hl n hn with h1 | h1
      · exact h n h1
      · subst h1; exact hv
  · rw [counters_set_of_not_guard c k v g]; exact h

theorem fscanf_d_range (s : List Char) (v : Int) (h : (fscanf_d s).1 = some v) :
    -2147483648 ≤ v ∧ v ≤ INT_MAX := by
  unfold fscanf_d at h
  cases hs : s.dropWhile isspace with
  | nil => rw [hs] at h; simp at h
  | cons c rest =>
    rw [hs] at h
    simp only [] at h
    split at h
    · cases rest with
      | nil => simp at h
      | cons d rest1 =>
        simp only [] at h
        split at h
        · simp only [Option.some.injEq] at h
          rw [← h]; exact int_wrap_range _
        · simp at h
    · split at h
      · simp only [Option.some.injEq] at h
        rw [← h]; exact int_wrap_range _
      · simp at h

theorem fscanf_d_d_range (s : List Char) (p : Int × Int) (rest : List Char)
    (h : fscanf_d_d s = (some p, rest)) : p.1 ≤ INT_MAX ∧ p.2 ≤ INT_MAX := by
  unfold fscanf_d_d at h
  cases h1 : fscanf_d s with
  | mk v1 r1 =>
    rw [h1] at h
    cases v1 with
    | none => simp at h
    | some docID =>
      simp only [] at h
      cases h2 : fscanf_d r1 with
      | mk v2 r2 =>
        rw [h2] at h
        cases v2 with
        | none => simp at h
        | some count =>
          simp only [Prod.mk.injEq, Option.some.injEq] at h
          rw [← h.1]
          exact ⟨(fscanf_d_range s docID (by rw [h1])).2,
            (fscanf_d_range r1 count (by rw [h2])).2⟩

theorem fileToIndex_pairs_read_range (fuel : Nat) (old : List Char) :
    ∀ p ∈ (fileToIndex_pairs_read fuel old).1, p.1 ≤ INT_MAX ∧ p.2 ≤ INT_MAX := by
  induction fuel generalizing old with
  | zero => intro p hp; simp [fileToIndex_pairs_read] at hp
  | succ f ih =>
    simp only [fileToIndex_pairs_read]
    cases h : fscanf_d_d old with
    | mk v rest =>
      cases v with
      | none => intro p hp; simp at hp
      | some q =>
        intro p hp
        simp only [List.mem_cons] at hp
        rcases hp with hp | hp
        · rw [hp]; exact fscanf_d_d_range old q rest h
        · exact ih rest p hp

theorem fileToIndex_read_range (fuel : Nat) (old : List Char) :
    ∀ tr ∈ fileToIndex_read fuel old, tr.2.1 ≤ INT_MAX ∧ tr.2.2 ≤ INT_MAX := by
  induction fuel generalizing old with
  | zero => intro tr htr; simp [fileToIndex_read] at htr
  | succ f ih =>
    simp only [fileToIndex_read]
    cases h : fscanf_s old with
    | mk v rest =>
      cases v with
      | none => intro tr htr; simp at htr
      | some word =>
        intro tr htr
        simp only [List.mem_append, List.mem_map] at htr
        rcases htr with ⟨p, hp, rfl⟩ | htr
        · exact fileToIndex_pairs_read_range _ rest p hp
        · exact ih _ tr htr

/-- Every count that `fileToIndex` reads is in the range of `int`. -/
theorem triplesRead_range (old : List Char) :
    ∀ tr ∈ triplesRead old, tr.2.1 ≤ INT_MAX ∧ tr.2.2 ≤ INT_MAX :=
  fileToIndex_read_range _ old

theorem tableInt_find {hash : cstring → Nat} {index : index_t}
    (hinv : TableInv hash (fun _ c => PostingSet c ∧ ∀ n ∈ c, n.2 ≤ INT_MAX) index.ht.table) :
    IndexInt hash index :=
  fun w c hf => (tableInv_mem_P hash _ index.ht.table hinv (w, c)
    ((tableInv_find_iff hash _ index.ht hinv w c).1 hf)).2

theorem fileToIndex_entry_tableInt (hash : cstring → Nat) (index : index_t) (w : cstring)
    (d c : Int) (hc : c ≤ INT_MAX)
    (hinv : TableInv hash (fun _ c => PostingSet c ∧ ∀ n ∈ c, n.2 ≤ INT_MAX) index.ht.table) :
    TableInv hash (fun _ c => PostingSet c ∧ ∀ n ∈ c, n.2 ≤ INT_MAX)
      (fileToIndex_entry hash index w d c).ht.table := by
  unfold fileToIndex_entry
  cases hf : index_find hash index w with
  | none =>
    exact tableInv_insert hash _ index.ht w _ hinv
      ⟨counters_set_postingSet counters_new d c postingSet_nil,
        counters_set_le counters_new d c INT_MAX (fun n hn => absurd hn (List.not_mem_nil n)) hc⟩
  | some wordInfo =>
    have hP := tableInv_mem_P hash _ index.ht.table hinv (w, wordInfo)
      ((tableInv_find_iff hash _ index.ht hinv w wordInfo).1 hf)
    exact tableInv_store hash _ index.ht w _ hinv
      ⟨counters_set_postingSet wordInfo d c hP.1, counters_set_le wordInfo d c INT_MAX hP.2 hc⟩

theorem storeTriples_tableInt (hash : cstring → Nat) (triples : List (cstring × Int × Int))
    (index : index_t) (htr : ∀ tr ∈ triples, tr.2.2 ≤ INT_MAX)
    (hinv : TableInv hash (fun _ c => PostingSet c ∧ ∀ n ∈ c, n.2 ≤ INT_MAX) index.ht.table) :
    TableInv hash (fun _ c => PostingSet c ∧ ∀ n ∈ c, n.2 ≤ INT_MAX)
      (storeTriples hash index triples).ht.table := by
  induction triples generalizing index with
  | nil => exact hinv
  | cons tr rest ih =>
    rw [storeTriples_cons]
    exact ih _ (fun x hx => htr x (List.mem_cons_of_mem _ hx))
      (fileToIndex_entry_tableInt hash index tr.1 tr.2.1 tr.2.2
        (htr tr (List.mem_cons_self _ _)) hinv)

/-- Every index `fileToIndex` reads into a new index, from any text, holds
only counts in the range of `int`: the hypothesis `IndexInt` is met by every
index the querier works on. -/
theorem fileToIndex_int (hash : cstring → Nat) (old : List Char) (loaded : index_t)
    (h : fileToIndex hash index_new (some old) = some loaded) : IndexInt hash loaded := by
  rw [fileToIndex_eq_storeTriples, Option.some.injEq] at h
  rw [← h]
  exact tableInt_find (storeTriples_tableInt hash _ index_new
    (fun tr htr => (triplesRead_range old tr htr).2)
    (tableInv_new hash _ num_slots (by decide)))

theorem indexInt_of_entries (hash : cstring → Nat) (index : index_t)
    (hinv : IndexInv hash index)
    (h : ∀ e ∈ index_entries index, ∀ n ∈ e.2, n.2 ≤ INT_MAX) : IndexInt hash index :=
  fun w c hf => h (w, c) ((tableInv_find_iff hash _ index.ht hinv w c).1 hf)

set_option maxRecDepth 20000 in
theorem exampleIndex_int : IndexInt exampleHash exampleIndex :=
  indexInt_of_entries exampleHash exampleIndex
    (indexInv_ofCalls exampleHash exampleCalls (by decide)) (by decide)

/-! ### The counts of an index built by `index_add` -/

theorem counters_add_bound (c : counters) (d k : Int) (hd : 1 ≤ d) (hd2 : d ≤ INT_MAX)
    (hk : 0 ≤ k) (h : ∀ n ∈ c, n.1 ≤ INT_MAX ∧ n.2 ≤ k) :
    ∀ n ∈ (counters_add c d).1, n.1 ≤ INT_MAX ∧ n.2 ≤ k + 1 := by
  by_cases hm : d ∈ counters_keys c
  · rw [counters_add_of_mem c d (by omega) hm]
    intro n hn
    simp only [List.mem_map] at hn
    obtain ⟨m, hm2, rfl⟩ := hn
    have := h m hm2
    split
    · simp only; omega
    · exact ⟨this.1, by omega⟩
  · rw [counters_add_of_not_mem c d (by omega) hm]
    intro n hn
    simp only [List.mem_cons] at hn
    rcases hn with hn | hn
    · rw [hn]; simp only; omega
    · have := h n hn
      exact ⟨this.1, by omega⟩

theorem index_add_bound (hash : cstring → Nat) (L : cstring → Prop) (index : index_t)
    (word : cstring) (d k : Int)
    (hw : L word) (hd : 1 ≤ d) (hd2 : d ≤ INT_MAX) (hk : 0 ≤ k)
    (hinv : TableInv hash (fun w c => L w ∧ ∀ n ∈ c, n.1 ≤ INT_MAX ∧ n.2 ≤ k)
      index.ht.table) :
    TableInv hash (fun w c => L w ∧ ∀ n ∈ c, n.1 ≤ INT_MAX ∧ n.2 ≤ k + 1)
      (index_add hash index word d).1.ht.table := by
  have hmono : TableInv hash (fun w c => L w ∧ ∀ n ∈ c, n.1 ≤ INT_MAX ∧ n.2 ≤ k + 1)
      index.ht.table :=
    tableInv_mono hash _ _ _
      (fun w c hP => ⟨hP.1, fun n hn => ⟨(hP.2 n hn).1, by have := (hP.2 n hn).2; omega⟩⟩) hinv
  unfold index_add
  have hd3 : d ≥ 0 := by omega
  simp only [hd3, if_true]
  cases hf : hashtable_find hash index.ht word with
  | some wordInfo =>
    have hP := tableInv_mem_P hash _ index.ht.table hinv (word, wordInfo)
      ((tableInv_find_iff hash _ index.ht hinv word wordInfo).1 hf)
    exact tableInv_store hash _ index.ht word _ hmono
      ⟨hw, counters_add_bound wordInfo d k hd hd2 hk hP.2⟩
  | none =>
    simp only [counters_add_new d (by omega)]
    have hins := hashtable_insert_snd hash index.ht word [(d, 1)]
    rw [hf] at hins
    simp only [Option.isNone_none] at hins
    simp only [gt_iff_lt, zero_lt_one, if_true, hins]
    refine tableInv_insert hash _ index.ht word _ hmono ⟨hw, ?_⟩
    intro n hn
    simp only [List.mem_singleton] at hn
    rw [hn]; simp only; omega

/-- In an index built by `index_add` calls with docIDs from 1 to `INT_MAX`,
every docID is at most `INT_MAX`, every count is at most the number of calls,
and every term is the term of a call (`L` holds for it when it holds for the
terms of the calls). -/
theorem indexOfCalls_bound (hash : cstring → Nat) (L : cstring → Prop)
    (calls : List (cstring × Int))
    (hcalls : ∀ p ∈ calls, L p.1 ∧ 1 ≤ p.2 ∧ p.2 ≤ INT_MAX) :
    TableInv hash
      (fun w c => L w ∧ ∀ n ∈ c, n.1 ≤ INT_MAX ∧ n.2 ≤ (calls.length : Int))
      (indexOfCalls hash calls).ht.table := by
  unfold indexOfCalls
  suffices h : ∀ (index : index_t) (k : Int), 0 ≤ k →
      TableInv hash (fun w c => L w ∧ ∀ n ∈ c, n.1 ≤ INT_MAX ∧ n.2 ≤ k) index.ht.table →
      TableInv hash
        (fun w c => L w ∧ ∀ n ∈ c, n.1 ≤ INT_MAX ∧ n.2 ≤ k + (calls.length : Int))
        (calls.foldl (fun i p => (index_add hash i p.1 p.2).1) index).ht.table from by
    have := h index_new 0 (le_refl _) (tableInv_new hash _ num_slots (by decide))
    simpa using this
  induction calls with
  | nil => intro index k _ h; simpa using h
  | cons p rest ih =>
    intro index k hk h
    simp only [List.foldl_cons, List.length_cons]
    have hp := hcalls p (List.mem_cons_self _ _)
    have := ih (fun q hq => hcalls q (List.mem_cons_of_mem _ hq)) _ (k + 1) (by omega)
      (index_add_bound hash L index p.1 p.2 k hp.1 hp.2.1 hp.2.2 hk h)
    have e : k + ((rest.length + 1 : Nat) : Int) = k + 1 + (rest.length : Int) := by
      push_cast; ring
    rw [e]
    exact this

/-! ### The buffer `word[MaxWordLength]` -/

theorem fileToIndex_pairs_read_length_le (fuel : Nat) (old : List Char) :
    (fileToIndex_pairs_read fuel old).2.length ≤ old.length := by
  have h := fileToIndex_pairs_length_le (fun _ => 0) fuel index_new [] old
  rw [fileToIndex_pairs_eq_read] at h
  exact h

/-- The loop that watches the buffer stops by itself: with fuel above the
length of the file, more fuel changes nothing. -/
theorem fileToIndex_fits_loop_fuel (fuel extra : Nat) (old : List Char)
    (h : old.length < fuel) :
    fileToIndex_fits_loop (fuel + extra) old = fileToIndex_fits_loop fuel old := by
  induction fuel generalizing old with
  | zero => omega
  | succ f ih =>
    have e : f + 1 + extra = (f + extra) + 1 := by omega
    rw [e]
    simp only [fileToIndex_fits_loop]
    cases hs : fscanf_s old with
    | mk v rest =>
      cases v with
      | none => rfl
      | some word =>
        simp only []
        have h1 := fscanf_s_length_lt old word rest hs
        have h2 := fileToIndex_pairs_read_length_le (rest.length + 1) rest
        rw [ih _ (by omega)]

theorem fscanf_s_fits_term (w : cstring) (rest : List Char) (hw : isTerm w = true)
    (hrest : SpaceAhead rest) :
    fscanf_s_fits (w ++ rest) = decide (w.length < MaxWordLength) := by
  unfold fscanf_s_fits
  rw [fscanf_s_term w rest hw hrest]

theorem fileToIndex_pairs_read_line (c : counters) (fuel : Nat) (rest : List Char)
    (hfuel : c.length < fuel)
    (hc : ∀ n ∈ c, (0 ≤ n.1 ∧ n.1 ≤ INT_MAX) ∧ (0 ≤ n.2 ∧ n.2 ≤ INT_MAX))
    (hrest : LetterAhead rest) :
    (fileToIndex_pairs_read fuel (pairsText c ++ '\n' :: rest)).2 = rest := by
  have h := fileToIndex_pairs_line (fun _ => 0) c fuel index_new [] rest hfuel hc hrest
  rw [fileToIndex_pairs_eq_read] at h
  exact (Prod.mk.inj h).2

/-- On the text of an index file whose lines are entries the file can carry,
`fileToIndex` stays inside `word[MaxWordLength]` exactly when every term has
fewer than `MaxWordLength` characters. -/
theorem fileToIndex_fits_loop_lines (E : List (cstring × counters)) (fuel : Nat)
    (hfuel : E.length < fuel) (hE : ∀ e ∈ E, EntryOK e) :
    fileToIndex_fits_loop fuel (E.map entryLine).flatten
      = E.all (fun e => decide (e.1.length < MaxWordLength)) := by
  induction E generalizing fuel with
  | nil =>
    cases fuel with
    | zero => simp at hfuel
    | succ f => simp [fileToIndex_fits_loop, fscanf_s]
  | cons e E ih =>
    cases fuel with
    | zero => simp at hfuel
    | succ f =>
      have he := hE e (List.mem_cons_self _ _)
      have hE2 : ∀ x ∈ E, EntryOK x := fun x hx => hE x (List.mem_cons_of_mem _ hx)
      have htext : ((e :: E).map entryLine).flatten
          = e.1 ++ (pairsText e.2 ++ '\n' :: (E.map entryLine).flatten) := by
        simp [entryLine, List.append_assoc]
      rw [htext]
      simp only [fileToIndex_fits_loop]
      rw [fscanf_s_fits_term e.1 _ he.1 (pairsText_spaceAhead e.2 _),
        fscanf_s_term e.1 _ he.1 (pairsText_spaceAhead e.2 _)]
      simp only []
      rw [fileToIndex_pairs_read_line e.2 _ _ ?_ he.2 (entryLines_letterAhead E hE2),
        ih f (by simpa using hfuel) hE2, List.all_cons]
      have := pairsText_length e.2
      simp only [List.length_append, List.length_cons]
      omega

theorem fileToIndex_fits_fileText (E : List (cstring × counters)) (hE : ∀ e ∈ E, EntryOK e) :
    fileToIndex_fits (fileText E) = E.all (fun e => decide (e.1.length < MaxWordLength)) := by
  unfold fileToIndex_fits fileText
  exact fileToIndex_fits_loop_lines E _
    (by have := fileText_length E; unfold fileText at this; omega) hE

/-! ## Set algebra of the query engine -/

theorem intersect_iterate_empty_second (r : counters) (a : duo) (h : a.second = []) :
    counters_iterate r a intersect_itemfunc = a := by
  induction r generalizing a with
  | nil => rfl
  | cons n rest ih =>
    have hstep : intersect_itemfunc a n.1 n.2 = a := by
      simp only [intersect_itemfunc, h, counters_get, gt_iff_lt, lt_self_iff_false, if_false]
      rw [counters_set_of_not_guard _ _ _ (by omega)]
      cases a
      simp_all
    rw [counters_iterate_cons, hstep]
    exact ih a h

/-- C3: for PostingSets `A` and `B` (docIDs and counts at least 1),
`intersect(&A, B)` leaves a PostingSet whose docIDs are exactly the docIDs
present in both `A` and `B`, each with the minimum of its count in `A` and its
count in `B`; intersecting with an empty PostingSet, on either side, leaves an
empty PostingSet. -/
theorem intersect_common_keys_min (A B : counters) (hA : PostingSet A) (hB : PostingSet B) :
    ∃ R, intersect (some A) (some B) = some R ∧ PostingSet R ∧
      (∀ k, k ∈ counters_keys R ↔ k ∈ counters_keys A ∧ k ∈ counters_keys B) ∧
      (∀ k, counters_get R k = min (counters_get A k) (counters_get B k)) ∧
      intersect (some A) (some counters_new) = some counters_new ∧
      intersect (some counters_new) (some B) = some counters_new := by
  refine ⟨_, rfl, ?_, ?_, ?_, ?_, rfl⟩
  · exact intersect_iterate_postingSet A _ postingSet_nil
  · intro k
    rw [intersect_iterate_keys A _ hA.2 k]
    simp only [counters_new, counters_keys, List.map_nil, List.not_mem_nil, false_or]
    rw [counters_get_pos_iff B k (fun n hn => (hB.2 n hn).2)]
    simp only [counters_keys]
  · intro k
    exact intersect_iterate_get_min A B hA hB k
  · simp only [intersect]
    rw [intersect_iterate_empty_second A _ rfl]

theorem intersect_common_keys_min_witness :
    PostingSet [(1, 2), (2, 1)] ∧ PostingSet [(2, 3), (3, 1)] ∧
    ∃ R, intersect (some [(1, 2), (2, 1)]) (some [(2, 3), (3, 1)]) = some R ∧ PostingSet R ∧
      (∀ k, k ∈ counters_keys R ↔
        k ∈ counters_keys [(1, 2), (2, 1)] ∧ k ∈ counters_keys [(2, 3), (3, 1)]) ∧
      (∀ k, counters_get R k
          = min (counters_get [(1, 2), (2, 1)] k) (counters_get [(2, 3), (3, 1)] k)) ∧
      intersect (some [(1, 2), (2, 1)]) (some counters_new) = some counters_new ∧
      intersect (some counters_new) (some [(2, 3), (3, 1)]) = some counters_new :=
  ⟨by decide, by decide,
    intersect_common_keys_min [(1, 2), (2, 1)] [(2, 3), (3, 1)] (by decide) (by decide)⟩

/-- C4, the claim as stated fails: `A = {1:INT_MAX}` and `B = {1:1, 2:1}` are
PostingSets, and after `myUnion(&A, B)` the count of docID 1 is still
`INT_MAX`, not `get(A,1) + get(B,1)`: the sum wraps in `int` to a negative
number, which `counters_set` refuses. -/
theorem myUnion_wrapped_sum_refused :
    PostingSet [(1, 2147483647)] ∧ PostingSet [(1, 1), (2, 1)] ∧
    myUnion (some [(1, 2147483647)]) (some [(1, 1), (2, 1)])
      = some [(2, 1), (1, 2147483647)] ∧
    counters_get [(2, 1), (1, 2147483647)] 1
      ≠ counters_get [(1, 2147483647)] 1 + counters_get [(1, 1), (2, 1)] 1 := by
  decide

/-- C4, amended: for PostingSets `A` and `B` (docIDs and counts at least 1, the
counts of `B` at most `INT_MAX`), `myUnion(&A, B)` leaves a PostingSet that
contains every docID present in either, and for every docID `k` for which
`get(A,k) + get(B,k)` is at most `INT_MAX` its count is `get(A,k) + get(B,k)`
(`get` being 0 for an absent docID); the union of `A` with an empty PostingSet
is `A`. -/
theorem myUnion_sum_of_counts (A B : counters) (hA : PostingSet A) (hB : PostingSet B)
    (hint : ∀ n ∈ B, n.2 ≤ INT_MAX) :
    ∃ R, myUnion (some A) (some B) = some R ∧ PostingSet R ∧
      (∀ k, k ∈ counters_keys R ↔ k ∈ counters_keys A ∨ k ∈ counters_keys B) ∧
      (∀ k, counters_get A k + counters_get B k ≤ INT_MAX →
        counters_get R k = counters_get A k + counters_get B k) ∧
      myUnion (some A) (some counters_new) = some A := by
  refine ⟨_, rfl, ?_, ?_, ?_, rfl⟩
  · exact union_iterate_postingSet B A hA
  · intro k
    exact union_iterate_keys B A (fun n hn => ⟨(hB.2 n hn).1, (hB.2 n hn).2, hint n hn⟩) k
  · intro k hk
    exact union_iterate_get B A hB hA k hk

theorem myUnion_sum_of_counts_witness :
    PostingSet [(1, 2), (2, 1)] ∧ PostingSet [(2, 3), (3, 1)] ∧
    (∀ n ∈ [((2 : Int), (3 : Int)), (3, 1)], n.2 ≤ INT_MAX) ∧
    ∃ R, myUnion (some [(1, 2), (2, 1)]) (some [(2, 3), (3, 1)]) = some R ∧ PostingSet R ∧
      (∀ k, k ∈ counters_keys R ↔
        k ∈ counters_keys [(1, 2), (2, 1)] ∨ k ∈ counters_keys [(2, 3), (3, 1)]) ∧
      (∀ k, counters_get [(1, 2), (2, 1)] k + counters_get [(2, 3), (3, 1)] k ≤ INT_MAX →
        counters_get R k
          = counters_get [(1, 2), (2, 1)] k + counters_get [(2, 3), (3, 1)] k) ∧
      myUnion (some [(1, 2), (2, 1)]) (some counters_new) = some [(1, 2), (2, 1)] :=
  ⟨by decide, by decide, by decide,
    myUnion_sum_of_counts [(1, 2), (2, 1)] [(2, 3), (3, 1)] (by decide) (by decide)
      (by decide)⟩

/-! ## Query validation and tokenization -/

theorem isValidQuery_eq_false_iff (query : cstring) :
    isValidQuery query = false ↔ ∃ c ∈ query, isalpha c = false ∧ isspace c = false := by
  induction query with
  | nil => simp [isValidQuery]
  | cons c rest ih =>
    simp only [isValidQuery, List.mem_cons, exists_eq_or_imp]
    by_cases h : (!isalpha c && !isspace c) = true
    · simp only [h, if_true, true_iff]
      left
      simpa using h
    · have h3 : (!isalpha c && !isspace c) = false := by simpa using h
      simp only [h3, Bool.false_eq_true, if_false, ih]
      constructor
      · intro h2; exact Or.inr h2
      · rintro (h2 | h2)
        · exfalso; apply h; simp [h2.1, h2.2]
        · exact h2

/-- C8: `isValidQuery` returns false exactly when the raw line contains a
character that is neither alphabetic nor white space, and for a line it
rejects `processQuery` only writes the letters-and-spaces diagnostic: neither
`tokenize` nor `score` (nor `rank`) is called. -/
theorem isValidQuery_lexical_gate :
    (∀ query : cstring, isValidQuery query = false ↔
        ∃ c ∈ query, isalpha c = false ∧ isspace c = false) ∧
    (∀ (hash : cstring → Nat) (index : index_t) (pageDir : Int → Option cstring) (turns : Nat)
        (query : cstring), isValidQuery query = false →
        processQuery_line hash index pageDir turns query
          = { tokens := none, scored := none, echo := none, ranking := none,
              diagnostic := some Diagnostic.lettersAndSpaces }) := by
  refine ⟨isValidQuery_eq_false_iff, ?_⟩
  intro hash index pageDir turns query h
  simp [processQuery_line, h]

theorem isValidQuery_lexical_gate_witness :
    isValidQuery line_cat_dash_dog = false ∧
    processQuery_line (fun w => w.length) index_new (fun _ => none) 1 line_cat_dash_dog
      = { tokens := none, scored := none, echo := none, ranking := none,
          diagnostic := some Diagnostic.lettersAndSpaces } :=
  ⟨by decide, isValidQuery_lexical_gate.2 _ _ _ _ _ (by decide)⟩

/-- C7, as stated, fails on the line `a b c ... t and` of twenty-one words: its
word sequence ends with an operator, yet `tokenize` leaves `isValid` true. -/
theorem tokenize_isValid_twentyone_words :
    ¬ ((tokenize line_twenty_then_and).isValid = false ↔
        (beginsWithOperator ((alphaRuns line_twenty_then_and).map normalize) = true
          ∨ endsWithOperator ((alphaRuns line_twenty_then_and).map normalize) = true
          ∨ hasAdjacentOperators ((alphaRuns line_twenty_then_and).map normalize) = true)) := by
  decide

/-- C7, amended: for every query line, `tokenize` sets `isValid` to false if
and only if the sequence of the first `MAX_WORDS` (20) words of the line,
folded to lower case, begins with an operator, ends with an operator, or
contains two adjacent operators; `cat AND`, `AND cat` and `cat and and dog`
are invalid and `cat dog` is valid. -/
theorem tokenize_isValid_first_words :
    (∀ query : cstring, (tokenize query).isValid = false ↔
        (beginsWithOperator (((alphaRuns query).map normalize).take MAX_WORDS) = true
          ∨ endsWithOperator (((alphaRuns query).map normalize).take MAX_WORDS) = true
          ∨ hasAdjacentOperators (((alphaRuns query).map normalize).take MAX_WORDS) = true)) ∧
    (tokenize line_cat_AND).isValid = false ∧
    (tokenize line_AND_cat).isValid = false ∧
    (tokenize line_cat_and_and_dog).isValid = false ∧
    (tokenize line_cat_dog).isValid = true := by
  refine ⟨?_, by decide, by decide, by decide, by decide⟩
  intro query
  rw [← tokenize_words_eq]
  exact tokenize_isValid_iff query

theorem splitOnP_go_mem_not (P : Char → Bool) (l acc : List Char) (hacc : ∀ c ∈ acc, P c = false) :
    ∀ w ∈ List.splitOnP.go P l acc, ∀ c ∈ w, P c = false := by
  induction l generalizing acc with
  | nil =>
    intro w hw c hc
    simp only [List.splitOnP.go, List.mem_singleton] at hw
    subst hw
    exact hacc c (List.mem_reverse.1 hc)
  | cons a t ih =>
    intro w hw c hc
    simp only [List.splitOnP.go] at hw
    by_cases ha : P a = true
    · simp only [ha, if_true, List.mem_cons] at hw
      rcases hw with hw | hw
      · subst hw; exact hacc c (List.mem_reverse.1 hc)
      · exact ih [] (fun _ h => absurd h (List.not_mem_nil _)) w hw c hc
    · have ha2 : P a = false := by simpa using ha
      simp only [ha2, Bool.false_eq_true, if_false] at hw
      refine ih (a :: acc) ?_ w hw c hc
      intro x hx
      simp only [List.mem_cons] at hx
      rcases hx with hx | hx
      · subst hx; exact ha2
      · exact hacc x hx

theorem alphaRuns_mem (query : cstring) (w : cstring) (hw : w ∈ alphaRuns query) :
    w ≠ [] ∧ ∀ c ∈ w, isalpha c = true := by
  unfold alphaRuns at hw
  rw [List.mem_filter] at hw
  refine ⟨?_, ?_⟩
  · intro h
    rw [h] at hw
    simp at hw
  · intro c hc
    have := splitOnP_go_mem_not (fun c => !isalpha c) query []
      (fun _ h => absurd h (List.not_mem_nil _)) w hw.1 c hc
    simpa using this

/-- C9, as stated, fails on the line `a b c ... t u` of twenty-one words: the
tokens are not all the alphabetic runs of the line. -/
theorem tokenize_words_twentyone :
    (tokenize line_twentyone).words ≠ (alphaRuns line_twentyone).map normalize := by
  decide

/-- C9, amended: for every query line the tokens `tokenize` produces are the
first `MAX_WORDS` (20) maximal runs of alphabetic characters of the line, in
left-to-right order, each folded to lower case; every token is a non-empty
lower-case alphabetic string; and `tokenize` of the lower-cased line gives the
same tokens and validity as `tokenize` of the line. -/
theorem tokenize_words_first_runs (query : cstring) :
    (tokenize query).words = ((alphaRuns query).map normalize).take MAX_WORDS ∧
    (∀ w ∈ (tokenize query).words, w ≠ [] ∧ ∀ c ∈ w, isalpha c = true ∧ tolower c = c) ∧
    (tokenize (normalize query)).words = (tokenize query).words ∧
    (tokenize (normalize query)).isValid = (tokenize query).isValid := by
  refine ⟨tokenize_words_eq query, ?_, by rw [tokenize_normalize], by rw [tokenize_normalize]⟩
  intro w hw
  rw [tokenize_words_eq] at hw
  have hw2 := List.mem_of_mem_take hw
  rw [List.mem_map] at hw2
  obtain ⟨r, hr, rfl⟩ := hw2
  obtain ⟨hne, hal⟩ := alphaRuns_mem query r hr
  refine ⟨?_, ?_⟩
  · intro h
    apply hne
    simpa [normalize] using h
  · intro c hc
    simp only [normalize, List.mem_map] at hc
    obtain ⟨x, hx, rfl⟩ := hc
    exact ⟨by rw [isalpha_tolower]; exact hal x hx, tolower_tolower x⟩

/-! ## Ranking -/

theorem findMaxScore_iterate (l : counters) (acc : Int × Int) :
    (counters_iterate l acc findMaxScore = acc ∧ ∀ n ∈ l, n.2 ≤ acc.1) ∨
    (((counters_iterate l acc findMaxScore).2, (counters_iterate l acc findMaxScore).1) ∈ l
      ∧ acc.1 < (counters_iterate l acc findMaxScore).1
      ∧ ∀ n ∈ l, n.2 ≤ (counters_iterate l acc findMaxScore).1) := by
  induction l generalizing acc with
  | nil => left; exact ⟨rfl, fun _ h => absurd h (List.not_mem_nil _)⟩
  | cons a rest ih =>
    rw [counters_iterate_cons]
    by_cases h : a.2 > acc.1
    · have hs : findMaxScore acc a.1 a.2 = (a.2, a.1) := by simp [findMaxScore, h]
      rw [hs]
      rcases ih (a.2, a.1) with ⟨h1, h2⟩ | ⟨h1, h2, h3⟩
      · right
        rw [h1]
        refine ⟨List.mem_cons_self _ _, h, ?_⟩
        intro n hn
        simp only [List.mem_cons] at hn
        rcases hn with hn | hn
        · subst hn; exact le_refl _
        · exact h2 n hn
      · right
        refine ⟨List.mem_cons_of_mem _ h1, lt_trans h h2, ?_⟩
        intro n hn
        simp only [List.mem_cons] at hn
        rcases hn with hn | hn
        · subst hn; exact le_of_lt h2
        · exact h3 n hn
    · have hs : findMaxScore acc a.1 a.2 = acc := by simp [findMaxScore, h]
      rw [hs]
      have hle : a.2 ≤ acc.1 := by omega
      rcases ih acc with ⟨h1, h2⟩ | ⟨h1, h2, h3⟩
      · left
        refine ⟨h1, ?_⟩
        intro n hn
        simp only [List.mem_cons] at hn
        rcases hn with hn | hn
        · subst hn; exact hle
        · exact h2 n hn
      · right
        refine ⟨List.mem_cons_of_mem _ h1, h2, ?_⟩
        intro n hn
        simp only [List.mem_cons] at hn
        rcases hn with hn | hn
        · subst hn; exact le_trans hle (le_of_lt h2)
        · exact h3 n hn

theorem rank_succ_of_max (pageDir : Int → Option cstring) (turns : Nat) (result : counters)
    (url : cstring) (hmax : (counters_iterate result ((0 : Int), (-1 : Int)) findMaxScore).2 ≠ -1)
    (hurl : pageDir (counters_iterate result ((0 : Int), (-1 : Int)) findMaxScore).2 = some url) :
    rank pageDir (turns + 1) result
      = { rank pageDir turns result with
          lines := ((counters_iterate result ((0 : Int), (-1 : Int)) findMaxScore).1,
                    (counters_iterate result ((0 : Int), (-1 : Int)) findMaxScore).2, url)
                    :: (rank pageDir turns result).lines } := by
  rw [rank]
  simp only [hmax, if_false, hurl]
  rw [counters_set_of_not_guard _ _ _ (by omega)]

/-- C5 (the code at the failing input, and at every input like it): for a
non-empty score PostingSet whose documents can all be opened, `rank` never
leaves its loop. After any number of turns it is still looping, it has
printed one line per turn, and the score set is what it was at the start: the
call `counters_set(result, docID, 0)` is refused by the guard `count > 0`. -/
theorem rank_never_returns (pageDir : Int → Option cstring) (result : counters)
    (hP : PostingSet result) (hne : result ≠ [])
    (hdir : ∀ n ∈ result, (pageDir n.1).isSome = true) (turns : Nat) :
    (rank pageDir turns result).status = RankStatus.looping ∧
    (rank pageDir turns result).lines.length = turns ∧
    (rank pageDir turns result).result = result := by
  have hmax : ((counters_iterate result ((0 : Int), (-1 : Int)) findMaxScore).2,
      (counters_iterate result ((0 : Int), (-1 : Int)) findMaxScore).1) ∈ result := by
    rcases findMaxScore_iterate result ((0 : Int), (-1 : Int)) with ⟨_, h2⟩ | ⟨h1, _, _⟩
    · exfalso
      cases result with
      | nil => exact hne rfl
      | cons a rest =>
        have := h2 a (List.mem_cons_self _ _)
        have := (hP.2 a (List.mem_cons_self _ _)).2
        simp only at *
        omega
    · exact h1
  have hkey := (hP.2 _ hmax).1
  have hneq : (counters_iterate result ((0 : Int), (-1 : Int)) findMaxScore).2 ≠ -1 := by
    simp only at hkey
    omega
  have hsome := hdir _ hmax
  simp only at hsome
  obtain ⟨url, hurl⟩ := Option.isSome_iff_exists.1 hsome
  induction turns with
  | zero => exact ⟨rfl, rfl, rfl⟩
  | succ t ih =>
    rw [rank_succ_of_max pageDir t result url hneq hurl]
    exact ⟨ih.1, by simp [ih.2.1], ih.2.2⟩

theorem rank_never_returns_witness :
    PostingSet [(1, 2)] ∧ ([(1, 2)] : counters) ≠ [] ∧
    (∀ n ∈ ([(1, 2)] : counters), (Option.some ['u'] : Option cstring).isSome = true) ∧
    (rank (fun _ => some ['u']) 5 [(1, 2)]).status = RankStatus.looping ∧
    (rank (fun _ => some ['u']) 5 [(1, 2)]).lines.length = 5 ∧
    (rank (fun _ => some ['u']) 5 [(1, 2)]).result = [(1, 2)] :=
  ⟨by decide, by decide, fun _ _ => rfl,
    rank_never_returns (fun _ => some ['u']) [(1, 2)] (by decide) (by decide)
      (fun _ _ => rfl) 5⟩

/-- C6 (the code at the failing input): for the score set `{1:2, 2:4, 3:1}`
`rank` prints the line of doc 2 (score 4) at every turn and never a line for
doc 1 or doc 3; it is still looping after any number of turns. -/
theorem rank_repeats_first_maximum (url : cstring) (turns : Nat) :
    rank (fun _ => some url) turns scores_124
      = { lines := List.replicate turns (4, 2, url), result := scores_124,
          status := RankStatus.looping } := by
  induction turns with
  | zero => rfl
  | succ t ih =>
    have hm : counters_iterate scores_124 ((0 : Int), (-1 : Int)) findMaxScore = (4, 2) := by
      decide
    rw [rank_succ_of_max (fun _ => some url) t scores_124 url (by rw [hm]; decide) rfl, ih, hm]
    rfl

/-! ## Scoring -/

theorem score_foldl_insert_and (hash : cstring → Nat) (index : index_t) (st : ScoreState)
    (front back : List cstring) :
    (front ++ ['a', 'n', 'd'] :: back).foldl (score_step hash index) st
      = (front ++ back).foldl (score_step hash index) st := by
  simp only [List.foldl_append, List.foldl_cons, score_step_and]

/-- C10: for every index and token sequence, an explicit `and` standing between
two adjacent tokens does not change the result of `score`: the sequence with
`and` inserted between `t1` and `t2` scores the same as the sequence without
it (read from right to left: removing it changes nothing either); in
particular `cat dog` scores the same as `cat and dog`. -/
theorem score_implicit_and (hash : cstring → Nat) (index : index_t)
    (front : List cstring) (t1 t2 : cstring) (back : List cstring) :
    score hash index (front ++ t1 :: op_and :: t2 :: back) none
      = score hash index (front ++ t1 :: t2 :: back) none ∧
    score hash index [term_cat, term_dog] none
      = score hash index [term_cat, op_and, term_dog] none := by
  have key : ∀ (a b : List cstring),
      score hash index (a ++ op_and :: b) none = score hash index (a ++ b) none := by
    intro a b
    unfold score
    simp only [op_and, score_foldl_insert_and]
  constructor
  · have := key (front ++ [t1]) (t2 :: back)
    simpa using this
  · have := key [term_cat] [term_dog]
    simpa using this.symm

set_option maxRecDepth 20000 in
theorem exampleIndex_find_cat :
    index_find exampleHash exampleIndex term_cat = some [(2, 1), (1, 2)] := by
  decide

set_option maxRecDepth 20000 in
theorem exampleIndex_find_dog :
    index_find exampleHash exampleIndex term_dog = some [(3, 1), (2, 3)] := by
  decide

set_option maxRecDepth 100000 in
/-- C2, the claim as stated fails: the index file `text_big` (one line, `cat`
with the count `2^30` in each of the documents 1 to 4) is read without leaving
`word[MaxWordLength]` into an index whose counter sets are PostingSets; for
the query `cat` the sum of products of document 1 is `2^30`, but `score`
returns `NULL`, a score of 0: `counters_empty` adds the four counts in `int`,
the sum `2^32` wraps to 0, and the result is taken to be empty. -/
theorem score_wrapped_total_is_null :
    fileToIndex_fits text_big = true ∧
    ∃ loaded, fileToIndex exampleHash index_new (some text_big) = some loaded ∧
      IndexWF exampleHash loaded ∧
      sumOfProducts exampleHash loaded [term_cat] 1 = 1073741824 ∧
      score exampleHash loaded [term_cat] none = none ∧
      resultCount (score exampleHash loaded [term_cat] none) 1
        ≠ sumOfProducts exampleHash loaded [term_cat] 1 :=
  ⟨by decide, _, rfl, fileToIndex_wf exampleHash text_big _ rfl, by decide, by decide,
    by decide⟩

/-- C2, amended: for every index whose counter sets are PostingSets with counts
at most `INT_MAX`, and every token sequence (validated or not) for which the
scores of all documents add up to at most `INT_MAX` (`docs` lists the docIDs
outside of which the score is 0), the score of docID `d` in the result of
`score` (0 when the result is `NULL`) is the sum, over the AND-clauses obtained
by splitting the sequence at each `or` and dropping the `and` tokens, of the
minimum over the clause's terms of `count(term, d)`, an absent term counting
0. With `cat -> {1:2, 2:1}` and `dog -> {2:3, 3:1}`, `cat or dog` gives
`{1:2, 2:4, 3:1}` and `cat and dog` gives `{2:1}`. -/
theorem score_sum_of_products (hash : cstring → Nat) (index : index_t)
    (hwf : IndexWF hash index) (hint : IndexInt hash index) :
    (∀ (words : List cstring) (docs : List Int), (∀ d, d ∉ docs → sumOfProducts hash index words d = 0) →
      (docs.map (sumOfProducts hash index words)).sum ≤ INT_MAX →
      ∀ d, resultCount (score hash index words none) d
        = sumOfProducts hash index words d) ∧
    ((∀ d, termCount hash index term_cat d = if d = 1 then 2 else if d = 2 then 1 else 0) →
     (∀ d, termCount hash index term_dog d = if d = 2 then 3 else if d = 3 then 1 else 0) →
      (∀ d, resultCount (score hash index [term_cat, op_or, term_dog] none) d
          = if d = 1 then 2 else if d = 2 then 4 else if d = 3 then 1 else 0) ∧
      (∀ d, resultCount (score hash index [term_cat, op_and, term_dog] none) d
          = if d = 2 then 1 else 0)) := by
  refine ⟨fun words docs hdocs hsum d =>
    score_spec hash index hwf hint words docs hdocs hsum d, ?_⟩
  intro hcat hdog
  have h1 : ∀ d, sumOfProducts hash index [term_cat, op_or, term_dog] d
      = if d = 1 then 2 else if d = 2 then 4 else if d = 3 then 1 else 0 := by
    intro d
    have : andClauses [term_cat, op_or, term_dog] = [[term_cat], [term_dog]] := by decide
    simp only [sumOfProducts, this, clauseScore, List.map_cons, List.map_nil, List.sum_cons,
      List.sum_nil, List.foldl_nil, add_zero, hcat, hdog]
    by_cases e1 : d = 1
    · subst e1; decide
    · by_cases e2 : d = 2
      · subst e2; decide
      · by_cases e3 : d = 3
        · subst e3; decide
        · simp [e1, e2, e3]
  have h2 : ∀ d, sumOfProducts hash index [term_cat, op_and, term_dog] d
      = if d = 2 then 1 else 0 := by
    intro d
    have : andClauses [term_cat, op_and, term_dog] = [[term_cat, term_dog]] := by decide
    simp only [sumOfProducts, this, clauseScore, List.map_cons, List.map_nil, List.sum_cons,
      List.sum_nil, List.foldl_cons, List.foldl_nil, add_zero, hcat, hdog]
    by_cases e1 : d = 1
    · subst e1; decide
    · by_cases e2 : d = 2
      · subst e2; decide
      · by_cases e3 : d = 3
        · subst e3; decide
        · simp [e1, e2, e3]
  constructor
  · intro d
    rw [score_spec hash index hwf hint [term_cat, op_or, term_dog] [1, 2, 3] ?_ ?_ d, h1]
    · intro k hk
      simp only [List.mem_cons, List.mem_singleton, List.not_mem_nil, or_false, not_or] at hk
      rw [h1, if_neg hk.1, if_neg hk.2.1, if_neg hk.2.2]
    · simp only [List.map_cons, List.map_nil, h1]
      decide
  · intro d
    rw [score_spec hash index hwf hint [term_cat, op_and, term_dog] [2] ?_ ?_ d, h2]
    · intro k hk
      simp only [List.mem_singleton] at hk
      rw [h2, if_neg hk]
    · simp only [List.map_cons, List.map_nil, h2]
      decide

theorem exampleIndex_wf : IndexWF exampleHash exampleIndex :=
  indexInv_wf exampleHash exampleIndex
    (indexInv_ofCalls exampleHash exampleCalls (by decide))

theorem exampleIndex_termCount_cat (d : Int) :
    termCount exampleHash exampleIndex term_cat d
      = if d = 1 then 2 else if d = 2 then 1 else 0 := by
  simp only [termCount, exampleIndex_find_cat, counters_get]
  by_cases e1 : d = 1
  · subst e1; decide
  · by_cases e2 : d = 2
    · subst e2; decide
    · have e1b : ¬ (1 : Int) = d := fun h => e1 h.symm
      have e2b : ¬ (2 : Int) = d := fun h => e2 h.symm
      simp [e1, e2, e1b, e2b]

theorem exampleIndex_termCount_dog (d : Int) :
    termCount exampleHash exampleIndex term_dog d
      = if d = 2 then 3 else if d = 3 then 1 else 0 := by
  simp only [termCount, exampleIndex_find_dog, counters_get]
  by_cases e2 : d = 2
  · subst e2; decide
  · by_cases e3 : d = 3
    · subst e3; decide
    · have e2b : ¬ (2 : Int) = d := fun h => e2 h.symm
      have e3b : ¬ (3 : Int) = d := fun h => e3 h.symm
      simp [e2, e3, e2b, e3b]

theorem score_sum_of_products_witness :
    IndexWF exampleHash exampleIndex ∧ IndexInt exampleHash exampleIndex ∧
    (∀ d, termCount exampleHash exampleIndex term_cat d
        = if d = 1 then 2 else if d = 2 then 1 else 0) ∧
    (∀ d, termCount exampleHash exampleIndex term_dog d
        = if d = 2 then 3 else if d = 3 then 1 else 0) ∧
    (∀ (words : List cstring) (docs : List Int), (∀ d, d ∉ docs → sumOfProducts exampleHash exampleIndex words d = 0) →
      (docs.map (sumOfProducts exampleHash exampleIndex words)).sum ≤ INT_MAX →
      ∀ d, resultCount (score exampleHash exampleIndex words none) d
        = sumOfProducts exampleHash exampleIndex words d) ∧
    (∀ d, resultCount (score exampleHash exampleIndex [term_cat, op_or, term_dog] none) d
        = if d = 1 then 2 else if d = 2 then 4 else if d = 3 then 1 else 0) ∧
    (∀ d, resultCount (score exampleHash exampleIndex [term_cat, op_and, term_dog] none) d
        = if d = 2 then 1 else 0) :=
  ⟨exampleIndex_wf, exampleIndex_int, exampleIndex_termCount_cat, exampleIndex_termCount_dog,
    (score_sum_of_products exampleHash exampleIndex exampleIndex_wf exampleIndex_int).1,
    (score_sum_of_products exampleHash exampleIndex exampleIndex_wf exampleIndex_int).2
      exampleIndex_termCount_cat exampleIndex_termCount_dog⟩

/-! ## Round trip through the index file -/

theorem entryLines_length (E : List (cstring × counters)) :
    E.length ≤ ((E.map entryLine).flatten).length := by
  induction E with
  | nil => simp
  | cons e E ih =>
    simp only [List.map_cons, List.flatten_cons, List.length_append, List.length_cons,
      entryLine]
    omega

/-- The entries of an index built by `index_add` calls with Terms and docIDs
from 1 to `INT_MAX`, the calls being at most `INT_MAX`, are entries the index
file can carry. -/
theorem indexOfCalls_entryOK (hash : cstring → Nat) (calls : List (cstring × Int))
    (hcalls : ∀ p ∈ calls, isTerm p.1 = true ∧ 1 ≤ p.2 ∧ p.2 ≤ INT_MAX)
    (hlen : (calls.length : Int) ≤ INT_MAX) :
    ∀ e ∈ index_entries (indexOfCalls hash calls), EntryOK e := by
  have hinv := indexInv_ofCalls hash calls (fun p hp => ⟨(hcalls p hp).1, (hcalls p hp).2.1⟩)
  have hbound := indexOfCalls_bound hash (fun _ => True) calls
    (fun p hp => ⟨trivial, (hcalls p hp).2⟩)
  intro e he
  have hP := tableInv_mem_P hash _ _ hinv e he
  have hB := tableInv_mem_P hash _ _ hbound e he
  refine ⟨hP.1, fun n hn => ?_⟩
  have h1 := hP.2.1.2 n hn
  have h2 := hB.2 n hn
  exact ⟨⟨by omega, h2.1⟩, ⟨by omega, le_trans h2.2 hlen⟩⟩

/-- C1 (what the code does): for every index built by `index_add` calls whose
terms are Terms (non-empty, alphabetic) and whose docIDs are at least 1 (and
`int` values, the calls being at most `INT_MAX`), `fileToIndex` stays inside
its buffer `word[MaxWordLength]` on the text written by `indexToFile` exactly
when every term of the index has fewer than `MaxWordLength` characters, which
is so when the terms of the calls have; and when it stays inside the buffer,
loading the text into a new index succeeds and gives an index in which
`index_find(term)` holds, for every term, exactly the docID->count pairs of
the original index, in some order (absent where the original is absent). For
an index with a term of `MaxWordLength` characters or more the load writes
past the end of `word`, and the round trip of the claim is not given. -/
theorem index_file_roundtrip (hash : cstring → Nat) (calls : List (cstring × Int))
    (hcalls : ∀ p ∈ calls, isTerm p.1 = true ∧ 1 ≤ p.2 ∧ p.2 ≤ INT_MAX)
    (hlen : (calls.length : Int) ≤ INT_MAX) :
    (fileToIndex_fits (indexToFile (indexOfCalls hash calls)) = true ↔
      ∀ e ∈ index_entries (indexOfCalls hash calls), e.1.length < MaxWordLength) ∧
    ((∀ p ∈ calls, p.1.length < MaxWordLength) →
      fileToIndex_fits (indexToFile (indexOfCalls hash calls)) = true) ∧
    (fileToIndex_fits (indexToFile (indexOfCalls hash calls)) = true →
      ∃ loaded,
        fileToIndex hash index_new (some (indexToFile (indexOfCalls hash calls)))
          = some loaded ∧
        ∀ term, samePairs (index_find hash loaded term)
          (index_find hash (indexOfCalls hash calls) term)) := by
  have hinv := indexInv_ofCalls hash calls (fun p hp => ⟨(hcalls p hp).1, (hcalls p hp).2.1⟩)
  have hEok := indexOfCalls_entryOK hash calls hcalls hlen
  have hfits : fileToIndex_fits (indexToFile (indexOfCalls hash calls)) = true ↔
      ∀ e ∈ index_entries (indexOfCalls hash calls), e.1.length < MaxWordLength := by
    rw [indexToFile_eq]
    have := fileToIndex_fits_fileText (index_entries (indexOfCalls hash calls)) hEok
    unfold fileText at this
    rw [this, List.all_eq_true]
    simp only [decide_eq_true_eq]
  refine ⟨hfits, ?_, fun _ => ?_⟩
  · intro hshort
    rw [hfits]
    have hbound := indexOfCalls_bound hash (fun w => w.length < MaxWordLength) calls
      (fun p hp => ⟨hshort p hp, (hcalls p hp).2⟩)
    intro e he
    exact (tableInv_mem_P hash _ _ hbound e he).1
  have hnd := tableInv_keys_nodup hash _ _ hinv
  have hne : ∀ e ∈ index_entries (indexOfCalls hash calls), e.2 ≠ [] :=
    fun e he => (tableInv_mem_P hash _ _ hinv e he).2.2
  have hload := fileToIndex_words_lines hash (index_entries (indexOfCalls hash calls))
    ((indexToFile (indexOfCalls hash calls)).length + 1) index_new ?_ hEok
  · refine ⟨_, rfl, ?_⟩
    intro term
    rw [indexToFile_eq] at hload ⊢
    rw [hload]
    obtain ⟨h1, h2⟩ := index_find_foldl_loadEntry hash (index_entries (indexOfCalls hash calls))
      index_new index_new_length hnd hne (fun e _ => index_find_new hash e.1)
    cases hf : index_find hash (indexOfCalls hash calls) term with
    | none =>
      have hk : term ∉ (index_entries (indexOfCalls hash calls)).map Prod.fst := by
        intro hmem
        rw [List.mem_map] at hmem
        obtain ⟨e, he, hek⟩ := hmem
        have := (tableInv_find_iff hash _ _ hinv e.1 e.2).2 he
        rw [hek] at this
        rw [index_find] at hf
        rw [hf] at this
        exact Option.noConfusion this
      rw [h2 term hk, index_find_new]
      exact trivial
    | some c =>
      have hmem := (tableInv_find_iff hash _ _ hinv term c).1 hf
      have hP := tableInv_mem_P hash _ _ hinv (term, c) hmem
      rw [h1 (term, c) hmem]
      simp only [samePairs]
      rw [counters_copy_reverse c counters_new hP.2.1
        (fun k _ => by simp [counters_keys, counters_new])]
      simp only [counters_new, List.append_nil]
      exact List.reverse_perm c
  · rw [indexToFile_eq]
    have := entryLines_length (index_entries (indexOfCalls hash calls))
    omega

set_option maxRecDepth 100000 in
theorem index_file_roundtrip_witness :
    ((∀ p ∈ exampleCalls, isTerm p.1 = true ∧ 1 ≤ p.2 ∧ p.2 ≤ INT_MAX) ∧
      (exampleCalls.length : Int) ≤ INT_MAX ∧
      (∀ p ∈ exampleCalls, p.1.length < MaxWordLength) ∧
      fileToIndex_fits (indexToFile (indexOfCalls exampleHash exampleCalls)) = true ∧
      ∃ loaded,
        fileToIndex exampleHash index_new
          (some (indexToFile (indexOfCalls exampleHash exampleCalls))) = some loaded ∧
        ∀ term, samePairs (index_find exampleHash loaded term)
          (index_find exampleHash (indexOfCalls exampleHash exampleCalls) term)) ∧
    ((∀ p ∈ [(term_long, (1 : Int))], isTerm p.1 = true ∧ 1 ≤ p.2 ∧ p.2 ≤ INT_MAX) ∧
      (([(term_long, (1 : Int))] : List (cstring × Int)).length : Int) ≤ INT_MAX ∧
      ¬ fileToIndex_fits (indexToFile (indexOfCalls exampleHash [(term_long, 1)])) = true) :=
  ⟨⟨by decide, by decide, by decide,
      (index_file_roundtrip exampleHash exampleCalls (by decide) (by decide)).2.1 (by decide),
      (index_file_roundtrip exampleHash exampleCalls (by decide) (by decide)).2.2
        ((index_file_roundtrip exampleHash exampleCalls (by decide) (by decide)).2.1
          (by decide))⟩,
    by decide, by decide,
    fun h => absurd
      (((index_file_roundtrip exampleHash [(term_long, 1)] (by decide) (by decide)).1.1 h)
        (term_long, [(1, 1)]) (by decide))
      (by decide)⟩

/-! ## Contracts of counters.c and index_add -/

/-- C17 (the code where it departs from the claim): for a key `≥ 0` that
already has a node, `counters_add` increments the count by 1, as claimed, but
the value it returns is 0, the failure value, and not the new count: the
`return` of the new value stands only in the branch that creates a node. -/
theorem counters_add_returns_zero_on_existing (c : counters) (key : Int) (hkey : 0 ≤ key)
    (hmem : key ∈ counters_keys c) :
    (counters_add c key).2 = 0 ∧
    counters_get (counters_add c key).1 key = counters_get c key + 1 := by
  refine ⟨?_, ?_⟩
  · rw [counters_add_of_mem c key hkey hmem]
  · rw [counters_add_get c key key hkey]
    simp

theorem counters_add_returns_zero_on_existing_witness :
    (0 : Int) ≤ 1 ∧ (1 : Int) ∈ counters_keys [(1, 1)] ∧
    (counters_add [(1, 1)] 1).2 = 0 ∧
    counters_get (counters_add [(1, 1)] 1).1 1 = counters_get [(1, 1)] 1 + 1 :=
  ⟨by decide, by decide,
    counters_add_returns_zero_on_existing [(1, 1)] 1 (by decide) (by decide)⟩

/-- C18: for `docID ≥ 1` and `count ≥ 1`, `counters_set` returns true,
afterwards `counters_get(docID) = count`, the keys are those of before
together with `docID`, and the count of every other key is unchanged; for
`docID < 1` or `count < 1` it returns false and the counter set is unchanged. -/
theorem counters_set_contract (c : counters) (docID count : Int) :
    (1 ≤ docID → 1 ≤ count →
      (counters_set c docID count).2 = true ∧
      counters_get (counters_set c docID count).1 docID = count ∧
      (∀ j, j ≠ docID →
        counters_get (counters_set c docID count).1 j = counters_get c j) ∧
      (∀ j, j ∈ counters_keys (counters_set c docID count).1
        ↔ j ∈ counters_keys c ∨ j = docID)) ∧
    ((docID < 1 ∨ count < 1) → counters_set c docID count = (c, false)) := by
  constructor
  · intro hd hc
    have g : docID > 0 ∧ count > 0 := ⟨by omega, by omega⟩
    refine ⟨?_, ?_, ?_, ?_⟩
    · rw [counters_set_snd]; simp [g]
    · rw [counters_set_get]; simp [g]
    · intro j hj
      rw [counters_set_get]; simp [hj]
    · intro j
      rw [counters_set_keys]
      simp [g]
  · intro h
    exact counters_set_of_not_guard c docID count (by omega)

theorem counters_set_contract_witness :
    (1 : Int) ≤ 2 ∧ (1 : Int) ≤ 5 ∧
    (counters_set [(1, 2)] 2 5).2 = true ∧
    counters_get (counters_set [(1, 2)] 2 5).1 2 = 5 ∧
    (∀ j, j ≠ 2 →
      counters_get (counters_set [(1, 2)] 2 5).1 j = counters_get [(1, 2)] j) ∧
    (∀ j, j ∈ counters_keys (counters_set [(1, 2)] 2 5).1
      ↔ j ∈ counters_keys [(1, 2)] ∨ j = 2) ∧
    ((0 : Int) < 1 ∨ (5 : Int) < 1) ∧
    counters_set [(1, 2)] 0 5 = ([(1, 2)], false) :=
  ⟨by decide, by decide,
    ((counters_set_contract [(1, 2)] 2 5).1 (by decide) (by decide)).1,
    ((counters_set_contract [(1, 2)] 2 5).1 (by decide) (by decide)).2.1,
    ((counters_set_contract [(1, 2)] 2 5).1 (by decide) (by decide)).2.2.1,
    ((counters_set_contract [(1, 2)] 2 5).1 (by decide) (by decide)).2.2.2,
    Or.inl (by decide),
    (counters_set_contract [(1, 2)] 0 5).2 (Or.inl (by decide))⟩

/-- C19 (the code where it departs from the claim): `counters_set(k, 0)` is
refused by the guard `count > 0`: it returns false and changes nothing, so in a
PostingSet that contains docID `k` the key is still present afterwards and
`counters_get(k)` is still its positive count. -/
theorem counters_set_zero_refused (c : counters) (k : Int) (hP : PostingSet c)
    (hmem : k ∈ counters_keys c) :
    counters_set c k 0 = (c, false) ∧
    k ∈ counters_keys (counters_set c k 0).1 ∧
    1 ≤ counters_get (counters_set c k 0).1 k := by
  have h := counters_set_of_not_guard c k 0 (by omega)
  rw [h]
  exact ⟨rfl, hmem, counters_get_pos_of_mem c k (fun n hn => (hP.2 n hn).2) hmem⟩

theorem counters_set_zero_refused_witness :
    PostingSet [(1, 2)] ∧ (1 : Int) ∈ counters_keys [(1, 2)] ∧
    counters_set [(1, 2)] 1 0 = ([(1, 2)], false) ∧
    (1 : Int) ∈ counters_keys (counters_set [(1, 2)] 1 0).1 ∧
    1 ≤ counters_get (counters_set [(1, 2)] 1 0).1 1 :=
  ⟨by decide, by decide, counters_set_zero_refused [(1, 2)] 1 (by decide) (by decide)⟩

/-- C20: in every counter set reachable from `counters_new` through
`counters_add` and `counters_set`, `counters_get` returns the count stored in
the node of a key, and `counters_get(k) = 0` if and only if `k` has no node. -/
theorem counters_get_zero_iff_absent (c : counters) (h : CountersReachable c) :
    (∀ n ∈ c, counters_get c n.1 = n.2) ∧
    (∀ k, counters_get c k = 0 ↔ k ∉ counters_keys c) := by
  have hinv := countersInv_of_reachable c h
  refine ⟨fun n hn => counters_get_of_mem_nodup c hinv.1 n hn, fun k => ?_⟩
  constructor
  · intro h0 hk
    have := counters_get_pos_of_mem c k hinv.2 hk
    omega
  · intro hk
    exact counters_get_of_not_mem c k hk

theorem counters_get_zero_iff_absent_witness :
    CountersReachable (counters_set (counters_add (counters_add counters_new 1).1 1).1 2 5).1 ∧
    (∀ n ∈ (counters_set (counters_add (counters_add counters_new 1).1 1).1 2 5).1,
      counters_get (counters_set (counters_add (counters_add counters_new 1).1 1).1 2 5).1 n.1
        = n.2) ∧
    (∀ k, counters_get (counters_set (counters_add (counters_add counters_new 1).1 1).1 2 5).1 k
        = 0 ↔
      k ∉ counters_keys (counters_set (counters_add (counters_add counters_new 1).1 1).1 2 5).1) :=
  ⟨CountersReachable.set _ 2 5 (CountersReachable.add _ 1 (CountersReachable.add _ 1
      CountersReachable.new)),
    counters_get_zero_iff_absent _
      (CountersReachable.set _ 2 5 (CountersReachable.add _ 1 (CountersReachable.add _ 1
        CountersReachable.new)))⟩

/-- C15 (the code where it departs from the claim): for a term that is in the
index and a docID `≥ 0` that already has a count for the term, `index_add`
applies the occurrence (the count of the pair is one more than before) and
returns false: it passes on the 0 that `counters_add` returns for an existing
key. -/
theorem index_add_false_on_repeat (hash : cstring → Nat) (index : index_t)
    (hlen : 0 < index.ht.table.length) (word : cstring) (d : Int) (c : counters)
    (hd : 0 ≤ d) (hf : index_find hash index word = some c) (hmem : d ∈ counters_keys c) :
    (index_add hash index word d).2 = false ∧
    termCount hash (index_add hash index word d).1 word d
      = termCount hash index word d + 1 := by
  refine ⟨?_, ?_⟩
  · rw [index_add_snd_of_present hash index word d c hd hf, counters_add_of_mem c d hd hmem]
    simp
  · rw [termCount_index_add hash index hlen word d hd]
    simp

theorem index_find_cat_after_one_add :
    index_find exampleHash (index_add exampleHash index_new term_cat 1).1 term_cat
      = some [(1, 1)] := by
  rw [index_find_add exampleHash index_new index_new_length term_cat 1 term_cat,
    index_find_new]
  rfl

theorem index_add_false_on_repeat_witness :
    0 < (index_add exampleHash index_new term_cat 1).1.ht.table.length ∧ (0 : Int) ≤ 1 ∧
    index_find exampleHash (index_add exampleHash index_new term_cat 1).1 term_cat
      = some [(1, 1)] ∧
    (1 : Int) ∈ counters_keys [(1, 1)] ∧
    (index_add exampleHash (index_add exampleHash index_new term_cat 1).1 term_cat 1).2
      = false ∧
    termCount exampleHash
        (index_add exampleHash (index_add exampleHash index_new term_cat 1).1 term_cat 1).1
        term_cat 1
      = termCount exampleHash (index_add exampleHash index_new term_cat 1).1 term_cat 1 + 1 :=
  ⟨by rw [index_add_length]; exact index_new_length, by decide,
    index_find_cat_after_one_add, by decide,
    index_add_false_on_repeat exampleHash (index_add exampleHash index_new term_cat 1).1
      (by rw [index_add_length]; exact index_new_length) term_cat 1 [(1, 1)] (by decide)
      index_find_cat_after_one_add (by decide)⟩

set_option maxRecDepth 20000 in
theorem exampleIndex_find_zzz : index_find exampleHash exampleIndex term_zzz = none := by
  decide

/-- C11: if a term `z` is absent from the index, an AND-clause (a run of
tokens without `or`) that contains `z`, at any place in the clause, adds
nothing to the result of `score`: alone it gives no match, and as the first,
the last or a middle clause of a query the result is the one of the query
without that clause. With `zzz` absent, `cat and zzz` gives no match and
`cat and zzz or dog` gives the result of `dog` alone. -/
theorem score_missing_term (hash : cstring → Nat) (index : index_t) :
    (∀ (z : cstring) (clause : List cstring),
      index_find hash index z = none → z ≠ op_and → z ≠ op_or → z ∈ clause →
      op_or ∉ clause →
        score hash index clause none = none ∧
        (∀ post, score hash index (clause ++ op_or :: post) none
            = score hash index post none) ∧
        (∀ pre, score hash index (pre ++ op_or :: clause) none
            = score hash index pre none) ∧
        (∀ pre post, score hash index (pre ++ op_or :: (clause ++ op_or :: post)) none
            = score hash index (pre ++ op_or :: post) none)) ∧
    (index_find hash index term_zzz = none →
      score hash index [term_cat, op_and, term_zzz] none = none ∧
      score hash index [term_cat, op_and, term_zzz, op_or, term_dog] none
        = score hash index [term_dog] none) := by
  have main : ∀ (z : cstring) (clause : List cstring),
      index_find hash index z = none → z ≠ op_and → z ≠ op_or → z ∈ clause →
      op_or ∉ clause →
        score hash index clause none = none ∧
        (∀ post, score hash index (clause ++ op_or :: post) none
            = score hash index post none) ∧
        (∀ pre, score hash index (pre ++ op_or :: clause) none
            = score hash index pre none) ∧
        (∀ pre post, score hash index (pre ++ op_or :: (clause ++ op_or :: post)) none
            = score hash index (pre ++ op_or :: post) none) := by
    intro z clause hz hzand hzor hmem hclause
    have hmiss := fun (o : Option counters) =>
      score_foldl_missing hash index z hz hzand hzor clause
        { orSequence := o, andSequence := none, shortCircuit := false } hmem hclause
        (fun _ => rfl)
    have hmissor := fun o =>
      score_foldl_missing_or hash index z hz hzand hzor clause o hmem hclause
    refine ⟨?_, ?_, ?_, ?_⟩
    · rw [score_eq_finish, hmiss]
      rfl
    · intro post
      have e : clause ++ op_or :: post = (clause ++ [['o', 'r']]) ++ post := by
        simp [op_or]
      rw [score_eq_finish, score_eq_finish, e, List.foldl_append, hmissor]
    · intro pre
      rw [score_eq_finish, score_eq_finish]
      simp only [List.foldl_append, List.foldl_cons, op_or, score_step_or]
      rw [hmiss]
      simp only [score_finish, myUnion_none_right]
    · intro pre post
      have e : pre ++ op_or :: (clause ++ op_or :: post)
          = (pre ++ [['o', 'r']]) ++ ((clause ++ [['o', 'r']]) ++ post) := by
        simp [op_or]
      have e2 : pre ++ op_or :: post = (pre ++ [['o', 'r']]) ++ post := by
        simp [op_or]
      rw [score_eq_finish, score_eq_finish, e, e2]
      simp only [List.foldl_append, List.foldl_cons, List.foldl_nil, score_step_or]
      have := hmissor (myUnion
        (List.foldl (score_step hash index)
          { orSequence := some counters_new, andSequence := none, shortCircuit := false }
          pre).orSequence
        (List.foldl (score_step hash index)
          { orSequence := some counters_new, andSequence := none, shortCircuit := false }
          pre).andSequence)
      simp only [List.foldl_append, List.foldl_cons, List.foldl_nil, score_step_or] at this
      rw [this]
  refine ⟨main, ?_⟩
  intro hz
  have h := main term_zzz [term_cat, op_and, term_zzz] hz (by decide) (by decide)
    (by decide) (by decide)
  exact ⟨h.1, h.2.1 [term_dog]⟩

theorem score_missing_term_witness :
    index_find exampleHash exampleIndex term_zzz = none ∧ term_zzz ≠ op_and ∧
    term_zzz ≠ op_or ∧ term_zzz ∈ [term_zzz, op_and, term_cat] ∧
    op_or ∉ [term_zzz, op_and, term_cat] ∧
    score exampleHash exampleIndex [term_zzz, op_and, term_cat] none = none ∧
    (∀ post, score exampleHash exampleIndex ([term_zzz, op_and, term_cat] ++ op_or :: post) none
        = score exampleHash exampleIndex post none) ∧
    (∀ pre, score exampleHash exampleIndex (pre ++ op_or :: [term_zzz, op_and, term_cat]) none
        = score exampleHash exampleIndex pre none) ∧
    (∀ pre post,
      score exampleHash exampleIndex
          (pre ++ op_or :: ([term_zzz, op_and, term_cat] ++ op_or :: post)) none
        = score exampleHash exampleIndex (pre ++ op_or :: post) none) ∧
    score exampleHash exampleIndex [term_cat, op_and, term_zzz] none = none ∧
    score exampleHash exampleIndex [term_cat, op_and, term_zzz, op_or, term_dog] none
      = score exampleHash exampleIndex [term_dog] none :=
  ⟨exampleIndex_find_zzz, by decide, by decide, by decide, by decide,
    ((score_missing_term exampleHash exampleIndex).1 term_zzz [term_zzz, op_and, term_cat]
      exampleIndex_find_zzz (by decide) (by decide) (by decide) (by decide)).1,
    ((score_missing_term exampleHash exampleIndex).1 term_zzz [term_zzz, op_and, term_cat]
      exampleIndex_find_zzz (by decide) (by decide) (by decide) (by decide)).2.1,
    ((score_missing_term exampleHash exampleIndex).1 term_zzz [term_zzz, op_and, term_cat]
      exampleIndex_find_zzz (by decide) (by decide) (by decide) (by decide)).2.2.1,
    ((score_missing_term exampleHash exampleIndex).1 term_zzz [term_zzz, op_and, term_cat]
      exampleIndex_find_zzz (by decide) (by decide) (by decide) (by decide)).2.2.2,
    ((score_missing_term exampleHash exampleIndex).2 exampleIndex_find_zzz).1,
    ((score_missing_term exampleHash exampleIndex).2 exampleIndex_find_zzz).2⟩

/-! ## Building the index -/

theorem exampleDir_firstDocuments : FirstDocuments exampleDir [examplePage1, examplePage2] := by
  refine ⟨?_, by decide⟩
  intro i hi
  simp only [List.length_cons, List.length_nil] at hi
  interval_cases i <;> decide

/-- C12: when `pages` are the documents `1..n` of the directory before its
first gap, `indexBuild` returns an index in which, for every term `t` and
docID `d`, the count of `d` under `t` is the number of words of document `d`
with at least 3 characters whose lower-case folding is `t` (0 for a docID
outside `1..n`), and `t` is absent from the index exactly when that number is
0 for every document. -/
theorem indexBuild_counts_occurrences (hash : cstring → Nat) (dir : Int → Option webpage_t)
    (pages : List webpage_t) (hdocs : FirstDocuments dir pages) (turns : Nat)
    (hturns : pages.length < turns) :
    ∃ index, indexBuild hash dir turns = BuildResult.built index ∧
      (∀ t d, termCount hash index t d = (occurrences pages t d : Int)) ∧
      (∀ t, index_find hash index t = none ↔ ∀ d, occurrences pages t d = 0) := by
  refine ⟨_, indexBuild_of_firstDocuments hash dir pages hdocs turns hturns, ?_, ?_⟩
  · intro t d
    rw [indexPages_eq_calls,
      termCount_foldl_index_add hash _ index_new index_new_length
        (pagesCalls_docID pages 1 (by decide)) t d, pagesCalls_count_one]
    simp [termCount, index_find_new]
  · intro t
    rw [indexPages_eq_calls,
      index_find_foldl_index_add_none hash _ index_new index_new_length
        (pagesCalls_docID pages 1 (by decide)) t]
    simp only [index_find_new, true_and]
    constructor
    · intro h d
      rw [← pagesCalls_count_one, List.count_eq_zero]
      intro hmem
      exact h (List.mem_map_of_mem Prod.fst hmem)
    · intro h hmem
      rw [List.mem_map] at hmem
      obtain ⟨p, hp, hpt⟩ := hmem
      have := h p.2
      rw [← pagesCalls_count_one, List.count_eq_zero] at this
      apply this
      rw [← hpt]
      exact hp

theorem indexBuild_counts_occurrences_witness :
    FirstDocuments exampleDir [examplePage1, examplePage2] ∧
    [examplePage1, examplePage2].length < 3 ∧
    ∃ index, indexBuild exampleHash exampleDir 3 = BuildResult.built index ∧
      (∀ t d, termCount exampleHash index t d
        = (occurrences [examplePage1, examplePage2] t d : Int)) ∧
      (∀ t, index_find exampleHash index t = none
        ↔ ∀ d, occurrences [examplePage1, examplePage2] t d = 0) :=
  ⟨exampleDir_firstDocuments, by decide,
    indexBuild_counts_occurrences exampleHash exampleDir [examplePage1, examplePage2]
      exampleDir_firstDocuments 3 (by decide)⟩

/-- C13: `indexPage`, on any index and any page, adds no term of fewer than 3
characters (a term present afterwards was present before or has at least 3
characters), and every word of exactly 3 characters of the page is afterwards
present, folded to lower case, as a term with the page's docID. For the index
`indexBuild` returns: every term has at least 3 characters, and every word of
exactly 3 characters of document `i+1` is a term with a count of at least 1
for docID `i+1`. -/
theorem indexPage_minimum_length (hash : cstring → Nat) :
    (∀ (index : index_t) (page : webpage_t) (docID : Int),
      0 < index.ht.table.length → 0 ≤ docID →
      (∀ t, (index_find hash (indexPage hash index page docID).1.index t).isSome = true →
        (index_find hash index t).isSome = true ∨ 3 ≤ t.length) ∧
      (∀ w ∈ page.words, w.length = 3 →
        ∃ c, index_find hash (indexPage hash index page docID).1.index (normalize w) = some c
          ∧ docID ∈ counters_keys c)) ∧
    (∀ (dir : Int → Option webpage_t) (pages : List webpage_t) (turns : Nat),
      FirstDocuments dir pages → pages.length < turns →
      ∃ index, indexBuild hash dir turns = BuildResult.built index ∧
        (∀ t, (index_find hash index t).isSome = true → 3 ≤ t.length) ∧
        (∀ (i : Nat) (page : webpage_t) (w : cstring), pages[i]? = some page →
          w ∈ page.words → w.length = 3 →
          ∃ c, index_find hash index (normalize w) = some c
            ∧ 1 ≤ counters_get c ((i : Int) + 1))) := by
  constructor
  · intro index page docID hlen hd
    have hcalls : ∀ p ∈ pageCalls page docID, 0 ≤ p.2 := by
      rw [pageCalls_eq_pagesCalls]
      exact pagesCalls_docID [page] docID hd
    constructor
    · intro t ht
      rw [indexPage_index] at ht
      by_cases hb : index_find hash index t = none
      · right
        have hnone := index_find_foldl_index_add_none hash (pageCalls page docID) index hlen
          hcalls t
        have hmem : t ∈ (pageCalls page docID).map Prod.fst := by
          by_contra hn
          rw [hnone.2 ⟨hb, hn⟩] at ht
          exact Bool.noConfusion ht
        rw [List.mem_map] at hmem
        obtain ⟨p, hp, rfl⟩ := hmem
        rw [pageCalls_eq_pagesCalls] at hp
        exact pagesCalls_term_length [page] docID p hp
      · left
        cases hf : index_find hash index t with
        | none => exact absurd hf hb
        | some c => rfl
    · intro w hw hw3
      rw [indexPage_index]
      apply foldl_index_add_pair_present hash _ index hlen hcalls
      left
      rw [pageCalls_eq_pagesCalls]
      have := mem_pagesCalls_of_word [page] docID 0 page w rfl hw (by omega)
      simpa using this
  · intro dir pages turns hdocs hturns
    refine ⟨_, indexBuild_of_firstDocuments hash dir pages hdocs turns hturns, ?_, ?_⟩
    · intro t ht
      rw [indexPages_eq_calls] at ht
      have hnone := index_find_foldl_index_add_none hash (pagesCalls pages 1) index_new
        index_new_length (pagesCalls_docID pages 1 (by decide)) t
      have hmem : t ∈ (pagesCalls pages 1).map Prod.fst := by
        by_contra hn
        rw [hnone.2 ⟨index_find_new hash t, hn⟩] at ht
        exact Bool.noConfusion ht
      rw [List.mem_map] at hmem
      obtain ⟨p, hp, rfl⟩ := hmem
      exact pagesCalls_term_length pages 1 p hp
    · intro i page w hpage hw hw3
      have hmem := mem_pagesCalls_of_word pages 1 i page w hpage hw (by omega)
      have hcount : 1 ≤ termCount hash (indexPages hash pages 1 index_new) (normalize w)
          (1 + (i : Int)) := by
        rw [indexPages_eq_calls,
          termCount_foldl_index_add hash _ index_new index_new_length
            (pagesCalls_docID pages 1 (by decide))]
        have h0 : termCount hash index_new (normalize w) (1 + (i : Int)) = 0 := by
          simp [termCount, index_find_new]
        have hpos := List.count_pos_iff.2 hmem
        rw [h0]
        omega
      unfold termCount at hcount
      cases hf : index_find hash (indexPages hash pages 1 index_new) (normalize w) with
      | none =>
        rw [hf] at hcount
        simp at hcount
      | some c =>
        rw [hf] at hcount
        refine ⟨c, rfl, ?_⟩
        have e : (i : Int) + 1 = 1 + (i : Int) := by omega
        rw [e]
        exact hcount

theorem indexPage_minimum_length_witness :
    0 < index_new.ht.table.length ∧ (0 : Int) ≤ 1 ∧
    (∀ t, (index_find exampleHash (indexPage exampleHash index_new examplePage1 1).1.index
        t).isSome = true →
      (index_find exampleHash index_new t).isSome = true ∨ 3 ≤ t.length) ∧
    (∀ w ∈ examplePage1.words, w.length = 3 →
      ∃ c, index_find exampleHash (indexPage exampleHash index_new examplePage1 1).1.index
          (normalize w) = some c ∧ (1 : Int) ∈ counters_keys c) ∧
    FirstDocuments exampleDir [examplePage1, examplePage2] ∧
    [examplePage1, examplePage2].length < 3 ∧
    ∃ index, indexBuild exampleHash exampleDir 3 = BuildResult.built index ∧
      (∀ t, (index_find exampleHash index t).isSome = true → 3 ≤ t.length) ∧
      (∀ (i : Nat) (page : webpage_t) (w : cstring),
        [examplePage1, examplePage2][i]? = some page →
        w ∈ page.words → w.length = 3 →
        ∃ c, index_find exampleHash index (normalize w) = some c
          ∧ 1 ≤ counters_get c ((i : Int) + 1)) :=
  ⟨index_new_length, by decide,
    ((indexPage_minimum_length exampleHash).1 index_new examplePage1 1 index_new_length
      (by decide)).1,
    ((indexPage_minimum_length exampleHash).1 index_new examplePage1 1 index_new_length
      (by decide)).2,
    exampleDir_firstDocuments, by decide,
    (indexPage_minimum_length exampleHash).2 exampleDir [examplePage1, examplePage2] 3
      exampleDir_firstDocuments (by decide)⟩

/-- C14: when `pages` are the documents `1..k` that load before the first
docID, `k+1`, that does not, `indexBuild` returns (it does not fail and, after
`k+1` turns, it has left its loop) the index obtained by calling `indexPage`
on exactly these documents with the docIDs `1..k`, in this order; a directory
that differs only after the first gap gives the same index. -/
theorem indexBuild_stops_at_first_gap (hash : cstring → Nat) (dir : Int → Option webpage_t)
    (pages : List webpage_t) (hdocs : FirstDocuments dir pages) (turns : Nat)
    (hturns : pages.length < turns) :
    indexBuild hash dir turns = BuildResult.built (indexPages hash pages 1 index_new) ∧
    (∀ dir2 : Int → Option webpage_t, FirstDocuments dir2 pages →
      indexBuild hash dir2 turns = indexBuild hash dir turns) := by
  have h := indexBuild_of_firstDocuments hash dir pages hdocs turns hturns
  refine ⟨h, ?_⟩
  intro dir2 hdocs2
  rw [h, indexBuild_of_firstDocuments hash dir2 pages hdocs2 turns hturns]

theorem indexBuild_stops_at_first_gap_witness :
    FirstDocuments exampleDir [examplePage1, examplePage2] ∧
    [examplePage1, examplePage2].length < 3 ∧
    indexBuild exampleHash exampleDir 3
      = BuildResult.built (indexPages exampleHash [examplePage1, examplePage2] 1 index_new) ∧
    (∀ dir2 : Int → Option webpage_t, FirstDocuments dir2 [examplePage1, examplePage2] →
      indexBuild exampleHash dir2 3 = indexBuild exampleHash exampleDir 3) :=
  ⟨exampleDir_firstDocuments, by decide,
    indexBuild_stops_at_first_gap exampleHash exampleDir [examplePage1, examplePage2]
      exampleDir_firstDocuments 3 (by decide)⟩

/-! ## The invariant of PostingSets, the emptiness test, rejected docIDs -/

/-- C22, the claim as stated fails: `{1:2^30, 2:2^30, 3:2^30, 4:2^30}` is a
PostingSet with four entries, and `counters_empty` returns 0 for it: the sum
`2^32` of the counts, accumulated in the `int` variable `sum`, wraps to 0,
which is not the sum and not a sign of an empty set. -/
theorem counters_empty_wraps_to_zero :
    PostingSet counts_big ∧ (∀ n ∈ counts_big, 1 ≤ n.2) ∧ counts_big ≠ [] ∧
    counters_empty counts_big = 0 ∧
    counters_empty counts_big ≠ (counts_big.map Prod.snd).sum := by
  decide

/-- C22, amended: for every counter set whose stored counts are all at least 1
and add up to at most `INT_MAX`, `counters_empty` returns the sum of all
counts, and that value is 0 if and only if the set has no entries. -/
theorem counters_empty_sum_zero_iff (c : counters) (h : ∀ n ∈ c, 1 ≤ n.2)
    (hb : (c.map Prod.snd).sum ≤ INT_MAX) :
    counters_empty c = (c.map Prod.snd).sum ∧ (counters_empty c = 0 ↔ c = []) := by
  refine ⟨?_, counters_empty_eq_zero_iff c h hb⟩
  unfold counters_empty
  rw [counters_empty_eq_sum c 0 (fun n hn => by have := h n hn; omega) (by omega) (by omega)]
  omega

theorem counters_empty_sum_zero_iff_witness :
    (∀ n ∈ scores_124, 1 ≤ n.2) ∧ (scores_124.map Prod.snd).sum ≤ INT_MAX ∧
    counters_empty scores_124 = (scores_124.map Prod.snd).sum ∧
    (counters_empty scores_124 = 0 ↔ scores_124 = []) :=
  ⟨by decide, by decide, counters_empty_sum_zero_iff scores_124 (by decide) (by decide)⟩

/-- C27: for every counter set and key `< 0`, `counters_add` returns 0 and
leaves the set unchanged; for every index, term and docID `< 0`, `index_add`
returns false and leaves the index unchanged. -/
theorem negative_docID_rejected (hash : cstring → Nat) :
    (∀ (c : counters) (key : Int), key < 0 → counters_add c key = (c, 0)) ∧
    (∀ (index : index_t) (term : cstring) (docID : Int), docID < 0 →
      (index_add hash index term docID).2 = false ∧
      (index_add hash index term docID).1 = index) := by
  refine ⟨fun c key h => counters_add_of_neg c key h, ?_⟩
  intro index term docID h
  have hn : ¬ docID ≥ 0 := by omega
  unfold index_add
  simp only [hn, if_false, and_self]

theorem negative_docID_rejected_witness :
    ((-1 : Int) < 0 ∧ counters_add scores_124 (-1) = (scores_124, 0)) ∧
    ((-1 : Int) < 0 ∧ (index_add exampleHash exampleIndex term_cat (-1)).2 = false ∧
      (index_add exampleHash exampleIndex term_cat (-1)).1 = exampleIndex) :=
  ⟨⟨by decide, (negative_docID_rejected exampleHash).1 scores_124 (-1) (by decide)⟩,
    ⟨by decide,
      (negative_docID_rejected exampleHash).2 exampleIndex term_cat (-1) (by decide)⟩⟩

/-! ## Loading an index file -/

/-- C28: `counters_add` and `index_add` with docID 0 create or increment an
entry for key 0 (afterwards key 0 is present and its count is one more than
before); the body of the loop of `fileToIndex` with a pair `0 c` leaves the
counter set of every term as it was; and `fileToIndex`, on any file and any
index in which no counter set holds key 0 (a new index in particular),
returns an index in which no counter set holds key 0. -/
theorem docID_zero_added_but_not_loaded (hash : cstring → Nat) :
    (∀ c : counters, (0 : Int) ∈ counters_keys (counters_add c 0).1 ∧
      counters_get (counters_add c 0).1 0 = counters_get c 0 + 1) ∧
    (∀ (index : index_t) (t : cstring), 0 < index.ht.table.length →
      (∃ s, index_find hash (index_add hash index t 0).1 t = some s ∧
        (0 : Int) ∈ counters_keys s) ∧
      termCount hash (index_add hash index t 0).1 t 0 = termCount hash index t 0 + 1) ∧
    (∀ (index : index_t) (w : cstring) (c : Int) (k : cstring), 0 < index.ht.table.length →
      (index_find hash (fileToIndex_entry hash index w 0 c) k).getD counters_new
        = (index_find hash index k).getD counters_new) ∧
    (∀ (index : index_t) (old : List Char), 0 < index.ht.table.length →
      (∀ t s, index_find hash index t = some s → (0 : Int) ∉ counters_keys s) →
      ∃ loaded, fileToIndex hash index (some old) = some loaded ∧
        ∀ t s, index_find hash loaded t = some s → (0 : Int) ∉ counters_keys s) ∧
    (∀ old : List Char,
      ∃ loaded, fileToIndex hash index_new (some old) = some loaded ∧
        ∀ t s, index_find hash loaded t = some s → (0 : Int) ∉ counters_keys s) := by
  refine ⟨?_, ?_, ?_, ?_, ?_⟩
  · intro c
    refine ⟨(counters_add_keys c 0 0 (by decide)).2 (Or.inr rfl), ?_⟩
    rw [counters_add_get c 0 0 (by decide)]
    simp only [if_true]
  · intro index t hlen
    refine ⟨index_add_pair_present hash index hlen t 0 (by decide), ?_⟩
    rw [termCount_index_add hash index hlen t 0 (by decide)]
    simp only [and_self, if_true]
  · intro index w c k hlen
    exact fileToIndex_entry_zero hash index hlen w c k
  · intro index old hlen h
    exact ⟨_, fileToIndex_eq_storeTriples hash index old,
      storeTriples_no_zero hash _ index hlen h⟩
  · intro old
    refine ⟨_, fileToIndex_eq_storeTriples hash index_new old,
      storeTriples_no_zero hash _ index_new index_new_length ?_⟩
    intro t s hf
    rw [index_find_new] at hf
    exact Option.noConfusion hf

theorem docID_zero_added_but_not_loaded_witness :
    ((0 : Int) ∈ counters_keys (counters_add scores_124 0).1 ∧
      counters_get (counters_add scores_124 0).1 0 = counters_get scores_124 0 + 1) ∧
    (0 < index_new.ht.table.length ∧
      (∃ s, index_find exampleHash (index_add exampleHash index_new term_cat 0).1 term_cat
          = some s ∧ (0 : Int) ∈ counters_keys s) ∧
      termCount exampleHash (index_add exampleHash index_new term_cat 0).1 term_cat 0
        = termCount exampleHash index_new term_cat 0 + 1) ∧
    (0 < exampleIndex.ht.table.length ∧
      (index_find exampleHash (fileToIndex_entry exampleHash exampleIndex term_emu 0 3)
          term_emu).getD counters_new
        = (index_find exampleHash exampleIndex term_emu).getD counters_new) ∧
    (0 < index_new.ht.table.length ∧
      (∀ t s, index_find exampleHash index_new t = some s → (0 : Int) ∉ counters_keys s) ∧
      ∃ loaded, fileToIndex exampleHash index_new (some text_merge) = some loaded ∧
        ∀ t s, index_find exampleHash loaded t = some s → (0 : Int) ∉ counters_keys s) :=
  ⟨(docID_zero_added_but_not_loaded exampleHash).1 scores_124,
    ⟨index_new_length,
      (docID_zero_added_but_not_loaded exampleHash).2.1 index_new term_cat index_new_length⟩,
    ⟨exampleIndex_length,
      (docID_zero_added_but_not_loaded exampleHash).2.2.1 exampleIndex term_emu 3 term_emu
        exampleIndex_length⟩,
    ⟨index_new_length,
      fun t s hf => by rw [index_find_new] at hf; exact Option.noConfusion hf,
      (docID_zero_added_but_not_loaded exampleHash).2.2.2.1 index_new text_merge
        index_new_length
        (fun t s hf => by rw [index_find_new] at hf; exact Option.noConfusion hf)⟩⟩

/-! ## The tokenizer never holds more than MAX_WORDS words -/

theorem extendLast_length (ws : List cstring) (c : Char) :
    (extendLast ws c).length = ws.length := by
  induction ws with
  | nil => rfl
  | cons w rest ih =>
    cases rest with
    | nil => rfl
    | cons w2 rest2 =>
      simp only [extendLast, List.length_cons] at ih ⊢
      omega

theorem tokenize_step_numWords_le (st : TokenState) (ch : Char)
    (h : st.numWords ≤ MAX_WORDS) : (tokenize_step st ch).1.numWords ≤ MAX_WORDS := by
  unfold TokenState.numWords at h ⊢
  unfold tokenize_step
  simp only []
  split
  · split
    · split
      · next hlt =>
        unfold TokenState.numWords at hlt
        simp only [List.length_append, List.length_cons, List.length_nil]
        omega
      · exact h
    · simp only [extendLast_length]
      exact h
  · split
    · split
      · exact h
      · exact h
    · exact h

theorem tokenize_numWords_le (query : cstring) : (tokenize query).numWords ≤ MAX_WORDS := by
  unfold TokenState.numWords
  rw [tokenize_words_eq, List.length_take]
  exact Nat.min_le_left _ _

/-! ## The line made of the words of a query -/

theorem splitOnP_go_cons_false (P : Char → Bool) (a : Char) (rest acc : List Char)
    (h : P a = false) :
    List.splitOnP.go P (a :: rest) acc = List.splitOnP.go P rest (a :: acc) := by
  simp only [List.splitOnP.go, h, Bool.false_eq_true, if_false, cond_false]

theorem splitOnP_go_cons_true (P : Char → Bool) (a : Char) (rest acc : List Char)
    (h : P a = true) :
    List.splitOnP.go P (a :: rest) acc = acc.reverse :: List.splitOnP.go P rest [] := by
  simp only [List.splitOnP.go, h, if_true, cond_true]

theorem splitOnP_go_append_word (P : Char → Bool) (w rest acc : List Char)
    (hw : ∀ c ∈ w, P c = false) :
    List.splitOnP.go P (w ++ rest) acc = List.splitOnP.go P rest (w.reverse ++ acc) := by
  induction w generalizing acc with
  | nil => rfl
  | cons a w ih =>
    have ha := hw a (List.mem_cons_self _ _)
    rw [List.cons_append, splitOnP_go_cons_false P a _ acc ha,
      ih _ (fun c hc => hw c (List.mem_cons_of_mem _ hc))]
    simp only [List.reverse_cons, List.append_assoc, List.singleton_append]

theorem alphaRuns_joinWords (ws : List cstring)
    (h : ∀ w ∈ ws, w ≠ [] ∧ ∀ c ∈ w, isalpha c = true) : alphaRuns (joinWords ws) = ws := by
  unfold alphaRuns
  rw [List.splitOnP]
  induction ws with
  | nil => rfl
  | cons w rest ih =>
    have hw := h w (List.mem_cons_self _ _)
    have hP : ∀ c ∈ w, (fun c => !isalpha c) c = false := by
      intro c hc
      simp only [hw.2 c hc, Bool.not_true]
    cases rest with
    | nil =>
      have e : joinWords [w] = w ++ [] := by simp [joinWords]
      rw [e, splitOnP_go_append_word _ w [] [] hP]
      simp only [List.splitOnP.go, List.append_nil, List.reverse_reverse]
      rw [filter_nonempty_cons_of_ne_nil w [] hw.1]
      rfl
    | cons w2 rest2 =>
      have e : joinWords (w :: w2 :: rest2) = w ++ ' ' :: joinWords (w2 :: rest2) := rfl
      have hsp : (fun c => !isalpha c) ' ' = true := by decide
      rw [e, splitOnP_go_append_word _ w _ [] hP, splitOnP_go_cons_true _ ' ' _ _ hsp]
      simp only [List.append_nil, List.reverse_reverse]
      rw [filter_nonempty_cons_of_ne_nil w _ hw.1,
        ih (fun x hx => h x (List.mem_cons_of_mem _ hx))]

theorem tokenize_words_mem (query : cstring) (w : cstring) (hw : w ∈ (tokenize query).words) :
    (w ≠ [] ∧ ∀ c ∈ w, isalpha c = true) ∧ normalize w = w := by
  rw [tokenize_words_eq] at hw
  have hw2 := List.mem_of_mem_take hw
  rw [List.mem_map] at hw2
  obtain ⟨x, hx, hxw⟩ := hw2
  have hxa := alphaRuns_mem query x hx
  rw [← hxw]
  refine ⟨⟨?_, ?_⟩, normalize_idem x⟩
  · intro e
    apply hxa.1
    unfold normalize at e
    exact List.map_eq_nil_iff.1 e
  · intro c hc
    unfold normalize at hc
    rw [List.mem_map] at hc
    obtain ⟨y, hy, hyc⟩ := hc
    rw [← hyc, isalpha_tolower]
    exact hxa.2 y hy

theorem tokenize_joinWords_words (query : cstring) :
    (tokenize (joinWords (tokenize query).words)).words = (tokenize query).words := by
  have hmem := tokenize_words_mem query
  rw [tokenize_words_eq (joinWords (tokenize query).words),
    alphaRuns_joinWords _ (fun w hw => (hmem w hw).1)]
  have hmap : (tokenize query).words.map normalize = (tokenize query).words := by
    conv_rhs => rw [← List.map_id (tokenize query).words]
    apply List.map_congr_left
    intro w hw
    exact (hmem w hw).2
  rw [hmap]
  apply List.take_of_length_le
  exact tokenize_numWords_le query

theorem tokenize_isValid_of_words_eq (q1 q2 : cstring)
    (h : (tokenize q1).words = (tokenize q2).words) :
    (tokenize q1).isValid = (tokenize q2).isValid := by
  have h1 := tokenize_isValid_iff q1
  have h2 := tokenize_isValid_iff q2
  rw [h] at h1
  have h3 : (tokenize q1).isValid = false ↔ (tokenize q2).isValid = false := h1.trans h2.symm
  cases e1 : (tokenize q1).isValid <;> cases e2 : (tokenize q2).isValid
  · rfl
  · rw [e1, e2] at h3
    exact (h3.1 rfl).symm
  · rw [e1, e2] at h3
    exact h3.2 rfl
  · rfl

/-! ## Which terms have an entry after a file has been read -/

set_option maxRecDepth 20000 in
/-- C24 (counterexample): the file `cat 1 5 1 7` has one line, an alphabetic term followed by two
pairs of positive integers; loaded into a new index it gives `cat` the counter
set `{1:7}`, which does not hold the pair `(1, 5)` of the line. -/
theorem fileToIndex_repeated_docID_keeps_last :
    fileText [(term_cat, [(1, 5), (1, 7)])] = text_cat_1_5_1_7 ∧
    (∃ loaded, fileToIndex exampleHash index_new (some text_cat_1_5_1_7) = some loaded ∧
      index_find exampleHash loaded term_cat = some [(1, 7)]) ∧
    ((1 : Int), (5 : Int)) ∉ [((1 : Int), (7 : Int))] :=
  ⟨by decide, ⟨_, rfl, by decide⟩, by decide⟩

/-- C24 (amended): for every file whose lines each consist of an alphabetic
term of fewer than `MaxWordLength` characters followed by `N ≥ 1` pairs of
positive integers that are at most `INT_MAX`, whatever `N` is and whatever the
order of lines and pairs, `fileToIndex` on a new index stays inside
`word[MaxWordLength]` and returns an index in which a term on no line is
absent and every term `t` on a line has a PostingSet whose docIDs are the
docIDs of the pairs of the line(s) of `t`, the count of a docID being the
count of the last pair with this docID; when no docID occurs twice for `t`,
the PostingSet holds exactly the pairs of the line(s) of `t`. -/
theorem fileToIndex_lines_last_pair (hash : cstring → Nat) (E : List (cstring × counters))
    (hE : ∀ e ∈ E, isTerm e.1 = true ∧ e.1.length < MaxWordLength ∧ e.2 ≠ [] ∧
      ∀ n ∈ e.2, (1 ≤ n.1 ∧ n.1 ≤ INT_MAX) ∧ (1 ≤ n.2 ∧ n.2 ≤ INT_MAX)) :
    fileToIndex_fits (fileText E) = true ∧
    ∃ loaded, fileToIndex hash index_new (some (fileText E)) = some loaded ∧
      (∀ t, t ∉ E.map Prod.fst → index_find hash loaded t = none) ∧
      (∀ t, t ∈ E.map Prod.fst →
        ∃ c, index_find hash loaded t = some c ∧ PostingSet c ∧
          (∀ d, d ∈ counters_keys c ↔ d ∈ counters_keys (pairsOf E t)) ∧
          (∀ d, counters_get c d = lastCount (pairsOf E t) d) ∧
          ((counters_keys (pairsOf E t)).Nodup → c.Perm (pairsOf E t))) := by
  have hok : ∀ e ∈ E, EntryOK e := by
    intro e he
    refine ⟨(hE e he).1, fun n hn => ?_⟩
    have := (hE e he).2.2.2 n hn
    exact ⟨⟨by omega, this.1.2⟩, ⟨by omega, this.2.2⟩⟩
  have hfits : fileToIndex_fits (fileText E) = true := by
    rw [fileToIndex_fits_fileText E hok, List.all_eq_true]
    intro e he
    exact decide_eq_true (hE e he).2.1
  refine ⟨hfits, ?_⟩
  have hne : ∀ e ∈ E, e.2 ≠ [] := fun e he => (hE e he).2.2.1
  have hfind : ∀ t, index_find hash (E.foldl (loadEntry hash) index_new) t
      = if pairsOf E t = [] then none
        else some (counters_copy (pairsOf E t) counters_new) := by
    intro t
    rw [index_find_foldl_loadEntry_pairsOf hash E index_new index_new_length t,
      index_find_new]
    rfl
  have hvalid : ∀ t, ∀ n ∈ pairsOf E t, 1 ≤ n.1 ∧ 1 ≤ n.2 := by
    intro t n hn
    obtain ⟨e, he, _, hne2⟩ := pairsOf_mem E t n hn
    exact ⟨((hE e he).2.2.2 n hne2).1.1, ((hE e he).2.2.2 n hne2).2.1⟩
  refine ⟨_, fileToIndex_fileText hash E index_new hok, ?_, ?_⟩
  · intro t ht
    rw [hfind t]
    have : pairsOf E t = [] := by
      by_contra h
      exact ht ((pairsOf_ne_nil_iff E t hne).1 h)
    simp only [this, if_true]
  · intro t ht
    have hp : pairsOf E t ≠ [] := (pairsOf_ne_nil_iff E t hne).2 ht
    refine ⟨counters_copy (pairsOf E t) counters_new, ?_, ?_, ?_, ?_, ?_⟩
    · rw [hfind t]
      simp only [hp, if_false]
    · exact counters_copy_postingSet _ _ postingSet_nil
    · intro d
      rw [counters_keys_copy _ _ (hvalid t) d]
      simp [counters_keys, counters_new]
    · intro d
      rw [counters_get_copy_lastCount _ _ (hvalid t) d]
      rfl
    · intro hnd
      rw [counters_copy_reverse (pairsOf E t) counters_new ⟨hnd, hvalid t⟩
        (fun k _ => by simp [counters_keys, counters_new])]
      simp only [counters_new, List.append_nil]
      exact List.reverse_perm _

theorem fileToIndex_lines_last_pair_witness :
    (∀ e ∈ exampleLines, isTerm e.1 = true ∧ e.1.length < MaxWordLength ∧ e.2 ≠ [] ∧
      ∀ n ∈ e.2, (1 ≤ n.1 ∧ n.1 ≤ INT_MAX) ∧ (1 ≤ n.2 ∧ n.2 ≤ INT_MAX)) ∧
    fileToIndex_fits (fileText exampleLines) = true ∧
    ∃ loaded, fileToIndex exampleHash index_new (some (fileText exampleLines)) = some loaded ∧
      (∀ t, t ∉ exampleLines.map Prod.fst → index_find exampleHash loaded t = none) ∧
      (∀ t, t ∈ exampleLines.map Prod.fst →
        ∃ c, index_find exampleHash loaded t = some c ∧ PostingSet c ∧
          (∀ d, d ∈ counters_keys c ↔ d ∈ counters_keys (pairsOf exampleLines t)) ∧
          (∀ d, counters_get c d = lastCount (pairsOf exampleLines t) d) ∧
          ((counters_keys (pairsOf exampleLines t)).Nodup →
            c.Perm (pairsOf exampleLines t))) :=
  ⟨by decide, fileToIndex_lines_last_pair exampleHash exampleLines (by decide)⟩

set_option maxRecDepth 100000 in
/-- C26, the claim as stated fails: the file `cat 1 2147483648` is one line
with one positive docID and one positive count; it is read without leaving
`word[MaxWordLength]`, the count does not fit an `int` and is refused by
`counters_set`, `cat` is left with an empty counter set, and `indexToFile`
writes the line `cat` without a pair. -/
theorem index_file_roundtrip_drops_count_above_int_max :
    fileText [(term_cat, [(1, 2147483648)])] = text_cat_1_big ∧
    PostingSet [(1, 2147483648)] ∧
    fileToIndex_fits text_cat_1_big = true ∧
    ∃ loaded, fileToIndex exampleHash index_new (some text_cat_1_big) = some loaded ∧
      indexToFile loaded = fileText [(term_cat, [])] ∧
      indexToFile loaded ≠ text_cat_1_big :=
  ⟨by decide, by decide, by decide, _, rfl, by decide, by decide⟩

/-- C26, amended: for every index file with distinct alphabetic terms of fewer
than `MaxWordLength` characters and, on each line, distinct positive docIDs
with positive counts, all at most `INT_MAX`, `fileToIndex` on a new index
stays inside `word[MaxWordLength]`, and followed by `indexToFile` it writes a
file whose lines are the lines of the input that hold at least one pair, up to
the order of the lines and the order of the pairs within each line; so when
every line holds at least one pair (the format of the index file), the output
has the same lines as the input. -/
theorem index_file_roundtrip_lines (hash : cstring → Nat) (E : List (cstring × counters))
    (hterms : (E.map Prod.fst).Nodup)
    (hE : ∀ e ∈ E, isTerm e.1 = true ∧ e.1.length < MaxWordLength ∧ PostingSet e.2 ∧
      ∀ n ∈ e.2, n.1 ≤ INT_MAX ∧ n.2 ≤ INT_MAX) :
    fileToIndex_fits (fileText E) = true ∧
    ∃ loaded, fileToIndex hash index_new (some (fileText E)) = some loaded ∧
      ∃ E1, indexToFile loaded = fileText E1 ∧
        sameLines E1 (E.filter (fun e => !e.2.isEmpty)) ∧
        ((∀ e ∈ E, e.2 ≠ []) → sameLines E1 E) := by
  have hok : ∀ e ∈ E, EntryOK e := by
    intro e he
    refine ⟨(hE e he).1, fun n hn => ?_⟩
    have h1 := (hE e he).2.2.1.2 n hn
    have h2 := (hE e he).2.2.2 n hn
    exact ⟨⟨by omega, h2.1⟩, ⟨by omega, h2.2⟩⟩
  have hfits : fileToIndex_fits (fileText E) = true := by
    rw [fileToIndex_fits_fileText E hok, List.all_eq_true]
    intro e he
    exact decide_eq_true (hE e he).2.1
  have hperm := index_entries_foldl_loadEntry_perm hash E hterms
    (fun e he => (hE e he).2.2.1)
  have hsame : sameLines (index_entries (E.foldl (loadEntry hash) index_new))
      (E.filter (fun e => !e.2.isEmpty)) := ⟨_, hperm, forall₂_reverse_lines _⟩
  refine ⟨hfits, _, fileToIndex_fileText hash E index_new hok, index_entries _,
    indexToFile_eq _, hsame, ?_⟩
  intro hne
  have hfilter : E.filter (fun e => !e.2.isEmpty) = E := by
    rw [List.filter_eq_self]
    intro e he
    have := hne e he
    cases h : e.2 with
    | nil => exact absurd h this
    | cons a b => rfl
  rw [hfilter] at hsame
  exact hsame

theorem index_file_roundtrip_lines_witness :
    (exampleLines.map Prod.fst).Nodup ∧
    (∀ e ∈ exampleLines, isTerm e.1 = true ∧ e.1.length < MaxWordLength ∧ PostingSet e.2 ∧
      ∀ n ∈ e.2, n.1 ≤ INT_MAX ∧ n.2 ≤ INT_MAX) ∧
    (∀ e ∈ exampleLines, e.2 ≠ []) ∧
    fileToIndex_fits (fileText exampleLines) = true ∧
    ∃ loaded, fileToIndex exampleHash index_new (some (fileText exampleLines)) = some loaded ∧
      ∃ E1, indexToFile loaded = fileText E1 ∧
        sameLines E1 (exampleLines.filter (fun e => !e.2.isEmpty)) ∧
        ((∀ e ∈ exampleLines, e.2 ≠ []) → sameLines E1 exampleLines) :=
  ⟨by decide, by decide, by decide,
    index_file_roundtrip_lines exampleHash exampleLines (by decide) (by decide)⟩

/-! ## The format of the index file -/

/-- C25: for every index reachable from `index_new` through `index_add` and
the loop body of `fileToIndex`, the text `indexToFile` writes is the
concatenation of one line per entry of the index; the entries are exactly the
`(term, counter set)` pairs that `index_find` gives, no term twice; the line
of an entry is the term followed, for every node of its counter set in turn
and nothing else, by a space, the docID in decimal, a space and the count in
decimal, and then a newline; and when no term holds a newline the text has as
many newlines as the index has terms. -/
theorem indexToFile_one_line_per_term (hash : cstring → Nat) (index : index_t)
    (h : IndexReachable hash index) :
    indexToFile index = ((index_entries index).map entryLine).flatten ∧
    (∀ t c, (t, c) ∈ index_entries index ↔ index_find hash index t = some c) ∧
    ((index_entries index).map Prod.fst).Nodup ∧
    (∀ e : cstring × counters, entryLine e
      = e.1 ++ (e.2.map (fun n => ' ' :: fprintf_d n.1 ++ ' ' :: fprintf_d n.2)).flatten
          ++ ['\n']) ∧
    ((∀ e ∈ index_entries index, '\n' ∉ e.1) →
      (indexToFile index).count '\n' = (index_entries index).length) := by
  have hinv := tableInv_of_reachable hash index h
  refine ⟨indexToFile_eq index, ?_, tableInv_keys_nodup hash _ _ hinv, fun e => rfl, ?_⟩
  · intro t c
    exact (tableInv_find_iff hash _ index.ht hinv t c).symm
  · intro hnl
    rw [indexToFile_eq]
    exact fileText_count_newline _ hnl

set_option maxRecDepth 20000 in
theorem indexToFile_one_line_per_term_witness :
    IndexReachable exampleHash exampleIndex ∧
    indexToFile exampleIndex
      = ['d', 'o', 'g', ' ', '3', ' ', '1', ' ', '2', ' ', '3', '\n',
         'c', 'a', 't', ' ', '2', ' ', '1', ' ', '1', ' ', '2', '\n'] ∧
    (∀ e ∈ index_entries exampleIndex, '\n' ∉ e.1) ∧
    (indexToFile exampleIndex = ((index_entries exampleIndex).map entryLine).flatten ∧
    (∀ t c, (t, c) ∈ index_entries exampleIndex ↔
      index_find exampleHash exampleIndex t = some c) ∧
    ((index_entries exampleIndex).map Prod.fst).Nodup ∧
    (∀ e : cstring × counters, entryLine e
      = e.1 ++ (e.2.map (fun n => ' ' :: fprintf_d n.1 ++ ' ' :: fprintf_d n.2)).flatten
          ++ ['\n']) ∧
    ((∀ e ∈ index_entries exampleIndex, '\n' ∉ e.1) →
      (indexToFile exampleIndex).count '\n' = (index_entries exampleIndex).length)) :=
  ⟨exampleIndex_reachable, by decide, by decide,
    indexToFile_one_line_per_term exampleHash exampleIndex exampleIndex_reachable⟩

/-! ## The no-match outcome -/

set_option maxRecDepth 100000 in
/-- C29, the claim as stated fails: in the index read from `text_big` (`cat`
with the count `2^30` in each of the documents 1 to 4, read without leaving
`word[MaxWordLength]`) the four documents have a positive score under the
query `cat`, and `score` leaves the result `NULL`: the sum of the four scores
wraps to 0 in `counters_empty`. -/
theorem score_null_although_documents_match :
    fileToIndex_fits text_big = true ∧
    ∃ loaded, fileToIndex exampleHash index_new (some text_big) = some loaded ∧
      IndexWF exampleHash loaded ∧
      score exampleHash loaded [term_cat] none = none ∧
      ∀ d ∈ [(1 : Int), 2, 3, 4], 0 < sumOfProducts exampleHash loaded [term_cat] d :=
  ⟨by decide, _, rfl, fileToIndex_wf exampleHash text_big _ rfl, by decide, by decide⟩

/-- C29, amended: for every index whose counter sets are PostingSets with
counts at most `INT_MAX`, and every token sequence (validated or not) for which
the scores of all documents add up to at most `INT_MAX` (`docs` lists the
docIDs outside of which the score is 0), `score` leaves the result `NULL` if
and only if no docID has a positive score under the query (the sum over the
AND-clauses of the minimum count); otherwise the result is a non-empty
PostingSet, which holds for each docID its score. -/
theorem score_null_iff_no_positive_score (hash : cstring → Nat) (index : index_t)
    (hwf : IndexWF hash index) (hint : IndexInt hash index) (words : List cstring)
    (docs : List Int) (hdocs : ∀ d, d ∉ docs → sumOfProducts hash index words d = 0)
    (hsum : (docs.map (sumOfProducts hash index words)).sum ≤ INT_MAX) :
    (score hash index words none = none ↔
      ∀ d, ¬ 0 < sumOfProducts hash index words d) ∧
    (∀ r, score hash index words none = some r →
      PostingSet r ∧ r ≠ [] ∧ ∀ d, counters_get r d = sumOfProducts hash index words d) := by
  obtain ⟨r, hPr, hg, hs⟩ := score_result_cases hash index hwf hint words docs hdocs hsum
  have hnil := postingSet_eq_nil_iff r hPr
  constructor
  · rw [hs]
    constructor
    · intro h d
      by_cases hr : r = []
      · rw [← hg d]
        exact hnil.1 hr d
      · simp only [hr, if_false] at h
        exact Option.noConfusion h
    · intro h
      have hr : r = [] := hnil.2 (fun d => by rw [hg d]; exact h d)
      simp only [hr, if_true]
  · intro r1 h1
    rw [hs] at h1
    by_cases hr : r = []
    · simp only [hr, if_true] at h1
      exact Option.noConfusion h1
    · simp only [hr, if_false, Option.some.injEq] at h1
      rw [← h1]
      exact ⟨hPr, hr, hg⟩

set_option maxRecDepth 20000 in
theorem sumOfProducts_cat_and_zzz (d : Int) :
    sumOfProducts exampleHash exampleIndex [term_cat, op_and, term_zzz] d = 0 := by
  have hc : andClauses [term_cat, op_and, term_zzz] = [[term_cat, term_zzz]] := by decide
  have hz : termCount exampleHash exampleIndex term_zzz d = 0 := by
    have : index_find exampleHash exampleIndex term_zzz = none := by decide
    simp only [termCount, this]
  have hn := termCount_nonneg exampleHash exampleIndex exampleIndex_wf term_cat d
  simp only [sumOfProducts, hc, clauseScore, List.map_cons, List.map_nil, List.sum_cons,
    List.sum_nil, List.foldl_cons, List.foldl_nil, add_zero, hz]
  exact min_eq_right hn

theorem score_null_iff_no_positive_score_witness :
    IndexWF exampleHash exampleIndex ∧ IndexInt exampleHash exampleIndex ∧
    (∀ d, d ∉ ([] : List Int) →
      sumOfProducts exampleHash exampleIndex [term_cat, op_and, term_zzz] d = 0) ∧
    ((([] : List Int).map
      (sumOfProducts exampleHash exampleIndex [term_cat, op_and, term_zzz])).sum ≤ INT_MAX) ∧
    (score exampleHash exampleIndex [term_cat, op_and, term_zzz] none = none ↔
      ∀ d, ¬ 0 < sumOfProducts exampleHash exampleIndex [term_cat, op_and, term_zzz] d) ∧
    (∀ r, score exampleHash exampleIndex [term_cat, op_and, term_zzz] none = some r →
      PostingSet r ∧ r ≠ [] ∧
      ∀ d, counters_get r d
        = sumOfProducts exampleHash exampleIndex [term_cat, op_and, term_zzz] d) :=
  ⟨exampleIndex_wf, exampleIndex_int, fun d _ => sumOfProducts_cat_and_zzz d, by decide,
    score_null_iff_no_positive_score exampleHash exampleIndex exampleIndex_wf exampleIndex_int
      [term_cat, op_and, term_zzz] [] (fun d _ => sumOfProducts_cat_and_zzz d) (by decide)⟩

/-! ## Query evaluation leaves the index as it is -/

/-- C30: with the counter sets as objects of a heap and the index holding
their addresses (all live), `score` returns, without using a deleted object,
a heap in which every object that was live before the call is unchanged: so
`index_find(term)` gives the same counter set as before for every term. The
result is the counter set that `score` by value computes from the index, and
evaluating the same query again on the heap the first call left gives the same
score set and again leaves the index unchanged. -/
theorem score_leaves_index_unchanged (hash : cstring → Nat) (index : index_mem) (h : heap)
    (hlive : IndexInHeap h index) (words : List cstring) :
    ∃ h1 result, score_mem hash index words h none = some (h1, result) ∧
      (∀ p c, heap_read h p = some c → heap_read h1 p = some c) ∧
      (∀ term, index_find hash (index_at h1 index) term
        = index_find hash (index_at h index) term) ∧
      resultAt h1 result = score hash (index_at h index) words none ∧
      ∃ h2 result2, score_mem hash index words h1 none = some (h2, result2) ∧
        resultAt h2 result2 = resultAt h1 result ∧
        (∀ term, index_find hash (index_at h2 index) term
          = index_find hash (index_at h index) term) := by
  obtain ⟨h1, result, hrun, hframe, hres, _⟩ := score_mem_refines hash index h hlive words
  have hlive1 := indexInHeap_frame h h1 index hlive hframe
  have hat1 := index_at_frame h h1 index hlive hframe
  obtain ⟨h2, result2, hrun2, hframe2, hres2, _⟩ :=
    score_mem_refines hash index h1 hlive1 words
  have hat2 := index_at_frame h1 h2 index hlive1 hframe2
  refine ⟨h1, result, hrun, hframe, fun term => by rw [hat1], hres, h2, result2, hrun2, ?_,
    fun term => by rw [hat2, hat1]⟩
  rw [hres2, hat1, hres]

set_option maxRecDepth 20000 in
theorem score_leaves_index_unchanged_witness :
    IndexInHeap exampleHeap exampleIndexMem ∧
    index_find exampleHash (index_at exampleHeap exampleIndexMem) term_cat
      = some [(2, 1), (1, 2)] ∧
    ∃ h1 result,
      score_mem exampleHash exampleIndexMem [term_cat, op_or, term_dog] exampleHeap none
        = some (h1, result) ∧
      (∀ p c, heap_read exampleHeap p = some c → heap_read h1 p = some c) ∧
      (∀ term, index_find exampleHash (index_at h1 exampleIndexMem) term
        = index_find exampleHash (index_at exampleHeap exampleIndexMem) term) ∧
      resultAt h1 result
        = score exampleHash (index_at exampleHeap exampleIndexMem)
            [term_cat, op_or, term_dog] none ∧
      ∃ h2 result2,
        score_mem exampleHash exampleIndexMem [term_cat, op_or, term_dog] h1 none
          = some (h2, result2) ∧
        resultAt h2 result2 = resultAt h1 result ∧
        (∀ term, index_find exampleHash (index_at h2 exampleIndexMem) term
          = index_find exampleHash (index_at exampleHeap exampleIndexMem) term) :=
  ⟨by decide, by decide,
    score_leaves_index_unchanged exampleHash exampleIndexMem exampleHeap (by decide)
      [term_cat, op_or, term_dog]⟩

/-! ## normalize, the string-keyed set, counters_empty -/

/-- C31: `normalize` replaces every character of the word by its `tolower`:
the length is unchanged, an upper-case letter `A`..`Z` becomes the lower-case
letter 32 code points above it, every other character is unchanged, and
`normalize` is idempotent; `Hello` becomes `hello`. -/
theorem normalize_folds_to_lowercase :
    (∀ w : cstring, (normalize w).length = w.length) ∧
    (∀ (w : cstring) (i : Nat), (normalize w)[i]? = (w[i]?).map tolower) ∧
    (∀ c : Char, 65 ≤ c.toNat ∧ c.toNat ≤ 90 →
      (tolower c).toNat = c.toNat + 32 ∧ isalpha (tolower c) = true) ∧
    (∀ c : Char, ¬ (65 ≤ c.toNat ∧ c.toNat ≤ 90) → tolower c = c) ∧
    (∀ w : cstring, normalize (normalize w) = normalize w) ∧
    normalize word_Hello = word_hello := by
  refine ⟨normalize_length, normalize_getElem?, ?_, tolower_of_not_upper, normalize_idem,
    by decide⟩
  intro c hc
  have h1 : (tolower c).toNat = c.toNat + 32 := by
    rw [tolower_toNat, if_pos hc]
  refine ⟨h1, ?_⟩
  unfold isalpha
  rw [h1]
  simp only [Bool.or_eq_true, Bool.and_eq_true, decide_eq_true_eq]
  right
  omega

theorem normalize_folds_to_lowercase_witness :
    ((65 ≤ 'H'.toNat ∧ 'H'.toNat ≤ 90) ∧
      (tolower 'H').toNat = 'H'.toNat + 32 ∧ isalpha (tolower 'H') = true) ∧
    (¬ (65 ≤ '-'.toNat ∧ '-'.toNat ≤ 90) ∧ tolower '-' = '-') ∧
    normalize (normalize word_Hello) = normalize word_Hello :=
  ⟨⟨by decide, normalize_folds_to_lowercase.2.2.1 'H' (by decide)⟩,
    ⟨by decide, normalize_folds_to_lowercase.2.2.2.1 '-' (by decide)⟩,
    normalize_folds_to_lowercase.2.2.2.2.1 word_Hello⟩

/-- C32: `set_insert` with a key that is already in the set returns false and
leaves the set unchanged; with a new key (and a non-`NULL` item) it returns
true, after which `set_find(key)` returns that item and `set_find` of every
other key returns what it returned before; `set_find` returns `NULL` exactly
for the keys of no node, so for a key that was never inserted. -/
theorem set_insert_unique_keys {α : Type} :
    (∀ (s : set_t α) (key : cstring) (item : α), key ∈ s.map Prod.fst →
      set_insert s key item = (s, false)) ∧
    (∀ (s : set_t α) (key : cstring) (item : α), key ∉ s.map Prod.fst →
      (set_insert s key item).2 = true ∧
      set_find (set_insert s key item).1 key = some item ∧
      ∀ k, k ≠ key → set_find (set_insert s key item).1 k = set_find s k) ∧
    (∀ (s : set_t α) (key : cstring), set_find s key = none ↔ key ∉ s.map Prod.fst) ∧
    (∀ (inserts : List (cstring × α)) (k : cstring), k ∉ inserts.map Prod.fst →
      set_find (setOfInserts inserts) k = none) := by
  refine ⟨set_insert_of_mem, ?_, set_find_eq_none_iff, ?_⟩
  · intro s key item h
    have hf : set_find s key = none := (set_find_eq_none_iff s key).2 h
    refine ⟨?_, ?_, ?_⟩
    · rw [set_insert_of_not_mem s key item h]
    · rw [set_find_insert, if_pos rfl, hf]
    · intro k hk
      rw [set_find_insert, if_neg hk]
  · intro inserts k hk
    rw [set_find_eq_none_iff]
    unfold setOfInserts
    rw [setOfInserts_keys]
    rintro (h | h)
    · simp [set_new] at h
    · exact hk h

theorem set_insert_unique_keys_witness :
    (term_cat ∈ ([(term_cat, 1)] : set_t Nat).map Prod.fst ∧
      set_insert [(term_cat, 1)] term_cat 2 = ([(term_cat, 1)], false)) ∧
    (term_dog ∉ ([(term_cat, 1)] : set_t Nat).map Prod.fst ∧
      (set_insert [(term_cat, 1)] term_dog 2).2 = true ∧
      set_find (set_insert [(term_cat, 1)] term_dog 2).1 term_dog = some 2 ∧
      ∀ k, k ≠ term_dog →
        set_find (set_insert [(term_cat, 1)] term_dog 2).1 k = set_find [(term_cat, 1)] k) ∧
    (term_zzz ∉ ([(term_cat, 1), (term_dog, 2)] : List (cstring × Nat)).map Prod.fst ∧
      set_find (setOfInserts [(term_cat, 1), (term_dog, 2)]) term_zzz = none) :=
  ⟨⟨by decide, set_insert_unique_keys.1 [(term_cat, 1)] term_cat 2 (by decide)⟩,
    ⟨by decide, set_insert_unique_keys.2.1 [(term_cat, 1)] term_dog 2 (by decide)⟩,
    ⟨by decide,
      set_insert_unique_keys.2.2.2 [(term_cat, 1), (term_dog, 2)] term_zzz (by decide)⟩⟩

/-- C33, the claim as stated fails: `counters_empty` returns 0, not 1, for the
empty counter set, and 7, not 0, for `{1:2, 2:4, 3:1}`. -/
theorem counters_empty_is_not_a_flag :
    counters_empty counters_new = 0 ∧ counters_empty counters_new ≠ 1 ∧
    counters_empty scores_124 = 7 ∧ counters_empty scores_124 ≠ 0 := by
  decide

/-- C33, amended: `counters_empty` returns the sum of the counts, as the
comment on its definition says: 0 if the counters structure is empty (no keys
with positive counts) and, for counts of at least 1 that add up to at most
`INT_MAX`, a value of at least 1 otherwise. -/
theorem counters_empty_returns_sum_not_flag (c : counters) (h : ∀ n ∈ c, 1 ≤ n.2)
    (hb : (c.map Prod.snd).sum ≤ INT_MAX) :
    counters_empty c = (c.map Prod.snd).sum ∧
    (c = [] → counters_empty c = 0) ∧ (c ≠ [] → 1 ≤ counters_empty c) := by
  have hsum : counters_empty c = (c.map Prod.snd).sum := by
    unfold counters_empty
    rw [counters_empty_eq_sum c 0 (fun n hn => by have := h n hn; omega) (by omega)
      (by omega)]
    omega
  refine ⟨hsum, ?_, ?_⟩
  · intro hc
    rw [hc]
    rfl
  · intro hc
    have := sum_pos_of_postingSet c h hc
    omega

theorem counters_empty_returns_sum_not_flag_witness :
    (∀ n ∈ scores_tie, 1 ≤ n.2) ∧ (scores_tie.map Prod.snd).sum ≤ INT_MAX ∧
    counters_empty scores_tie = (scores_tie.map Prod.snd).sum ∧
    (scores_tie = [] → counters_empty scores_tie = 0) ∧
    (scores_tie ≠ [] → 1 ≤ counters_empty scores_tie) :=
  ⟨by decide, by decide,
    counters_empty_returns_sum_not_flag scores_tie (by decide) (by decide)⟩

/-! ## rank selects the first maximum -/

/-- C34: for every non-empty score PostingSet, `findMaxScore` selects the
entry `(d, m)` whose count `m` is the maximum of all counts and which
`counters_iterate` visits first among the entries with this count (every entry
before it has a strictly smaller count); when the file of `d` opens, the first
line `rank` emits is `score m doc d` with its URL, and when it does not open
`rank` exits without a line. -/
theorem rank_first_result_is_first_maximum (pageDir : Int → Option cstring)
    (result : counters) (hP : PostingSet result) (hne : result ≠ []) :
    ∃ pre d m post, result = pre ++ (d, m) :: post ∧
      (∀ n ∈ pre, n.2 < m) ∧ (∀ n ∈ result, n.2 ≤ m) ∧
      (∀ url, pageDir d = some url → ∀ turns,
        (rank pageDir (turns + 1) result).lines.head? = some (m, d, url)) ∧
      (pageDir d = none → ∀ turns,
        (rank pageDir (turns + 1) result).lines = [] ∧
        (rank pageDir (turns + 1) result).status = RankStatus.exited) := by
  rcases findMaxScore_first_max result ((0 : Int), (-1 : Int)) with
    ⟨_, hall⟩ | ⟨pre, post, hl, hpre, hpost, hlt⟩
  · exfalso
    obtain ⟨n, hn⟩ := List.exists_mem_of_ne_nil _ hne
    have h1 := (hP.2 n hn).2
    have h2 := hall n hn
    simp only [] at h2
    omega
  · have hmem : ((counters_iterate result ((0 : Int), (-1 : Int)) findMaxScore).2,
        (counters_iterate result ((0 : Int), (-1 : Int)) findMaxScore).1) ∈ result := by
      have hm : ((counters_iterate result ((0 : Int), (-1 : Int)) findMaxScore).2,
          (counters_iterate result ((0 : Int), (-1 : Int)) findMaxScore).1)
          ∈ pre ++ ((counters_iterate result ((0 : Int), (-1 : Int)) findMaxScore).2,
            (counters_iterate result ((0 : Int), (-1 : Int)) findMaxScore).1) :: post :=
        List.mem_append_right _ (List.mem_cons_self _ _)
      rw [← hl] at hm
      exact hm
    have hd := (hP.2 _ hmem).1
    simp only [] at hd
    have hmax : (counters_iterate result ((0 : Int), (-1 : Int)) findMaxScore).2 ≠ -1 := by
      omega
    refine ⟨pre, _, _, post, hl, hpre, ?_, ?_, ?_⟩
    · intro n hn
      have hn2 : n ∈ pre ++ ((counters_iterate result ((0 : Int), (-1 : Int)) findMaxScore).2,
          (counters_iterate result ((0 : Int), (-1 : Int)) findMaxScore).1) :: post := by
        rw [← hl]
        exact hn
      simp only [List.mem_append, List.mem_cons] at hn2
      rcases hn2 with hn | hn | hn
      · exact le_of_lt (hpre n hn)
      · rw [hn]
      · exact hpost n hn
    · intro url hurl turns
      rw [rank_succ_of_max pageDir turns result url hmax hurl]
      rfl
    · intro hnone turns
      rw [rank]
      simp only [hmax, if_false, hnone, and_self]

theorem rank_first_result_is_first_maximum_witness :
    PostingSet scores_tie ∧ scores_tie ≠ [] ∧
    (rank (fun _ => some ['u']) 1 scores_tie).lines = [(5, 2, ['u'])] ∧
    ∃ pre d m post, scores_tie = pre ++ (d, m) :: post ∧
      (∀ n ∈ pre, n.2 < m) ∧ (∀ n ∈ scores_tie, n.2 ≤ m) ∧
      (∀ url, (fun _ => some ['u'] : Int → Option cstring) d = some url → ∀ turns,
        (rank (fun _ => some ['u']) (turns + 1) scores_tie).lines.head? = some (m, d, url)) ∧
      ((fun _ => some ['u'] : Int → Option cstring) d = none → ∀ turns,
        (rank (fun _ => some ['u']) (turns + 1) scores_tie).lines = [] ∧
        (rank (fun _ => some ['u']) (turns + 1) scores_tie).status = RankStatus.exited) :=
  ⟨by decide, by decide, by decide,
    rank_first_result_is_first_maximum (fun _ => some ['u']) scores_tie (by decide)
      (by decide)⟩

/-! ## Absent operands, the empty query, the laws of the set algebra -/

/-- C35: `myUnion` with a `NULL` second operand leaves the first operand as it
is, `myUnion` with a `NULL` first operand makes the second operand the result,
and `intersect` with either operand `NULL` leaves the first operand as it is;
on the heap, none of these calls changes or deletes an object. -/
theorem absent_operand_is_noop :
    (∀ result : Option counters, myUnion result none = result) ∧
    (∀ temp : Option counters, myUnion none temp = temp) ∧
    (∀ result : Option counters, intersect result none = result) ∧
    (∀ newCounter : Option counters, intersect none newCounter = none) ∧
    (∀ (h : heap) (result : Option Nat), myUnion_mem h result none = some (h, result)) ∧
    (∀ (h : heap) (temp : Option Nat), myUnion_mem h none temp = some (h, temp)) ∧
    (∀ (h : heap) (result : Option Nat), intersect_mem h result none = some (h, result)) ∧
    (∀ (h : heap) (newCounter : Option Nat),
      intersect_mem h none newCounter = some (h, none)) := by
  refine ⟨myUnion_none_right, fun _ => rfl, ?_, ?_, ?_, fun _ _ => rfl, ?_, ?_⟩
  · intro result
    cases result <;> rfl
  · intro newCounter
    cases newCounter <;> rfl
  · intro h result
    cases result <;> rfl
  · intro h result
    cases result <;> rfl
  · intro h newCounter
    cases newCounter <;> rfl

/-- C37: for every line that consists of white space only (the empty line
included), `tokenize` leaves `numWords = 0`, and the turn of `processQuery`
writes the invalid-query diagnostic without calling `score`, echoing or
ranking. -/
theorem blank_line_is_invalid_query (hash : cstring → Nat) (index : index_t)
    (pageDir : Int → Option cstring) (turns : Nat) (query : cstring)
    (h : ∀ c ∈ query, isspace c = true) :
    (tokenize query).numWords = 0 ∧
    processQuery_line hash index pageDir turns query
      = { tokens := some (tokenize query), scored := none, echo := none, ranking := none,
          diagnostic := some Diagnostic.invalidQuery } := by
  have ht := tokenize_blank query h
  constructor
  · rw [ht]
    rfl
  · unfold processQuery_line
    rw [isValidQuery_blank query h, ht]
    rfl

theorem blank_line_is_invalid_query_witness :
    (∀ c ∈ line_blank, isspace c = true) ∧
    (tokenize line_blank).numWords = 0 ∧
    processQuery_line exampleHash exampleIndex (fun _ => none) 1 line_blank
      = { tokens := some (tokenize line_blank), scored := none, echo := none, ranking := none,
          diagnostic := some Diagnostic.invalidQuery } :=
  ⟨by decide,
    blank_line_is_invalid_query exampleHash exampleIndex (fun _ => none) 1 line_blank
      (by decide)⟩

/-- C40, the claim as stated fails: `A = {1:INT_MAX}` and `B = {1:1, 2:1}` are
PostingSets; `myUnion(&A, B)` leaves docID 1 at `INT_MAX` and `myUnion(&B, A)`
leaves it at 1 (each time the sum wraps in `int` and `counters_set` refuses
it), so the two unions are not the same docID->count mapping. -/
theorem myUnion_not_commutative_at_int_max :
    PostingSet [(1, 2147483647)] ∧ PostingSet [(1, 1), (2, 1)] ∧
    myUnion (some [(1, 2147483647)]) (some [(1, 1), (2, 1)])
      = some [(2, 1), (1, 2147483647)] ∧
    myUnion (some [(1, 1), (2, 1)]) (some [(1, 2147483647)]) = some [(1, 1), (2, 1)] ∧
    ¬ samePairs (myUnion (some [(1, 2147483647)]) (some [(1, 1), (2, 1)]))
      (myUnion (some [(1, 1), (2, 1)]) (some [(1, 2147483647)])) := by
  refine ⟨by decide, by decide, by decide, by decide, ?_⟩
  have h1 : myUnion (some [(1, 2147483647)]) (some [(1, 1), (2, 1)])
      = some [(2, 1), (1, 2147483647)] := by decide
  have h2 : myUnion (some [(1, 1), (2, 1)]) (some [(1, 2147483647)])
      = some [(1, 1), (2, 1)] := by decide
  rw [h1, h2]
  intro h
  have hm : ((1 : Int), (1 : Int)) ∈ [((2 : Int), (1 : Int)), (1, 2147483647)] :=
    (List.Perm.mem_iff h).2 (by decide)
  exact absurd hm (by decide)

/-- C40, amended: for all PostingSets `A`, `B`, `C` in which the counts of every
docID add up to at most `INT_MAX`, `intersect` and `myUnion` are commutative
and associative and `intersect(A, A)` is `A`, the results being compared as
sets of (docID, count) pairs, ignoring the order of the list; for `intersect`
the bound is not needed. -/
theorem set_algebra_laws (A B C : counters) (hA : PostingSet A) (hB : PostingSet B)
    (hC : PostingSet C) :
    samePairs (intersect (some A) (some B)) (intersect (some B) (some A)) ∧
    samePairs (intersect (intersect (some A) (some B)) (some C))
      (intersect (some A) (intersect (some B) (some C))) ∧
    samePairs (intersect (some A) (some A)) (some A) ∧
    ((∀ k, counters_get A k + counters_get B k + counters_get C k ≤ INT_MAX) →
      samePairs (myUnion (some A) (some B)) (myUnion (some B) (some A)) ∧
      samePairs (myUnion (myUnion (some A) (some B)) (some C))
        (myUnion (some A) (myUnion (some B) (some C)))) := by
  have hI : ∀ X Y : counters, PostingSet
      (counters_iterate X { first := counters_new, second := Y } intersect_itemfunc).first :=
    fun X Y => intersect_iterate_postingSet X _ postingSet_nil
  have hU : ∀ X Y : counters, PostingSet X →
      PostingSet (counters_iterate Y X union_itemfunc) :=
    fun X Y hX => union_iterate_postingSet Y X hX
  refine ⟨?_, ?_, ?_, fun hb => ⟨?_, ?_⟩⟩
  · apply postingSet_perm_of_get_eq _ _ (hI A B) (hI B A)
    intro k
    rw [intersect_iterate_get_min A B hA hB, intersect_iterate_get_min B A hB hA, min_comm]
  · apply postingSet_perm_of_get_eq _ _ (hI _ C) (hI A _)
    intro k
    rw [intersect_iterate_get_min _ C (hI A B) hC, intersect_iterate_get_min A B hA hB,
      intersect_iterate_get_min A _ hA (hI B C), intersect_iterate_get_min B C hB hC,
      min_assoc]
  · apply postingSet_perm_of_get_eq _ _ (hI A A) hA
    intro k
    rw [intersect_iterate_get_min A A hA hA, min_self]
  · apply postingSet_perm_of_get_eq _ _ (hU A B hA) (hU B A hB)
    intro k
    have h0 := hb k
    have hA0 := counters_get_nonneg A k (fun n hn => (hA.2 n hn).2)
    have hB0 := counters_get_nonneg B k (fun n hn => (hB.2 n hn).2)
    have hC0 := counters_get_nonneg C k (fun n hn => (hC.2 n hn).2)
    rw [union_iterate_get B A hB hA k (by omega), union_iterate_get A B hA hB k (by omega),
      add_comm]
  · apply postingSet_perm_of_get_eq _ _ (hU _ C (hU A B hA)) (hU A _ hA)
    intro k
    have h0 := hb k
    have hA0 := counters_get_nonneg A k (fun n hn => (hA.2 n hn).2)
    have hB0 := counters_get_nonneg B k (fun n hn => (hB.2 n hn).2)
    have hC0 := counters_get_nonneg C k (fun n hn => (hC.2 n hn).2)
    have hAB := union_iterate_get B A hB hA k (by omega)
    have hBC := union_iterate_get C B hC hB k (by omega)
    rw [union_iterate_get C _ hC (hU A B hA) k (by rw [hAB]; omega), hAB,
      union_iterate_get _ A (hU B C hB) hA k (by rw [hBC]; omega), hBC, add_assoc]

theorem set_algebra_laws_witness :
    PostingSet [(1, 2), (2, 1)] ∧ PostingSet [(2, 3), (3, 1)] ∧ PostingSet scores_tie ∧
    (∀ k, counters_get [(1, 2), (2, 1)] k + counters_get [(2, 3), (3, 1)] k
      + counters_get scores_tie k ≤ INT_MAX) ∧
    samePairs (intersect (some [(1, 2), (2, 1)]) (some [(2, 3), (3, 1)]))
      (intersect (some [(2, 3), (3, 1)]) (some [(1, 2), (2, 1)])) ∧
    samePairs (intersect (intersect (some [(1, 2), (2, 1)]) (some [(2, 3), (3, 1)]))
        (some scores_tie))
      (intersect (some [(1, 2), (2, 1)]) (intersect (some [(2, 3), (3, 1)]) (some scores_tie))) ∧
    samePairs (intersect (some [(1, 2), (2, 1)]) (some [(1, 2), (2, 1)]))
      (some [(1, 2), (2, 1)]) ∧
    samePairs (myUnion (some [(1, 2), (2, 1)]) (some [(2, 3), (3, 1)]))
      (myUnion (some [(2, 3), (3, 1)]) (some [(1, 2), (2, 1)])) ∧
    samePairs (myUnion (myUnion (some [(1, 2), (2, 1)]) (some [(2, 3), (3, 1)]))
        (some scores_tie))
      (myUnion (some [(1, 2), (2, 1)]) (myUnion (some [(2, 3), (3, 1)]) (some scores_tie))) :=
  have hb : ∀ k, counters_get [(1, 2), (2, 1)] k + counters_get [(2, 3), (3, 1)] k
      + counters_get scores_tie k ≤ INT_MAX := fun k => by
    have h1 := counters_get_le [(1, 2), (2, 1)] k 2 (by decide) (by decide)
    have h2 := counters_get_le [(2, 3), (3, 1)] k 3 (by decide) (by decide)
    have h3 := counters_get_le scores_tie k 5 (by decide) (by decide)
    unfold INT_MAX
    omega
  have h := set_algebra_laws [(1, 2), (2, 1)] [(2, 3), (3, 1)] scores_tie (by decide)
    (by decide) (by decide)
  ⟨by decide, by decide, by decide, hb, h.1, h.2.1, h.2.2.1, (h.2.2.2 hb).1, (h.2.2.2 hb).2⟩

/-! ## The output of a query, the token bound, empty counter sets after a load -/

set_option maxRecDepth 20000 in
/-- C36 (counterexample): the line `zzz` is a syntactically valid query that
matches no document of the example index; the turn of `processQuery` writes
the no-match diagnostic and does not echo the query. -/
theorem processQuery_no_match_no_echo :
    isValidQuery line_zzz = true ∧ (tokenize line_zzz).isValid = true ∧
    (tokenize line_zzz).numWords = 1 ∧
    processQuery_line exampleHash exampleIndex (fun _ => some ['u']) 1 line_zzz
      = { tokens := some (tokenize line_zzz), scored := some none, echo := none,
          ranking := none, diagnostic := some Diagnostic.noMatch } := by
  decide

/-- C36 (amended): for every syntactically valid query line (letters and
white space only, at least one token, no operator at the start, at the end or
next to another), the turn of `processQuery` calls `score`; when the result is
not `NULL` it echoes the tokens (the words of the line folded to lower case)
and then calls `rank` on the result, without a diagnostic; when the result is
`NULL` it writes the no-match diagnostic, without an echo and without calling
`rank`. -/
theorem processQuery_echo_only_on_match (hash : cstring → Nat) (index : index_t)
    (pageDir : Int → Option cstring) (turns : Nat) (query : cstring)
    (hq : isValidQuery query = true) (hv : (tokenize query).isValid = true)
    (hn : (tokenize query).numWords ≠ 0) :
    (tokenize query).words = ((alphaRuns query).map normalize).take MAX_WORDS ∧
    (∀ r, score hash index (tokenize query).words none = some r →
      processQuery_line hash index pageDir turns query
        = { tokens := some (tokenize query), scored := some (some r),
            echo := some (tokenize query).words, ranking := some (rank pageDir turns r),
            diagnostic := none }) ∧
    (score hash index (tokenize query).words none = none →
      processQuery_line hash index pageDir turns query
        = { tokens := some (tokenize query), scored := some none, echo := none,
            ranking := none, diagnostic := some Diagnostic.noMatch }) := by
  have hgate : (!(tokenize query).isValid || decide ((tokenize query).numWords = 0)) = false := by
    rw [hv]
    simp only [Bool.not_true, Bool.false_or, decide_eq_false_iff_not]
    exact hn
  refine ⟨tokenize_words_eq query, ?_, ?_⟩
  · intro r hr
    unfold processQuery_line
    simp only [hq, Bool.not_true, Bool.false_eq_true, if_false, hgate, hr]
  · intro hr
    unfold processQuery_line
    simp only [hq, Bool.not_true, Bool.false_eq_true, if_false, hgate, hr]

set_option maxRecDepth 20000 in
theorem processQuery_echo_only_on_match_witness :
    isValidQuery line_cat_dog = true ∧ (tokenize line_cat_dog).isValid = true ∧
    (tokenize line_cat_dog).numWords ≠ 0 ∧
    score exampleHash exampleIndex (tokenize line_cat_dog).words none = some [(2, 1)] ∧
    (tokenize line_cat_dog).words = ((alphaRuns line_cat_dog).map normalize).take MAX_WORDS ∧
    (∀ r, score exampleHash exampleIndex (tokenize line_cat_dog).words none = some r →
      processQuery_line exampleHash exampleIndex (fun _ => some ['u']) 1 line_cat_dog
        = { tokens := some (tokenize line_cat_dog), scored := some (some r),
            echo := some (tokenize line_cat_dog).words,
            ranking := some (rank (fun _ => some ['u']) 1 r), diagnostic := none }) ∧
    (score exampleHash exampleIndex (tokenize line_cat_dog).words none = none →
      processQuery_line exampleHash exampleIndex (fun _ => some ['u']) 1 line_cat_dog
        = { tokens := some (tokenize line_cat_dog), scored := some none, echo := none,
            ranking := none, diagnostic := some Diagnostic.noMatch }) :=
  ⟨by decide, by decide, by decide, by decide,
    processQuery_echo_only_on_match exampleHash exampleIndex (fun _ => some ['u']) 1
      line_cat_dog (by decide) (by decide) (by decide)⟩

/-- C38: one turn of the loop of `tokenize` never takes `numWords` above
`MAX_WORDS = 20` (a word is stored only while `numWords < MAX_WORDS`), so for
every line `numWords ≤ 20`; the tokens are the first 20 words of the line,
folded to lower case, exactly 20 of them when the line has more than 20 words;
and the line made of these tokens has the same tokens, the same validity and
the same score as the line itself. -/
theorem tokenize_at_most_twenty_words :
    (∀ (st : TokenState) (ch : Char), st.numWords ≤ MAX_WORDS →
      (tokenize_step st ch).1.numWords ≤ MAX_WORDS) ∧
    (∀ query : cstring, (tokenize query).numWords ≤ MAX_WORDS ∧
      (tokenize query).words = ((alphaRuns query).map normalize).take MAX_WORDS ∧
      (tokenize (joinWords (tokenize query).words)).words = (tokenize query).words ∧
      (tokenize (joinWords (tokenize query).words)).isValid = (tokenize query).isValid ∧
      ∀ (hash : cstring → Nat) (index : index_t),
        score hash index (tokenize (joinWords (tokenize query).words)).words none
          = score hash index (tokenize query).words none) ∧
    (∀ query : cstring, MAX_WORDS < (alphaRuns query).length →
      (tokenize query).numWords = MAX_WORDS) := by
  refine ⟨tokenize_step_numWords_le, ?_, ?_⟩
  · intro query
    have hw := tokenize_joinWords_words query
    refine ⟨tokenize_numWords_le query, tokenize_words_eq query, hw,
      tokenize_isValid_of_words_eq _ _ hw, ?_⟩
    intro hash index
    rw [hw]
  · intro query hlen
    unfold TokenState.numWords
    rw [tokenize_words_eq, List.length_take, List.length_map]
    omega

set_option maxRecDepth 20000 in
theorem tokenize_at_most_twenty_words_witness :
    (MAX_WORDS < (alphaRuns line_twentyone).length ∧
      (tokenize line_twentyone).numWords = MAX_WORDS) ∧
    ((tokenize line_twentyone).numWords ≤ MAX_WORDS ∧
      (tokenize_step (tokenize line_twentyone) 'u').1.numWords ≤ MAX_WORDS) :=
  ⟨⟨by decide, tokenize_at_most_twenty_words.2.2 line_twentyone (by decide)⟩,
    ⟨by decide, tokenize_at_most_twenty_words.1 (tokenize line_twentyone) 'u' (by decide)⟩⟩

end SearchEngine
